import Mathlib

/-!
PM quadtree (pmqt): a shallow embedding of `src/pmqt.c` and its properties.

The mutable node graph is an inductive tree: a function that mutates a node in place
returns the new node next to its return code.  The mutual recursion of
`pmqt_insert_edge` and `pmqt_split_node` is not bounded in the source, so both take a
fuel argument that bounds the call depth; `none` means that the fuel ran out.

The functions are embedded four times.  In the first embedding the C type
`pmqt_float_t` is modelled by the rationals (exact arithmetic) and `malloc` always
succeeds.  The second (`pmqt_insert_mem`) keeps exact arithmetic and makes the calls
of `malloc` explicit, so that each of them can fail.  The third (`pmqt_insert_fl`,
`pmqt_search_fl`) rounds every arithmetic operation as IEEE 754 binary64 does.  The
fourth (`pmqt_node_new_with_bounds_d`, `pmqt_split_children_d`) computes the bounds
of a node over all values of the type `double`, infinities and NaN included.  A
property that is stated for exact arithmetic is a property of the first embedding;
where the source behaves otherwise in double precision or when an allocation fails,
the run is given in one of the other embeddings.
-/

namespace Pmqt

/-! ## Data model (`pmqt.h`) -/

/-- The coordinate type `pmqt_float_t`, in exact arithmetic. -/
abbrev pmqt_float_t := ℚ

/-- The constant `PMQT_EPS` (`1e-9`). -/
def PMQT_EPS : pmqt_float_t := 1 / 1000000000

/-- The struct `pmqt_point_t`. -/
structure pmqt_point where
  x : pmqt_float_t
  y : pmqt_float_t
deriving DecidableEq

/-- The struct `pmqt_edge_t`. -/
structure pmqt_edge where
  a : pmqt_point
  b : pmqt_point
deriving DecidableEq

/-- The struct `pmqt_bounds_t`: a bounding box with its cached width and height. -/
structure pmqt_bounds where
  nw : pmqt_point
  se : pmqt_point
  width : pmqt_float_t
  height : pmqt_float_t
deriving DecidableEq

/-- The return codes `pmqt_err_t` of insertion. -/
inductive pmqt_err where
  | PMQT_OK
  | PMQT_ERR_NOMEM
  | PMQT_ERR_INTRSCT
  | PMQT_ERR_OOB
  | PMQT_ERR_OTHER
deriving DecidableEq

/-- The struct `pmqt_node_t`: the tag `type` selects the constructor, a grey node
owns its four children, a black (point) node its anchor and edge list, a black
(edge) node its single edge.  Every node carries its `bounds`. -/
inductive pmqt_node where
  | PMQT_WHITE (bounds : pmqt_bounds)
  | PMQT_GREY (bounds : pmqt_bounds) (nw ne sw se : pmqt_node)
  | PMQT_BLACK_POINT (bounds : pmqt_bounds) (point : pmqt_point) (edges : List pmqt_edge)
  | PMQT_BLACK_EDGE (bounds : pmqt_bounds) (edge : pmqt_edge)
deriving DecidableEq

/-- The struct `pmqt_t`. -/
structure pmqt where
  root : pmqt_node
deriving DecidableEq

/-- The field `node->bounds`. -/
def pmqt_node.bounds : pmqt_node → pmqt_bounds
  | .PMQT_WHITE b => b
  | .PMQT_GREY b _ _ _ _ => b
  | .PMQT_BLACK_POINT b _ _ => b
  | .PMQT_BLACK_EDGE b _ => b

/-! ## Geometry helpers -/

/-- The function `pmqt_point_equals`. -/
def pmqt_point_equals (a b : pmqt_point) : Bool :=
  decide (a.x = b.x) && decide (a.y = b.y)

/-- The function `pmqt_bounds_extend`.  The argument `none` stands for the bounds
of a node fresh from `pmqt_node_new`, whose corners are infinite: there `fmin` and
`fmax` return the finite argument. -/
def pmqt_bounds_extend (bounds : Option pmqt_bounds) (x y : pmqt_float_t) : pmqt_bounds :=
  match bounds with
  | none =>
    { nw := ⟨x, y⟩, se := ⟨x, y⟩, width := |x - x|, height := |y - y| }
  | some b =>
    let nwx := min x b.nw.x
    let nwy := max y b.nw.y
    let sex := max x b.se.x
    let sey := min y b.se.y
    { nw := ⟨nwx, nwy⟩, se := ⟨sex, sey⟩, width := |nwx - sex|, height := |nwy - sey| }

/-- The function `pmqt_node_new_with_bounds`: a white node whose bounds are
extended first by the maximum and then by the minimum corner. -/
def pmqt_node_new_with_bounds (min_x min_y max_x max_y : pmqt_float_t) : pmqt_node :=
  let b1 := pmqt_bounds_extend none max_x max_y
  let b2 := pmqt_bounds_extend (some b1) min_x min_y
  .PMQT_WHITE b2

/-- The function `pmqt_node_add_edge`: the edge goes to the end of the list. -/
def pmqt_node_add_edge (edges : List pmqt_edge) (edge : pmqt_edge) : List pmqt_edge :=
  edges ++ [edge]

/-- The function `pmqt_edge_intersect_bounds`.  The slope `a` and the intercept `b` of
the line are only used under the guard on `dx`, as in the source. -/
def pmqt_edge_intersect_bounds (edge : pmqt_edge) (bounds : pmqt_bounds) : Bool :=
  let minX := if edge.a.x > edge.b.x then edge.b.x else edge.a.x
  let maxX := if edge.a.x > edge.b.x then edge.a.x else edge.b.x
  let maxX := if maxX > bounds.se.x then bounds.se.x else maxX
  let minX := if minX < bounds.nw.x then bounds.nw.x else minX
  if minX > maxX then false
  else
    let dx := edge.b.x - edge.a.x
    let a := (edge.b.y - edge.a.y) / dx
    let b := edge.a.y - a * edge.a.x
    let minY := if |dx| > PMQT_EPS then a * minX + b else edge.a.y
    let maxY := if |dx| > PMQT_EPS then a * maxX + b else edge.b.y
    let minY2 := if minY > maxY then maxY else minY
    let maxY2 := if minY > maxY then minY else maxY
    let maxY3 := if maxY2 > bounds.nw.y then bounds.nw.y else maxY2
    let minY3 := if minY2 < bounds.se.y then bounds.se.y else minY2
    if minY3 > maxY3 then false else true

/-- The function `pmqt_point_in_bounds`. -/
def pmqt_point_in_bounds (point : pmqt_point) (bounds : pmqt_bounds) : Bool :=
  decide (bounds.nw.x ≤ point.x) && decide (bounds.nw.y ≥ point.y) &&
  decide (bounds.se.x ≥ point.x) && decide (bounds.se.y ≤ point.y)

/-! ## Insertion -/

/-- The loop of `pmqt_split_node` that pushes the edges of a former black (point)
node down, stopping at the first call that does not return `PMQT_OK`; `ins` is
`pmqt_insert_edge` and `ret` the value of the local `ret` so far. -/
def pmqt_split_loop (ins : pmqt_node → pmqt_edge → Option (pmqt_err × pmqt_node))
    (ret : pmqt_err) (node : pmqt_node) : List pmqt_edge → Option (pmqt_err × pmqt_node)
  | [] => some (ret, node)
  | e :: next =>
    match ins node e with
    | none => none
    | some (r, node1) =>
      if r ≠ .PMQT_OK then some (r, node1) else pmqt_split_loop ins r node1 next

/-- The four children that `pmqt_split_node` allocates for a node with the given
bounds, in the order nw, ne, sw, se. -/
def pmqt_split_children (bounds : pmqt_bounds) :
    pmqt_node × pmqt_node × pmqt_node × pmqt_node :=
  let x := bounds.nw.x
  let y := bounds.nw.y
  let hw := bounds.width / 2
  let hh := bounds.height / 2
  (pmqt_node_new_with_bounds x (y - hh) (x + hw) y,
   pmqt_node_new_with_bounds (x + hw) (y - hh) (x + hw * 2) y,
   pmqt_node_new_with_bounds x (y - hh * 2) (x + hw) (y - hh),
   pmqt_node_new_with_bounds (x + hw) (y - hh * 2) (x + hw * 2) (y - hh))

mutual

/-- The function `pmqt_split_node`; the result holds the return code and the node
as the call leaves it. -/
def pmqt_split_node : Nat → pmqt_node → Option (pmqt_err × pmqt_node)
  | 0, _ => none
  | fuel + 1, node =>
    match node with
    | .PMQT_GREY _ _ _ _ _ => some (.PMQT_ERR_OTHER, node)
    | .PMQT_BLACK_EDGE bounds edge =>
      match pmqt_split_children bounds with
      | (nw, ne, sw, se) => pmqt_insert_edge fuel (.PMQT_GREY bounds nw ne sw se) edge
    | .PMQT_BLACK_POINT bounds _ edges =>
      match pmqt_split_children bounds with
      | (nw, ne, sw, se) =>
        pmqt_split_loop (pmqt_insert_edge fuel) .PMQT_OK (.PMQT_GREY bounds nw ne sw se) edges
    | .PMQT_WHITE bounds =>
      match pmqt_split_children bounds with
      | (nw, ne, sw, se) => some (.PMQT_OK, .PMQT_GREY bounds nw ne sw se)

/-- The function `pmqt_insert_edge`; the result holds the return code and the node
as the call leaves it.  The return value of `pmqt_split_node` is dropped, as in
the source. -/
def pmqt_insert_edge : Nat → pmqt_node → pmqt_edge → Option (pmqt_err × pmqt_node)
  | 0, _, _ => none
  | fuel + 1, node, edge =>
    match node with
    | .PMQT_WHITE bounds =>
      let has_a := pmqt_point_in_bounds edge.a bounds
      let has_b := pmqt_point_in_bounds edge.b bounds
      if has_a && has_b then
        match pmqt_split_node fuel node with
        | none => none
        | some (_, node1) => pmqt_insert_edge fuel node1 edge
      else if has_a then
        some (.PMQT_OK, .PMQT_BLACK_POINT bounds edge.a (pmqt_node_add_edge [] edge))
      else if has_b then
        some (.PMQT_OK, .PMQT_BLACK_POINT bounds edge.b (pmqt_node_add_edge [] edge))
      else if pmqt_edge_intersect_bounds edge bounds then
        some (.PMQT_OK, .PMQT_BLACK_EDGE bounds edge)
      else some (.PMQT_OK, node)
    | .PMQT_GREY bounds nw ne sw se =>
      match pmqt_insert_edge fuel nw edge with
      | none => none
      | some (r1, nw1) =>
        if r1 ≠ .PMQT_OK then some (r1, .PMQT_GREY bounds nw1 ne sw se) else
        match pmqt_insert_edge fuel ne edge with
        | none => none
        | some (r2, ne1) =>
          if r2 ≠ .PMQT_OK then some (r2, .PMQT_GREY bounds nw1 ne1 sw se) else
          match pmqt_insert_edge fuel sw edge with
          | none => none
          | some (r3, sw1) =>
            if r3 ≠ .PMQT_OK then some (r3, .PMQT_GREY bounds nw1 ne1 sw1 se) else
            match pmqt_insert_edge fuel se edge with
            | none => none
            | some (r4, se1) =>
              if r4 ≠ .PMQT_OK then some (r4, .PMQT_GREY bounds nw1 ne1 sw1 se1)
              else some (.PMQT_OK, .PMQT_GREY bounds nw1 ne1 sw1 se1)
    | .PMQT_BLACK_POINT bounds point edges =>
      if pmqt_point_equals point edge.a || pmqt_point_equals point edge.b then
        some (.PMQT_OK, .PMQT_BLACK_POINT bounds point (pmqt_node_add_edge edges edge))
      else
        let has_a := pmqt_point_in_bounds edge.a bounds
        let has_b := pmqt_point_in_bounds edge.b bounds
        if has_a || has_b || pmqt_edge_intersect_bounds edge bounds then
          if bounds.width = 0 ∨ bounds.height = 0 then some (.PMQT_ERR_INTRSCT, node)
          else
            match pmqt_split_node fuel node with
            | none => none
            | some (_, node1) => pmqt_insert_edge fuel node1 edge
        else some (.PMQT_OK, node)
    | .PMQT_BLACK_EDGE bounds _ =>
      let has_a := pmqt_point_in_bounds edge.a bounds
      let has_b := pmqt_point_in_bounds edge.b bounds
      if has_a || has_b || pmqt_edge_intersect_bounds edge bounds then
        if bounds.width = 0 ∨ bounds.height = 0 then some (.PMQT_ERR_INTRSCT, node)
        else
          match pmqt_split_node fuel node with
          | none => none
          | some (_, node1) => pmqt_insert_edge fuel node1 edge
      else some (.PMQT_OK, node)

end

/-- The function `pmqt_new`. -/
def pmqt_new (min_x min_y max_x max_y : pmqt_float_t) : pmqt :=
  { root := pmqt_node_new_with_bounds min_x min_y max_x max_y }

/-- The function `pmqt_insert`; the result holds the return code and the tree as
the call leaves it. -/
def pmqt_insert (fuel : Nat) (tree : pmqt) (edge : pmqt_edge) : Option (pmqt_err × pmqt) :=
  if !pmqt_point_in_bounds edge.a tree.root.bounds ||
     !pmqt_point_in_bounds edge.b tree.root.bounds then
    some (.PMQT_ERR_OOB, tree)
  else
    match pmqt_insert_edge fuel tree.root edge with
    | none => none
    | some (r, root1) => some (r, { root := root1 })

/-! ## Traversal -/

/-- The constant `PMQT_CONTINUE`. -/
def PMQT_CONTINUE : Int := 0

/-- The function `pmqt_walk`.  The callbacks `descent` and `ascent` read the node
and the state behind `arg`, and return their signal and the new state; the
result is the signal of the walk and the final state. -/
def pmqt_walk {σ : Type} (root : pmqt_node) (descent ascent : pmqt_node → σ → Int × σ)
    (arg : σ) : Int × σ :=
  match descent root arg with
  | (ret, arg) =>
    if ret ≠ 0 then (ret, arg) else
    let afterChildren : Int × σ :=
      match root with
      | .PMQT_GREY _ nw ne sw se =>
        match pmqt_walk nw descent ascent arg with
        | (ret, arg) =>
          if ret ≠ 0 then (ret, arg) else
          match pmqt_walk ne descent ascent arg with
          | (ret, arg) =>
            if ret ≠ 0 then (ret, arg) else
            match pmqt_walk sw descent ascent arg with
            | (ret, arg) =>
              if ret ≠ 0 then (ret, arg) else
              pmqt_walk se descent ascent arg
      | _ => (PMQT_CONTINUE, arg)
    match afterChildren with
    | (ret, arg) =>
      if ret ≠ 0 then (ret, arg) else
      match ascent root arg with
      | (ret, arg) => if ret ≠ 0 then (ret, arg) else (PMQT_CONTINUE, arg)

/-- The function `pmqt_search`.  The callback `process` may be absent (a null
pointer); it reads the node, the query edge and the state behind `arg`. -/
def pmqt_search {σ : Type} (node : pmqt_node) (edge : pmqt_edge)
    (process : Option (pmqt_node → pmqt_edge → σ → Int × σ)) (arg : σ) : Int × σ :=
  match node with
  | .PMQT_WHITE _ => (PMQT_CONTINUE, arg)
  | .PMQT_GREY _ nw ne sw se =>
    let r1 : Int × σ :=
      if pmqt_edge_intersect_bounds edge nw.bounds then pmqt_search nw edge process arg
      else (PMQT_CONTINUE, arg)
    if r1.1 ≠ 0 then r1 else
    let r2 : Int × σ :=
      if pmqt_edge_intersect_bounds edge ne.bounds then pmqt_search ne edge process r1.2
      else (PMQT_CONTINUE, r1.2)
    if r2.1 ≠ 0 then r2 else
    let r3 : Int × σ :=
      if pmqt_edge_intersect_bounds edge sw.bounds then pmqt_search sw edge process r2.2
      else (PMQT_CONTINUE, r2.2)
    if r3.1 ≠ 0 then r3 else
    let r4 : Int × σ :=
      if pmqt_edge_intersect_bounds edge se.bounds then pmqt_search se edge process r3.2
      else (PMQT_CONTINUE, r3.2)
    if r4.1 ≠ 0 then r4 else (PMQT_CONTINUE, r4.2)
  | .PMQT_BLACK_EDGE _ _ | .PMQT_BLACK_POINT _ _ _ =>
    match process with
    | some f => f node edge arg
    | none => (PMQT_CONTINUE, arg)

/-! ## Insertion with failing allocations

The functions of the insertion once more, with the calls of `malloc` made explicit.
The list `heap` answers the calls in the order in which they are made, `false` for a
call that returns `NULL`; once the list is used up every call succeeds. -/

/-- One call of `malloc`: whether it succeeds, and the answers that remain. -/
def pmqt_malloc (heap : List Bool) : Bool × List Bool :=
  match heap with
  | [] => (true, [])
  | ok :: rest => (ok, rest)

/-- The function `pmqt_node_add_edge` with its call of `malloc`: `PMQT_ERR_NOMEM` and
the list as it was when the call fails. -/
def pmqt_node_add_edge_mem (heap : List Bool) (edges : List pmqt_edge) (edge : pmqt_edge) :
    pmqt_err × List pmqt_edge × List Bool :=
  match pmqt_malloc heap with
  | (false, heap1) => (.PMQT_ERR_NOMEM, edges, heap1)
  | (true, heap1) => (.PMQT_OK, pmqt_node_add_edge edges edge, heap1)

/-- The four calls of `pmqt_node_new_with_bounds` in `pmqt_split_node`, in the order
nw, ne, sw, se; the first call that fails jumps to the label `nomem`, so that no
further call is made and there are no children. -/
def pmqt_split_children_mem (heap : List Bool) (bounds : pmqt_bounds) :
    Option (pmqt_node × pmqt_node × pmqt_node × pmqt_node) × List Bool :=
  match pmqt_malloc heap with
  | (false, heap1) => (none, heap1)
  | (true, heap1) =>
    match pmqt_malloc heap1 with
    | (false, heap2) => (none, heap2)
    | (true, heap2) =>
      match pmqt_malloc heap2 with
      | (false, heap3) => (none, heap3)
      | (true, heap3) =>
        match pmqt_malloc heap3 with
        | (false, heap4) => (none, heap4)
        | (true, heap4) => (some (pmqt_split_children bounds), heap4)

/-- The loop of `pmqt_split_node` over the edges of a former black (point) node, with
the answers of `malloc` passed from call to call. -/
def pmqt_split_loop_mem
    (ins : List Bool → pmqt_node → pmqt_edge → Option (pmqt_err × pmqt_node × List Bool))
    (ret : pmqt_err) (heap : List Bool) (node : pmqt_node) :
    List pmqt_edge → Option (pmqt_err × pmqt_node × List Bool)
  | [] => some (ret, node, heap)
  | e :: next =>
    match ins heap node e with
    | none => none
    | some (r, node1, heap1) =>
      if r ≠ .PMQT_OK then some (r, node1, heap1)
      else pmqt_split_loop_mem ins r heap1 node1 next

mutual

/-- The function `pmqt_split_node` with failing allocations: when a child cannot be
allocated the call returns `PMQT_ERR_NOMEM` and the node is as it was. -/
def pmqt_split_node_mem :
    Nat → List Bool → pmqt_node → Option (pmqt_err × pmqt_node × List Bool)
  | 0, _, _ => none
  | fuel + 1, heap, node =>
    match node with
    | .PMQT_GREY _ _ _ _ _ => some (.PMQT_ERR_OTHER, node, heap)
    | .PMQT_BLACK_EDGE bounds edge =>
      match pmqt_split_children_mem heap bounds with
      | (none, heap1) => some (.PMQT_ERR_NOMEM, node, heap1)
      | (some (nw, ne, sw, se), heap1) =>
        pmqt_insert_edge_mem fuel heap1 (.PMQT_GREY bounds nw ne sw se) edge
    | .PMQT_BLACK_POINT bounds _ edges =>
      match pmqt_split_children_mem heap bounds with
      | (none, heap1) => some (.PMQT_ERR_NOMEM, node, heap1)
      | (some (nw, ne, sw, se), heap1) =>
        pmqt_split_loop_mem (pmqt_insert_edge_mem fuel) .PMQT_OK heap1
          (.PMQT_GREY bounds nw ne sw se) edges
    | .PMQT_WHITE bounds =>
      match pmqt_split_children_mem heap bounds with
      | (none, heap1) => some (.PMQT_ERR_NOMEM, node, heap1)
      | (some (nw, ne, sw, se), heap1) =>
        some (.PMQT_OK, .PMQT_GREY bounds nw ne sw se, heap1)

/-- The function `pmqt_insert_edge` with failing allocations.  The return values of
`pmqt_split_node` and, on a black (point) node, of `pmqt_node_add_edge` are dropped,
as in the source. -/
def pmqt_insert_edge_mem :
    Nat → List Bool → pmqt_node → pmqt_edge → Option (pmqt_err × pmqt_node × List Bool)
  | 0, _, _, _ => none
  | fuel + 1, heap, node, edge =>
    match node with
    | .PMQT_WHITE bounds =>
      let has_a := pmqt_point_in_bounds edge.a bounds
      let has_b := pmqt_point_in_bounds edge.b bounds
      if has_a && has_b then
        match pmqt_split_node_mem fuel heap node with
        | none => none
        | some (_, node1, heap1) => pmqt_insert_edge_mem fuel heap1 node1 edge
      else if has_a then
        match pmqt_node_add_edge_mem heap [] edge with
        | (r, edges, heap1) => some (r, .PMQT_BLACK_POINT bounds edge.a edges, heap1)
      else if has_b then
        match pmqt_node_add_edge_mem heap [] edge with
        | (r, edges, heap1) => some (r, .PMQT_BLACK_POINT bounds edge.b edges, heap1)
      else if pmqt_edge_intersect_bounds edge bounds then
        some (.PMQT_OK, .PMQT_BLACK_EDGE bounds edge, heap)
      else some (.PMQT_OK, node, heap)
    | .PMQT_GREY bounds nw ne sw se =>
      match pmqt_insert_edge_mem fuel heap nw edge with
      | none => none
      | some (r1, nw1, heap1) =>
        if r1 ≠ .PMQT_OK then some (r1, .PMQT_GREY bounds nw1 ne sw se, heap1) else
        match pmqt_insert_edge_mem fuel heap1 ne edge with
        | none => none
        | some (r2, ne1, heap2) =>
          if r2 ≠ .PMQT_OK then some (r2, .PMQT_GREY bounds nw1 ne1 sw se, heap2) else
          match pmqt_insert_edge_mem fuel heap2 sw edge with
          | none => none
          | some (r3, sw1, heap3) =>
            if r3 ≠ .PMQT_OK then some (r3, .PMQT_GREY bounds nw1 ne1 sw1 se, heap3) else
            match pmqt_insert_edge_mem fuel heap3 se edge with
            | none => none
            | some (r4, se1, heap4) =>
              if r4 ≠ .PMQT_OK then some (r4, .PMQT_GREY bounds nw1 ne1 sw1 se1, heap4)
              else some (.PMQT_OK, .PMQT_GREY bounds nw1 ne1 sw1 se1, heap4)
    | .PMQT_BLACK_POINT bounds point edges =>
      if pmqt_point_equals point edge.a || pmqt_point_equals point edge.b then
        match pmqt_node_add_edge_mem heap edges edge with
        | (_, edges1, heap1) => some (.PMQT_OK, .PMQT_BLACK_POINT bounds point edges1, heap1)
      else
        let has_a := pmqt_point_in_bounds edge.a bounds
        let has_b := pmqt_point_in_bounds edge.b bounds
        if has_a || has_b || pmqt_edge_intersect_bounds edge bounds then
          if bounds.width = 0 ∨ bounds.height = 0 then some (.PMQT_ERR_INTRSCT, node, heap)
          else
            match pmqt_split_node_mem fuel heap node with
            | none => none
            | some (_, node1, heap1) => pmqt_insert_edge_mem fuel heap1 node1 edge
        else some (.PMQT_OK, node, heap)
    | .PMQT_BLACK_EDGE bounds _ =>
      let has_a := pmqt_point_in_bounds edge.a bounds
      let has_b := pmqt_point_in_bounds edge.b bounds
      if has_a || has_b || pmqt_edge_intersect_bounds edge bounds then
        if bounds.width = 0 ∨ bounds.height = 0 then some (.PMQT_ERR_INTRSCT, node, heap)
        else
          match pmqt_split_node_mem fuel heap node with
          | none => none
          | some (_, node1, heap1) => pmqt_insert_edge_mem fuel heap1 node1 edge
      else some (.PMQT_OK, node, heap)

end

/-- The function `pmqt_insert` with failing allocations. -/
def pmqt_insert_mem (fuel : Nat) (heap : List Bool) (tree : pmqt) (edge : pmqt_edge) :
    Option (pmqt_err × pmqt × List Bool) :=
  if !pmqt_point_in_bounds edge.a tree.root.bounds ||
     !pmqt_point_in_bounds edge.b tree.root.bounds then
    some (.PMQT_ERR_OOB, tree, heap)
  else
    match pmqt_insert_edge_mem fuel heap tree.root edge with
    | none => none
    | some (r, root1, heap1) => some (r, { root := root1 }, heap1)


/-! ## Insertion and search in double precision

The functions once more, with every arithmetic operation rounded as IEEE 754 binary64
does it (round to nearest, ties to even, subnormal numbers included).  The coordinates
stay rationals: a value of the type `double` that is finite is a rational number, and
`fl` maps the exact result of an operation to the `double` that the operation returns.
Overflow is left out (an operation returns a finite value, whatever its size), so the
functions of this section are those of the source as long as no intermediate value
reaches `2 ^ 1024`.  Comparisons, `fmin`, `fmax` and `fabs` are exact in IEEE
arithmetic and need no rounding. -/

/-- The integer nearest to `n / d`, the even one of two that are equally near. -/
def round_nearest_even (n d : Nat) : Nat :=
  let q := n / d
  let r := n % d
  if 2 * r < d then q else if d < 2 * r then q + 1 else if q % 2 = 0 then q else q + 1

/-- The number of binary digits of `n`, counted with `fuel` steps at most. -/
def bit_length_aux : Nat → Nat → Nat
  | 0, _ => 0
  | fuel + 1, n => if n = 0 then 0 else bit_length_aux fuel (n / 2) + 1

/-- The number of binary digits of `n`. -/
def bit_length (n : Nat) : Nat := bit_length_aux n n

/-- The exponent of the binade of `n / d`, for positive `n` and `d`: the greatest `e`
with `2 ^ e ≤ n / d`. -/
def floor_log2 (n d : Nat) : Int :=
  let g : Int := (bit_length n : Int) - (bit_length d : Int)
  if 0 ≤ g then (if d * 2 ^ g.toNat ≤ n then g else g - 1)
  else (if d ≤ n * 2 ^ (-g).toNat then g else g - 1)

/-- The binary64 number nearest to `n / d`, for positive `n` and `d`: 53 significant
bits, and no bit below `2 ^ (-1074)`. -/
def fl_pos (n d : Nat) : ℚ :=
  let p : Int := max (floor_log2 n d - 52) (-1074)
  if 0 ≤ p then ((round_nearest_even n (d * 2 ^ p.toNat) * 2 ^ p.toNat : Nat) : ℚ)
  else mkRat (round_nearest_even (n * 2 ^ (-p).toNat) d : Nat) (2 ^ (-p).toNat)

/-- Rounding to binary64: the `double` that an operation with the exact result `q`
returns. -/
def fl (q : ℚ) : ℚ :=
  if q = 0 then 0
  else if 0 < q then fl_pos q.num.natAbs q.den
  else - fl_pos q.num.natAbs q.den

/-- The constant `PMQT_EPS` as the compiler reads it: the `double` nearest to `1e-9`. -/
def PMQT_EPS_fl : pmqt_float_t := fl PMQT_EPS

/-- The function `pmqt_bounds_extend` in double precision: the two subtractions
behind `width` and `height` are rounded. -/
def pmqt_bounds_extend_fl (bounds : Option pmqt_bounds) (x y : pmqt_float_t) : pmqt_bounds :=
  match bounds with
  | none =>
    { nw := ⟨x, y⟩, se := ⟨x, y⟩, width := |fl (x - x)|, height := |fl (y - y)| }
  | some b =>
    let nwx := min x b.nw.x
    let nwy := max y b.nw.y
    let sex := max x b.se.x
    let sey := min y b.se.y
    { nw := ⟨nwx, nwy⟩, se := ⟨sex, sey⟩, width := |fl (nwx - sex)|,
      height := |fl (nwy - sey)| }

/-- The function `pmqt_node_new_with_bounds` in double precision. -/
def pmqt_node_new_with_bounds_fl (min_x min_y max_x max_y : pmqt_float_t) : pmqt_node :=
  let b1 := pmqt_bounds_extend_fl none max_x max_y
  let b2 := pmqt_bounds_extend_fl (some b1) min_x min_y
  .PMQT_WHITE b2

/-- The four children that `pmqt_split_node` allocates, in double precision: the
halves `hw` and `hh`, the products `hw * 2` and `hh * 2` and every sum and difference
are rounded. -/
def pmqt_split_children_fl (bounds : pmqt_bounds) :
    pmqt_node × pmqt_node × pmqt_node × pmqt_node :=
  let x := bounds.nw.x
  let y := bounds.nw.y
  let hw := fl (bounds.width / 2)
  let hh := fl (bounds.height / 2)
  (pmqt_node_new_with_bounds_fl x (fl (y - hh)) (fl (x + hw)) y,
   pmqt_node_new_with_bounds_fl (fl (x + hw)) (fl (y - hh)) (fl (x + fl (hw * 2))) y,
   pmqt_node_new_with_bounds_fl x (fl (y - fl (hh * 2))) (fl (x + hw)) (fl (y - hh)),
   pmqt_node_new_with_bounds_fl (fl (x + hw)) (fl (y - fl (hh * 2))) (fl (x + fl (hw * 2)))
     (fl (y - hh)))

/-- The function `pmqt_edge_intersect_bounds` in double precision: `dx`, the slope
`a`, the intercept `b` and the two values of the line are rounded operation by
operation. -/
def pmqt_edge_intersect_bounds_fl (edge : pmqt_edge) (bounds : pmqt_bounds) : Bool :=
  let minX := if edge.a.x > edge.b.x then edge.b.x else edge.a.x
  let maxX := if edge.a.x > edge.b.x then edge.a.x else edge.b.x
  let maxX := if maxX > bounds.se.x then bounds.se.x else maxX
  let minX := if minX < bounds.nw.x then bounds.nw.x else minX
  if minX > maxX then false
  else
    let dx := fl (edge.b.x - edge.a.x)
    let a := fl (fl (edge.b.y - edge.a.y) / dx)
    let b := fl (edge.a.y - fl (a * edge.a.x))
    let minY := if |dx| > PMQT_EPS_fl then fl (fl (a * minX) + b) else edge.a.y
    let maxY := if |dx| > PMQT_EPS_fl then fl (fl (a * maxX) + b) else edge.b.y
    let minY2 := if minY > maxY then maxY else minY
    let maxY2 := if minY > maxY then minY else maxY
    let maxY3 := if maxY2 > bounds.nw.y then bounds.nw.y else maxY2
    let minY3 := if minY2 < bounds.se.y then bounds.se.y else minY2
    if minY3 > maxY3 then false else true

mutual

/-- The function `pmqt_split_node` in double precision. -/
def pmqt_split_node_fl : Nat → pmqt_node → Option (pmqt_err × pmqt_node)
  | 0, _ => none
  | fuel + 1, node =>
    match node with
    | .PMQT_GREY _ _ _ _ _ => some (.PMQT_ERR_OTHER, node)
    | .PMQT_BLACK_EDGE bounds edge =>
      match pmqt_split_children_fl bounds with
      | (nw, ne, sw, se) => pmqt_insert_edge_fl fuel (.PMQT_GREY bounds nw ne sw se) edge
    | .PMQT_BLACK_POINT bounds _ edges =>
      match pmqt_split_children_fl bounds with
      | (nw, ne, sw, se) =>
        pmqt_split_loop (pmqt_insert_edge_fl fuel) .PMQT_OK (.PMQT_GREY bounds nw ne sw se)
          edges
    | .PMQT_WHITE bounds =>
      match pmqt_split_children_fl bounds with
      | (nw, ne, sw, se) => some (.PMQT_OK, .PMQT_GREY bounds nw ne sw se)

/-- The function `pmqt_insert_edge` in double precision.  The return value of
`pmqt_split_node` is dropped, as in the source. -/
def pmqt_insert_edge_fl : Nat → pmqt_node → pmqt_edge → Option (pmqt_err × pmqt_node)
  | 0, _, _ => none
  | fuel + 1, node, edge =>
    match node with
    | .PMQT_WHITE bounds =>
      let has_a := pmqt_point_in_bounds edge.a bounds
      let has_b := pmqt_point_in_bounds edge.b bounds
      if has_a && has_b then
        match pmqt_split_node_fl fuel node with
        | none => none
        | some (_, node1) => pmqt_insert_edge_fl fuel node1 edge
      else if has_a then
        some (.PMQT_OK, .PMQT_BLACK_POINT bounds edge.a (pmqt_node_add_edge [] edge))
      else if has_b then
        some (.PMQT_OK, .PMQT_BLACK_POINT bounds edge.b (pmqt_node_add_edge [] edge))
      else if pmqt_edge_intersect_bounds_fl edge bounds then
        some (.PMQT_OK, .PMQT_BLACK_EDGE bounds edge)
      else some (.PMQT_OK, node)
    | .PMQT_GREY bounds nw ne sw se =>
      match pmqt_insert_edge_fl fuel nw edge with
      | none => none
      | some (r1, nw1) =>
        if r1 ≠ .PMQT_OK then some (r1, .PMQT_GREY bounds nw1 ne sw se) else
        match pmqt_insert_edge_fl fuel ne edge with
        | none => none
        | some (r2, ne1) =>
          if r2 ≠ .PMQT_OK then some (r2, .PMQT_GREY bounds nw1 ne1 sw se) else
          match pmqt_insert_edge_fl fuel sw edge with
          | none => none
          | some (r3, sw1) =>
            if r3 ≠ .PMQT_OK then some (r3, .PMQT_GREY bounds nw1 ne1 sw1 se) else
            match pmqt_insert_edge_fl fuel se edge with
            | none => none
            | some (r4, se1) =>
              if r4 ≠ .PMQT_OK then some (r4, .PMQT_GREY bounds nw1 ne1 sw1 se1)
              else some (.PMQT_OK, .PMQT_GREY bounds nw1 ne1 sw1 se1)
    | .PMQT_BLACK_POINT bounds point edges =>
      if pmqt_point_equals point edge.a || pmqt_point_equals point edge.b then
        some (.PMQT_OK, .PMQT_BLACK_POINT bounds point (pmqt_node_add_edge edges edge))
      else
        let has_a := pmqt_point_in_bounds edge.a bounds
        let has_b := pmqt_point_in_bounds edge.b bounds
        if has_a || has_b || pmqt_edge_intersect_bounds_fl edge bounds then
          if bounds.width = 0 ∨ bounds.height = 0 then some (.PMQT_ERR_INTRSCT, node)
          else
            match pmqt_split_node_fl fuel node with
            | none => none
            | some (_, node1) => pmqt_insert_edge_fl fuel node1 edge
        else some (.PMQT_OK, node)
    | .PMQT_BLACK_EDGE bounds _ =>
      let has_a := pmqt_point_in_bounds edge.a bounds
      let has_b := pmqt_point_in_bounds edge.b bounds
      if has_a || has_b || pmqt_edge_intersect_bounds_fl edge bounds then
        if bounds.width = 0 ∨ bounds.height = 0 then some (.PMQT_ERR_INTRSCT, node)
        else
          match pmqt_split_node_fl fuel node with
          | none => none
          | some (_, node1) => pmqt_insert_edge_fl fuel node1 edge
      else some (.PMQT_OK, node)

end

/-- The function `pmqt_new` in double precision. -/
def pmqt_new_fl (min_x min_y max_x max_y : pmqt_float_t) : pmqt :=
  { root := pmqt_node_new_with_bounds_fl min_x min_y max_x max_y }

/-- The function `pmqt_insert` in double precision. -/
def pmqt_insert_fl (fuel : Nat) (tree : pmqt) (edge : pmqt_edge) : Option (pmqt_err × pmqt) :=
  if !pmqt_point_in_bounds edge.a tree.root.bounds ||
     !pmqt_point_in_bounds edge.b tree.root.bounds then
    some (.PMQT_ERR_OOB, tree)
  else
    match pmqt_insert_edge_fl fuel tree.root edge with
    | none => none
    | some (r, root1) => some (r, { root := root1 })

/-- The function `pmqt_search` in double precision. -/
def pmqt_search_fl {σ : Type} (node : pmqt_node) (edge : pmqt_edge)
    (process : Option (pmqt_node → pmqt_edge → σ → Int × σ)) (arg : σ) : Int × σ :=
  match node with
  | .PMQT_WHITE _ => (PMQT_CONTINUE, arg)
  | .PMQT_GREY _ nw ne sw se =>
    let r1 : Int × σ :=
      if pmqt_edge_intersect_bounds_fl edge nw.bounds then pmqt_search_fl nw edge process arg
      else (PMQT_CONTINUE, arg)
    if r1.1 ≠ 0 then r1 else
    let r2 : Int × σ :=
      if pmqt_edge_intersect_bounds_fl edge ne.bounds then
        pmqt_search_fl ne edge process r1.2
      else (PMQT_CONTINUE, r1.2)
    if r2.1 ≠ 0 then r2 else
    let r3 : Int × σ :=
      if pmqt_edge_intersect_bounds_fl edge sw.bounds then
        pmqt_search_fl sw edge process r2.2
      else (PMQT_CONTINUE, r2.2)
    if r3.1 ≠ 0 then r3 else
    let r4 : Int × σ :=
      if pmqt_edge_intersect_bounds_fl edge se.bounds then
        pmqt_search_fl se edge process r3.2
      else (PMQT_CONTINUE, r3.2)
    if r4.1 ≠ 0 then r4 else (PMQT_CONTINUE, r4.2)
  | .PMQT_BLACK_EDGE _ _ | .PMQT_BLACK_POINT _ _ _ =>
    match process with
    | some f => f node edge arg
    | none => (PMQT_CONTINUE, arg)


/-! ## The bounds of a node over all values of the type `double`

The functions that compute the bounds of a node, once more, over every value that a
`double` can hold: finite values, the two infinities and NaN.  An operation on finite
values rounds as `fl` does and overflows to an infinity from `2 ^ 1024` on.  The two
zeros of IEEE arithmetic are one value here; their sign has no effect on these
functions. -/

/-- A value of the C type `double`. -/
inductive pmqt_double where
  | nan
  | inf (negative : Bool)
  | fin (q : ℚ)
deriving DecidableEq

/-- The `double` that an operation with the exact result `q` returns: the nearest
binary64 number, or an infinity when that number is out of range. -/
def dbl_round (q : ℚ) : pmqt_double :=
  if ((2 ^ 1024 : Nat) : ℚ) ≤ |fl q| then .inf (decide (q < 0)) else .fin (fl q)

/-- The unary minus of `double`. -/
def dbl_neg : pmqt_double → pmqt_double
  | .nan => .nan
  | .inf s => .inf (!s)
  | .fin q => .fin (-q)

/-- The addition of `double`. -/
def dbl_add : pmqt_double → pmqt_double → pmqt_double
  | .nan, _ => .nan
  | .inf _, .nan => .nan
  | .inf s, .inf t => if s = t then .inf s else .nan
  | .inf s, .fin _ => .inf s
  | .fin _, .nan => .nan
  | .fin _, .inf t => .inf t
  | .fin p, .fin q => dbl_round (p + q)

/-- The subtraction of `double`. -/
def dbl_sub (a b : pmqt_double) : pmqt_double := dbl_add a (dbl_neg b)

/-- The multiplication of `double`. -/
def dbl_mul : pmqt_double → pmqt_double → pmqt_double
  | .nan, _ => .nan
  | .inf _, .nan => .nan
  | .inf s, .inf t => .inf (xor s t)
  | .inf s, .fin q => if q = 0 then .nan else .inf (xor s (decide (q < 0)))
  | .fin _, .nan => .nan
  | .fin p, .inf t => if p = 0 then .nan else .inf (xor (decide (p < 0)) t)
  | .fin p, .fin q => dbl_round (p * q)

/-- The division of `double`. -/
def dbl_div : pmqt_double → pmqt_double → pmqt_double
  | .nan, _ => .nan
  | .inf _, .nan => .nan
  | .inf _, .inf _ => .nan
  | .inf s, .fin q => .inf (xor s (decide (q < 0)))
  | .fin _, .nan => .nan
  | .fin _, .inf _ => .fin 0
  | .fin p, .fin q =>
    if q = 0 then (if p = 0 then .nan else .inf (decide (p < 0))) else dbl_round (p / q)

/-- The function `fabs`. -/
def dbl_fabs : pmqt_double → pmqt_double
  | .nan => .nan
  | .inf _ => .inf false
  | .fin q => .fin |q|

/-- The comparison `<=` of `double`: false as soon as an operand is NaN. -/
def dbl_le : pmqt_double → pmqt_double → Bool
  | .nan, _ => false
  | .inf _, .nan => false
  | .inf s, .inf t => s || !t
  | .inf s, .fin _ => s
  | .fin _, .nan => false
  | .fin _, .inf t => !t
  | .fin p, .fin q => decide (p ≤ q)

/-- The function `fmin`: a NaN operand is passed over. -/
def dbl_fmin : pmqt_double → pmqt_double → pmqt_double
  | .nan, y => y
  | .inf s, .nan => .inf s
  | .inf s, .inf t => .inf (s || t)
  | .inf s, .fin q => if s then .inf true else .fin q
  | .fin p, .nan => .fin p
  | .fin p, .inf t => if t then .inf true else .fin p
  | .fin p, .fin q => .fin (min p q)

/-- The function `fmax`: a NaN operand is passed over. -/
def dbl_fmax : pmqt_double → pmqt_double → pmqt_double
  | .nan, y => y
  | .inf s, .nan => .inf s
  | .inf s, .inf t => .inf (s && t)
  | .inf s, .fin q => if s then .fin q else .inf false
  | .fin p, .nan => .fin p
  | .fin p, .inf t => if t then .fin p else .inf false
  | .fin p, .fin q => .fin (max p q)

/-- The struct `pmqt_point_t` over all values of `double`. -/
structure pmqt_point_d where
  x : pmqt_double
  y : pmqt_double
deriving DecidableEq

/-- The struct `pmqt_bounds_t` over all values of `double`. -/
structure pmqt_bounds_d where
  nw : pmqt_point_d
  se : pmqt_point_d
  width : pmqt_double
  height : pmqt_double
deriving DecidableEq

/-- The function `pmqt_bounds_extend` over all values of `double`; `nw` and `se` are
the corners before the call. -/
def pmqt_bounds_extend_d (nw se : pmqt_point_d) (x y : pmqt_double) : pmqt_bounds_d :=
  let nwx := dbl_fmin x nw.x
  let nwy := dbl_fmax y nw.y
  let sex := dbl_fmax x se.x
  let sey := dbl_fmin y se.y
  { nw := ⟨nwx, nwy⟩, se := ⟨sex, sey⟩, width := dbl_fabs (dbl_sub nwx sex),
    height := dbl_fabs (dbl_sub nwy sey) }

/-- The bounds that `pmqt_node_new_with_bounds` gives a node: `pmqt_node_new` sets the
corners to (+inf, -inf) and (-inf, +inf), and the bounds are extended by the maximum
and then by the minimum corner. -/
def pmqt_node_new_with_bounds_d (min_x min_y max_x max_y : pmqt_double) : pmqt_bounds_d :=
  let b1 := pmqt_bounds_extend_d ⟨.inf false, .inf true⟩ ⟨.inf true, .inf false⟩ max_x max_y
  pmqt_bounds_extend_d b1.nw b1.se min_x min_y

/-- The bounds of the four children that `pmqt_split_node` allocates, in the order nw,
ne, sw, se. -/
def pmqt_split_children_d (bounds : pmqt_bounds_d) : List pmqt_bounds_d :=
  let x := bounds.nw.x
  let y := bounds.nw.y
  let hw := dbl_div bounds.width (.fin 2)
  let hh := dbl_div bounds.height (.fin 2)
  [pmqt_node_new_with_bounds_d x (dbl_sub y hh) (dbl_add x hw) y,
   pmqt_node_new_with_bounds_d (dbl_add x hw) (dbl_sub y hh)
     (dbl_add x (dbl_mul hw (.fin 2))) y,
   pmqt_node_new_with_bounds_d x (dbl_sub y (dbl_mul hh (.fin 2))) (dbl_add x hw)
     (dbl_sub y hh),
   pmqt_node_new_with_bounds_d (dbl_add x hw) (dbl_sub y (dbl_mul hh (.fin 2)))
     (dbl_add x (dbl_mul hw (.fin 2))) (dbl_sub y hh)]

/-- The four corner coordinates of the bounds are finite. -/
def pmqt_bounds_d.finite (b : pmqt_bounds_d) : Prop :=
  ∃ x1 y1 x2 y2 : ℚ, b.nw = ⟨.fin x1, .fin y1⟩ ∧ b.se = ⟨.fin x2, .fin y2⟩

/-- Well-formed bounds over `double`: the corners are ordered, and the cached width and
height are the differences of the corners, as `double` subtraction gives them, and are
not negative. -/
def pmqt_bounds_d.well_formed (b : pmqt_bounds_d) : Prop :=
  dbl_le b.nw.x b.se.x = true ∧ dbl_le b.se.y b.nw.y = true ∧
  b.width = dbl_sub b.se.x b.nw.x ∧ b.height = dbl_sub b.nw.y b.se.y ∧
  dbl_le (.fin 0) b.width = true ∧ dbl_le (.fin 0) b.height = true


/-! ## Notions used to state the properties -/

/-- The node that `pmqt_split_node` has built when it starts to push the former
content of the node down: a grey node with the same bounds and four fresh white
children. -/
def pmqt_split_grey (bounds : pmqt_bounds) : pmqt_node :=
  .PMQT_GREY bounds (pmqt_split_children bounds).1 (pmqt_split_children bounds).2.1
    (pmqt_split_children bounds).2.2.1 (pmqt_split_children bounds).2.2.2

/-- The collision test of `pmqt_insert_edge` on a black node: an endpoint of the edge
lies in the bounds, or the edge overlaps them. -/
def edge_hits (e : pmqt_edge) (b : pmqt_bounds) : Bool :=
  pmqt_point_in_bounds e.a b || pmqt_point_in_bounds e.b b || pmqt_edge_intersect_bounds e b

/-- The rectangle `c` lies in the rectangle `p`. -/
def pmqt_bounds.inside (c p : pmqt_bounds) : Prop :=
  p.nw.x ≤ c.nw.x ∧ c.se.x ≤ p.se.x ∧ p.se.y ≤ c.se.y ∧ c.nw.y ≤ p.nw.y

/-- The point `p` lies on the closed segment from `e.a` to `e.b`. -/
def on_segment (p : pmqt_point) (e : pmqt_edge) : Prop :=
  ∃ t : ℚ, 0 ≤ t ∧ t ≤ 1 ∧ p.x = e.a.x + t * (e.b.x - e.a.x) ∧ p.y = e.a.y + t * (e.b.y - e.a.y)

/-- Well-formed bounds: the corners are ordered and the cached sizes are right. -/
def wf_bounds (b : pmqt_bounds) : Prop :=
  b.nw.x ≤ b.se.x ∧ b.se.y ≤ b.nw.y ∧ b.width = b.se.x - b.nw.x ∧ b.height = b.nw.y - b.se.y

/-- Degenerate bounds, the guard of `pmqt_insert_edge` before a black node is split. -/
def degenerate (b : pmqt_bounds) : Prop := b.width = 0 ∨ b.height = 0

instance (b : pmqt_bounds) : Decidable (degenerate b) := by
  unfold degenerate; infer_instance

/-- The leaves (white and black nodes) of a tree in the order nw, ne, sw, se. -/
def pmqt_node.leaves : pmqt_node → List pmqt_node
  | .PMQT_GREY _ nw ne sw se => nw.leaves ++ ne.leaves ++ sw.leaves ++ se.leaves
  | .PMQT_WHITE b => [.PMQT_WHITE b]
  | .PMQT_BLACK_POINT b p es => [.PMQT_BLACK_POINT b p es]
  | .PMQT_BLACK_EDGE b e => [.PMQT_BLACK_EDGE b e]

/-- The node is grey. -/
def pmqt_node.is_grey : pmqt_node → Bool
  | .PMQT_GREY _ _ _ _ _ => true
  | _ => false

/-- The node is black, of either kind. -/
def pmqt_node.is_black : pmqt_node → Bool
  | .PMQT_BLACK_POINT _ _ _ => true
  | .PMQT_BLACK_EDGE _ _ => true
  | _ => false

/-- The black node `n` refers to the edge `e`: as the edge of a black (edge) node or
in the list of a black (point) node. -/
def pmqt_node.holds (n : pmqt_node) (e : pmqt_edge) : Prop :=
  match n with
  | .PMQT_BLACK_POINT _ _ edges => e ∈ edges
  | .PMQT_BLACK_EDGE _ e0 => e0 = e
  | _ => False

/-- A black node on which `pmqt_insert_edge` takes the collision path for `e`: a black
(edge) node, or a black (point) node whose anchor is no endpoint of `e`. -/
def pmqt_node.blocks (n : pmqt_node) (e : pmqt_edge) : Prop :=
  match n with
  | .PMQT_BLACK_POINT _ p _ => (pmqt_point_equals p e.a || pmqt_point_equals p e.b) = false
  | .PMQT_BLACK_EDGE _ _ => True
  | _ => False

/-- No node of the tree has degenerate bounds. -/
def pmqt_node.nondegenerate : pmqt_node → Prop
  | .PMQT_GREY b nw ne sw se =>
    ¬ degenerate b ∧ nw.nondegenerate ∧ ne.nondegenerate ∧ sw.nondegenerate ∧ se.nondegenerate
  | .PMQT_WHITE b => ¬ degenerate b
  | .PMQT_BLACK_POINT b _ _ => ¬ degenerate b
  | .PMQT_BLACK_EDGE b _ => ¬ degenerate b

/-- The structural invariant of a tree: all bounds are well formed, the children of
a grey node have the bounds that `pmqt_split_node` gives them, the anchor of a black
(point) node lies in its bounds, and the edge of a black (edge) node overlaps the
bounds while none of its endpoints lies in them. -/
def pmqt_node.inv : pmqt_node → Prop
  | .PMQT_GREY b nw ne sw se =>
    wf_bounds b ∧
    nw.bounds = (pmqt_split_children b).1.bounds ∧
    ne.bounds = (pmqt_split_children b).2.1.bounds ∧
    sw.bounds = (pmqt_split_children b).2.2.1.bounds ∧
    se.bounds = (pmqt_split_children b).2.2.2.bounds ∧
    nw.inv ∧ ne.inv ∧ sw.inv ∧ se.inv
  | .PMQT_WHITE b => wf_bounds b
  | .PMQT_BLACK_POINT b p _ => wf_bounds b ∧ pmqt_point_in_bounds p b = true
  | .PMQT_BLACK_EDGE b e =>
    wf_bounds b ∧ pmqt_point_in_bounds e.a b = false ∧ pmqt_point_in_bounds e.b b = false ∧
    pmqt_edge_intersect_bounds e b = true

/-- The trees that `pmqt_insert` calls, whatever they return, make of the tree `t0`. -/
inductive reachable (t0 : pmqt) : pmqt → Prop
  | init : reachable t0 t0
  | step {t t1 : pmqt} (fuel : Nat) (e : pmqt_edge) (r : pmqt_err) :
      reachable t0 t → pmqt_insert fuel t e = some (r, t1) → reachable t0 t1

/-- The tree `t` comes from `t0` by inserting the edges of `es`, the last one first in
the list, and every call of `pmqt_insert` returned `PMQT_OK`. -/
inductive built_ok (t0 : pmqt) : List pmqt_edge → pmqt → Prop
  | init : built_ok t0 [] t0
  | step {es : List pmqt_edge} {t t1 : pmqt} (fuel : Nat) (e : pmqt_edge) :
      built_ok t0 es t → pmqt_insert fuel t e = some (.PMQT_OK, t1) → built_ok t0 (e :: es) t1

/-- The calls of `pmqt_insert_edge` in the loop of `pmqt_split_node` over the edges of
a former black (point) node, each of them related by `M` as well. -/
def split_loop_rel (M : pmqt_node → pmqt_edge → pmqt_err → pmqt_node → Prop) (fuel : Nat) :
    pmqt_node → List pmqt_edge → pmqt_err → pmqt_node → Prop
  | n, [], r, n1 => r = .PMQT_OK ∧ n1 = n
  | n, e :: es, r, n1 =>
    ∃ r0 n0, pmqt_insert_edge fuel n e = some (r0, n0) ∧ M n e r0 n0 ∧
      ((r0 ≠ .PMQT_OK ∧ r = r0 ∧ n1 = n0) ∨
       (r0 = .PMQT_OK ∧ split_loop_rel M fuel n0 es r n1))

/-! ### Callbacks that record their calls -/

/-- A search callback that also records the node of each call and the signal it
returned. -/
def logged_search {σ : Type} (f : pmqt_node → pmqt_edge → σ → Int × σ) :
    pmqt_node → pmqt_edge → σ × List (pmqt_node × Int) → Int × (σ × List (pmqt_node × Int)) :=
  fun n e s => ((f n e s.1).1, ((f n e s.1).2, s.2 ++ [(n, (f n e s.1).1)]))

/-- The search callback `f` with its signal replaced by `PMQT_CONTINUE`. -/
def continue_search {σ : Type} (f : pmqt_node → pmqt_edge → σ → Int × σ) :
    pmqt_node → pmqt_edge → σ → Int × σ :=
  fun n e s => (PMQT_CONTINUE, (f n e s).2)

/-- A call of a walk callback: on the way down or on the way up. -/
inductive walk_event where
  | descend (n : pmqt_node)
  | ascend (n : pmqt_node)
deriving DecidableEq

/-- A walk callback that also records each call, as built by `tag`, and the signal it
returned. -/
def logged_walk {σ : Type} (tag : pmqt_node → walk_event) (f : pmqt_node → σ → Int × σ) :
    pmqt_node → σ × List (walk_event × Int) → Int × (σ × List (walk_event × Int)) :=
  fun n s => ((f n s.1).1, ((f n s.1).2, s.2 ++ [(tag n, (f n s.1).1)]))

/-- The walk callback `f` with its signal replaced by `PMQT_CONTINUE`. -/
def continue_walk {σ : Type} (f : pmqt_node → σ → Int × σ) : pmqt_node → σ → Int × σ :=
  fun n s => (PMQT_CONTINUE, (f n s).2)

/-- The nodes of a tree in pre-order, children in the order nw, ne, sw, se. -/
def pmqt_node.preorder : pmqt_node → List pmqt_node
  | .PMQT_GREY b nw ne sw se =>
    .PMQT_GREY b nw ne sw se :: (nw.preorder ++ ne.preorder ++ sw.preorder ++ se.preorder)
  | .PMQT_WHITE b => [.PMQT_WHITE b]
  | .PMQT_BLACK_POINT b p es => [.PMQT_BLACK_POINT b p es]
  | .PMQT_BLACK_EDGE b e => [.PMQT_BLACK_EDGE b e]

/-- The nodes of a tree in post-order, children in the order nw, ne, sw, se. -/
def pmqt_node.postorder : pmqt_node → List pmqt_node
  | .PMQT_GREY b nw ne sw se =>
    (nw.postorder ++ ne.postorder ++ sw.postorder ++ se.postorder) ++ [.PMQT_GREY b nw ne sw se]
  | .PMQT_WHITE b => [.PMQT_WHITE b]
  | .PMQT_BLACK_POINT b p es => [.PMQT_BLACK_POINT b p es]
  | .PMQT_BLACK_EDGE b e => [.PMQT_BLACK_EDGE b e]

/-- The calls that a full walk makes: down on a node, then the calls of the walks of
its children in the order nw, ne, sw, se, then up on the node. -/
def pmqt_node.walk_events : pmqt_node → List walk_event
  | .PMQT_GREY b nw ne sw se =>
    .descend (.PMQT_GREY b nw ne sw se) ::
      (nw.walk_events ++ ne.walk_events ++ sw.walk_events ++ se.walk_events) ++
      [.ascend (.PMQT_GREY b nw ne sw se)]
  | .PMQT_WHITE b => [.descend (.PMQT_WHITE b), .ascend (.PMQT_WHITE b)]
  | .PMQT_BLACK_POINT b p es =>
    [.descend (.PMQT_BLACK_POINT b p es), .ascend (.PMQT_BLACK_POINT b p es)]
  | .PMQT_BLACK_EDGE b e => [.descend (.PMQT_BLACK_EDGE b e), .ascend (.PMQT_BLACK_EDGE b e)]

/-- The node of a walk event on the way down. -/
def walk_event.descended : walk_event → Option pmqt_node
  | .descend n => some n
  | .ascend _ => none

/-- The node of a walk event on the way up. -/
def walk_event.ascended : walk_event → Option pmqt_node
  | .descend _ => none
  | .ascend n => some n

/-- The nodes that a full search for `q` passes to its callback: the black leaves
reached through children whose bounds overlap `q`. -/
def pmqt_node.search_visits (q : pmqt_edge) : pmqt_node → List pmqt_node
  | .PMQT_GREY _ nw ne sw se =>
    (if pmqt_edge_intersect_bounds q nw.bounds then nw.search_visits q else []) ++
    (if pmqt_edge_intersect_bounds q ne.bounds then ne.search_visits q else []) ++
    (if pmqt_edge_intersect_bounds q sw.bounds then sw.search_visits q else []) ++
    (if pmqt_edge_intersect_bounds q se.bounds then se.search_visits q else [])
  | .PMQT_WHITE _ => []
  | .PMQT_BLACK_POINT b p es => [.PMQT_BLACK_POINT b p es]
  | .PMQT_BLACK_EDGE b e => [.PMQT_BLACK_EDGE b e]

/-- Two steps of a traversal in sequence: the second one runs on the state that the
first one leaves, unless the first one returns a signal other than zero. -/
def seq_abort {τ : Type} (p1 p2 : τ → Int × τ) : τ → Int × τ :=
  fun st => if (p1 st).1 ≠ 0 then p1 st else p2 (p1 st).2

/-- The step that makes no call and returns `PMQT_CONTINUE`. -/
def skip_step {τ : Type} : τ → Int × τ := fun st => (PMQT_CONTINUE, st)

/-- The step `ph` of a traversal appends to the record the calls `E` with signal zero
and returns zero, or it appends a beginning of `E` whose last call alone has a
signal other than zero and returns that signal; all recorded signals satisfy `Sig`. -/
def traces {α σ : Type} (Sig : Int → Prop)
    (ph : σ × List (α × Int) → Int × (σ × List (α × Int))) (E : List α) : Prop :=
  ∀ st, ∃ new : List (α × Int), (ph st).2.2 = st.2 ++ new ∧ (∀ x ∈ new, Sig x.2) ∧
    (((ph st).1 = 0 ∧ new.map Prod.fst = E ∧ ∀ x ∈ new, x.2 = 0) ∨
     ((ph st).1 ≠ 0 ∧ ∃ pre ev, new = pre ++ [(ev, (ph st).1)] ∧ (∀ x ∈ pre, x.2 = 0) ∧
        (pre.map Prod.fst ++ [ev]) <+: E))

/-- The leaves that a search for `q` is to report: the black leaves whose bounds
overlap `q`. -/
def search_target (q : pmqt_edge) (L : pmqt_node) : Bool :=
  L.is_black && pmqt_edge_intersect_bounds q L.bounds

/-- A search callback that returns `PMQT_CONTINUE` and has no state. -/
def idle_search : pmqt_node → pmqt_edge → Unit → Int × Unit := fun _ _ s => (PMQT_CONTINUE, s)

/-- A walk callback that returns `PMQT_CONTINUE` and has no state. -/
def idle_walk : pmqt_node → Unit → Int × Unit := fun _ s => (PMQT_CONTINUE, s)

/-- The edge of the example of the specification, from (10, 10) to (90, 90). -/
def example_edge : pmqt_edge := ⟨⟨10, 10⟩, ⟨90, 90⟩⟩

/-- The tree over the square from (0, 0) to (100, 100) after the insertion of
`example_edge`. -/
def example_tree : pmqt :=
  { root := .PMQT_GREY ⟨⟨0, 100⟩, ⟨100, 0⟩, 100, 100⟩
      (.PMQT_BLACK_EDGE ⟨⟨0, 100⟩, ⟨50, 50⟩, 50, 50⟩ example_edge)
      (.PMQT_BLACK_POINT ⟨⟨50, 100⟩, ⟨100, 50⟩, 50, 50⟩ ⟨90, 90⟩ [example_edge])
      (.PMQT_BLACK_POINT ⟨⟨0, 50⟩, ⟨50, 0⟩, 50, 50⟩ ⟨10, 10⟩ [example_edge])
      (.PMQT_BLACK_EDGE ⟨⟨50, 50⟩, ⟨100, 0⟩, 50, 50⟩ example_edge) }

/-- Every leaf of the tree refers to each edge of `S` that hits its bounds. -/
def pmqt_node.covers (n : pmqt_node) (S : List pmqt_edge) : Prop :=
  ∀ L ∈ n.leaves, ∀ e ∈ S, edge_hits e L.bounds = true → L.holds e

/-- The shape of a tree that holds the single edge `e`: the bounds of every grey and
black node overlap `e`, a black (point) node has an endpoint of `e` for anchor and `e`
alone in its list, and a black (edge) node has the edge `e`. -/
def pmqt_node.single (e : pmqt_edge) : pmqt_node → Prop
  | .PMQT_WHITE _ => True
  | .PMQT_GREY b nw ne sw se =>
    pmqt_edge_intersect_bounds e b = true ∧
    nw.single e ∧ ne.single e ∧ sw.single e ∧ se.single e
  | .PMQT_BLACK_POINT b p es =>
    pmqt_edge_intersect_bounds e b = true ∧ es = [e] ∧ (p = e.a ∨ p = e.b)
  | .PMQT_BLACK_EDGE b e0 => pmqt_edge_intersect_bounds e b = true ∧ e0 = e

/-- The edges that a leaf refers to, in the order of its list: none for a white node,
the edge of a black (edge) node, the list of a black (point) node. -/
def pmqt_node.content : pmqt_node → List pmqt_edge
  | .PMQT_WHITE _ => []
  | .PMQT_GREY _ _ _ _ _ => []
  | .PMQT_BLACK_POINT _ _ edges => edges
  | .PMQT_BLACK_EDGE _ e => [e]

/-- Every leaf of the tree refers to the edges of `S` that hit its bounds, in the order
of `S` and as often as they occur in `S`, and to nothing else. -/
def pmqt_node.exact (n : pmqt_node) (S : List pmqt_edge) : Prop :=
  ∀ L ∈ n.leaves, L.content = S.filter (fun e => edge_hits e L.bounds)

/-- The list of every black (point) node of the tree is not empty and every edge in
it has the anchor of the node for an endpoint. -/
def pmqt_node.anchored : pmqt_node → Prop
  | .PMQT_WHITE _ => True
  | .PMQT_GREY _ nw ne sw se => nw.anchored ∧ ne.anchored ∧ sw.anchored ∧ se.anchored
  | .PMQT_BLACK_POINT _ p edges => edges ≠ [] ∧ ∀ e ∈ edges, p = e.a ∨ p = e.b
  | .PMQT_BLACK_EDGE _ _ => True

/-- A horizontal edge from (40, 75) to (60, 75), for the example of an edge that is
inserted twice. -/
def twice_edge : pmqt_edge := ⟨⟨40, 75⟩, ⟨60, 75⟩⟩

/-- The tree over the square from (0, 0) to (100, 100) after two insertions of
`twice_edge`. -/
def twice_tree : pmqt :=
  { root := .PMQT_GREY ⟨⟨0, 100⟩, ⟨100, 0⟩, 100, 100⟩
      (.PMQT_BLACK_POINT ⟨⟨0, 100⟩, ⟨50, 50⟩, 50, 50⟩ ⟨40, 75⟩ [twice_edge, twice_edge])
      (.PMQT_BLACK_POINT ⟨⟨50, 100⟩, ⟨100, 50⟩, 50, 50⟩ ⟨60, 75⟩ [twice_edge, twice_edge])
      (.PMQT_WHITE ⟨⟨0, 50⟩, ⟨50, 0⟩, 50, 50⟩)
      (.PMQT_WHITE ⟨⟨50, 50⟩, ⟨100, 0⟩, 50, 50⟩) }

/-- The pruning test of the variant of the insertion that the specification allows.  The
insertion `ins` is called on a node only when the edge overlaps the bounds of the node
by `pmqt_edge_intersect_bounds`; otherwise the node stays as it is and counts as
`PMQT_OK`. -/
def pmqt_prune (ins : pmqt_node → pmqt_edge → Option (pmqt_err × pmqt_node))
    (node : pmqt_node) (edge : pmqt_edge) : Option (pmqt_err × pmqt_node) :=
  if pmqt_edge_intersect_bounds edge node.bounds then ins node edge
  else some (.PMQT_OK, node)

mutual

/-- The subdivision that goes with the pruning variant of the insertion, as the
specification describes it; it is `pmqt_split_node` with every call of `pmqt_insert_edge` replaced by a
call of `pmqt_insert_edge_pruned`. -/
def pmqt_split_node_pruned : Nat → pmqt_node → Option (pmqt_err × pmqt_node)
  | 0, _ => none
  | fuel + 1, node =>
    match node with
    | .PMQT_GREY _ _ _ _ _ => some (.PMQT_ERR_OTHER, node)
    | .PMQT_BLACK_EDGE bounds edge =>
      match pmqt_split_children bounds with
      | (nw, ne, sw, se) => pmqt_insert_edge_pruned fuel (.PMQT_GREY bounds nw ne sw se) edge
    | .PMQT_BLACK_POINT bounds _ edges =>
      match pmqt_split_children bounds with
      | (nw, ne, sw, se) =>
        pmqt_split_loop (pmqt_insert_edge_pruned fuel) .PMQT_OK
          (.PMQT_GREY bounds nw ne sw se) edges
    | .PMQT_WHITE bounds =>
      match pmqt_split_children bounds with
      | (nw, ne, sw, se) => some (.PMQT_OK, .PMQT_GREY bounds nw ne sw se)

/-- The pruning variant of `pmqt_insert_edge`, as the specification describes it: at a
grey node it recurses only into the children whose bounds the edge overlaps by
`pmqt_edge_intersect_bounds`; a child that is passed over stays as it is and counts as
`PMQT_OK`.  Everything else is as in `pmqt_insert_edge`. -/
def pmqt_insert_edge_pruned : Nat → pmqt_node → pmqt_edge → Option (pmqt_err × pmqt_node)
  | 0, _, _ => none
  | fuel + 1, node, edge =>
    match node with
    | .PMQT_WHITE bounds =>
      let has_a := pmqt_point_in_bounds edge.a bounds
      let has_b := pmqt_point_in_bounds edge.b bounds
      if has_a && has_b then
        match pmqt_split_node_pruned fuel node with
        | none => none
        | some (_, node1) => pmqt_insert_edge_pruned fuel node1 edge
      else if has_a then
        some (.PMQT_OK, .PMQT_BLACK_POINT bounds edge.a (pmqt_node_add_edge [] edge))
      else if has_b then
        some (.PMQT_OK, .PMQT_BLACK_POINT bounds edge.b (pmqt_node_add_edge [] edge))
      else if pmqt_edge_intersect_bounds edge bounds then
        some (.PMQT_OK, .PMQT_BLACK_EDGE bounds edge)
      else some (.PMQT_OK, node)
    | .PMQT_GREY bounds nw ne sw se =>
      match pmqt_prune (pmqt_insert_edge_pruned fuel) nw edge with
      | none => none
      | some (r1, nw1) =>
        if r1 ≠ .PMQT_OK then some (r1, .PMQT_GREY bounds nw1 ne sw se) else
        match pmqt_prune (pmqt_insert_edge_pruned fuel) ne edge with
        | none => none
        | some (r2, ne1) =>
          if r2 ≠ .PMQT_OK then some (r2, .PMQT_GREY bounds nw1 ne1 sw se) else
          match pmqt_prune (pmqt_insert_edge_pruned fuel) sw edge with
          | none => none
          | some (r3, sw1) =>
            if r3 ≠ .PMQT_OK then some (r3, .PMQT_GREY bounds nw1 ne1 sw1 se) else
            match pmqt_prune (pmqt_insert_edge_pruned fuel) se edge with
            | none => none
            | some (r4, se1) =>
              if r4 ≠ .PMQT_OK then some (r4, .PMQT_GREY bounds nw1 ne1 sw1 se1)
              else some (.PMQT_OK, .PMQT_GREY bounds nw1 ne1 sw1 se1)
    | .PMQT_BLACK_POINT bounds point edges =>
      if pmqt_point_equals point edge.a || pmqt_point_equals point edge.b then
        some (.PMQT_OK, .PMQT_BLACK_POINT bounds point (pmqt_node_add_edge edges edge))
      else
        let has_a := pmqt_point_in_bounds edge.a bounds
        let has_b := pmqt_point_in_bounds edge.b bounds
        if has_a || has_b || pmqt_edge_intersect_bounds edge bounds then
          if bounds.width = 0 ∨ bounds.height = 0 then some (.PMQT_ERR_INTRSCT, node)
          else
            match pmqt_split_node_pruned fuel node with
            | none => none
            | some (_, node1) => pmqt_insert_edge_pruned fuel node1 edge
        else some (.PMQT_OK, node)
    | .PMQT_BLACK_EDGE bounds _ =>
      let has_a := pmqt_point_in_bounds edge.a bounds
      let has_b := pmqt_point_in_bounds edge.b bounds
      if has_a || has_b || pmqt_edge_intersect_bounds edge bounds then
        if bounds.width = 0 ∨ bounds.height = 0 then some (.PMQT_ERR_INTRSCT, node)
        else
          match pmqt_split_node_pruned fuel node with
          | none => none
          | some (_, node1) => pmqt_insert_edge_pruned fuel node1 edge
      else some (.PMQT_OK, node)

end

/-- The pruning test of the variant of the insertion, in double precision: the test
is `pmqt_edge_intersect_bounds_fl`. -/
def pmqt_prune_fl (ins : pmqt_node → pmqt_edge → Option (pmqt_err × pmqt_node))
    (node : pmqt_node) (edge : pmqt_edge) : Option (pmqt_err × pmqt_node) :=
  if pmqt_edge_intersect_bounds_fl edge node.bounds then ins node edge
  else some (.PMQT_OK, node)

mutual

/-- The subdivision that goes with the pruning variant of the insertion, in double
precision. -/
def pmqt_split_node_pruned_fl : Nat → pmqt_node → Option (pmqt_err × pmqt_node)
  | 0, _ => none
  | fuel + 1, node =>
    match node with
    | .PMQT_GREY _ _ _ _ _ => some (.PMQT_ERR_OTHER, node)
    | .PMQT_BLACK_EDGE bounds edge =>
      match pmqt_split_children_fl bounds with
      | (nw, ne, sw, se) => pmqt_insert_edge_pruned_fl fuel (.PMQT_GREY bounds nw ne sw se) edge
    | .PMQT_BLACK_POINT bounds _ edges =>
      match pmqt_split_children_fl bounds with
      | (nw, ne, sw, se) =>
        pmqt_split_loop (pmqt_insert_edge_pruned_fl fuel) .PMQT_OK
          (.PMQT_GREY bounds nw ne sw se) edges
    | .PMQT_WHITE bounds =>
      match pmqt_split_children_fl bounds with
      | (nw, ne, sw, se) => some (.PMQT_OK, .PMQT_GREY bounds nw ne sw se)

/-- The pruning variant of `pmqt_insert_edge_fl`: at a grey node it recurses only into
the children whose bounds the edge overlaps by `pmqt_edge_intersect_bounds_fl`. -/
def pmqt_insert_edge_pruned_fl : Nat → pmqt_node → pmqt_edge → Option (pmqt_err × pmqt_node)
  | 0, _, _ => none
  | fuel + 1, node, edge =>
    match node with
    | .PMQT_WHITE bounds =>
      let has_a := pmqt_point_in_bounds edge.a bounds
      let has_b := pmqt_point_in_bounds edge.b bounds
      if has_a && has_b then
        match pmqt_split_node_pruned_fl fuel node with
        | none => none
        | some (_, node1) => pmqt_insert_edge_pruned_fl fuel node1 edge
      else if has_a then
        some (.PMQT_OK, .PMQT_BLACK_POINT bounds edge.a (pmqt_node_add_edge [] edge))
      else if has_b then
        some (.PMQT_OK, .PMQT_BLACK_POINT bounds edge.b (pmqt_node_add_edge [] edge))
      else if pmqt_edge_intersect_bounds_fl edge bounds then
        some (.PMQT_OK, .PMQT_BLACK_EDGE bounds edge)
      else some (.PMQT_OK, node)
    | .PMQT_GREY bounds nw ne sw se =>
      match pmqt_prune_fl (pmqt_insert_edge_pruned_fl fuel) nw edge with
      | none => none
      | some (r1, nw1) =>
        if r1 ≠ .PMQT_OK then some (r1, .PMQT_GREY bounds nw1 ne sw se) else
        match pmqt_prune_fl (pmqt_insert_edge_pruned_fl fuel) ne edge with
        | none => none
        | some (r2, ne1) =>
          if r2 ≠ .PMQT_OK then some (r2, .PMQT_GREY bounds nw1 ne1 sw se) else
          match pmqt_prune_fl (pmqt_insert_edge_pruned_fl fuel) sw edge with
          | none => none
          | some (r3, sw1) =>
            if r3 ≠ .PMQT_OK then some (r3, .PMQT_GREY bounds nw1 ne1 sw1 se) else
            match pmqt_prune_fl (pmqt_insert_edge_pruned_fl fuel) se edge with
            | none => none
            | some (r4, se1) =>
              if r4 ≠ .PMQT_OK then some (r4, .PMQT_GREY bounds nw1 ne1 sw1 se1)
              else some (.PMQT_OK, .PMQT_GREY bounds nw1 ne1 sw1 se1)
    | .PMQT_BLACK_POINT bounds point edges =>
      if pmqt_point_equals point edge.a || pmqt_point_equals point edge.b then
        some (.PMQT_OK, .PMQT_BLACK_POINT bounds point (pmqt_node_add_edge edges edge))
      else
        let has_a := pmqt_point_in_bounds edge.a bounds
        let has_b := pmqt_point_in_bounds edge.b bounds
        if has_a || has_b || pmqt_edge_intersect_bounds_fl edge bounds then
          if bounds.width = 0 ∨ bounds.height = 0 then some (.PMQT_ERR_INTRSCT, node)
          else
            match pmqt_split_node_pruned_fl fuel node with
            | none => none
            | some (_, node1) => pmqt_insert_edge_pruned_fl fuel node1 edge
        else some (.PMQT_OK, node)
    | .PMQT_BLACK_EDGE bounds _ =>
      let has_a := pmqt_point_in_bounds edge.a bounds
      let has_b := pmqt_point_in_bounds edge.b bounds
      if has_a || has_b || pmqt_edge_intersect_bounds_fl edge bounds then
        if bounds.width = 0 ∨ bounds.height = 0 then some (.PMQT_ERR_INTRSCT, node)
        else
          match pmqt_split_node_pruned_fl fuel node with
          | none => none
          | some (_, node1) => pmqt_insert_edge_pruned_fl fuel node1 edge
      else some (.PMQT_OK, node)

end

/-- The tree that the insertion of the edges of a list, one after the other and in
double precision, leaves, when every call of `pmqt_insert_fl` returns `PMQT_OK`. -/
def pmqt_build_fl (fuel : Nat) : pmqt → List pmqt_edge → Option pmqt
  | t, [] => some t
  | t, e :: es =>
    match pmqt_insert_fl fuel t e with
    | none => none
    | some (r, t1) => if r = .PMQT_OK then pmqt_build_fl fuel t1 es else none

/-- The children of a grey node, in the order nw, ne, sw, se. -/
def pmqt_node.children : pmqt_node → List pmqt_node
  | .PMQT_WHITE _ => []
  | .PMQT_GREY _ nw ne sw se => [nw, ne, sw, se]
  | .PMQT_BLACK_POINT _ _ _ => []
  | .PMQT_BLACK_EDGE _ _ => []

/-- The tree over the square from (0, 0) to (100, 100) after the insertion, in double
precision, of the edge from (20, 10) to (97, 50). -/
def slope_tree : pmqt :=
  { root := .PMQT_GREY ⟨⟨0, 100⟩, ⟨100, 0⟩, 100, 100⟩
      (.PMQT_WHITE ⟨⟨0, 100⟩, ⟨50, 50⟩, 50, 50⟩)
      (.PMQT_BLACK_POINT ⟨⟨50, 100⟩, ⟨100, 50⟩, 50, 50⟩ ⟨97, 50⟩ [⟨⟨20, 10⟩, ⟨97, 50⟩⟩])
      (.PMQT_BLACK_POINT ⟨⟨0, 50⟩, ⟨50, 0⟩, 50, 50⟩ ⟨20, 10⟩ [⟨⟨20, 10⟩, ⟨97, 50⟩⟩])
      (.PMQT_BLACK_POINT ⟨⟨50, 50⟩, ⟨100, 0⟩, 50, 50⟩ ⟨97, 50⟩ [⟨⟨20, 10⟩, ⟨97, 50⟩⟩]) }

/-- The node that `pmqt_split_node` has built in double precision when it starts to push
the former content of the node down. -/
def pmqt_split_grey_fl (bounds : pmqt_bounds) : pmqt_node :=
  .PMQT_GREY bounds (pmqt_split_children_fl bounds).1 (pmqt_split_children_fl bounds).2.1
    (pmqt_split_children_fl bounds).2.2.1 (pmqt_split_children_fl bounds).2.2.2

/-- The collision test of `pmqt_insert_edge` on a black node in double precision. -/
def edge_hits_fl (e : pmqt_edge) (b : pmqt_bounds) : Bool :=
  pmqt_point_in_bounds e.a b || pmqt_point_in_bounds e.b b || pmqt_edge_intersect_bounds_fl e b

/-- The calls of `pmqt_insert_edge` in the loop of `pmqt_split_node` in double precision,
each of them related by `M` as well. -/
def split_loop_rel_fl (M : pmqt_node → pmqt_edge → pmqt_err → pmqt_node → Prop) (fuel : Nat) :
    pmqt_node → List pmqt_edge → pmqt_err → pmqt_node → Prop
  | n, [], r, n1 => r = .PMQT_OK ∧ n1 = n
  | n, e :: es, r, n1 =>
    ∃ r0 n0, pmqt_insert_edge_fl fuel n e = some (r0, n0) ∧ M n e r0 n0 ∧
      ((r0 ≠ .PMQT_OK ∧ r = r0 ∧ n1 = n0) ∨
       (r0 = .PMQT_OK ∧ split_loop_rel_fl M fuel n0 es r n1))

/-- The call of `pmqt_insert_edge` in double precision returns `PMQT_OK` with the fuel
`F`. -/
def returns_ok_fl (F : Nat) (n : pmqt_node) (e : pmqt_edge) : Bool :=
  match pmqt_insert_edge_fl F n e with
  | some (r, _) => decide (r = .PMQT_OK)
  | none => false

/-- The node that the insertion of `e` in double precision reaches from `n` along a
path: at a grey node the entry of the path is the index of the child (0 for nw, 1 for
ne, 2 for sw, 3 for se), at any other node the insertion goes on with the node that
`pmqt_split_node` leaves, and the entry is not read. -/
def node_along (F : Nat) : List Nat → pmqt_node → pmqt_node
  | [], n => n
  | i :: path, n =>
    match n with
    | .PMQT_GREY _ nw ne sw se =>
      match i with
      | 0 => node_along F path nw
      | 1 => node_along F path ne
      | 2 => node_along F path sw
      | _ => node_along F path se
    | .PMQT_WHITE _ =>
      match pmqt_split_node_fl F n with
      | some (_, g) => node_along F path g
      | none => n
    | .PMQT_BLACK_POINT _ _ _ =>
      match pmqt_split_node_fl F n with
      | some (_, g) => node_along F path g
      | none => n
    | .PMQT_BLACK_EDGE _ _ =>
      match pmqt_split_node_fl F n with
      | some (_, g) => node_along F path g
      | none => n

/-- The insertion of `e` in double precision into `n` goes along the path to the node
`target`: at a grey node the calls on the children before the one of the path return
`PMQT_OK`; a white node holds both endpoints of `e`, and a black node is hit by `e`,
has no degenerate bounds and, if it is a black (point) node, an anchor that is no
endpoint of `e`, so that the node is split and the insertion goes on with the node that
`pmqt_split_node` leaves. -/
def diverges_along (F : Nat) (e : pmqt_edge) (target : pmqt_node) :
    List Nat → pmqt_node → Bool
  | [], n => decide (n = target)
  | i :: path, n =>
    match n with
    | .PMQT_GREY _ nw ne sw se =>
      match i with
      | 0 => diverges_along F e target path nw
      | 1 => returns_ok_fl F nw e && diverges_along F e target path ne
      | 2 => returns_ok_fl F nw e && returns_ok_fl F ne e && diverges_along F e target path sw
      | _ => returns_ok_fl F nw e && returns_ok_fl F ne e && returns_ok_fl F sw e &&
          diverges_along F e target path se
    | .PMQT_WHITE b =>
      pmqt_point_in_bounds e.a b && pmqt_point_in_bounds e.b b &&
        match pmqt_split_node_fl F n with
        | some (_, g) => diverges_along F e target path g
        | none => false
    | .PMQT_BLACK_POINT b p _ =>
      !(pmqt_point_equals p e.a || pmqt_point_equals p e.b) && edge_hits_fl e b &&
        !decide (degenerate b) &&
        match pmqt_split_node_fl F n with
        | some (_, g) => diverges_along F e target path g
        | none => false
    | .PMQT_BLACK_EDGE b _ =>
      edge_hits_fl e b && !decide (degenerate b) &&
        match pmqt_split_node_fl F n with
        | some (_, g) => diverges_along F e target path g
        | none => false

/-- The second diagonal of the example: the edge from (10, 90) to (90, 10). -/
def crossing_edge : pmqt_edge := ⟨⟨10, 90⟩, ⟨90, 10⟩⟩

/-- The path of the insertion of `crossing_edge` into the tree of the example in double
precision: into the north-west child of the root, 53 times into the south-east child of
the node that the split leaves, and then into the north-west child. -/
def crossing_path : List Nat := [0, 0] ++ (List.replicate 53 [3, 0]).flatten ++ [0]

/-- The black (edge) node at the end of `crossing_path`. -/
def crossing_fixpoint : pmqt_node := node_along 4 crossing_path example_tree.root

/-! ## The geometric predicates -/

theorem point_in_bounds_iff (p : pmqt_point) (r : pmqt_bounds) :
    pmqt_point_in_bounds p r = true ↔
      r.nw.x ≤ p.x ∧ p.y ≤ r.nw.y ∧ p.x ≤ r.se.x ∧ r.se.y ≤ p.y := by
  simp [pmqt_point_in_bounds, and_assoc]

/-- The overlap test in terms of `min` and `max`. -/
theorem edge_intersect_bounds_iff (e : pmqt_edge) (r : pmqt_bounds) :
    pmqt_edge_intersect_bounds e r = true ↔
      max (min e.a.x e.b.x) r.nw.x ≤ min (max e.a.x e.b.x) r.se.x ∧
      (let s := (e.b.y - e.a.y) / (e.b.x - e.a.x)
       let y1 := if |e.b.x - e.a.x| > PMQT_EPS
         then s * max (min e.a.x e.b.x) r.nw.x + (e.a.y - s * e.a.x) else e.a.y
       let y2 := if |e.b.x - e.a.x| > PMQT_EPS
         then s * min (max e.a.x e.b.x) r.se.x + (e.a.y - s * e.a.x) else e.b.y
       min y1 y2 ≤ r.nw.y ∧ r.se.y ≤ max y1 y2 ∧ r.se.y ≤ r.nw.y) := by
  unfold pmqt_edge_intersect_bounds
  simp only [gt_iff_lt]
  have hmin : (if e.b.x < e.a.x then e.b.x else e.a.x) = min e.a.x e.b.x := by
    split_ifs with h
    · exact (min_eq_right h.le).symm
    · exact (min_eq_left (not_lt.mp h)).symm
  have hmax : (if e.b.x < e.a.x then e.a.x else e.b.x) = max e.a.x e.b.x := by
    split_ifs with h
    · exact (max_eq_left h.le).symm
    · exact (max_eq_right (not_lt.mp h)).symm
  have hclipmax : ∀ u v : ℚ, (if v < u then v else u) = min u v := by
    intro u v
    split_ifs with h
    · exact (min_eq_right h.le).symm
    · exact (min_eq_left (not_lt.mp h)).symm
  have hclipmin : ∀ u v : ℚ, (if u < v then v else u) = max u v := by
    intro u v
    split_ifs with h
    · exact (max_eq_right h.le).symm
    · exact (max_eq_left (not_lt.mp h)).symm
  rw [hmin, hmax, hclipmax, hclipmin]
  by_cases hx : min (max e.a.x e.b.x) r.se.x < max (min e.a.x e.b.x) r.nw.x
  · simp only [hx, if_true, Bool.false_eq_true, false_iff, not_and]
    intro h
    exact absurd h (not_le.mpr hx)
  · simp only [hx, if_false, not_lt.mp hx, true_and]
    generalize (if PMQT_EPS < |e.b.x - e.a.x| then
      (e.b.y - e.a.y) / (e.b.x - e.a.x) * max (min e.a.x e.b.x) r.nw.x +
        (e.a.y - (e.b.y - e.a.y) / (e.b.x - e.a.x) * e.a.x) else e.a.y) = y1
    generalize (if PMQT_EPS < |e.b.x - e.a.x| then
      (e.b.y - e.a.y) / (e.b.x - e.a.x) * min (max e.a.x e.b.x) r.se.x +
        (e.a.y - (e.b.y - e.a.y) / (e.b.x - e.a.x) * e.a.x) else e.b.y) = y2
    have e1 : (if y2 < y1 then y2 else y1) = min y1 y2 := hclipmax y1 y2
    have e2 : (if y2 < y1 then y1 else y2) = max y1 y2 := by
      split_ifs with h
      · exact (max_eq_left h.le).symm
      · exact (max_eq_right (not_lt.mp h)).symm
    rw [e1, e2, hclipmax, hclipmin]
    simp only [ite_eq_right_iff, Bool.false_eq_true, imp_false, not_lt, le_min_iff, max_le_iff]
    constructor
    · rintro ⟨⟨_, h2⟩, h3, h4⟩
      exact ⟨h3, h2, h4⟩
    · rintro ⟨h2, h3, h4⟩
      exact ⟨⟨min_le_max, h3⟩, h2, h4⟩

/-- An affine function on an interval stays between its values at the two ends. -/
theorem affine_between (s k lo x hi : ℚ) (h1 : lo ≤ x) (h2 : x ≤ hi) :
    min (s * lo + k) (s * hi + k) ≤ s * x + k ∧ s * x + k ≤ max (s * lo + k) (s * hi + k) := by
  rcases le_total 0 s with hs | hs
  · have a1 : s * lo ≤ s * x := mul_le_mul_of_nonneg_left h1 hs
    have a2 : s * x ≤ s * hi := mul_le_mul_of_nonneg_left h2 hs
    exact ⟨min_le_iff.mpr (Or.inl (by linarith)), le_max_iff.mpr (Or.inr (by linarith))⟩
  · have a1 : s * x ≤ s * lo := mul_le_mul_of_nonpos_left h1 hs
    have a2 : s * hi ≤ s * x := mul_le_mul_of_nonpos_left h2 hs
    exact ⟨min_le_iff.mpr (Or.inr (by linarith)), le_max_iff.mpr (Or.inl (by linarith))⟩

/-- The values of an affine function on a sub-interval lie between its values at
the ends of the larger interval. -/
theorem affine_range_mono (s k lo1 lo2 hi2 hi1 : ℚ) (h1 : lo1 ≤ lo2) (h2 : lo2 ≤ hi2)
    (h3 : hi2 ≤ hi1) :
    min (s * lo1 + k) (s * hi1 + k) ≤ min (s * lo2 + k) (s * hi2 + k) ∧
    max (s * lo2 + k) (s * hi2 + k) ≤ max (s * lo1 + k) (s * hi1 + k) := by
  have b1 := affine_between s k lo1 lo2 hi1 h1 (h2.trans h3)
  have b2 := affine_between s k lo1 hi2 hi1 (h1.trans h2) h3
  exact ⟨le_min b1.1 b2.1, max_le b1.2 b2.2⟩

/-- The overlap test is monotone in the rectangle. -/
theorem edge_intersect_bounds_mono (e : pmqt_edge) (c p : pmqt_bounds) (hin : c.inside p)
    (h : pmqt_edge_intersect_bounds e c = true) : pmqt_edge_intersect_bounds e p = true := by
  rw [edge_intersect_bounds_iff] at h ⊢
  obtain ⟨i1, i2, i3, i4⟩ := hin
  obtain ⟨hx, hy⟩ := h
  have lo_le : max (min e.a.x e.b.x) p.nw.x ≤ max (min e.a.x e.b.x) c.nw.x :=
    max_le_max le_rfl i1
  have hi_le : min (max e.a.x e.b.x) c.se.x ≤ min (max e.a.x e.b.x) p.se.x :=
    min_le_min le_rfl i2
  refine ⟨lo_le.trans (hx.trans hi_le), ?_⟩
  by_cases hd : |e.b.x - e.a.x| > PMQT_EPS
  · simp only [hd, if_true] at hy ⊢
    obtain ⟨y1, y2, y3⟩ := hy
    have m := affine_range_mono ((e.b.y - e.a.y) / (e.b.x - e.a.x))
      (e.a.y - (e.b.y - e.a.y) / (e.b.x - e.a.x) * e.a.x) _ _ _ _ lo_le hx hi_le
    exact ⟨m.1.trans (y1.trans i4), i3.trans (y2.trans m.2), i3.trans (y3.trans i4)⟩
  · simp only [hd, if_false] at hy ⊢
    obtain ⟨y1, y2, y3⟩ := hy
    exact ⟨y1.trans i4, i3.trans y2, i3.trans (y3.trans i4)⟩

/-- A point of the segment has its abscissa between those of the endpoints. -/
theorem on_segment_x_range (p : pmqt_point) (e : pmqt_edge) (h : on_segment p e) :
    min e.a.x e.b.x ≤ p.x ∧ p.x ≤ max e.a.x e.b.x := by
  obtain ⟨t, t0, t1, hx, _⟩ := h
  have := affine_between (e.b.x - e.a.x) e.a.x 0 t 1 t0 t1
  simp only [mul_zero, zero_add, mul_one, sub_add_cancel] at this
  rw [hx, add_comm, mul_comm]
  exact this

/-- A point of the segment has its ordinate between those of the endpoints. -/
theorem on_segment_y_range (p : pmqt_point) (e : pmqt_edge) (h : on_segment p e) :
    min e.a.y e.b.y ≤ p.y ∧ p.y ≤ max e.a.y e.b.y := by
  obtain ⟨t, t0, t1, _, hy⟩ := h
  have := affine_between (e.b.y - e.a.y) e.a.y 0 t 1 t0 t1
  simp only [mul_zero, zero_add, mul_one, sub_add_cancel] at this
  rw [hy, add_comm, mul_comm]
  exact this

/-- A point of a non-vertical segment lies on the line through the endpoints. -/
theorem on_segment_line (p : pmqt_point) (e : pmqt_edge) (h : on_segment p e)
    (hd : e.b.x - e.a.x ≠ 0) :
    p.y = (e.b.y - e.a.y) / (e.b.x - e.a.x) * p.x +
      (e.a.y - (e.b.y - e.a.y) / (e.b.x - e.a.x) * e.a.x) := by
  obtain ⟨t, _, _, hx, hy⟩ := h
  rw [hx, hy]
  field_simp
  ring

/-- The overlap test is conservative: it holds as soon as some point of the segment
lies in the rectangle. -/
theorem edge_intersect_bounds_of_point (e : pmqt_edge) (r : pmqt_bounds) (p : pmqt_point)
    (hp : on_segment p e) (hin : pmqt_point_in_bounds p r = true) :
    pmqt_edge_intersect_bounds e r = true := by
  rw [edge_intersect_bounds_iff]
  rw [point_in_bounds_iff] at hin
  obtain ⟨i1, i2, i3, i4⟩ := hin
  have hxr := on_segment_x_range p e hp
  have hyr := on_segment_y_range p e hp
  have hlo : max (min e.a.x e.b.x) r.nw.x ≤ p.x := max_le hxr.1 i1
  have hhi : p.x ≤ min (max e.a.x e.b.x) r.se.x := le_min hxr.2 i3
  refine ⟨hlo.trans hhi, ?_⟩
  by_cases hd : |e.b.x - e.a.x| > PMQT_EPS
  · simp only [hd, if_true]
    have hne : e.b.x - e.a.x ≠ 0 := by
      intro h0
      rw [h0, abs_zero] at hd
      exact absurd hd (by norm_num [PMQT_EPS])
    have hl := on_segment_line p e hp hne
    have m := affine_between ((e.b.y - e.a.y) / (e.b.x - e.a.x))
      (e.a.y - (e.b.y - e.a.y) / (e.b.x - e.a.x) * e.a.x) _ p.x _ hlo hhi
    rw [← hl] at m
    exact ⟨m.1.trans i2, i4.trans m.2, i4.trans i2⟩
  · simp only [hd, if_false]
    exact ⟨hyr.1.trans i2, i4.trans hyr.2, i4.trans i2⟩

theorem on_segment_a (e : pmqt_edge) : on_segment e.a e :=
  ⟨0, le_rfl, zero_le_one, by simp, by simp⟩

theorem on_segment_b (e : pmqt_edge) : on_segment e.b e :=
  ⟨1, zero_le_one, le_rfl, by simp, by simp⟩

/-! ## Unfolding `pmqt_insert_edge` and `pmqt_split_node` -/

theorem split_node_white (f : Nat) (b : pmqt_bounds) :
    pmqt_split_node (f + 1) (.PMQT_WHITE b) = some (.PMQT_OK, pmqt_split_grey b) := by
  simp [pmqt_split_node, pmqt_split_grey]

theorem split_node_black_edge (f : Nat) (b : pmqt_bounds) (e0 : pmqt_edge) :
    pmqt_split_node (f + 1) (.PMQT_BLACK_EDGE b e0) =
      pmqt_insert_edge f (pmqt_split_grey b) e0 := by
  simp [pmqt_split_node, pmqt_split_grey]

theorem split_node_black_point (f : Nat) (b : pmqt_bounds) (p : pmqt_point)
    (es : List pmqt_edge) :
    pmqt_split_node (f + 1) (.PMQT_BLACK_POINT b p es) =
      pmqt_split_loop (pmqt_insert_edge f) .PMQT_OK (pmqt_split_grey b) es := by
  simp [pmqt_split_node, pmqt_split_grey]

theorem split_node_zero (n : pmqt_node) : pmqt_split_node 0 n = none := by
  simp [pmqt_split_node]

theorem insert_edge_zero (n : pmqt_node) (e : pmqt_edge) : pmqt_insert_edge 0 n e = none := by
  simp [pmqt_insert_edge]

theorem insert_edge_white (f : Nat) (b : pmqt_bounds) (e : pmqt_edge) :
    pmqt_insert_edge (f + 1) (.PMQT_WHITE b) e =
      if pmqt_point_in_bounds e.a b = true ∧ pmqt_point_in_bounds e.b b = true then
        (pmqt_split_node f (.PMQT_WHITE b)).bind (fun x => pmqt_insert_edge f x.2 e)
      else if pmqt_point_in_bounds e.a b = true then
        some (.PMQT_OK, .PMQT_BLACK_POINT b e.a [e])
      else if pmqt_point_in_bounds e.b b = true then
        some (.PMQT_OK, .PMQT_BLACK_POINT b e.b [e])
      else if pmqt_edge_intersect_bounds e b = true then
        some (.PMQT_OK, .PMQT_BLACK_EDGE b e)
      else some (.PMQT_OK, .PMQT_WHITE b) := by
  rw [pmqt_insert_edge]
  simp only [Bool.and_eq_true, pmqt_node_add_edge, List.nil_append]
  split_ifs <;> first | rfl | (cases pmqt_split_node f (.PMQT_WHITE b) <;> rfl)

theorem insert_edge_black_edge (f : Nat) (b : pmqt_bounds) (e0 e : pmqt_edge) :
    pmqt_insert_edge (f + 1) (.PMQT_BLACK_EDGE b e0) e =
      if edge_hits e b = true then
        if degenerate b then some (.PMQT_ERR_INTRSCT, .PMQT_BLACK_EDGE b e0)
        else (pmqt_split_node f (.PMQT_BLACK_EDGE b e0)).bind
          (fun x => pmqt_insert_edge f x.2 e)
      else some (.PMQT_OK, .PMQT_BLACK_EDGE b e0) := by
  rw [pmqt_insert_edge]
  simp only [edge_hits, degenerate]
  split_ifs <;> first | rfl | (cases pmqt_split_node f (.PMQT_BLACK_EDGE b e0) <;> rfl)

theorem insert_edge_black_point (f : Nat) (b : pmqt_bounds) (p : pmqt_point)
    (es : List pmqt_edge) (e : pmqt_edge) :
    pmqt_insert_edge (f + 1) (.PMQT_BLACK_POINT b p es) e =
      if (pmqt_point_equals p e.a || pmqt_point_equals p e.b) = true then
        some (.PMQT_OK, .PMQT_BLACK_POINT b p (es ++ [e]))
      else if edge_hits e b = true then
        if degenerate b then some (.PMQT_ERR_INTRSCT, .PMQT_BLACK_POINT b p es)
        else (pmqt_split_node f (.PMQT_BLACK_POINT b p es)).bind
          (fun x => pmqt_insert_edge f x.2 e)
      else some (.PMQT_OK, .PMQT_BLACK_POINT b p es) := by
  rw [pmqt_insert_edge]
  simp only [edge_hits, degenerate, pmqt_node_add_edge]
  split_ifs <;> first | rfl | (cases pmqt_split_node f (.PMQT_BLACK_POINT b p es) <;> rfl)

theorem insert_edge_grey (f : Nat) (b : pmqt_bounds) (nw ne sw se : pmqt_node)
    (e : pmqt_edge) :
    pmqt_insert_edge (f + 1) (.PMQT_GREY b nw ne sw se) e =
      (pmqt_insert_edge f nw e).bind fun x1 =>
        if x1.1 ≠ .PMQT_OK then some (x1.1, .PMQT_GREY b x1.2 ne sw se) else
        (pmqt_insert_edge f ne e).bind fun x2 =>
          if x2.1 ≠ .PMQT_OK then some (x2.1, .PMQT_GREY b x1.2 x2.2 sw se) else
          (pmqt_insert_edge f sw e).bind fun x3 =>
            if x3.1 ≠ .PMQT_OK then some (x3.1, .PMQT_GREY b x1.2 x2.2 x3.2 se) else
            (pmqt_insert_edge f se e).bind fun x4 =>
              some (x4.1, .PMQT_GREY b x1.2 x2.2 x3.2 x4.2) := by
  rw [pmqt_insert_edge]
  cases h1 : pmqt_insert_edge f nw e with
  | none => rfl
  | some x1 =>
    obtain ⟨r1, n1⟩ := x1
    simp only [Option.some_bind]
    split_ifs
    · rfl
    · cases h2 : pmqt_insert_edge f ne e with
      | none => rfl
      | some x2 =>
        obtain ⟨r2, n2⟩ := x2
        simp only [Option.some_bind]
        split_ifs
        · rfl
        · cases h3 : pmqt_insert_edge f sw e with
          | none => rfl
          | some x3 =>
            obtain ⟨r3, n3⟩ := x3
            simp only [Option.some_bind]
            split_ifs
            · rfl
            · cases h4 : pmqt_insert_edge f se e with
              | none => rfl
              | some x4 =>
                obtain ⟨r4, n4⟩ := x4
                simp only [Option.some_bind]
                split_ifs with h
                · rfl
                · rw [not_not.mp h]

/-! ## An induction principle for `pmqt_insert_edge` -/

/-- The loop of `pmqt_split_node` in terms of `split_loop_rel`. -/
theorem split_loop_rel_of_eq (M : pmqt_node → pmqt_edge → pmqt_err → pmqt_node → Prop)
    (f : Nat)
    (hM : ∀ n e r n1, pmqt_insert_edge f n e = some (r, n1) → M n e r n1) :
    ∀ (es : List pmqt_edge) (n : pmqt_node) (r : pmqt_err) (n1 : pmqt_node),
      pmqt_split_loop (pmqt_insert_edge f) .PMQT_OK n es = some (r, n1) →
      split_loop_rel M f n es r n1 := by
  intro es
  induction es with
  | nil =>
    intro n r n1 h
    simp only [pmqt_split_loop, Option.some.injEq, Prod.mk.injEq] at h
    exact ⟨h.1.symm, h.2.symm⟩
  | cons e es ih =>
    intro n r n1 h
    rw [pmqt_split_loop] at h
    cases h0 : pmqt_insert_edge f n e with
    | none => rw [h0] at h; exact absurd h (by simp)
    | some x =>
      obtain ⟨r0, n0⟩ := x
      rw [h0] at h
      simp only at h
      refine ⟨r0, n0, h0, hM n e r0 n0 h0, ?_⟩
      by_cases hr : r0 = .PMQT_OK
      · subst hr
        simp only [ne_eq, not_true_eq_false, if_false] at h
        exact Or.inr ⟨rfl, ih n0 r n1 h⟩
      · simp only [ne_eq, hr, not_false_eq_true, if_true, Option.some.injEq,
          Prod.mk.injEq] at h
        exact Or.inl ⟨hr, h.1.symm, h.2.symm⟩

/-- Induction over the calls of `pmqt_insert_edge`: a relation `M` between the node
before the call, the edge, the return code and the node after the call holds of
every call that returns, as soon as it is closed under each path through the
function. -/
theorem insert_edge_induction (M : pmqt_node → pmqt_edge → pmqt_err → pmqt_node → Prop)
    (white_both : ∀ (f : Nat) (b : pmqt_bounds) (e : pmqt_edge) (r : pmqt_err) (n1 : pmqt_node),
      pmqt_point_in_bounds e.a b = true → pmqt_point_in_bounds e.b b = true →
      pmqt_insert_edge f (pmqt_split_grey b) e = some (r, n1) →
      M (pmqt_split_grey b) e r n1 → M (.PMQT_WHITE b) e r n1)
    (white_a : ∀ (b : pmqt_bounds) (e : pmqt_edge),
      pmqt_point_in_bounds e.a b = true → pmqt_point_in_bounds e.b b = false →
      M (.PMQT_WHITE b) e .PMQT_OK (.PMQT_BLACK_POINT b e.a [e]))
    (white_b : ∀ (b : pmqt_bounds) (e : pmqt_edge),
      pmqt_point_in_bounds e.a b = false → pmqt_point_in_bounds e.b b = true →
      M (.PMQT_WHITE b) e .PMQT_OK (.PMQT_BLACK_POINT b e.b [e]))
    (white_edge : ∀ (b : pmqt_bounds) (e : pmqt_edge),
      pmqt_point_in_bounds e.a b = false → pmqt_point_in_bounds e.b b = false →
      pmqt_edge_intersect_bounds e b = true →
      M (.PMQT_WHITE b) e .PMQT_OK (.PMQT_BLACK_EDGE b e))
    (white_none : ∀ (b : pmqt_bounds) (e : pmqt_edge),
      pmqt_point_in_bounds e.a b = false → pmqt_point_in_bounds e.b b = false →
      pmqt_edge_intersect_bounds e b = false →
      M (.PMQT_WHITE b) e .PMQT_OK (.PMQT_WHITE b))
    (grey_nw : ∀ (f : Nat) (b : pmqt_bounds) (nw ne sw se : pmqt_node) (e : pmqt_edge)
      (r1 : pmqt_err) (n1 : pmqt_node),
      pmqt_insert_edge f nw e = some (r1, n1) → M nw e r1 n1 → r1 ≠ .PMQT_OK →
      M (.PMQT_GREY b nw ne sw se) e r1 (.PMQT_GREY b n1 ne sw se))
    (grey_ne : ∀ (f : Nat) (b : pmqt_bounds) (nw ne sw se : pmqt_node) (e : pmqt_edge)
      (n1 : pmqt_node) (r2 : pmqt_err) (n2 : pmqt_node),
      pmqt_insert_edge f nw e = some (.PMQT_OK, n1) → M nw e .PMQT_OK n1 →
      pmqt_insert_edge f ne e = some (r2, n2) → M ne e r2 n2 → r2 ≠ .PMQT_OK →
      M (.PMQT_GREY b nw ne sw se) e r2 (.PMQT_GREY b n1 n2 sw se))
    (grey_sw : ∀ (f : Nat) (b : pmqt_bounds) (nw ne sw se : pmqt_node) (e : pmqt_edge)
      (n1 n2 : pmqt_node) (r3 : pmqt_err) (n3 : pmqt_node),
      pmqt_insert_edge f nw e = some (.PMQT_OK, n1) → M nw e .PMQT_OK n1 →
      pmqt_insert_edge f ne e = some (.PMQT_OK, n2) → M ne e .PMQT_OK n2 →
      pmqt_insert_edge f sw e = some (r3, n3) → M sw e r3 n3 → r3 ≠ .PMQT_OK →
      M (.PMQT_GREY b nw ne sw se) e r3 (.PMQT_GREY b n1 n2 n3 se))
    (grey_se : ∀ (f : Nat) (b : pmqt_bounds) (nw ne sw se : pmqt_node) (e : pmqt_edge)
      (n1 n2 n3 : pmqt_node) (r4 : pmqt_err) (n4 : pmqt_node),
      pmqt_insert_edge f nw e = some (.PMQT_OK, n1) → M nw e .PMQT_OK n1 →
      pmqt_insert_edge f ne e = some (.PMQT_OK, n2) → M ne e .PMQT_OK n2 →
      pmqt_insert_edge f sw e = some (.PMQT_OK, n3) → M sw e .PMQT_OK n3 →
      pmqt_insert_edge f se e = some (r4, n4) → M se e r4 n4 →
      M (.PMQT_GREY b nw ne sw se) e r4 (.PMQT_GREY b n1 n2 n3 n4))
    (point_append : ∀ (b : pmqt_bounds) (p : pmqt_point) (es : List pmqt_edge) (e : pmqt_edge),
      (pmqt_point_equals p e.a || pmqt_point_equals p e.b) = true →
      M (.PMQT_BLACK_POINT b p es) e .PMQT_OK (.PMQT_BLACK_POINT b p (es ++ [e])))
    (black_miss : ∀ (n : pmqt_node) (e : pmqt_edge),
      n.blocks e → edge_hits e n.bounds = false → M n e .PMQT_OK n)
    (black_degenerate : ∀ (n : pmqt_node) (e : pmqt_edge),
      n.blocks e → edge_hits e n.bounds = true → degenerate n.bounds →
      M n e .PMQT_ERR_INTRSCT n)
    (edge_split : ∀ (f1 f2 : Nat) (b : pmqt_bounds) (e0 e : pmqt_edge) (r1 : pmqt_err)
      (n1 : pmqt_node) (r : pmqt_err) (n2 : pmqt_node),
      edge_hits e b = true → ¬ degenerate b →
      pmqt_insert_edge f1 (pmqt_split_grey b) e0 = some (r1, n1) →
      M (pmqt_split_grey b) e0 r1 n1 →
      pmqt_insert_edge f2 n1 e = some (r, n2) → M n1 e r n2 →
      M (.PMQT_BLACK_EDGE b e0) e r n2)
    (point_split : ∀ (f1 f2 : Nat) (b : pmqt_bounds) (p : pmqt_point) (es : List pmqt_edge)
      (e : pmqt_edge) (r1 : pmqt_err) (n1 : pmqt_node) (r : pmqt_err) (n2 : pmqt_node),
      (pmqt_point_equals p e.a || pmqt_point_equals p e.b) = false →
      edge_hits e b = true → ¬ degenerate b →
      split_loop_rel M f1 (pmqt_split_grey b) es r1 n1 →
      pmqt_insert_edge f2 n1 e = some (r, n2) → M n1 e r n2 →
      M (.PMQT_BLACK_POINT b p es) e r n2) :
    ∀ (f : Nat) (n : pmqt_node) (e : pmqt_edge) (r : pmqt_err) (n1 : pmqt_node),
      pmqt_insert_edge f n e = some (r, n1) → M n e r n1 := by
  intro f
  induction f using Nat.strong_induction_on with
  | _ f ih =>
    intro n e r n1 h
    cases f with
    | zero => rw [insert_edge_zero] at h; exact absurd h (by simp)
    | succ f =>
      have ihf := ih f (Nat.lt_succ_self f)
      cases n with
      | PMQT_WHITE b =>
        rw [insert_edge_white] at h
        split_ifs at h with h1 h2 h3 h4
        · cases f with
          | zero => rw [split_node_zero] at h; exact absurd h (by simp)
          | succ f0 =>
            rw [split_node_white, Option.some_bind] at h
            exact white_both _ b e r n1 h1.1 h1.2 h (ihf _ _ _ _ h)
        · simp only [Option.some.injEq, Prod.mk.injEq] at h
          obtain ⟨rfl, rfl⟩ := h
          have hb : pmqt_point_in_bounds e.b b = false := by
            cases hb : pmqt_point_in_bounds e.b b
            · rfl
            · exact absurd ⟨h2, hb⟩ h1
          exact white_a b e h2 hb
        · simp only [Option.some.injEq, Prod.mk.injEq] at h
          obtain ⟨rfl, rfl⟩ := h
          exact white_b b e (Bool.eq_false_iff.mpr h2) h3
        · simp only [Option.some.injEq, Prod.mk.injEq] at h
          obtain ⟨rfl, rfl⟩ := h
          exact white_edge b e (Bool.eq_false_iff.mpr h2) (Bool.eq_false_iff.mpr h3) h4
        · simp only [Option.some.injEq, Prod.mk.injEq] at h
          obtain ⟨rfl, rfl⟩ := h
          exact white_none b e (Bool.eq_false_iff.mpr h2) (Bool.eq_false_iff.mpr h3)
            (Bool.eq_false_iff.mpr h4)
      | PMQT_GREY b nw ne sw se =>
        rw [insert_edge_grey] at h
        cases h1 : pmqt_insert_edge f nw e with
        | none => rw [h1] at h; exact absurd h (by simp)
        | some x1 =>
          obtain ⟨r1, c1⟩ := x1
          rw [h1, Option.some_bind] at h
          by_cases e1 : r1 = .PMQT_OK
          · subst e1
            simp only [ne_eq, not_true_eq_false, if_false] at h
            cases h2 : pmqt_insert_edge f ne e with
            | none => rw [h2] at h; exact absurd h (by simp)
            | some x2 =>
              obtain ⟨r2, c2⟩ := x2
              rw [h2, Option.some_bind] at h
              by_cases e2 : r2 = .PMQT_OK
              · subst e2
                simp only [ne_eq, not_true_eq_false, if_false] at h
                cases h3 : pmqt_insert_edge f sw e with
                | none => rw [h3] at h; exact absurd h (by simp)
                | some x3 =>
                  obtain ⟨r3, c3⟩ := x3
                  rw [h3, Option.some_bind] at h
                  by_cases e3 : r3 = .PMQT_OK
                  · subst e3
                    simp only [ne_eq, not_true_eq_false, if_false] at h
                    cases h4 : pmqt_insert_edge f se e with
                    | none => rw [h4] at h; exact absurd h (by simp)
                    | some x4 =>
                      obtain ⟨r4, c4⟩ := x4
                      rw [h4, Option.some_bind] at h
                      simp only [Option.some.injEq, Prod.mk.injEq] at h
                      obtain ⟨rfl, rfl⟩ := h
                      exact grey_se f b nw ne sw se e c1 c2 c3 r4 c4 h1 (ihf _ _ _ _ h1)
                        h2 (ihf _ _ _ _ h2) h3 (ihf _ _ _ _ h3) h4 (ihf _ _ _ _ h4)
                  · simp only [ne_eq, e3, not_false_eq_true, if_true, Option.some.injEq,
                      Prod.mk.injEq] at h
                    obtain ⟨rfl, rfl⟩ := h
                    exact grey_sw f b nw ne sw se e c1 c2 r3 c3 h1 (ihf _ _ _ _ h1)
                      h2 (ihf _ _ _ _ h2) h3 (ihf _ _ _ _ h3) e3
              · simp only [ne_eq, e2, not_false_eq_true, if_true, Option.some.injEq,
                  Prod.mk.injEq] at h
                obtain ⟨rfl, rfl⟩ := h
                exact grey_ne f b nw ne sw se e c1 r2 c2 h1 (ihf _ _ _ _ h1)
                  h2 (ihf _ _ _ _ h2) e2
          · simp only [ne_eq, e1, not_false_eq_true, if_true, Option.some.injEq,
              Prod.mk.injEq] at h
            obtain ⟨rfl, rfl⟩ := h
            exact grey_nw f b nw ne sw se e r1 c1 h1 (ihf _ _ _ _ h1) e1
      | PMQT_BLACK_POINT b p es =>
        rw [insert_edge_black_point] at h
        split_ifs at h with h1 h2 h3
        · simp only [Option.some.injEq, Prod.mk.injEq] at h
          obtain ⟨rfl, rfl⟩ := h
          exact point_append b p es e h1
        · simp only [Option.some.injEq, Prod.mk.injEq] at h
          obtain ⟨rfl, rfl⟩ := h
          exact black_degenerate _ e (Bool.eq_false_iff.mpr h1) h2 h3
        · cases f with
          | zero => rw [split_node_zero] at h; exact absurd h (by simp)
          | succ f0 =>
            rw [split_node_black_point] at h
            cases hs : pmqt_split_loop (pmqt_insert_edge f0) .PMQT_OK (pmqt_split_grey b) es with
            | none => rw [hs] at h; exact absurd h (by simp)
            | some x =>
              obtain ⟨r1, c1⟩ := x
              rw [hs, Option.some_bind] at h
              have hl := split_loop_rel_of_eq M f0
                (ih f0 (Nat.lt_succ_of_lt (Nat.lt_succ_self f0))) es _ r1 c1 hs
              exact point_split f0 (f0 + 1) b p es e r1 c1 r n1 (Bool.eq_false_iff.mpr h1) h2 h3
                hl h (ihf _ _ _ _ h)
        · simp only [Option.some.injEq, Prod.mk.injEq] at h
          obtain ⟨rfl, rfl⟩ := h
          exact black_miss _ e (Bool.eq_false_iff.mpr h1) (Bool.eq_false_iff.mpr h2)
      | PMQT_BLACK_EDGE b e0 =>
        rw [insert_edge_black_edge] at h
        split_ifs at h with h2 h3
        · simp only [Option.some.injEq, Prod.mk.injEq] at h
          obtain ⟨rfl, rfl⟩ := h
          exact black_degenerate _ e trivial h2 h3
        · cases f with
          | zero => rw [split_node_zero] at h; exact absurd h (by simp)
          | succ f0 =>
            rw [split_node_black_edge] at h
            cases hs : pmqt_insert_edge f0 (pmqt_split_grey b) e0 with
            | none => rw [hs] at h; exact absurd h (by simp)
            | some x =>
              obtain ⟨r1, c1⟩ := x
              rw [hs, Option.some_bind] at h
              exact edge_split f0 (f0 + 1) b e0 e r1 c1 r n1 h2 h3 hs
                (ih f0 (Nat.lt_succ_of_lt (Nat.lt_succ_self f0)) _ _ _ _ hs) h (ihf _ _ _ _ h)
        · simp only [Option.some.injEq, Prod.mk.injEq] at h
          obtain ⟨rfl, rfl⟩ := h
          exact black_miss _ e trivial (Bool.eq_false_iff.mpr h2)

/-! ## More fuel does not change a result -/

theorem bind_mono {α β : Type} (o o1 : Option α) (k k1 : α → Option β)
    (ho : ∀ a, o = some a → o1 = some a) (hk : ∀ a y, k a = some y → k1 a = some y)
    (y : β) (h : o.bind k = some y) : o1.bind k1 = some y := by
  cases o with
  | none => exact absurd h (by simp)
  | some a =>
    rw [ho a rfl]
    exact hk a y h

theorem split_loop_mono (ins ins1 : pmqt_node → pmqt_edge → Option (pmqt_err × pmqt_node))
    (h : ∀ n e x, ins n e = some x → ins1 n e = some x) :
    ∀ (es : List pmqt_edge) (r : pmqt_err) (n : pmqt_node) (y : pmqt_err × pmqt_node),
      pmqt_split_loop ins r n es = some y → pmqt_split_loop ins1 r n es = some y := by
  intro es
  induction es with
  | nil => intro r n y hy; exact hy
  | cons e es ih =>
    intro r n y hy
    rw [pmqt_split_loop] at hy ⊢
    cases h0 : ins n e with
    | none => rw [h0] at hy; exact absurd hy (by simp)
    | some x =>
      obtain ⟨r0, n0⟩ := x
      rw [h0] at hy
      rw [h n e _ h0]
      simp only at hy ⊢
      split_ifs at hy ⊢ with hr
      · exact hy
      · exact ih _ _ _ hy

/-- One more unit of fuel does not change what `pmqt_insert_edge` and
`pmqt_split_node` return. -/
theorem fuel_succ : ∀ f : Nat,
    (∀ n e x, pmqt_insert_edge f n e = some x → pmqt_insert_edge (f + 1) n e = some x) ∧
    (∀ n x, pmqt_split_node f n = some x → pmqt_split_node (f + 1) n = some x) := by
  intro f
  induction f with
  | zero =>
    constructor
    · intro n e x h; rw [insert_edge_zero] at h; exact absurd h (by simp)
    · intro n x h; rw [split_node_zero] at h; exact absurd h (by simp)
  | succ f ih =>
    obtain ⟨ihI, ihS⟩ := ih
    constructor
    · intro n e x h
      cases n with
      | PMQT_WHITE b =>
        rw [insert_edge_white] at h ⊢
        split_ifs at h ⊢
        · exact bind_mono _ _ _ _ (ihS _) (fun a y => ihI _ _ y) x h
        all_goals exact h
      | PMQT_GREY b nw ne sw se =>
        rw [insert_edge_grey] at h ⊢
        refine bind_mono _ _ _ _ (ihI _ _) ?_ x h
        intro x1 y h1
        split_ifs at h1 ⊢
        · exact h1
        · refine bind_mono _ _ _ _ (ihI _ _) ?_ y h1
          intro x2 y h2
          split_ifs at h2 ⊢
          · exact h2
          · refine bind_mono _ _ _ _ (ihI _ _) ?_ y h2
            intro x3 y h3
            split_ifs at h3 ⊢
            · exact h3
            · exact bind_mono _ _ _ _ (ihI _ _) (fun _ _ hy => hy) y h3
      | PMQT_BLACK_POINT b p es =>
        rw [insert_edge_black_point] at h ⊢
        split_ifs at h ⊢
        · exact h
        · exact h
        · exact bind_mono _ _ _ _ (ihS _) (fun a y => ihI _ _ y) x h
        · exact h
      | PMQT_BLACK_EDGE b e0 =>
        rw [insert_edge_black_edge] at h ⊢
        split_ifs at h ⊢
        · exact h
        · exact bind_mono _ _ _ _ (ihS _) (fun a y => ihI _ _ y) x h
        · exact h
    · intro n x h
      cases n with
      | PMQT_WHITE b =>
        rw [split_node_white] at h ⊢
        exact h
      | PMQT_GREY b nw ne sw se =>
        simp only [pmqt_split_node] at h ⊢
        exact h
      | PMQT_BLACK_POINT b p es =>
        rw [split_node_black_point] at h ⊢
        exact split_loop_mono _ _ (fun n e y => ihI n e y) es _ _ x h
      | PMQT_BLACK_EDGE b e0 =>
        rw [split_node_black_edge] at h ⊢
        exact ihI _ _ x h

/-- More fuel does not change what `pmqt_insert_edge` returns. -/
theorem insert_edge_fuel_mono (f g : Nat) (hfg : f ≤ g) (n : pmqt_node) (e : pmqt_edge)
    (x : pmqt_err × pmqt_node) (h : pmqt_insert_edge f n e = some x) :
    pmqt_insert_edge g n e = some x := by
  induction hfg with
  | refl => exact h
  | step _ ih => exact (fuel_succ _).1 n e x ih

/-- More fuel does not change what `pmqt_insert` returns. -/
theorem insert_fuel_mono (f g : Nat) (hfg : f ≤ g) (t : pmqt) (e : pmqt_edge)
    (x : pmqt_err × pmqt) (h : pmqt_insert f t e = some x) : pmqt_insert g t e = some x := by
  unfold pmqt_insert at h ⊢
  split_ifs at h ⊢
  · exact h
  · cases hi : pmqt_insert_edge f t.root e with
    | none => rw [hi] at h; exact absurd h (by simp)
    | some y =>
      rw [hi] at h
      rw [insert_edge_fuel_mono f g hfg _ _ y hi]
      exact h

/-- What `pmqt_insert` returns does not depend on the fuel. -/
theorem insert_fuel_unique (f g : Nat) (t : pmqt) (e : pmqt_edge) (x y : pmqt_err × pmqt)
    (hx : pmqt_insert f t e = some x) (hy : pmqt_insert g t e = some y) : x = y := by
  have h1 := insert_fuel_mono f (max f g) (le_max_left _ _) t e x hx
  have h2 := insert_fuel_mono g (max f g) (le_max_right _ _) t e y hy
  rw [h1] at h2
  exact Option.some.inj h2

/-! ## Bounds of new nodes -/

theorem new_with_bounds_eq (min_x min_y max_x max_y : pmqt_float_t) :
    pmqt_node_new_with_bounds min_x min_y max_x max_y =
      .PMQT_WHITE
        { nw := ⟨min min_x max_x, max min_y max_y⟩
          se := ⟨max min_x max_x, min min_y max_y⟩
          width := |min min_x max_x - max min_x max_x|
          height := |max min_y max_y - min min_y max_y| } := rfl

theorem new_with_bounds_wf (min_x min_y max_x max_y : pmqt_float_t) :
    wf_bounds (pmqt_node_new_with_bounds min_x min_y max_x max_y).bounds := by
  rw [new_with_bounds_eq]
  simp only [pmqt_node.bounds, wf_bounds]
  have h1 : min min_x max_x ≤ max min_x max_x := min_le_max
  have h2 : min min_y max_y ≤ max min_y max_y := min_le_max
  refine ⟨h1, h2, ?_, ?_⟩
  · rw [abs_sub_comm, abs_of_nonneg (sub_nonneg.mpr h1)]
  · rw [abs_of_nonneg (sub_nonneg.mpr h2)]

/-- The bounds of the four children of a node with well-formed bounds. -/
theorem split_children_bounds (b : pmqt_bounds) (hb : wf_bounds b) :
    (pmqt_split_children b).1 = .PMQT_WHITE
      ⟨⟨b.nw.x, b.nw.y⟩, ⟨b.nw.x + b.width / 2, b.nw.y - b.height / 2⟩,
        b.width / 2, b.height / 2⟩ ∧
    (pmqt_split_children b).2.1 = .PMQT_WHITE
      ⟨⟨b.nw.x + b.width / 2, b.nw.y⟩, ⟨b.nw.x + b.width / 2 * 2, b.nw.y - b.height / 2⟩,
        b.width / 2, b.height / 2⟩ ∧
    (pmqt_split_children b).2.2.1 = .PMQT_WHITE
      ⟨⟨b.nw.x, b.nw.y - b.height / 2⟩, ⟨b.nw.x + b.width / 2, b.nw.y - b.height / 2 * 2⟩,
        b.width / 2, b.height / 2⟩ ∧
    (pmqt_split_children b).2.2.2 = .PMQT_WHITE
      ⟨⟨b.nw.x + b.width / 2, b.nw.y - b.height / 2⟩,
        ⟨b.nw.x + b.width / 2 * 2, b.nw.y - b.height / 2 * 2⟩,
        b.width / 2, b.height / 2⟩ := by
  obtain ⟨h1, h2, h3, h4⟩ := hb
  have hw : 0 ≤ b.width / 2 := by rw [h3]; linarith
  have hh : 0 ≤ b.height / 2 := by rw [h4]; linarith
  simp only [pmqt_split_children, new_with_bounds_eq]
  refine ⟨?_, ?_, ?_, ?_⟩
  · rw [min_eq_left (by linarith), max_eq_right (by linarith), max_eq_right (by linarith),
      min_eq_left (by linarith)]
    congr 2
    · rw [abs_sub_comm, abs_of_nonneg (by linarith)]; ring
    · rw [abs_of_nonneg (by linarith)]; ring
  · rw [min_eq_left (by linarith), max_eq_right (by linarith), max_eq_right (by linarith),
      min_eq_left (by linarith)]
    congr 2
    · rw [abs_sub_comm, abs_of_nonneg (by linarith)]; ring
    · rw [abs_of_nonneg (by linarith)]; ring
  · rw [min_eq_left (by linarith), max_eq_right (by linarith), max_eq_right (by linarith),
      min_eq_left (by linarith)]
    congr 2
    · rw [abs_sub_comm, abs_of_nonneg (by linarith)]; ring
    · rw [abs_of_nonneg (by linarith)]; ring
  · rw [min_eq_left (by linarith), max_eq_right (by linarith), max_eq_right (by linarith),
      min_eq_left (by linarith)]
    congr 2
    · rw [abs_sub_comm, abs_of_nonneg (by linarith)]; ring
    · rw [abs_of_nonneg (by linarith)]; ring

theorem split_children_wf (b : pmqt_bounds) :
    wf_bounds (pmqt_split_children b).1.bounds ∧ wf_bounds (pmqt_split_children b).2.1.bounds ∧
    wf_bounds (pmqt_split_children b).2.2.1.bounds ∧
    wf_bounds (pmqt_split_children b).2.2.2.bounds :=
  ⟨new_with_bounds_wf _ _ _ _, new_with_bounds_wf _ _ _ _, new_with_bounds_wf _ _ _ _,
    new_with_bounds_wf _ _ _ _⟩

theorem split_children_white (b : pmqt_bounds) :
    (pmqt_split_children b).1 = .PMQT_WHITE (pmqt_split_children b).1.bounds ∧
    (pmqt_split_children b).2.1 = .PMQT_WHITE (pmqt_split_children b).2.1.bounds ∧
    (pmqt_split_children b).2.2.1 = .PMQT_WHITE (pmqt_split_children b).2.2.1.bounds ∧
    (pmqt_split_children b).2.2.2 = .PMQT_WHITE (pmqt_split_children b).2.2.2.bounds :=
  ⟨rfl, rfl, rfl, rfl⟩

/-- The children of a node with well-formed bounds lie in the bounds of the node. -/
theorem split_children_inside (b : pmqt_bounds) (hb : wf_bounds b) :
    (pmqt_split_children b).1.bounds.inside b ∧ (pmqt_split_children b).2.1.bounds.inside b ∧
    (pmqt_split_children b).2.2.1.bounds.inside b ∧
    (pmqt_split_children b).2.2.2.bounds.inside b := by
  obtain ⟨c1, c2, c3, c4⟩ := split_children_bounds b hb
  rw [c1, c2, c3, c4]
  obtain ⟨h1, h2, h3, h4⟩ := hb
  simp only [pmqt_node.bounds, pmqt_bounds.inside]
  refine ⟨⟨?_, ?_, ?_, ?_⟩, ⟨?_, ?_, ?_, ?_⟩, ⟨?_, ?_, ?_, ?_⟩, ⟨?_, ?_, ?_, ?_⟩⟩ <;> linarith

/-- The children of a node with well-formed bounds cover the bounds of the node. -/
theorem split_children_cover (b : pmqt_bounds) (hb : wf_bounds b) (p : pmqt_point)
    (hp : pmqt_point_in_bounds p b = true) :
    pmqt_point_in_bounds p (pmqt_split_children b).1.bounds = true ∨
    pmqt_point_in_bounds p (pmqt_split_children b).2.1.bounds = true ∨
    pmqt_point_in_bounds p (pmqt_split_children b).2.2.1.bounds = true ∨
    pmqt_point_in_bounds p (pmqt_split_children b).2.2.2.bounds = true := by
  obtain ⟨c1, c2, c3, c4⟩ := split_children_bounds b hb
  rw [c1, c2, c3, c4]
  obtain ⟨h1, h2, h3, h4⟩ := hb
  simp only [pmqt_node.bounds, point_in_bounds_iff] at hp ⊢
  obtain ⟨p1, p2, p3, p4⟩ := hp
  rcases le_total p.x (b.nw.x + b.width / 2) with hx | hx <;>
    rcases le_total p.y (b.nw.y - b.height / 2) with hy | hy
  · right; right; left
    exact ⟨p1, hy, hx, by linarith⟩
  · left
    exact ⟨p1, p2, hx, hy⟩
  · right; right; right
    exact ⟨hx, hy, by linarith, by linarith⟩
  · right; left
    exact ⟨hx, p2, by linarith, hy⟩

theorem split_grey_bounds (b : pmqt_bounds) : (pmqt_split_grey b).bounds = b := rfl

theorem split_grey_inv (b : pmqt_bounds) (hb : wf_bounds b) : (pmqt_split_grey b).inv := by
  obtain ⟨w1, w2, w3, w4⟩ := split_children_wf b
  obtain ⟨e1, e2, e3, e4⟩ := split_children_white b
  unfold pmqt_split_grey
  refine ⟨hb, rfl, rfl, rfl, rfl, ?_, ?_, ?_, ?_⟩
  · rw [e1]; exact w1
  · rw [e2]; exact w2
  · rw [e3]; exact w3
  · rw [e4]; exact w4

theorem split_grey_nondegenerate (b : pmqt_bounds) (hb : ¬ degenerate b) :
    (pmqt_split_grey b).nondegenerate := by
  have hw : b.width ≠ 0 := fun h => hb (Or.inl h)
  have hh : b.height ≠ 0 := fun h => hb (Or.inr h)
  have hw2 : b.width / 2 ≠ 0 := div_ne_zero hw (by norm_num)
  have hh2 : b.height / 2 ≠ 0 := div_ne_zero hh (by norm_num)
  have key : ∀ x y : ℚ, ∀ d : ℚ, d ≠ 0 →
      |min x (x + d) - max x (x + d)| ≠ 0 ∧ |max (y - d) y - min (y - d) y| ≠ 0 := by
    intro x y d hd
    constructor
    · rw [abs_ne_zero]
      rcases le_total 0 d with h | h
      · rw [min_eq_left (by linarith), max_eq_right (by linarith)]
        intro h0; apply hd; linarith
      · rw [min_eq_right (by linarith), max_eq_left (by linarith)]
        intro h0; apply hd; linarith
    · rw [abs_ne_zero]
      rcases le_total 0 d with h | h
      · rw [max_eq_right (by linarith), min_eq_left (by linarith)]
        intro h0; apply hd; linarith
      · rw [max_eq_left (by linarith), min_eq_right (by linarith)]
        intro h0; apply hd; linarith
  unfold pmqt_split_grey
  simp only [pmqt_node.nondegenerate, pmqt_split_children, new_with_bounds_eq, pmqt_node.bounds,
    degenerate, not_or]
  refine ⟨⟨hw, hh⟩, ⟨?_, ?_⟩, ⟨?_, ?_⟩, ⟨?_, ?_⟩, ⟨?_, ?_⟩⟩
  · exact (key b.nw.x b.nw.y _ hw2).1
  · exact (key b.nw.x b.nw.y _ hh2).2
  · have := (key (b.nw.x + b.width / 2) b.nw.y _ hw2).1
    rwa [add_assoc, ← mul_two] at this
  · exact (key b.nw.x b.nw.y _ hh2).2
  · exact (key b.nw.x b.nw.y _ hw2).1
  · have := (key b.nw.x (b.nw.y - b.height / 2) _ hh2).2
    rwa [sub_sub, ← mul_two] at this
  · have := (key (b.nw.x + b.width / 2) b.nw.y _ hw2).1
    rwa [add_assoc, ← mul_two] at this
  · have := (key b.nw.x (b.nw.y - b.height / 2) _ hh2).2
    rwa [sub_sub, ← mul_two] at this

/-! ## What every call of `pmqt_insert_edge` preserves -/

/-- A property of nodes that each call related by `M` preserves, and a property of
return codes that each of them has, hold after the loop of `pmqt_split_node`. -/
theorem split_loop_rel_fold (M : pmqt_node → pmqt_edge → pmqt_err → pmqt_node → Prop)
    (P : pmqt_node → Prop) (Q : pmqt_err → Prop) (hQ : Q .PMQT_OK) (f : Nat)
    (hstep : ∀ n e r n1, pmqt_insert_edge f n e = some (r, n1) → M n e r n1 → P n →
      P n1 ∧ Q r) :
    ∀ (es : List pmqt_edge) (n : pmqt_node) (r : pmqt_err) (n1 : pmqt_node),
      split_loop_rel M f n es r n1 → P n → P n1 ∧ Q r := by
  intro es
  induction es with
  | nil =>
    rintro n r n1 ⟨rfl, rfl⟩ hP
    exact ⟨hP, hQ⟩
  | cons e es ih =>
    rintro n r n1 ⟨r0, n0, heq, hM, h⟩ hP
    have h0 := hstep n e r0 n0 heq hM hP
    rcases h with ⟨_, rfl, rfl⟩ | ⟨_, hl⟩
    · exact h0
    · exact ih n0 r n1 hl h0.1

/-- The return code of `pmqt_insert_edge` is `PMQT_OK` or `PMQT_ERR_INTRSCT`. -/
theorem insert_edge_code (f : Nat) (n : pmqt_node) (e : pmqt_edge) (r : pmqt_err)
    (n1 : pmqt_node) (h : pmqt_insert_edge f n e = some (r, n1)) :
    r = .PMQT_OK ∨ r = .PMQT_ERR_INTRSCT := by
  refine insert_edge_induction (fun _ _ r _ => r = .PMQT_OK ∨ r = .PMQT_ERR_INTRSCT)
    ?_ ?_ ?_ ?_ ?_ ?_ ?_ ?_ ?_ ?_ ?_ ?_ ?_ ?_ f n e r n1 h
  all_goals intros
  all_goals first | exact Or.inl rfl | exact Or.inr rfl | assumption

/-- A call of `pmqt_insert_edge` keeps the bounds of the node and the structural
invariant, whatever it returns. -/
theorem insert_edge_inv (f : Nat) (n : pmqt_node) (e : pmqt_edge) (r : pmqt_err)
    (n1 : pmqt_node) (h : pmqt_insert_edge f n e = some (r, n1)) :
    n1.bounds = n.bounds ∧ (n.inv → n1.inv) := by
  refine insert_edge_induction (fun n _ _ n1 => n1.bounds = n.bounds ∧ (n.inv → n1.inv))
    ?_ ?_ ?_ ?_ ?_ ?_ ?_ ?_ ?_ ?_ ?_ ?_ ?_ ?_ f n e r n1 h
  · intro _ b _ _ _ _ _ _ ih
    exact ⟨ih.1, fun hi => ih.2 (split_grey_inv b hi)⟩
  · intro b e ha _
    exact ⟨rfl, fun hi => ⟨hi, ha⟩⟩
  · intro b e _ hb
    exact ⟨rfl, fun hi => ⟨hi, hb⟩⟩
  · intro b e ha hb hI
    exact ⟨rfl, fun hi => ⟨hi, ha, hb, hI⟩⟩
  · intro b e _ _ _
    exact ⟨rfl, fun hi => hi⟩
  · intro _ b nw ne sw se e r1 n1 _ ih _
    refine ⟨rfl, ?_⟩
    rintro ⟨h0, h1, h2, h3, h4, i1, i2, i3, i4⟩
    exact ⟨h0, ih.1.trans h1, h2, h3, h4, ih.2 i1, i2, i3, i4⟩
  · intro _ b nw ne sw se e n1 r2 n2 _ ih1 _ ih2 _
    refine ⟨rfl, ?_⟩
    rintro ⟨h0, h1, h2, h3, h4, i1, i2, i3, i4⟩
    exact ⟨h0, ih1.1.trans h1, ih2.1.trans h2, h3, h4, ih1.2 i1, ih2.2 i2, i3, i4⟩
  · intro _ b nw ne sw se e n1 n2 r3 n3 _ ih1 _ ih2 _ ih3 _
    refine ⟨rfl, ?_⟩
    rintro ⟨h0, h1, h2, h3, h4, i1, i2, i3, i4⟩
    exact ⟨h0, ih1.1.trans h1, ih2.1.trans h2, ih3.1.trans h3, h4, ih1.2 i1, ih2.2 i2,
      ih3.2 i3, i4⟩
  · intro _ b nw ne sw se e n1 n2 n3 r4 n4 _ ih1 _ ih2 _ ih3 _ ih4
    refine ⟨rfl, ?_⟩
    rintro ⟨h0, h1, h2, h3, h4, i1, i2, i3, i4⟩
    exact ⟨h0, ih1.1.trans h1, ih2.1.trans h2, ih3.1.trans h3, ih4.1.trans h4, ih1.2 i1,
      ih2.2 i2, ih3.2 i3, ih4.2 i4⟩
  · intro b p es e _
    exact ⟨rfl, fun hi => hi⟩
  · intro n e _ _
    exact ⟨rfl, fun hi => hi⟩
  · intro n e _ _ _
    exact ⟨rfl, fun hi => hi⟩
  · intro _ _ b e0 e r1 n1 r n2 _ _ _ ih1 _ ih2
    refine ⟨ih2.1.trans ih1.1, fun hi => ih2.2 (ih1.2 (split_grey_inv b hi.1))⟩
  · intro f1 _ b p es e r1 n1 r n2 _ _ _ hl _ ih2
    have hfold := split_loop_rel_fold _
      (fun m => m.bounds = b ∧ (wf_bounds b → m.inv)) (fun _ => True) trivial f1
      (fun m e0 r0 m1 _ hM hP => ⟨⟨hM.1.trans hP.1, fun hw => hM.2 (hP.2 hw)⟩, trivial⟩)
      es (pmqt_split_grey b) r1 n1 hl ⟨rfl, fun hw => split_grey_inv b hw⟩
    exact ⟨ih2.1.trans hfold.1.1, fun hi => ih2.2 (hfold.1.2 hi.1)⟩

/-- In a tree without degenerate bounds every call of `pmqt_insert_edge` that returns
returns `PMQT_OK`, and the tree stays without degenerate bounds. -/
theorem insert_edge_nondegenerate (f : Nat) (n : pmqt_node) (e : pmqt_edge) (r : pmqt_err)
    (n1 : pmqt_node) (h : pmqt_insert_edge f n e = some (r, n1)) (hn : n.nondegenerate) :
    r = .PMQT_OK ∧ n1.nondegenerate := by
  refine insert_edge_induction
    (fun n _ r n1 => n.nondegenerate → r = .PMQT_OK ∧ n1.nondegenerate)
    ?_ ?_ ?_ ?_ ?_ ?_ ?_ ?_ ?_ ?_ ?_ ?_ ?_ ?_ f n e r n1 h hn
  · intro _ b _ _ _ _ _ _ ih hn
    exact ih (split_grey_nondegenerate b hn)
  · intro b e _ _ hn
    exact ⟨rfl, hn⟩
  · intro b e _ _ hn
    exact ⟨rfl, hn⟩
  · intro b e _ _ _ hn
    exact ⟨rfl, hn⟩
  · intro b e _ _ _ hn
    exact ⟨rfl, hn⟩
  · intro _ b nw ne sw se e r1 n1 _ ih hr hn
    exact absurd (ih hn.2.1).1 hr
  · intro _ b nw ne sw se e n1 r2 n2 _ _ _ ih2 hr hn
    exact absurd (ih2 hn.2.2.1).1 hr
  · intro _ b nw ne sw se e n1 n2 r3 n3 _ _ _ _ _ ih3 hr hn
    exact absurd (ih3 hn.2.2.2.1).1 hr
  · intro _ b nw ne sw se e n1 n2 n3 r4 n4 _ ih1 _ ih2 _ ih3 _ ih4 hn
    exact ⟨(ih4 hn.2.2.2.2).1, hn.1, (ih1 hn.2.1).2, (ih2 hn.2.2.1).2, (ih3 hn.2.2.2.1).2,
      (ih4 hn.2.2.2.2).2⟩
  · intro b p es e _ hn
    exact ⟨rfl, hn⟩
  · intro n e _ _ hn
    exact ⟨rfl, hn⟩
  · intro n e hb _ hd hn
    cases n with
    | PMQT_WHITE b => exact absurd hb (by simp [pmqt_node.blocks])
    | PMQT_GREY b _ _ _ _ => exact absurd hb (by simp [pmqt_node.blocks])
    | PMQT_BLACK_POINT b p es => exact absurd hd hn
    | PMQT_BLACK_EDGE b e0 => exact absurd hd hn
  · intro _ _ b e0 e r1 n1 r n2 _ hd _ ih1 _ ih2 _
    exact ih2 (ih1 (split_grey_nondegenerate b hd)).2
  · intro f1 _ b p es e r1 n1 r n2 _ _ hd hl _ ih2 _
    have hfold := split_loop_rel_fold _ (fun m => m.nondegenerate)
      (fun r0 => r0 = .PMQT_OK) rfl f1
      (fun m e0 r0 m1 _ hM hP => ⟨(hM hP).2, (hM hP).1⟩)
      es (pmqt_split_grey b) r1 n1 hl (split_grey_nondegenerate b hd)
    exact ih2 hfold.1

/-! ## The traversals as sequences of steps -/

theorem traces_skip {α σ : Type} (Sig : Int → Prop) :
    traces Sig (skip_step : σ × List (α × Int) → Int × (σ × List (α × Int))) [] := by
  intro st
  exact ⟨[], by simp [skip_step], by simp, Or.inl ⟨rfl, rfl, by simp⟩⟩

theorem traces_seq {α σ : Type} (Sig : Int → Prop)
    (p1 p2 : σ × List (α × Int) → Int × (σ × List (α × Int))) (E1 E2 : List α)
    (h1 : traces Sig p1 E1) (h2 : traces Sig p2 E2) :
    traces Sig (seq_abort p1 p2) (E1 ++ E2) := by
  intro st
  obtain ⟨new1, e1, s1, c1⟩ := h1 st
  rcases c1 with ⟨r1, m1, z1⟩ | ⟨r1, pre, ev, hn, hz, hp⟩
  · obtain ⟨new2, e2, s2, c2⟩ := h2 (p1 st).2
    have hseq : seq_abort p1 p2 st = p2 (p1 st).2 := by
      simp [seq_abort, r1]
    refine ⟨new1 ++ new2, ?_, ?_, ?_⟩
    · rw [hseq, e2, e1, List.append_assoc]
    · intro x hx
      rcases List.mem_append.mp hx with hx | hx
      · exact s1 x hx
      · exact s2 x hx
    · rw [hseq]
      rcases c2 with ⟨r2, m2, z2⟩ | ⟨r2, pre, ev, hn, hz, hp⟩
      · left
        refine ⟨r2, by rw [List.map_append, m1, m2], ?_⟩
        intro x hx
        rcases List.mem_append.mp hx with hx | hx
        · exact z1 x hx
        · exact z2 x hx
      · right
        refine ⟨r2, new1 ++ pre, ev, by rw [hn, List.append_assoc], ?_, ?_⟩
        · intro x hx
          rcases List.mem_append.mp hx with hx | hx
          · exact z1 x hx
          · exact hz x hx
        · rw [List.map_append, m1, List.append_assoc]
          exact (List.prefix_append_right_inj E1).mpr hp
  · have hseq : seq_abort p1 p2 st = p1 st := by
      simp [seq_abort, r1]
    refine ⟨new1, by rw [hseq, e1], s1, Or.inr ?_⟩
    rw [hseq]
    exact ⟨r1, pre, ev, hn, hz, hp.trans (List.prefix_append E1 E2)⟩

/-- A single recorded call. -/
theorem traces_call {α σ : Type} (Sig : Int → Prop) (g : σ → Int × σ) (ev : α)
    (hg : ∀ s, Sig (g s).1) :
    traces Sig (fun st : σ × List (α × Int) =>
      ((g st.1).1, ((g st.1).2, st.2 ++ [(ev, (g st.1).1)]))) [ev] := by
  intro st
  refine ⟨[(ev, (g st.1).1)], rfl, ?_, ?_⟩
  · intro x hx
    rw [List.mem_singleton] at hx
    rw [hx]
    exact hg st.1
  · by_cases h0 : (g st.1).1 = 0
    · left
      refine ⟨h0, rfl, ?_⟩
      intro x hx
      rw [List.mem_singleton] at hx
      rw [hx]
      exact h0
    · right
      exact ⟨h0, [], ev, rfl, by simp, by simp⟩

/-- A step with signals that are all zero returns zero and records all its calls. -/
theorem traces_zero {α σ : Type}
    (ph : σ × List (α × Int) → Int × (σ × List (α × Int))) (E : List α)
    (h : traces (fun i => i = 0) ph E) (st : σ × List (α × Int)) :
    (ph st).1 = 0 ∧ (ph st).2.2 = st.2 ++ E.map (fun ev => (ev, 0)) := by
  obtain ⟨new, e1, s1, c1⟩ := h st
  have hnew : new = (new.map Prod.fst).map (fun ev => (ev, (0 : Int))) := by
    rw [List.map_map]
    conv_lhs => rw [← List.map_id new]
    apply List.map_congr_left
    intro x hx
    have := s1 x hx
    simp only [id, Function.comp]
    exact Prod.ext rfl this
  rcases c1 with ⟨r1, m1, _⟩ | ⟨r1, pre, ev, hn, _, _⟩
  · rw [m1] at hnew
    exact ⟨r1, by rw [e1, hnew]⟩
  · exfalso
    apply r1
    have := s1 (ev, (ph st).1) (by rw [hn]; simp)
    exact this

/-- The function `pmqt_walk` on a grey node as a sequence of steps. -/
theorem walk_grey {σ : Type} (b : pmqt_bounds) (nw ne sw se : pmqt_node)
    (d a : pmqt_node → σ → Int × σ) :
    (fun st => pmqt_walk (.PMQT_GREY b nw ne sw se) d a st) =
      seq_abort (fun st => d (.PMQT_GREY b nw ne sw se) st)
        (seq_abort
          (seq_abort (fun st => pmqt_walk nw d a st)
            (seq_abort (fun st => pmqt_walk ne d a st)
              (seq_abort (fun st => pmqt_walk sw d a st) (fun st => pmqt_walk se d a st))))
          (fun st => a (.PMQT_GREY b nw ne sw se) st)) := by
  funext st
  rw [pmqt_walk]
  simp only [seq_abort, PMQT_CONTINUE]
  split_ifs <;> first | rfl | (refine Prod.ext ?_ rfl; simp_all)

/-- The function `pmqt_walk` on a node that is not grey as a sequence of steps. -/
theorem walk_leaf {σ : Type} (n : pmqt_node) (hn : n.is_grey = false)
    (d a : pmqt_node → σ → Int × σ) :
    (fun st => pmqt_walk n d a st) = seq_abort (fun st => d n st) (fun st => a n st) := by
  funext st
  cases n with
  | PMQT_GREY b nw ne sw se => exact absurd hn (by simp [pmqt_node.is_grey])
  | PMQT_WHITE b =>
    rw [pmqt_walk]
    simp only [seq_abort, PMQT_CONTINUE]
    split_ifs <;> first | rfl | (refine Prod.ext ?_ rfl; simp_all) | simp_all
  | PMQT_BLACK_POINT b p es =>
    rw [pmqt_walk]
    simp only [seq_abort, PMQT_CONTINUE]
    split_ifs <;> first | rfl | (refine Prod.ext ?_ rfl; simp_all) | simp_all
  | PMQT_BLACK_EDGE b e =>
    rw [pmqt_walk]
    simp only [seq_abort, PMQT_CONTINUE]
    split_ifs <;> first | rfl | (refine Prod.ext ?_ rfl; simp_all) | simp_all

/-- The calls of `pmqt_walk` with recording callbacks. -/
theorem walk_traces {σ : Type} (Sig : Int → Prop) (d a : pmqt_node → σ → Int × σ)
    (hd : ∀ n s, Sig (d n s).1) (ha : ∀ n s, Sig (a n s).1) (root : pmqt_node) :
    traces Sig (fun st => pmqt_walk root (logged_walk .descend d) (logged_walk .ascend a) st)
      root.walk_events := by
  induction root with
  | PMQT_GREY b nw ne sw se i1 i2 i3 i4 =>
    rw [walk_grey]
    have hE : (pmqt_node.PMQT_GREY b nw ne sw se).walk_events =
        [.descend (.PMQT_GREY b nw ne sw se)] ++
          ((nw.walk_events ++ (ne.walk_events ++ (sw.walk_events ++ se.walk_events))) ++
            [.ascend (.PMQT_GREY b nw ne sw se)]) := by
      simp [pmqt_node.walk_events]
    rw [hE]
    exact traces_seq Sig _ _ _ _ (traces_call Sig _ _ (hd _))
      (traces_seq Sig _ _ _ _
        (traces_seq Sig _ _ _ _ i1 (traces_seq Sig _ _ _ _ i2 (traces_seq Sig _ _ _ _ i3 i4)))
        (traces_call Sig _ _ (ha _)))
  | PMQT_WHITE b =>
    rw [walk_leaf (.PMQT_WHITE b) rfl]
    exact traces_seq Sig _ _ [_] [_] (traces_call Sig _ _ (hd _)) (traces_call Sig _ _ (ha _))
  | PMQT_BLACK_POINT b p es =>
    rw [walk_leaf (.PMQT_BLACK_POINT b p es) rfl]
    exact traces_seq Sig _ _ [_] [_] (traces_call Sig _ _ (hd _)) (traces_call Sig _ _ (ha _))
  | PMQT_BLACK_EDGE b e =>
    rw [walk_leaf (.PMQT_BLACK_EDGE b e) rfl]
    exact traces_seq Sig _ _ [_] [_] (traces_call Sig _ _ (hd _)) (traces_call Sig _ _ (ha _))

/-- The function `pmqt_search` on a grey node as a sequence of steps. -/
theorem search_grey {σ : Type} (b : pmqt_bounds) (nw ne sw se : pmqt_node) (q : pmqt_edge)
    (pr : Option (pmqt_node → pmqt_edge → σ → Int × σ)) :
    (fun st => pmqt_search (.PMQT_GREY b nw ne sw se) q pr st) =
      seq_abort
        (if pmqt_edge_intersect_bounds q nw.bounds then (fun st => pmqt_search nw q pr st)
          else skip_step)
        (seq_abort
          (if pmqt_edge_intersect_bounds q ne.bounds then (fun st => pmqt_search ne q pr st)
            else skip_step)
          (seq_abort
            (if pmqt_edge_intersect_bounds q sw.bounds then (fun st => pmqt_search sw q pr st)
              else skip_step)
            (if pmqt_edge_intersect_bounds q se.bounds then (fun st => pmqt_search se q pr st)
              else skip_step))) := by
  funext st
  rw [pmqt_search]
  cases pmqt_edge_intersect_bounds q nw.bounds <;>
    cases pmqt_edge_intersect_bounds q ne.bounds <;>
    cases pmqt_edge_intersect_bounds q sw.bounds <;>
    cases pmqt_edge_intersect_bounds q se.bounds <;>
    simp only [seq_abort, skip_step, PMQT_CONTINUE, if_true, if_false, Bool.false_eq_true,
      ne_eq, not_true_eq_false] <;>
    split_ifs <;> first | rfl | (refine Prod.ext ?_ rfl; simp_all)

/-- The calls of a full search on a grey node. -/
theorem search_visits_grey (b : pmqt_bounds) (nw ne sw se : pmqt_node) (q : pmqt_edge) :
    (pmqt_node.PMQT_GREY b nw ne sw se).search_visits q =
      (if pmqt_edge_intersect_bounds q nw.bounds then nw.search_visits q else []) ++
      (if pmqt_edge_intersect_bounds q ne.bounds then ne.search_visits q else []) ++
      (if pmqt_edge_intersect_bounds q sw.bounds then sw.search_visits q else []) ++
      (if pmqt_edge_intersect_bounds q se.bounds then se.search_visits q else []) := rfl

/-- The calls of `pmqt_search` with a recording callback. -/
theorem search_traces {σ : Type} (Sig : Int → Prop)
    (f : pmqt_node → pmqt_edge → σ → Int × σ) (hf : ∀ n e s, Sig (f n e s).1)
    (q : pmqt_edge) (node : pmqt_node) :
    traces Sig (fun st => pmqt_search node q (some (logged_search f)) st)
      (node.search_visits q) := by
  induction node with
  | PMQT_GREY b nw ne sw se i1 i2 i3 i4 =>
    rw [search_grey]
    have key : ∀ c : pmqt_node,
        traces Sig (fun st => pmqt_search c q (some (logged_search f)) st) (c.search_visits q) →
        traces Sig (if pmqt_edge_intersect_bounds q c.bounds
            then (fun st => pmqt_search c q (some (logged_search f)) st) else skip_step)
          (if pmqt_edge_intersect_bounds q c.bounds then c.search_visits q else []) := by
      intro c hc
      cases pmqt_edge_intersect_bounds q c.bounds
      · exact traces_skip Sig
      · exact hc
    have hE : (pmqt_node.PMQT_GREY b nw ne sw se).search_visits q =
        (if pmqt_edge_intersect_bounds q nw.bounds then nw.search_visits q else []) ++
        ((if pmqt_edge_intersect_bounds q ne.bounds then ne.search_visits q else []) ++
        ((if pmqt_edge_intersect_bounds q sw.bounds then sw.search_visits q else []) ++
        (if pmqt_edge_intersect_bounds q se.bounds then se.search_visits q else []))) := by
      rw [search_visits_grey, List.append_assoc, List.append_assoc]
    rw [hE]
    exact traces_seq Sig _ _ _ _ (key nw i1)
      (traces_seq Sig _ _ _ _ (key ne i2) (traces_seq Sig _ _ _ _ (key sw i3) (key se i4)))
  | PMQT_WHITE b => exact traces_skip Sig
  | PMQT_BLACK_POINT b p es => exact traces_call Sig _ _ (hf _ q)
  | PMQT_BLACK_EDGE b e => exact traces_call Sig _ _ (hf _ q)

/-- What a step leaves of the record and what it returns, in the words of the
cooperative abort. -/
theorem traces_abort {α σ : Type} (Sig : Int → Prop)
    (ph : σ × List (α × Int) → Int × (σ × List (α × Int))) (E : List α)
    (h : traces Sig ph E) (s : σ) :
    ((ph (s, [])).2.2.map Prod.fst) <+: E ∧
    (∀ x ∈ (ph (s, [])).2.2, x.2 ≠ 0 →
      (ph (s, [])).1 = x.2 ∧ ∃ pre, (ph (s, [])).2.2 = pre ++ [x] ∧ ∀ y ∈ pre, y.2 = 0) ∧
    ((∀ x ∈ (ph (s, [])).2.2, x.2 = 0) → (ph (s, [])).1 = 0) := by
  obtain ⟨new, e1, _, c1⟩ := h (s, [])
  simp only [List.nil_append] at e1
  rw [e1]
  rcases c1 with ⟨r1, m1, z1⟩ | ⟨r1, pre, ev, hn, hz, hp⟩
  · refine ⟨by rw [m1], ?_, fun _ => r1⟩
    intro x hx h0
    exact absurd (z1 x hx) h0
  · refine ⟨?_, ?_, ?_⟩
    · rw [hn, List.map_append]
      exact hp
    · intro x hx h0
      rw [hn] at hx
      rcases List.mem_append.mp hx with hx | hx
      · exact absurd (hz x hx) h0
      · rw [List.mem_singleton] at hx
        subst hx
        exact ⟨rfl, pre, hn, hz⟩
    · intro hall
      exact absurd (hall (ev, (ph (s, [])).1) (by rw [hn]; simp)) r1

/-! ## Reachable trees -/

theorem inside_refl (b : pmqt_bounds) : b.inside b := ⟨le_rfl, le_rfl, le_rfl, le_rfl⟩

theorem inside_trans {a b c : pmqt_bounds} (h1 : a.inside b) (h2 : b.inside c) : a.inside c :=
  ⟨h2.1.trans h1.1, h1.2.1.trans h2.2.1, h2.2.2.1.trans h1.2.2.1, h1.2.2.2.trans h2.2.2.2⟩

theorem leaves_grey (b : pmqt_bounds) (nw ne sw se : pmqt_node) :
    (pmqt_node.PMQT_GREY b nw ne sw se).leaves =
      nw.leaves ++ ne.leaves ++ sw.leaves ++ se.leaves := by
  rw [pmqt_node.leaves]

theorem mem_leaves_grey (b : pmqt_bounds) (nw ne sw se L : pmqt_node) :
    L ∈ (pmqt_node.PMQT_GREY b nw ne sw se).leaves ↔
      L ∈ nw.leaves ∨ L ∈ ne.leaves ∨ L ∈ sw.leaves ∨ L ∈ se.leaves := by
  rw [leaves_grey]
  simp only [List.mem_append, or_assoc]

/-- The structural invariant of a tree gives that of each leaf. -/
theorem leaves_inv (n : pmqt_node) (hn : n.inv) : ∀ L ∈ n.leaves, L.inv := by
  induction n with
  | PMQT_GREY b nw ne sw se i1 i2 i3 i4 =>
    obtain ⟨_, _, _, _, _, v1, v2, v3, v4⟩ := hn
    intro L hL
    rcases (mem_leaves_grey b nw ne sw se L).mp hL with h | h | h | h
    · exact i1 v1 L h
    · exact i2 v2 L h
    · exact i3 v3 L h
    · exact i4 v4 L h
  | PMQT_WHITE b =>
    intro L hL
    rw [pmqt_node.leaves, List.mem_singleton] at hL
    rw [hL]; exact hn
  | PMQT_BLACK_POINT b p es =>
    intro L hL
    rw [pmqt_node.leaves, List.mem_singleton] at hL
    rw [hL]; exact hn
  | PMQT_BLACK_EDGE b e =>
    intro L hL
    rw [pmqt_node.leaves, List.mem_singleton] at hL
    rw [hL]; exact hn

/-- The bounds of every leaf lie in the bounds of the tree. -/
theorem leaves_inside (n : pmqt_node) (hn : n.inv) : ∀ L ∈ n.leaves, L.bounds.inside n.bounds := by
  induction n with
  | PMQT_GREY b nw ne sw se i1 i2 i3 i4 =>
    obtain ⟨hb, b1, b2, b3, b4, v1, v2, v3, v4⟩ := hn
    obtain ⟨s1, s2, s3, s4⟩ := split_children_inside b hb
    intro L hL
    rcases (mem_leaves_grey b nw ne sw se L).mp hL with h | h | h | h
    · exact inside_trans (i1 v1 L h) (b1 ▸ s1)
    · exact inside_trans (i2 v2 L h) (b2 ▸ s2)
    · exact inside_trans (i3 v3 L h) (b3 ▸ s3)
    · exact inside_trans (i4 v4 L h) (b4 ▸ s4)
  | PMQT_WHITE b =>
    intro L hL
    rw [pmqt_node.leaves, List.mem_singleton] at hL
    rw [hL]; exact inside_refl _
  | PMQT_BLACK_POINT b p es =>
    intro L hL
    rw [pmqt_node.leaves, List.mem_singleton] at hL
    rw [hL]; exact inside_refl _
  | PMQT_BLACK_EDGE b e =>
    intro L hL
    rw [pmqt_node.leaves, List.mem_singleton] at hL
    rw [hL]; exact inside_refl _

/-- A grey node stays grey, and a white node that holds both endpoints becomes grey. -/
theorem insert_edge_grey_result (f : Nat) (n : pmqt_node) (e : pmqt_edge) (r : pmqt_err)
    (n1 : pmqt_node) (h : pmqt_insert_edge f n e = some (r, n1)) :
    (n.is_grey = true → n1.is_grey = true) ∧
    (n.is_black = false → pmqt_point_in_bounds e.a n.bounds = true →
      pmqt_point_in_bounds e.b n.bounds = true → n1.is_grey = true) := by
  refine insert_edge_induction (fun n e _ n1 => (n.is_grey = true → n1.is_grey = true) ∧
    (n.is_black = false → pmqt_point_in_bounds e.a n.bounds = true →
      pmqt_point_in_bounds e.b n.bounds = true → n1.is_grey = true))
    ?_ ?_ ?_ ?_ ?_ ?_ ?_ ?_ ?_ ?_ ?_ ?_ ?_ ?_ f n e r n1 h
  · intro _ b _ _ _ _ _ _ ih
    exact ⟨fun h => absurd h (by simp [pmqt_node.is_grey]), fun _ _ _ => ih.1 rfl⟩
  · intro b e _ hb
    refine ⟨fun h => absurd h (by simp [pmqt_node.is_grey]), fun _ _ h => ?_⟩
    rw [pmqt_node.bounds, hb] at h
    exact absurd h (by simp)
  · intro b e ha _
    refine ⟨fun h => absurd h (by simp [pmqt_node.is_grey]), fun _ h _ => ?_⟩
    rw [pmqt_node.bounds, ha] at h
    exact absurd h (by simp)
  · intro b e ha _ _
    refine ⟨fun h => absurd h (by simp [pmqt_node.is_grey]), fun _ h _ => ?_⟩
    rw [pmqt_node.bounds, ha] at h
    exact absurd h (by simp)
  · intro b e ha _ _
    refine ⟨fun h => absurd h (by simp [pmqt_node.is_grey]), fun _ h _ => ?_⟩
    rw [pmqt_node.bounds, ha] at h
    exact absurd h (by simp)
  · intros; exact ⟨fun _ => rfl, fun _ _ _ => rfl⟩
  · intros; exact ⟨fun _ => rfl, fun _ _ _ => rfl⟩
  · intros; exact ⟨fun _ => rfl, fun _ _ _ => rfl⟩
  · intros; exact ⟨fun _ => rfl, fun _ _ _ => rfl⟩
  · intro b p es e _
    exact ⟨fun h => absurd h (by simp [pmqt_node.is_grey]),
      fun h => absurd h (by simp [pmqt_node.is_black])⟩
  · intro n e hb _
    cases n with
    | PMQT_WHITE b => exact absurd hb (by simp [pmqt_node.blocks])
    | PMQT_GREY b _ _ _ _ => exact absurd hb (by simp [pmqt_node.blocks])
    | PMQT_BLACK_POINT b p es =>
      exact ⟨fun h => absurd h (by simp [pmqt_node.is_grey]),
        fun h => absurd h (by simp [pmqt_node.is_black])⟩
    | PMQT_BLACK_EDGE b e0 =>
      exact ⟨fun h => absurd h (by simp [pmqt_node.is_grey]),
        fun h => absurd h (by simp [pmqt_node.is_black])⟩
  · intro n e hb _ _
    cases n with
    | PMQT_WHITE b => exact absurd hb (by simp [pmqt_node.blocks])
    | PMQT_GREY b _ _ _ _ => exact absurd hb (by simp [pmqt_node.blocks])
    | PMQT_BLACK_POINT b p es =>
      exact ⟨fun h => absurd h (by simp [pmqt_node.is_grey]),
        fun h => absurd h (by simp [pmqt_node.is_black])⟩
    | PMQT_BLACK_EDGE b e0 =>
      exact ⟨fun h => absurd h (by simp [pmqt_node.is_grey]),
        fun h => absurd h (by simp [pmqt_node.is_black])⟩
  · intros
    exact ⟨fun h => absurd h (by simp [pmqt_node.is_grey]),
      fun h => absurd h (by simp [pmqt_node.is_black])⟩
  · intros
    exact ⟨fun h => absurd h (by simp [pmqt_node.is_grey]),
      fun h => absurd h (by simp [pmqt_node.is_black])⟩

/-- The two outcomes of `pmqt_insert`: the edge is out of bounds and the tree is
left alone, or both endpoints lie in the bounds of the root and the result is that
of `pmqt_insert_edge` on the root. -/
theorem insert_cases (fuel : Nat) (t : pmqt) (e : pmqt_edge) (r : pmqt_err) (t1 : pmqt)
    (h : pmqt_insert fuel t e = some (r, t1)) :
    ((pmqt_point_in_bounds e.a t.root.bounds = false ∨
        pmqt_point_in_bounds e.b t.root.bounds = false) ∧ r = .PMQT_ERR_OOB ∧ t1 = t) ∨
    (pmqt_point_in_bounds e.a t.root.bounds = true ∧
      pmqt_point_in_bounds e.b t.root.bounds = true ∧
      pmqt_insert_edge fuel t.root e = some (r, t1.root)) := by
  unfold pmqt_insert at h
  cases ha : pmqt_point_in_bounds e.a t.root.bounds <;>
    cases hb : pmqt_point_in_bounds e.b t.root.bounds <;>
    simp only [ha, hb, Bool.not_false, Bool.not_true, Bool.or_true, Bool.true_or, Bool.or_false,
      if_true, Bool.false_eq_true, if_false, Option.some.injEq, Prod.mk.injEq] at h
  · exact Or.inl ⟨Or.inl rfl, h.1.symm, h.2.symm⟩
  · exact Or.inl ⟨Or.inl rfl, h.1.symm, h.2.symm⟩
  · exact Or.inl ⟨Or.inr rfl, h.1.symm, h.2.symm⟩
  · right
    refine ⟨rfl, rfl, ?_⟩
    cases hi : pmqt_insert_edge fuel t.root e with
    | none => rw [hi] at h; exact absurd h (by simp)
    | some x =>
      obtain ⟨r0, n0⟩ := x
      rw [hi] at h
      simp only [Option.some.injEq, Prod.mk.injEq] at h
      obtain ⟨rfl, rfl⟩ := h
      rfl

/-- Every tree reachable from a new tree satisfies the structural invariant, and its
root is white or grey. -/
theorem reachable_inv (min_x min_y max_x max_y : pmqt_float_t) (t : pmqt)
    (hr : reachable (pmqt_new min_x min_y max_x max_y) t) :
    t.root.inv ∧ t.root.is_black = false := by
  induction hr with
  | init => exact ⟨new_with_bounds_wf _ _ _ _, rfl⟩
  | step fuel e r _ hins ih =>
    rcases insert_cases fuel _ e r _ hins with ⟨_, _, rfl⟩ | ⟨ha, hb, hi⟩
    · exact ih
    · refine ⟨(insert_edge_inv _ _ _ _ _ hi).2 ih.1, ?_⟩
      have hg := (insert_edge_grey_result _ _ _ _ _ hi).2 ih.2 ha hb
      revert hg
      cases (_ : pmqt).root <;> simp [pmqt_node.is_grey, pmqt_node.is_black]

/-! ## Search and the leaves of a tree -/

/-- On a tree that satisfies the structural invariant, and whose root overlaps the
query if it is black, a full search reports the black leaves that overlap the query,
in the order of the leaves. -/
theorem search_visits_eq_filter (q : pmqt_edge) (n : pmqt_node) (hn : n.inv)
    (hroot : n.is_black = true → pmqt_edge_intersect_bounds q n.bounds = true) :
    n.search_visits q = n.leaves.filter (search_target q) := by
  induction n with
  | PMQT_GREY b nw ne sw se i1 i2 i3 i4 =>
    obtain ⟨_, _, _, _, _, v1, v2, v3, v4⟩ := hn
    have key : ∀ c : pmqt_node, c.inv →
        ((c.is_black = true → pmqt_edge_intersect_bounds q c.bounds = true) →
          c.search_visits q = c.leaves.filter (search_target q)) →
        (if pmqt_edge_intersect_bounds q c.bounds then c.search_visits q else []) =
          c.leaves.filter (search_target q) := by
      intro c hc ih
      cases hI : pmqt_edge_intersect_bounds q c.bounds
      · simp only [Bool.false_eq_true, if_false]
        symm
        rw [List.filter_eq_nil_iff]
        intro L hL hT
        simp only [search_target, Bool.and_eq_true] at hT
        have := edge_intersect_bounds_mono q _ _ (leaves_inside c hc L hL) hT.2
        rw [hI] at this
        exact absurd this (by simp)
      · simp only [if_true]
        exact ih (fun _ => hI)
    rw [search_visits_grey, leaves_grey, List.filter_append, List.filter_append,
      List.filter_append, key nw v1 (i1 v1), key ne v2 (i2 v2), key sw v3 (i3 v3),
      key se v4 (i4 v4)]
  | PMQT_WHITE b => rfl
  | PMQT_BLACK_POINT b p es =>
    have := hroot rfl
    simp only [pmqt_node.bounds] at this
    simp [pmqt_node.search_visits, pmqt_node.leaves, search_target, pmqt_node.is_black,
      pmqt_node.bounds, this]
  | PMQT_BLACK_EDGE b e =>
    have := hroot rfl
    simp only [pmqt_node.bounds] at this
    simp [pmqt_node.search_visits, pmqt_node.leaves, search_target, pmqt_node.is_black,
      pmqt_node.bounds, this]

/-- Two sequences of steps that agree step by step, up to the record, agree. -/
theorem seq_abort_erase {σ τ : Type} (p1 p2 : σ × τ → Int × (σ × τ)) (q1 q2 : σ → Int × σ)
    (h1 : ∀ st, (p1 st).1 = (q1 st.1).1 ∧ (p1 st).2.1 = (q1 st.1).2)
    (h2 : ∀ st, (p2 st).1 = (q2 st.1).1 ∧ (p2 st).2.1 = (q2 st.1).2) :
    ∀ st, (seq_abort p1 p2 st).1 = (seq_abort q1 q2 st.1).1 ∧
      (seq_abort p1 p2 st).2.1 = (seq_abort q1 q2 st.1).2 := by
  intro st
  simp only [seq_abort]
  rw [(h1 st).1]
  split_ifs
  · exact h1 st
  · have := h2 (p1 st).2
    rw [(h1 st).2] at this
    exact this

/-- The signal and the final state of `pmqt_search` do not depend on the record. -/
theorem search_logged_erase {σ : Type} (f : pmqt_node → pmqt_edge → σ → Int × σ)
    (q : pmqt_edge) (node : pmqt_node) :
    ∀ st : σ × List (pmqt_node × Int),
      (pmqt_search node q (some (logged_search f)) st).1 = (pmqt_search node q (some f) st.1).1 ∧
      (pmqt_search node q (some (logged_search f)) st).2.1 =
        (pmqt_search node q (some f) st.1).2 := by
  induction node with
  | PMQT_GREY b nw ne sw se i1 i2 i3 i4 =>
    intro st
    have e1 := congrFun (search_grey b nw ne sw se q (some (logged_search f))) st
    have e2 := congrFun (search_grey b nw ne sw se q (some f)) st.1
    simp only at e1 e2
    rw [e1, e2]
    have key : ∀ c : pmqt_node,
        (∀ st : σ × List (pmqt_node × Int),
          (pmqt_search c q (some (logged_search f)) st).1 = (pmqt_search c q (some f) st.1).1 ∧
          (pmqt_search c q (some (logged_search f)) st).2.1 =
            (pmqt_search c q (some f) st.1).2) →
        ∀ st : σ × List (pmqt_node × Int),
          ((if pmqt_edge_intersect_bounds q c.bounds
              then (fun st => pmqt_search c q (some (logged_search f)) st)
              else skip_step) st).1 =
            ((if pmqt_edge_intersect_bounds q c.bounds
              then (fun st => pmqt_search c q (some f) st) else skip_step) st.1).1 ∧
          ((if pmqt_edge_intersect_bounds q c.bounds
              then (fun st => pmqt_search c q (some (logged_search f)) st)
              else skip_step) st).2.1 =
            ((if pmqt_edge_intersect_bounds q c.bounds
              then (fun st => pmqt_search c q (some f) st) else skip_step) st.1).2 := by
      intro c hc st
      cases pmqt_edge_intersect_bounds q c.bounds
      · exact ⟨rfl, rfl⟩
      · exact hc st
    exact seq_abort_erase _ _ _ _ (key nw i1)
      (seq_abort_erase _ _ _ _ (key ne i2) (seq_abort_erase _ _ _ _ (key sw i3) (key se i4))) st
  | PMQT_WHITE b => intro st; exact ⟨rfl, rfl⟩
  | PMQT_BLACK_POINT b p es => intro st; exact ⟨rfl, rfl⟩
  | PMQT_BLACK_EDGE b e => intro st; exact ⟨rfl, rfl⟩

/-- The tree of the example is the result of the insertion of the example. -/
theorem example_tree_eq :
    pmqt_insert 3 (pmqt_new 0 0 100 100) example_edge = some (.PMQT_OK, example_tree) := by
  decide!

/-! ## Claims -/

/-- C2 (search visit set, as amended).  In exact arithmetic: on every tree reachable
from a new tree by calls of `pmqt_insert`, a search from the root whose callback always
returns zero returns zero, and the nodes that it passes to the callback are, each once
and in the order nw, ne, sw, se of the leaves, the black leaves whose bounds overlap
the query; no white or grey node and no other leaf is passed. -/
theorem search_visit_set {σ : Type} (min_x min_y max_x max_y : pmqt_float_t) (t : pmqt)
    (hr : reachable (pmqt_new min_x min_y max_x max_y) t) (q : pmqt_edge)
    (f : pmqt_node → pmqt_edge → σ → Int × σ) (hf : ∀ n e s, (f n e s).1 = 0) (s : σ) :
    (pmqt_search t.root q (some f) s).1 = PMQT_CONTINUE ∧
    (pmqt_search t.root q (some (logged_search f)) (s, [])).2.2 =
      (t.root.leaves.filter (search_target q)).map (fun L => (L, 0)) := by
  obtain ⟨hinv, hblack⟩ := reachable_inv min_x min_y max_x max_y t hr
  have hz := traces_zero _ _ (search_traces (fun i => i = 0) f hf q t.root) (s, [])
  have he := search_logged_erase f q t.root (s, [])
  refine ⟨he.1.symm.trans hz.1, ?_⟩
  rw [hz.2, List.nil_append, search_visits_eq_filter q t.root hinv]
  intro hb
  rw [hblack] at hb
  exact absurd hb (by simp)

/-- Witness of C2 on the tree of the example: the search for the inserted edge
reports the four black leaves. -/
theorem search_visit_set_witness :
    (pmqt_search example_tree.root example_edge (some idle_search) ()).1 = PMQT_CONTINUE ∧
    (pmqt_search example_tree.root example_edge (some (logged_search idle_search)) ((), [])).2.2 =
      (example_tree.root.leaves.filter (search_target example_edge)).map (fun L => (L, 0)) :=
  search_visit_set 0 0 100 100 example_tree
    (reachable.step 3 example_edge .PMQT_OK reachable.init example_tree_eq) example_edge
    idle_search (fun _ _ _ => rfl) ()


/-- C3 (out-of-bounds rejection).  For every tree and edge, `pmqt_insert` returns
`PMQT_ERR_OOB` exactly when an endpoint of the edge fails the inclusive test
`pmqt_point_in_bounds` against the bounds of the root, and then the tree it leaves
is the tree it was given. -/
theorem out_of_bounds_rejection (fuel : Nat) (tree : pmqt) (edge : pmqt_edge) :
    ((∃ t1, pmqt_insert fuel tree edge = some (.PMQT_ERR_OOB, t1)) ↔
      (pmqt_point_in_bounds edge.a tree.root.bounds = false ∨
        pmqt_point_in_bounds edge.b tree.root.bounds = false)) ∧
    (∀ t1, pmqt_insert fuel tree edge = some (.PMQT_ERR_OOB, t1) → t1 = tree) := by
  have hcode : ∀ t1, pmqt_insert fuel tree edge = some (.PMQT_ERR_OOB, t1) →
      (pmqt_point_in_bounds edge.a tree.root.bounds = false ∨
        pmqt_point_in_bounds edge.b tree.root.bounds = false) ∧ t1 = tree := by
    intro t1 h
    rcases insert_cases fuel tree edge _ t1 h with ⟨ho, _, ht⟩ | ⟨_, _, hi⟩
    · exact ⟨ho, ht⟩
    · rcases insert_edge_code _ _ _ _ _ hi with h0 | h0 <;> exact absurd h0 (by simp)
  refine ⟨⟨fun ⟨t1, h⟩ => (hcode t1 h).1, fun ho => ⟨tree, ?_⟩⟩, fun t1 h => (hcode t1 h).2⟩
  unfold pmqt_insert
  rcases ho with ho | ho <;> simp [ho]

/-- The events of a full walk on the way down are the nodes in pre-order, those on
the way up the nodes in post-order. -/
theorem walk_events_orders (n : pmqt_node) :
    n.walk_events.filterMap walk_event.descended = n.preorder ∧
    n.walk_events.filterMap walk_event.ascended = n.postorder := by
  induction n with
  | PMQT_GREY b nw ne sw se i1 i2 i3 i4 =>
    simp only [pmqt_node.walk_events, pmqt_node.preorder, pmqt_node.postorder,
      List.cons_append, List.filterMap_cons, List.filterMap_append, walk_event.descended,
      walk_event.ascended, List.filterMap_nil, i1.1, i2.1, i3.1, i4.1, i1.2, i2.2, i3.2, i4.2,
      List.append_nil, and_self]
  | PMQT_WHITE b => exact ⟨rfl, rfl⟩
  | PMQT_BLACK_POINT b p es => exact ⟨rfl, rfl⟩
  | PMQT_BLACK_EDGE b e => exact ⟨rfl, rfl⟩

/-- The signal and the final state of `pmqt_walk` do not depend on the record. -/
theorem walk_logged_erase {σ : Type} (d a : pmqt_node → σ → Int × σ) (root : pmqt_node) :
    ∀ st : σ × List (walk_event × Int),
      (pmqt_walk root (logged_walk .descend d) (logged_walk .ascend a) st).1 =
        (pmqt_walk root d a st.1).1 ∧
      (pmqt_walk root (logged_walk .descend d) (logged_walk .ascend a) st).2.1 =
        (pmqt_walk root d a st.1).2 := by
  induction root with
  | PMQT_GREY b nw ne sw se i1 i2 i3 i4 =>
    intro st
    have e1 := congrFun
      (walk_grey b nw ne sw se (logged_walk .descend d) (logged_walk .ascend a)) st
    have e2 := congrFun (walk_grey b nw ne sw se d a) st.1
    simp only at e1 e2
    rw [e1, e2]
    exact seq_abort_erase _ _ _ _ (fun _ => ⟨rfl, rfl⟩)
      (seq_abort_erase _ _ _ _
        (seq_abort_erase _ _ _ _ i1
          (seq_abort_erase _ _ _ _ i2 (seq_abort_erase _ _ _ _ i3 i4)))
        (fun _ => ⟨rfl, rfl⟩)) st
  | PMQT_WHITE b =>
    intro st
    have e1 := congrFun
      (walk_leaf (.PMQT_WHITE b) rfl (logged_walk .descend d) (logged_walk .ascend a)) st
    have e2 := congrFun (walk_leaf (.PMQT_WHITE b) rfl d a) st.1
    simp only at e1 e2
    rw [e1, e2]
    exact seq_abort_erase _ _ _ _ (fun _ => ⟨rfl, rfl⟩) (fun _ => ⟨rfl, rfl⟩) st
  | PMQT_BLACK_POINT b p es =>
    intro st
    have e1 := congrFun
      (walk_leaf (.PMQT_BLACK_POINT b p es) rfl (logged_walk .descend d)
        (logged_walk .ascend a)) st
    have e2 := congrFun (walk_leaf (.PMQT_BLACK_POINT b p es) rfl d a) st.1
    simp only at e1 e2
    rw [e1, e2]
    exact seq_abort_erase _ _ _ _ (fun _ => ⟨rfl, rfl⟩) (fun _ => ⟨rfl, rfl⟩) st
  | PMQT_BLACK_EDGE b e =>
    intro st
    have e1 := congrFun
      (walk_leaf (.PMQT_BLACK_EDGE b e) rfl (logged_walk .descend d) (logged_walk .ascend a)) st
    have e2 := congrFun (walk_leaf (.PMQT_BLACK_EDGE b e) rfl d a) st.1
    simp only at e1 e2
    rw [e1, e2]
    exact seq_abort_erase _ _ _ _ (fun _ => ⟨rfl, rfl⟩) (fun _ => ⟨rfl, rfl⟩) st

/-- C8 (structural walk order).  With callbacks that always return zero, `pmqt_walk`
returns zero and its calls are those of `walk_events`: down on a node, then the walks
of the children of a grey node in the order nw, ne, sw, se, then up on the node.  So
the calls on the way down visit every node once in pre-order and the calls on the
way up every node once in post-order. -/
theorem walk_order {σ : Type} (root : pmqt_node) (d a : pmqt_node → σ → Int × σ)
    (hd : ∀ n s, (d n s).1 = 0) (ha : ∀ n s, (a n s).1 = 0) (s : σ) :
    (pmqt_walk root d a s).1 = 0 ∧
    (pmqt_walk root (logged_walk .descend d) (logged_walk .ascend a) (s, [])).2.2 =
      root.walk_events.map (fun ev => (ev, 0)) ∧
    ((pmqt_walk root (logged_walk .descend d) (logged_walk .ascend a) (s, [])).2.2.map
      Prod.fst).filterMap walk_event.descended = root.preorder ∧
    ((pmqt_walk root (logged_walk .descend d) (logged_walk .ascend a) (s, [])).2.2.map
      Prod.fst).filterMap walk_event.ascended = root.postorder := by
  have hz := traces_zero _ _ (walk_traces (fun i => i = 0) d a hd ha root) (s, [])
  have he := walk_logged_erase d a root (s, [])
  have hm : (root.walk_events.map (fun ev => (ev, (0 : Int)))).map Prod.fst =
      root.walk_events := by
    rw [List.map_map]
    exact List.map_id _
  rw [List.nil_append] at hz
  refine ⟨he.1.symm.trans hz.1, hz.2, ?_, ?_⟩
  · rw [hz.2, hm]; exact (walk_events_orders root).1
  · rw [hz.2, hm]; exact (walk_events_orders root).2

/-- Witness of C8 on the tree of the example, with callbacks that do nothing. -/
theorem walk_order_witness :
    (pmqt_walk example_tree.root idle_walk idle_walk ()).1 = 0 ∧
    (pmqt_walk example_tree.root (logged_walk .descend idle_walk)
      (logged_walk .ascend idle_walk) ((), [])).2.2 =
      example_tree.root.walk_events.map (fun ev => (ev, 0)) ∧
    ((pmqt_walk example_tree.root (logged_walk .descend idle_walk)
      (logged_walk .ascend idle_walk) ((), [])).2.2.map
      Prod.fst).filterMap walk_event.descended = example_tree.root.preorder ∧
    ((pmqt_walk example_tree.root (logged_walk .descend idle_walk)
      (logged_walk .ascend idle_walk) ((), [])).2.2.map
      Prod.fst).filterMap walk_event.ascended = example_tree.root.postorder :=
  walk_order example_tree.root idle_walk idle_walk (fun _ _ => rfl) (fun _ _ => rfl) ()

/-- C9 (cooperative abort).  For `pmqt_walk` and for `pmqt_search` with any callbacks:
the traversal returns the same signal with and without the record; if a recorded call
returned a signal other than zero, the traversal returns that signal, the call is the
last one of the record and all calls before it returned zero; if no call did, the
traversal returns zero; and the calls made are a beginning of the calls of the same
traversal with the signals of the callbacks replaced by zero. -/
theorem cooperative_abort {σ : Type} (root : pmqt_node) (d a : pmqt_node → σ → Int × σ)
    (q : pmqt_edge) (f : pmqt_node → pmqt_edge → σ → Int × σ) (s : σ) :
    ((pmqt_walk root (logged_walk .descend d) (logged_walk .ascend a) (s, [])).1 =
        (pmqt_walk root d a s).1 ∧
      (∀ x ∈ (pmqt_walk root (logged_walk .descend d) (logged_walk .ascend a) (s, [])).2.2,
        x.2 ≠ 0 →
        (pmqt_walk root d a s).1 = x.2 ∧
        ∃ pre, (pmqt_walk root (logged_walk .descend d) (logged_walk .ascend a) (s, [])).2.2 =
          pre ++ [x] ∧ ∀ y ∈ pre, y.2 = 0) ∧
      ((∀ x ∈ (pmqt_walk root (logged_walk .descend d) (logged_walk .ascend a) (s, [])).2.2,
        x.2 = 0) → (pmqt_walk root d a s).1 = 0) ∧
      (pmqt_walk root (logged_walk .descend d) (logged_walk .ascend a) (s, [])).2.2.map Prod.fst
        <+: (pmqt_walk root (logged_walk .descend (continue_walk d))
          (logged_walk .ascend (continue_walk a)) (s, [])).2.2.map Prod.fst) ∧
    ((pmqt_search root q (some (logged_search f)) (s, [])).1 = (pmqt_search root q (some f) s).1 ∧
      (∀ x ∈ (pmqt_search root q (some (logged_search f)) (s, [])).2.2, x.2 ≠ 0 →
        (pmqt_search root q (some f) s).1 = x.2 ∧
        ∃ pre, (pmqt_search root q (some (logged_search f)) (s, [])).2.2 = pre ++ [x] ∧
          ∀ y ∈ pre, y.2 = 0) ∧
      ((∀ x ∈ (pmqt_search root q (some (logged_search f)) (s, [])).2.2, x.2 = 0) →
        (pmqt_search root q (some f) s).1 = 0) ∧
      (pmqt_search root q (some (logged_search f)) (s, [])).2.2.map Prod.fst
        <+: (pmqt_search root q (some (logged_search (continue_search f)))
          (s, [])).2.2.map Prod.fst) := by
  constructor
  · have hw := traces_abort _ _ _
      (walk_traces (fun _ => True) d a (fun _ _ => trivial) (fun _ _ => trivial) root) s
    have he := (walk_logged_erase d a root (s, [])).1
    have h0 := traces_zero _ _ (walk_traces (fun i => i = 0) (continue_walk d) (continue_walk a)
      (fun _ _ => rfl) (fun _ _ => rfl) root) (s, [])
    have hm : (root.walk_events.map (fun ev => (ev, (0 : Int)))).map Prod.fst =
        root.walk_events := by
      rw [List.map_map]
      exact List.map_id _
    simp only at he
    refine ⟨he, ?_, ?_, ?_⟩
    · intro x hx h
      rw [← he]
      exact hw.2.1 x hx h
    · intro h
      rw [← he]
      exact hw.2.2 h
    · rw [h0.2, List.nil_append, hm]
      exact hw.1
  · have hw := traces_abort _ _ _ (search_traces (fun _ => True) f (fun _ _ _ => trivial) q root) s
    have he := (search_logged_erase f q root (s, [])).1
    have h0 := traces_zero _ _ (search_traces (fun i => i = 0) (continue_search f)
      (fun _ _ _ => rfl) q root) (s, [])
    have hm : ((root.search_visits q).map (fun ev => (ev, (0 : Int)))).map Prod.fst =
        root.search_visits q := by
      rw [List.map_map]
      exact List.map_id _
    simp only at he
    refine ⟨he, ?_, ?_, ?_⟩
    · intro x hx h
      rw [← he]
      exact hw.2.1 x hx h
    · intro h
      rw [← he]
      exact hw.2.2 h
    · rw [h0.2, List.nil_append, hm]
      exact hw.1

/-- C10 (containment invariant).  In every tree reachable from a new tree by calls of
`pmqt_insert`, whatever they returned, the anchor of every black (point) leaf lies in the
bounds of the leaf, and no endpoint of the edge of a black (edge) leaf lies in the bounds
of the leaf while the edge overlaps them. -/
theorem containment_invariant (min_x min_y max_x max_y : pmqt_float_t) (t : pmqt)
    (hr : reachable (pmqt_new min_x min_y max_x max_y) t) :
    ∀ L ∈ t.root.leaves,
      (∀ b p es, L = .PMQT_BLACK_POINT b p es → pmqt_point_in_bounds p b = true) ∧
      (∀ b e, L = .PMQT_BLACK_EDGE b e →
        pmqt_point_in_bounds e.a b = false ∧ pmqt_point_in_bounds e.b b = false ∧
        pmqt_edge_intersect_bounds e b = true) := by
  intro L hL
  have hi := leaves_inv t.root (reachable_inv min_x min_y max_x max_y t hr).1 L hL
  constructor
  · rintro b p es rfl
    exact hi.2
  · rintro b e rfl
    exact hi.2

/-- Witness of C10 on the tree of the example: its black (point) leaf at (10, 10) and
its black (edge) leaf in the north-west. -/
theorem containment_invariant_witness :
    pmqt_point_in_bounds ⟨10, 10⟩ ⟨⟨0, 50⟩, ⟨50, 0⟩, 50, 50⟩ = true ∧
    (pmqt_point_in_bounds example_edge.a ⟨⟨0, 100⟩, ⟨50, 50⟩, 50, 50⟩ = false ∧
      pmqt_point_in_bounds example_edge.b ⟨⟨0, 100⟩, ⟨50, 50⟩, 50, 50⟩ = false ∧
      pmqt_edge_intersect_bounds example_edge ⟨⟨0, 100⟩, ⟨50, 50⟩, 50, 50⟩ = true) :=
  ⟨(containment_invariant 0 0 100 100 example_tree
      (reachable.step 3 example_edge .PMQT_OK reachable.init example_tree_eq)
      (.PMQT_BLACK_POINT ⟨⟨0, 50⟩, ⟨50, 0⟩, 50, 50⟩ ⟨10, 10⟩ [example_edge])
      (by simp [example_tree, pmqt_node.leaves])).1 _ _ _ rfl,
    (containment_invariant 0 0 100 100 example_tree
      (reachable.step 3 example_edge .PMQT_OK reachable.init example_tree_eq)
      (.PMQT_BLACK_EDGE ⟨⟨0, 100⟩, ⟨50, 50⟩, 50, 50⟩ example_edge)
      (by simp [example_tree, pmqt_node.leaves])).2 _ _ rfl⟩


/-- A black node is its only leaf. -/
theorem leaves_of_blocks (n : pmqt_node) (e : pmqt_edge) (hb : n.blocks e) : n.leaves = [n] := by
  cases n with
  | PMQT_WHITE b => exact absurd hb (by simp [pmqt_node.blocks])
  | PMQT_GREY b _ _ _ _ => exact absurd hb (by simp [pmqt_node.blocks])
  | PMQT_BLACK_POINT b p es => rfl
  | PMQT_BLACK_EDGE b e0 => rfl

/-- A black node without degenerate bounds is a tree without degenerate bounds. -/
theorem nondegenerate_of_blocks (n : pmqt_node) (e : pmqt_edge) (hb : n.blocks e)
    (hd : ¬ degenerate n.bounds) : n.nondegenerate := by
  cases n with
  | PMQT_WHITE b => exact absurd hb (by simp [pmqt_node.blocks])
  | PMQT_GREY b _ _ _ _ => exact absurd hb (by simp [pmqt_node.blocks])
  | PMQT_BLACK_POINT b p es => exact hd
  | PMQT_BLACK_EDGE b e0 => exact hd

/-- No leaf of a freshly split node is black. -/
theorem split_grey_leaves (b : pmqt_bounds) (e : pmqt_edge) :
    ∀ L ∈ (pmqt_split_grey b).leaves, ¬ L.blocks e := by
  obtain ⟨e1, e2, e3, e4⟩ := split_children_white b
  intro L hL
  unfold pmqt_split_grey at hL
  rw [mem_leaves_grey, e1, e2, e3, e4] at hL
  simp only [pmqt_node.leaves, List.mem_singleton] at hL
  rcases hL with h | h | h | h <;> rw [h] <;> simp [pmqt_node.blocks]

/-- After the loop of `pmqt_split_node` on a freshly split node without degenerate
bounds the tree is without degenerate bounds. -/
theorem split_loop_nondegenerate (M : pmqt_node → pmqt_edge → pmqt_err → pmqt_node → Prop)
    (f : Nat) (b : pmqt_bounds) (hd : ¬ degenerate b) (es : List pmqt_edge) (r : pmqt_err)
    (n1 : pmqt_node) (hl : split_loop_rel M f (pmqt_split_grey b) es r n1) :
    n1.nondegenerate ∧ r = .PMQT_OK :=
  split_loop_rel_fold M (fun m => m.nondegenerate) (fun r0 => r0 = .PMQT_OK) rfl f
    (fun m e0 r0 m1 heq _ hP =>
      ⟨(insert_edge_nondegenerate f m e0 r0 m1 heq hP).2,
        (insert_edge_nondegenerate f m e0 r0 m1 heq hP).1⟩)
    es (pmqt_split_grey b) r n1 hl (split_grey_nondegenerate b hd)

/-- In exact arithmetic a call of `pmqt_insert_edge` that returns `PMQT_ERR_INTRSCT`
has met a black leaf with degenerate bounds that the edge hits and that was in the tree
before the call, and has left that leaf in the tree: halving a width that is not zero
never gives zero. -/
theorem insert_edge_intrsct (f : Nat) (n : pmqt_node) (e : pmqt_edge) (n1 : pmqt_node)
    (h : pmqt_insert_edge f n e = some (.PMQT_ERR_INTRSCT, n1)) :
    ∃ L ∈ n.leaves, L ∈ n1.leaves ∧ L.blocks e ∧ edge_hits e L.bounds = true ∧
      degenerate L.bounds := by
  refine insert_edge_induction (fun n e r n1 => r = .PMQT_ERR_INTRSCT →
    ∃ L ∈ n.leaves, L ∈ n1.leaves ∧ L.blocks e ∧ edge_hits e L.bounds = true ∧
      degenerate L.bounds)
    ?_ ?_ ?_ ?_ ?_ ?_ ?_ ?_ ?_ ?_ ?_ ?_ ?_ ?_ f n e _ n1 h rfl
  · intro _ b e _ _ _ _ _ ih hr
    obtain ⟨L, hL, _, hb, _⟩ := ih hr
    exact absurd hb (split_grey_leaves b e L hL)
  · intro _ _ _ _ hr; exact absurd hr (by simp)
  · intro _ _ _ _ hr; exact absurd hr (by simp)
  · intro _ _ _ _ _ hr; exact absurd hr (by simp)
  · intro _ _ _ _ _ hr; exact absurd hr (by simp)
  · intro _ b nw ne sw se e r1 n1 _ ih _ hr
    obtain ⟨L, h1, h2, h3⟩ := ih hr
    exact ⟨L, (mem_leaves_grey _ _ _ _ _ _).mpr (Or.inl h1),
      (mem_leaves_grey _ _ _ _ _ _).mpr (Or.inl h2), h3⟩
  · intro _ b nw ne sw se e n1 r2 n2 _ _ _ ih _ hr
    obtain ⟨L, h1, h2, h3⟩ := ih hr
    exact ⟨L, (mem_leaves_grey _ _ _ _ _ _).mpr (Or.inr (Or.inl h1)),
      (mem_leaves_grey _ _ _ _ _ _).mpr (Or.inr (Or.inl h2)), h3⟩
  · intro _ b nw ne sw se e n1 n2 r3 n3 _ _ _ _ _ ih _ hr
    obtain ⟨L, h1, h2, h3⟩ := ih hr
    exact ⟨L, (mem_leaves_grey _ _ _ _ _ _).mpr (Or.inr (Or.inr (Or.inl h1))),
      (mem_leaves_grey _ _ _ _ _ _).mpr (Or.inr (Or.inr (Or.inl h2))), h3⟩
  · intro _ b nw ne sw se e n1 n2 n3 r4 n4 _ _ _ _ _ _ _ ih hr
    obtain ⟨L, h1, h2, h3⟩ := ih hr
    exact ⟨L, (mem_leaves_grey _ _ _ _ _ _).mpr (Or.inr (Or.inr (Or.inr h1))),
      (mem_leaves_grey _ _ _ _ _ _).mpr (Or.inr (Or.inr (Or.inr h2))), h3⟩
  · intro _ _ _ _ _ hr; exact absurd hr (by simp)
  · intro _ _ _ _ hr; exact absurd hr (by simp)
  · intro n e hb hh hd _
    have hl := leaves_of_blocks n e hb
    exact ⟨n, by rw [hl]; simp, by rw [hl]; simp, hb, hh, hd⟩
  · intro f1 f2 b e0 e r1 n1 r n2 _ hd h1 _ h2 _ hr
    have hn1 := (insert_edge_nondegenerate f1 _ e0 r1 n1 h1 (split_grey_nondegenerate b hd)).2
    have := (insert_edge_nondegenerate f2 n1 e r n2 h2 hn1).1
    rw [hr] at this
    exact absurd this (by simp)
  · intro f1 f2 b p es e r1 n1 r n2 _ _ hd hl h2 _ hr
    have hn1 := (split_loop_nondegenerate _ f1 b hd es r1 n1 hl).1
    have := (insert_edge_nondegenerate f2 n1 e r n2 h2 hn1).1
    rw [hr] at this
    exact absurd this (by simp)


/-! ## Insertion of an edge of length zero -/

/-- On a grey node `pmqt_insert_edge` runs out of fuel as soon as it does so on one
child and returns `PMQT_OK` on the children before it. -/
theorem insert_edge_grey_none (f : Nat) (b : pmqt_bounds) (nw ne sw se : pmqt_node)
    (e : pmqt_edge)
    (hall : ∀ c, c = nw ∨ c = ne ∨ c = sw ∨ c = se →
      pmqt_insert_edge f c e = none ∨ ∃ c1, pmqt_insert_edge f c e = some (.PMQT_OK, c1))
    (hex : ∃ c, (c = nw ∨ c = ne ∨ c = sw ∨ c = se) ∧ pmqt_insert_edge f c e = none) :
    pmqt_insert_edge (f + 1) (.PMQT_GREY b nw ne sw se) e = none := by
  rw [insert_edge_grey]
  rcases hall nw (Or.inl rfl) with h1 | ⟨c1, h1⟩
  · rw [h1]; rfl
  · rw [h1]
    simp only [Option.some_bind, ne_eq, not_true_eq_false, if_false]
    rcases hall ne (Or.inr (Or.inl rfl)) with h2 | ⟨c2, h2⟩
    · rw [h2]; rfl
    · rw [h2]
      simp only [Option.some_bind, ne_eq, not_true_eq_false, if_false]
      rcases hall sw (Or.inr (Or.inr (Or.inl rfl))) with h3 | ⟨c3, h3⟩
      · rw [h3]; rfl
      · rw [h3]
        simp only [Option.some_bind, ne_eq, not_true_eq_false, if_false]
        rcases hall se (Or.inr (Or.inr (Or.inr rfl))) with h4 | ⟨c4, h4⟩
        · rw [h4]; rfl
        · obtain ⟨c, hc, hnone⟩ := hex
          rcases hc with rfl | rfl | rfl | rfl
          · rw [h1] at hnone; exact absurd hnone (by simp)
          · rw [h2] at hnone; exact absurd hnone (by simp)
          · rw [h3] at hnone; exact absurd hnone (by simp)
          · rw [h4] at hnone; exact absurd hnone (by simp)

/-- On a white node that holds none of the endpoints `pmqt_insert_edge` returns
`PMQT_OK` at once. -/
theorem insert_edge_white_outside (f : Nat) (b : pmqt_bounds) (e : pmqt_edge)
    (ha : pmqt_point_in_bounds e.a b = false) (hb : pmqt_point_in_bounds e.b b = false) :
    ∃ c1, pmqt_insert_edge (f + 1) (.PMQT_WHITE b) e = some (.PMQT_OK, c1) := by
  rw [insert_edge_white, if_neg (by rw [ha]; simp), if_neg (by rw [ha]; simp),
    if_neg (by rw [hb]; simp)]
  split_ifs
  · exact ⟨_, rfl⟩
  · exact ⟨_, rfl⟩

/-- The insertion of the edge from `p` to `p` into a white node that holds `p` never
returns: the node is split, and a child holds `p` again. -/
theorem insert_edge_zero_length (p : pmqt_point) :
    ∀ (f : Nat) (b : pmqt_bounds), wf_bounds b → pmqt_point_in_bounds p b = true →
      pmqt_insert_edge f (.PMQT_WHITE b) ⟨p, p⟩ = none := by
  intro f
  induction f using Nat.strong_induction_on with
  | _ f ih =>
    intro b hw hp
    cases f with
    | zero => exact insert_edge_zero _ _
    | succ f =>
      rw [insert_edge_white, if_pos ⟨hp, hp⟩]
      cases f with
      | zero => rw [split_node_zero]; rfl
      | succ f =>
        rw [split_node_white, Option.some_bind]
        obtain ⟨w1, w2, w3, w4⟩ := split_children_wf b
        obtain ⟨e1, e2, e3, e4⟩ := split_children_white b
        have child : ∀ cb : pmqt_bounds, wf_bounds cb →
            (pmqt_insert_edge f (.PMQT_WHITE cb) ⟨p, p⟩ = none ∨
              ∃ c1, pmqt_insert_edge f (.PMQT_WHITE cb) ⟨p, p⟩ = some (.PMQT_OK, c1)) ∧
            (pmqt_point_in_bounds p cb = true →
              pmqt_insert_edge f (.PMQT_WHITE cb) ⟨p, p⟩ = none) := by
          intro cb hc
          cases hin : pmqt_point_in_bounds p cb
          · refine ⟨?_, fun h => absurd h (by simp)⟩
            cases f with
            | zero => exact Or.inl (insert_edge_zero _ _)
            | succ f => exact Or.inr (insert_edge_white_outside f _ _ hin hin)
          · have := ih f (by omega) cb hc hin
            exact ⟨Or.inl this, fun _ => this⟩
        have c1 := child _ w1
        have c2 := child _ w2
        have c3 := child _ w3
        have c4 := child _ w4
        rw [← e1] at c1
        rw [← e2] at c2
        rw [← e3] at c3
        rw [← e4] at c4
        apply insert_edge_grey_none
        · rintro c (rfl | rfl | rfl | rfl)
          · exact c1.1
          · exact c2.1
          · exact c3.1
          · exact c4.1
        · rcases split_children_cover b hw p hp with h | h | h | h
          · exact ⟨_, Or.inl rfl, c1.2 h⟩
          · exact ⟨_, Or.inr (Or.inl rfl), c2.2 h⟩
          · exact ⟨_, Or.inr (Or.inr (Or.inl rfl)), c3.2 h⟩
          · exact ⟨_, Or.inr (Or.inr (Or.inr rfl)), c4.2 h⟩

/-- C6 (the code at the failing input).  On the new tree over the square from (0, 0) to
(100, 100), `pmqt_insert` of the edge from (0, 100) to (0, 100), whose endpoints lie in
the bounds of the root, returns with no amount of fuel: the white node that holds
both endpoints is split and the insertion is retried below it without end. -/
theorem insert_zero_length_diverges :
    ∀ fuel : Nat, pmqt_insert fuel (pmqt_new 0 0 100 100) ⟨⟨0, 100⟩, ⟨0, 100⟩⟩ = none := by
  intro fuel
  have hp : pmqt_point_in_bounds ⟨0, 100⟩ (pmqt_new 0 0 100 100).root.bounds = true := by
    decide!
  have hw : wf_bounds (pmqt_new 0 0 100 100).root.bounds := new_with_bounds_wf _ _ _ _
  have h := insert_edge_zero_length ⟨0, 100⟩ fuel _ hw hp
  unfold pmqt_insert
  simp only [hp, Bool.not_true, Bool.or_self, Bool.false_eq_true, if_false]
  have hroot : (pmqt_new 0 0 100 100).root = .PMQT_WHITE (pmqt_new 0 0 100 100).root.bounds := rfl
  rw [hroot, h]


/-! ## Every leaf refers to the inserted edges that hit it -/

theorem point_in_bounds_mono (p : pmqt_point) (c b : pmqt_bounds) (hin : c.inside b)
    (h : pmqt_point_in_bounds p c = true) : pmqt_point_in_bounds p b = true := by
  rw [point_in_bounds_iff] at h ⊢
  obtain ⟨i1, i2, i3, i4⟩ := hin
  obtain ⟨h1, h2, h3, h4⟩ := h
  exact ⟨i1.trans h1, h2.trans i4, h3.trans i2, i3.trans h4⟩

/-- The collision test is monotone in the rectangle. -/
theorem edge_hits_mono (e : pmqt_edge) (c b : pmqt_bounds) (hin : c.inside b)
    (h : edge_hits e c = true) : edge_hits e b = true := by
  simp only [edge_hits, Bool.or_eq_true] at h ⊢
  rcases h with (h | h) | h
  · exact Or.inl (Or.inl (point_in_bounds_mono _ _ _ hin h))
  · exact Or.inl (Or.inr (point_in_bounds_mono _ _ _ hin h))
  · exact Or.inr (edge_intersect_bounds_mono _ _ _ hin h)

theorem covers_grey (b : pmqt_bounds) (nw ne sw se : pmqt_node) (S : List pmqt_edge) :
    (pmqt_node.PMQT_GREY b nw ne sw se).covers S ↔
      nw.covers S ∧ ne.covers S ∧ sw.covers S ∧ se.covers S := by
  simp only [pmqt_node.covers, mem_leaves_grey]
  constructor
  · intro h
    exact ⟨fun L hL => h L (Or.inl hL), fun L hL => h L (Or.inr (Or.inl hL)),
      fun L hL => h L (Or.inr (Or.inr (Or.inl hL))), fun L hL => h L (Or.inr (Or.inr (Or.inr hL)))⟩
  · rintro ⟨h1, h2, h3, h4⟩ L (hL | hL | hL | hL)
    · exact h1 L hL
    · exact h2 L hL
    · exact h3 L hL
    · exact h4 L hL

/-- A tree that covers `S1` covers every list whose edges, as far as they hit the
bounds of the tree, are in `S1`. -/
theorem covers_of_subset (n : pmqt_node) (hn : n.inv) (S1 S2 : List pmqt_edge)
    (h1 : n.covers S1) (hsub : ∀ e ∈ S2, edge_hits e n.bounds = true → e ∈ S1) :
    n.covers S2 := by
  intro L hL e he hh
  exact h1 L hL e (hsub e he (edge_hits_mono e _ _ (leaves_inside n hn L hL) hh)) hh

theorem covers_nil (n : pmqt_node) : n.covers [] := by
  intro L _ e he
  exact absurd he (by simp)

/-- On a tree that is a single leaf. -/
theorem covers_leaf (n : pmqt_node) (hleaf : n.leaves = [n]) (S : List pmqt_edge) :
    n.covers S ↔ ∀ e ∈ S, edge_hits e n.bounds = true → n.holds e := by
  unfold pmqt_node.covers
  rw [hleaf]
  simp only [List.mem_singleton, forall_eq]

/-- What the loop of `pmqt_split_node` leaves, when every call in it maps a tree that
covers a list to one that covers the list with the new edge. -/
theorem split_loop_covers (f : Nat) :
    ∀ (es : List pmqt_edge) (n : pmqt_node) (S0 : List pmqt_edge) (r : pmqt_err)
      (n1 : pmqt_node),
      split_loop_rel (fun n e r n1 => ∀ S : List pmqt_edge, n.inv → n.covers S →
        r = .PMQT_OK → n1.covers (e :: S)) f n es r n1 →
      n.inv → n.nondegenerate → n.covers S0 →
      n1.inv ∧ n1.bounds = n.bounds ∧ n1.nondegenerate ∧ n1.covers (es.reverse ++ S0) := by
  intro es
  induction es with
  | nil =>
    rintro n S0 r n1 ⟨_, rfl⟩ hi hn hc
    exact ⟨hi, rfl, hn, hc⟩
  | cons e es ih =>
    rintro n S0 r n1 ⟨r0, n0, heq, hM, h⟩ hi hn hc
    have hnd := insert_edge_nondegenerate f n e r0 n0 heq hn
    have hiv := insert_edge_inv f n e r0 n0 heq
    rcases h with ⟨hne, _, _⟩ | ⟨_, hl⟩
    · exact absurd hnd.1 hne
    · have := ih n0 (e :: S0) r n1 hl (hiv.2 hi) hnd.2 (hM S0 hi hc hnd.1)
      refine ⟨this.1, this.2.1.trans hiv.1, this.2.2.1, ?_⟩
      rw [List.reverse_cons, List.append_assoc]
      exact this.2.2.2

/-- A call of `pmqt_insert_edge` that returns `PMQT_OK` on a tree that covers `S`
leaves a tree that covers `S` and the new edge. -/
theorem insert_edge_covers (f : Nat) (n : pmqt_node) (e : pmqt_edge) (n1 : pmqt_node)
    (h : pmqt_insert_edge f n e = some (.PMQT_OK, n1)) (S : List pmqt_edge) (hi : n.inv)
    (hc : n.covers S) : n1.covers (e :: S) := by
  refine insert_edge_induction (fun n e r n1 => ∀ S : List pmqt_edge, n.inv → n.covers S →
      r = .PMQT_OK → n1.covers (e :: S))
    ?_ ?_ ?_ ?_ ?_ ?_ ?_ ?_ ?_ ?_ ?_ ?_ ?_ ?_ f n e _ n1 h S hi hc rfl
  · intro _ b e r n1 _ _ _ ih S hi hc hr
    refine ih S (split_grey_inv b hi) ?_ hr
    refine covers_of_subset _ (split_grey_inv b hi) [] S (covers_nil _) ?_
    intro e0 he0 hh
    exact ((covers_leaf (.PMQT_WHITE b) rfl S).mp hc e0 he0 hh).elim
  · intro b e _ _ S _ hc _
    refine (covers_leaf (.PMQT_BLACK_POINT b e.a [e]) rfl _).mpr ?_
    intro e0 he0 hh
    rcases List.mem_cons.mp he0 with rfl | he0
    · exact List.mem_singleton.mpr rfl
    · exact ((covers_leaf (.PMQT_WHITE b) rfl S).mp hc e0 he0 hh).elim
  · intro b e _ _ S _ hc _
    refine (covers_leaf (.PMQT_BLACK_POINT b e.b [e]) rfl _).mpr ?_
    intro e0 he0 hh
    rcases List.mem_cons.mp he0 with rfl | he0
    · exact List.mem_singleton.mpr rfl
    · exact ((covers_leaf (.PMQT_WHITE b) rfl S).mp hc e0 he0 hh).elim
  · intro b e _ _ _ S _ hc _
    refine (covers_leaf (.PMQT_BLACK_EDGE b e) rfl _).mpr ?_
    intro e0 he0 hh
    rcases List.mem_cons.mp he0 with rfl | he0
    · exact rfl
    · exact ((covers_leaf (.PMQT_WHITE b) rfl S).mp hc e0 he0 hh).elim
  · intro b e ha hb hI S _ hc _
    refine (covers_leaf (.PMQT_WHITE b) rfl _).mpr ?_
    intro e0 he0 hh
    rcases List.mem_cons.mp he0 with rfl | he0
    · simp [edge_hits, pmqt_node.bounds, ha, hb, hI] at hh
    · exact (covers_leaf (.PMQT_WHITE b) rfl S).mp hc e0 he0 hh
  · intro _ _ _ _ _ _ _ _ _ _ _ hne _ _ _ hr
    exact absurd hr hne
  · intro _ _ _ _ _ _ _ _ _ _ _ _ _ _ hne _ _ _ hr
    exact absurd hr hne
  · intro _ _ _ _ _ _ _ _ _ _ _ _ _ _ _ _ _ hne _ _ _ hr
    exact absurd hr hne
  · intro _ b nw ne sw se e n1 n2 n3 r4 n4 _ ih1 _ ih2 _ ih3 _ ih4 S hi hc hr
    obtain ⟨_, _, _, _, _, v1, v2, v3, v4⟩ := hi
    obtain ⟨c1, c2, c3, c4⟩ := (covers_grey _ _ _ _ _ _).mp hc
    exact (covers_grey _ _ _ _ _ _).mpr
      ⟨ih1 S v1 c1 rfl, ih2 S v2 c2 rfl, ih3 S v3 c3 rfl, ih4 S v4 c4 hr⟩
  · intro b p es e _ S _ hc _
    refine (covers_leaf (.PMQT_BLACK_POINT b p (es ++ [e])) rfl _).mpr ?_
    intro e0 he0 hh
    rcases List.mem_cons.mp he0 with rfl | he0
    · exact List.mem_append_right _ (List.mem_singleton.mpr rfl)
    · exact List.mem_append_left _
        ((covers_leaf (.PMQT_BLACK_POINT b p es) rfl S).mp hc e0 he0 hh)
  · intro n e hb hmiss S _ hc _
    refine (covers_leaf n (leaves_of_blocks n e hb) _).mpr ?_
    intro e0 he0 hh
    rcases List.mem_cons.mp he0 with rfl | he0
    · rw [hmiss] at hh
      exact absurd hh (by simp)
    · exact (covers_leaf n (leaves_of_blocks n e hb) S).mp hc e0 he0 hh
  · intro _ _ _ _ _ _ _ _ hr
    exact absurd hr (by simp)
  · intro f1 f2 b e0 e r1 n1 r n2 _ hd h1 ih1 _ ih2 S hi hc hr
    have hg := split_grey_inv b hi.1
    have hnd := insert_edge_nondegenerate f1 _ e0 r1 n1 h1 (split_grey_nondegenerate b hd)
    have hiv := insert_edge_inv f1 _ e0 r1 n1 h1
    have hc1 := ih1 [] hg (covers_nil _) hnd.1
    refine ih2 S (hiv.2 hg) ?_ hr
    refine covers_of_subset n1 (hiv.2 hg) [e0] S hc1 ?_
    intro x hx hh
    rw [hiv.1, split_grey_bounds] at hh
    have : e0 = x := (covers_leaf (.PMQT_BLACK_EDGE b e0) rfl S).mp hc x hx hh
    exact List.mem_singleton.mpr this.symm
  · intro f1 f2 b p es e r1 n1 r n2 _ _ hd hl _ ih2 S hi hc hr
    have hg := split_grey_inv b hi.1
    obtain ⟨hi1, hb1, _, hc1⟩ := split_loop_covers f1 es (pmqt_split_grey b) [] r1 n1 hl hg
      (split_grey_nondegenerate b hd) (covers_nil _)
    refine ih2 S hi1 ?_ hr
    refine covers_of_subset n1 hi1 _ S hc1 ?_
    intro x hx hh
    rw [hb1, split_grey_bounds] at hh
    have : x ∈ es := (covers_leaf (.PMQT_BLACK_POINT b p es) rfl S).mp hc x hx hh
    exact List.mem_append_left _ (List.mem_reverse.mpr this)

/-- A point of a segment whose endpoints lie in a rectangle lies in the rectangle. -/
theorem on_segment_in_bounds (p : pmqt_point) (e : pmqt_edge) (b : pmqt_bounds)
    (hp : on_segment p e) (ha : pmqt_point_in_bounds e.a b = true)
    (hb : pmqt_point_in_bounds e.b b = true) : pmqt_point_in_bounds p b = true := by
  rw [point_in_bounds_iff] at ha hb ⊢
  obtain ⟨x1, x2⟩ := on_segment_x_range p e hp
  obtain ⟨y1, y2⟩ := on_segment_y_range p e hp
  exact ⟨(le_min ha.1 hb.1).trans x1, y2.trans (max_le ha.2.1 hb.2.1),
    x2.trans (max_le ha.2.2.1 hb.2.2.1), (le_min ha.2.2.2 hb.2.2.2).trans y1⟩

/-- What a sequence of calls of `pmqt_insert` that all return `PMQT_OK` keeps. -/
theorem built_ok_inv (min_x min_y max_x max_y : pmqt_float_t) (es : List pmqt_edge) (t : pmqt)
    (hb : built_ok (pmqt_new min_x min_y max_x max_y) es t) :
    t.root.inv ∧ t.root.covers es ∧
    ∀ e ∈ es, pmqt_point_in_bounds e.a t.root.bounds = true ∧
      pmqt_point_in_bounds e.b t.root.bounds = true := by
  induction hb with
  | init =>
    exact ⟨new_with_bounds_wf _ _ _ _, covers_nil _, fun e he => absurd he (by simp)⟩
  | step fuel e _ hins ih =>
    rcases insert_cases fuel _ e _ _ hins with ⟨_, hr, _⟩ | ⟨ha, hb, hi⟩
    · exact absurd hr (by simp)
    · have hiv := insert_edge_inv _ _ _ _ _ hi
      refine ⟨hiv.2 ih.1, insert_edge_covers _ _ _ _ hi _ ih.1 ih.2.1, ?_⟩
      intro x hx
      rw [hiv.1]
      rcases List.mem_cons.mp hx with rfl | hx
      · exact ⟨ha, hb⟩
      · exact ih.2.2 x hx

/-- A full search for `q` reports, for every point in the bounds of the tree that `q`
shares with a covered edge, a leaf that refers to the edge. -/
theorem search_visits_of_point (q e : pmqt_edge) (p : pmqt_point) (hpe : on_segment p e)
    (hpq : on_segment p q) (n : pmqt_node) (hn : n.inv) (hc : n.covers [e])
    (hp : pmqt_point_in_bounds p n.bounds = true) :
    ∃ L ∈ n.search_visits q, L.holds e := by
  induction n with
  | PMQT_GREY b nw ne sw se i1 i2 i3 i4 =>
    obtain ⟨hb, b1, b2, b3, b4, v1, v2, v3, v4⟩ := hn
    obtain ⟨c1, c2, c3, c4⟩ := (covers_grey _ _ _ _ _ _).mp hc
    rw [search_visits_grey]
    simp only [pmqt_node.bounds] at hp
    rcases split_children_cover b hb p hp with h | h | h | h
    · rw [← b1] at h
      obtain ⟨L, hL, hh⟩ := i1 v1 c1 h
      refine ⟨L, ?_, hh⟩
      rw [if_pos (edge_intersect_bounds_of_point q _ p hpq h)]
      simp only [List.mem_append]
      exact Or.inl (Or.inl (Or.inl hL))
    · rw [← b2] at h
      obtain ⟨L, hL, hh⟩ := i2 v2 c2 h
      refine ⟨L, ?_, hh⟩
      rw [if_pos (edge_intersect_bounds_of_point q ne.bounds p hpq h)]
      simp only [List.mem_append]
      exact Or.inl (Or.inl (Or.inr hL))
    · rw [← b3] at h
      obtain ⟨L, hL, hh⟩ := i3 v3 c3 h
      refine ⟨L, ?_, hh⟩
      rw [if_pos (edge_intersect_bounds_of_point q sw.bounds p hpq h)]
      simp only [List.mem_append]
      exact Or.inl (Or.inr hL)
    · rw [← b4] at h
      obtain ⟨L, hL, hh⟩ := i4 v4 c4 h
      refine ⟨L, ?_, hh⟩
      rw [if_pos (edge_intersect_bounds_of_point q se.bounds p hpq h)]
      simp only [List.mem_append]
      exact Or.inr hL
  | PMQT_WHITE b =>
    have hh : edge_hits e b = true := by
      simp only [edge_hits, Bool.or_eq_true]
      exact Or.inr (edge_intersect_bounds_of_point e b p hpe hp)
    exact ((covers_leaf (.PMQT_WHITE b) rfl [e]).mp hc e (List.mem_singleton.mpr rfl) hh).elim
  | PMQT_BLACK_POINT b pt es =>
    have hh : edge_hits e b = true := by
      simp only [edge_hits, Bool.or_eq_true]
      exact Or.inr (edge_intersect_bounds_of_point e b p hpe hp)
    exact ⟨_, List.mem_singleton.mpr rfl,
      (covers_leaf (.PMQT_BLACK_POINT b pt es) rfl [e]).mp hc e (List.mem_singleton.mpr rfl) hh⟩
  | PMQT_BLACK_EDGE b e0 =>
    have hh : edge_hits e b = true := by
      simp only [edge_hits, Bool.or_eq_true]
      exact Or.inr (edge_intersect_bounds_of_point e b p hpe hp)
    exact ⟨_, List.mem_singleton.mpr rfl,
      (covers_leaf (.PMQT_BLACK_EDGE b e0) rfl [e]).mp hc e (List.mem_singleton.mpr rfl) hh⟩

/-- C1 (search completeness).  Let a tree be built from a new tree by calls of
`pmqt_insert` that all returned `PMQT_OK`, in exact arithmetic and with no failing
allocation.  For every query `q` and every inserted edge `e` that shares a point with
`q`, a search from the root whose callback always returns zero passes to the callback
a leaf that refers to `e`: a black (edge) leaf with the edge `e`, or a black (point)
leaf with `e` in its list. -/
theorem search_completeness {σ : Type} (min_x min_y max_x max_y : pmqt_float_t)
    (es : List pmqt_edge) (t : pmqt) (hb : built_ok (pmqt_new min_x min_y max_x max_y) es t)
    (q e : pmqt_edge) (he : e ∈ es) (p : pmqt_point) (hpe : on_segment p e)
    (hpq : on_segment p q) (f : pmqt_node → pmqt_edge → σ → Int × σ)
    (hf : ∀ n e s, (f n e s).1 = 0) (s : σ) :
    ∃ L, L.holds e ∧
      (L, 0) ∈ (pmqt_search t.root q (some (logged_search f)) (s, [])).2.2 := by
  obtain ⟨hinv, hcov, hin⟩ := built_ok_inv min_x min_y max_x max_y es t hb
  have hz := traces_zero _ _ (search_traces (fun i => i = 0) f hf q t.root) (s, [])
  have hc : t.root.covers [e] := by
    intro L hL x hx hh
    rw [List.mem_singleton] at hx
    subst hx
    exact hcov L hL x he hh
  obtain ⟨L, hL, hh⟩ := search_visits_of_point q e p hpe hpq t.root hinv hc
    (on_segment_in_bounds p e _ hpe (hin e he).1 (hin e he).2)
  refine ⟨L, hh, ?_⟩
  rw [hz.2, List.nil_append]
  exact List.mem_map.mpr ⟨L, hL, rfl⟩

/-- Witness of C1 on the tree of the example: the search for the segment from (0, 100)
to (100, 0), which crosses the inserted edge in (50, 50). -/
theorem search_completeness_witness :
    ∃ L, L.holds example_edge ∧
      (L, 0) ∈ (pmqt_search example_tree.root ⟨⟨0, 100⟩, ⟨100, 0⟩⟩
        (some (logged_search idle_search)) ((), [])).2.2 :=
  search_completeness 0 0 100 100 [example_edge] example_tree
    (built_ok.step 3 example_edge built_ok.init example_tree_eq) ⟨⟨0, 100⟩, ⟨100, 0⟩⟩
    example_edge (List.mem_singleton.mpr rfl) ⟨50, 50⟩
    ⟨1 / 2, by norm_num, by norm_num, by norm_num [example_edge], by norm_num [example_edge]⟩
    ⟨1 / 2, by norm_num, by norm_num, by norm_num, by norm_num⟩
    idle_search (fun _ _ _ => rfl) ()


/-! ## The insertion of one edge into a new tree -/

/-- A search for `e` in a tree that holds the single edge `e` reports all black
leaves. -/
theorem search_visits_single (e : pmqt_edge) (n : pmqt_node) (hn : n.single e) :
    n.search_visits e = n.leaves.filter (fun L => L.is_black) := by
  induction n with
  | PMQT_GREY b nw ne sw se i1 i2 i3 i4 =>
    obtain ⟨_, s1, s2, s3, s4⟩ := hn
    have key : ∀ c : pmqt_node, c.single e →
        (c.single e → c.search_visits e = c.leaves.filter (fun L => L.is_black)) →
        (if pmqt_edge_intersect_bounds e c.bounds then c.search_visits e else []) =
          c.leaves.filter (fun L => L.is_black) := by
      intro c hc ih
      cases c with
      | PMQT_WHITE cb => split_ifs <;> rfl
      | PMQT_GREY cb c1 c2 c3 c4 =>
        have h1 : pmqt_edge_intersect_bounds e (pmqt_node.PMQT_GREY cb c1 c2 c3 c4).bounds =
            true := hc.1
        rw [if_pos h1]; exact ih hc
      | PMQT_BLACK_POINT cb p es =>
        have h1 : pmqt_edge_intersect_bounds e (pmqt_node.PMQT_BLACK_POINT cb p es).bounds =
            true := hc.1
        rw [if_pos h1]; exact ih hc
      | PMQT_BLACK_EDGE cb e0 =>
        have h1 : pmqt_edge_intersect_bounds e (pmqt_node.PMQT_BLACK_EDGE cb e0).bounds =
            true := hc.1
        rw [if_pos h1]; exact ih hc
    rw [search_visits_grey, leaves_grey, List.filter_append, List.filter_append,
      List.filter_append, key nw s1 i1, key ne s2 i2, key sw s3 i3, key se s4 i4]
  | PMQT_WHITE b => rfl
  | PMQT_BLACK_POINT b p es => rfl
  | PMQT_BLACK_EDGE b e0 => rfl

/-- The black leaves of a tree that holds the single edge `e`. -/
theorem leaves_single (e : pmqt_edge) (n : pmqt_node) (hn : n.single e) :
    ∀ L ∈ n.leaves, L.is_black = true →
      ∃ b, L = .PMQT_BLACK_POINT b e.a [e] ∨ L = .PMQT_BLACK_POINT b e.b [e] ∨
        L = .PMQT_BLACK_EDGE b e := by
  induction n with
  | PMQT_GREY b nw ne sw se i1 i2 i3 i4 =>
    obtain ⟨_, s1, s2, s3, s4⟩ := hn
    intro L hL
    rcases (mem_leaves_grey b nw ne sw se L).mp hL with h | h | h | h
    · exact i1 s1 L h
    · exact i2 s2 L h
    · exact i3 s3 L h
    · exact i4 s4 L h
  | PMQT_WHITE b =>
    intro L hL hb
    rw [pmqt_node.leaves, List.mem_singleton] at hL
    rw [hL] at hb
    exact absurd hb (by simp [pmqt_node.is_black])
  | PMQT_BLACK_POINT b p es =>
    intro L hL _
    rw [pmqt_node.leaves, List.mem_singleton] at hL
    obtain ⟨_, rfl, hp⟩ := hn
    rcases hp with rfl | rfl
    · exact ⟨b, Or.inl hL⟩
    · exact ⟨b, Or.inr (Or.inl hL)⟩
  | PMQT_BLACK_EDGE b e0 =>
    intro L hL _
    rw [pmqt_node.leaves, List.mem_singleton] at hL
    obtain ⟨_, rfl⟩ := hn
    exact ⟨b, Or.inr (Or.inr hL)⟩

/-- Two points in well-formed bounds are no further apart than the bounds are wide
and high. -/
theorem dist_le_of_in_bounds (p1 p2 : pmqt_point) (b : pmqt_bounds) (hw : wf_bounds b)
    (h1 : pmqt_point_in_bounds p1 b = true) (h2 : pmqt_point_in_bounds p2 b = true) :
    |p2.x - p1.x| ≤ b.width ∧ |p2.y - p1.y| ≤ b.height := by
  rw [point_in_bounds_iff] at h1 h2
  obtain ⟨_, _, w3, w4⟩ := hw
  rw [w3, w4]
  constructor
  · rw [abs_le]; constructor <;> linarith
  · rw [abs_le]; constructor <;> linarith

/-- The insertion of an edge into a white node returns `PMQT_OK` once the fuel exceeds
twice the number of halvings after which the bounds are too small for
both endpoints, and it leaves a tree that holds the single edge. -/
theorem insert_edge_white_returns (e : pmqt_edge) :
    ∀ (k : Nat) (b : pmqt_bounds), wf_bounds b →
      (b.width < |e.b.x - e.a.x| * 2 ^ k ∨ b.height < |e.b.y - e.a.y| * 2 ^ k) →
      ∃ n1, (∀ f, 2 * k + 1 ≤ f →
          pmqt_insert_edge f (.PMQT_WHITE b) e = some (.PMQT_OK, n1)) ∧
        n1.single e ∧ n1.bounds = b ∧
        (pmqt_point_in_bounds e.a b = true → pmqt_point_in_bounds e.b b = true →
          n1.is_grey = true) := by
  intro k
  induction k with
  | zero =>
    intro b hw hk
    have hnot : ¬ (pmqt_point_in_bounds e.a b = true ∧ pmqt_point_in_bounds e.b b = true) := by
      rintro ⟨ha, hb⟩
      have := dist_le_of_in_bounds e.a e.b b hw ha hb
      simp only [pow_zero, mul_one] at hk
      rcases hk with hk | hk
      · exact absurd this.1 (not_le.mpr hk)
      · exact absurd this.2 (not_le.mpr hk)
    by_cases ha : pmqt_point_in_bounds e.a b = true
    · refine ⟨.PMQT_BLACK_POINT b e.a [e], ?_,
        ⟨edge_intersect_bounds_of_point e b e.a (on_segment_a e) ha, rfl, Or.inl rfl⟩, rfl,
        fun _ h => absurd ⟨ha, h⟩ hnot⟩
      intro f hf
      obtain ⟨f, rfl⟩ : ∃ g, f = g + 1 := ⟨f - 1, by omega⟩
      rw [insert_edge_white, if_neg hnot, if_pos ha]
    · by_cases hb : pmqt_point_in_bounds e.b b = true
      · refine ⟨.PMQT_BLACK_POINT b e.b [e], ?_,
          ⟨edge_intersect_bounds_of_point e b e.b (on_segment_b e) hb, rfl, Or.inr rfl⟩, rfl,
          fun h _ => absurd h ha⟩
        intro f hf
        obtain ⟨f, rfl⟩ : ∃ g, f = g + 1 := ⟨f - 1, by omega⟩
        rw [insert_edge_white, if_neg hnot, if_neg ha, if_pos hb]
      · by_cases hI : pmqt_edge_intersect_bounds e b = true
        · refine ⟨.PMQT_BLACK_EDGE b e, ?_, ⟨hI, rfl⟩, rfl, fun h _ => absurd h ha⟩
          intro f hf
          obtain ⟨f, rfl⟩ : ∃ g, f = g + 1 := ⟨f - 1, by omega⟩
          rw [insert_edge_white, if_neg hnot, if_neg ha, if_neg hb, if_pos hI]
        · refine ⟨.PMQT_WHITE b, ?_, trivial, rfl, fun h _ => absurd h ha⟩
          intro f hf
          obtain ⟨f, rfl⟩ : ∃ g, f = g + 1 := ⟨f - 1, by omega⟩
          rw [insert_edge_white, if_neg hnot, if_neg ha, if_neg hb, if_neg hI]
  | succ k ih =>
    intro b hw hk
    by_cases hboth : pmqt_point_in_bounds e.a b = true ∧ pmqt_point_in_bounds e.b b = true
    · obtain ⟨w1, w2, w3, w4⟩ := split_children_wf b
      obtain ⟨e1, e2, e3, e4⟩ := split_children_white b
      obtain ⟨c1, c2, c3, c4⟩ := split_children_bounds b hw
      have hsmall : ∀ cb : pmqt_bounds, cb.width = b.width / 2 → cb.height = b.height / 2 →
          (cb.width < |e.b.x - e.a.x| * 2 ^ k ∨ cb.height < |e.b.y - e.a.y| * 2 ^ k) := by
        intro cb hcw hch
        rw [hcw, hch]
        rw [pow_succ] at hk
        rcases hk with hk | hk
        · left; linarith
        · right; linarith
      obtain ⟨n1, r1, s1, b1, _⟩ := ih _ w1 (hsmall _ (by rw [c1]; rfl) (by rw [c1]; rfl))
      obtain ⟨n2, r2, s2, b2, _⟩ := ih _ w2 (hsmall _ (by rw [c2]; rfl) (by rw [c2]; rfl))
      obtain ⟨n3, r3, s3, b3, _⟩ := ih _ w3 (hsmall _ (by rw [c3]; rfl) (by rw [c3]; rfl))
      obtain ⟨n4, r4, s4, b4, _⟩ := ih _ w4 (hsmall _ (by rw [c4]; rfl) (by rw [c4]; rfl))
      rw [← e1] at r1
      rw [← e2] at r2
      rw [← e3] at r3
      rw [← e4] at r4
      refine ⟨.PMQT_GREY b n1 n2 n3 n4, ?_,
        ⟨edge_intersect_bounds_of_point e b e.a (on_segment_a e) hboth.1, s1, s2, s3, s4⟩, rfl,
        fun _ _ => rfl⟩
      intro f hf
      obtain ⟨f, rfl⟩ : ∃ g, f = g + 2 := ⟨f - 2, by omega⟩
      rw [insert_edge_white, if_pos hboth, split_node_white, Option.some_bind]
      show pmqt_insert_edge (f + 1) (pmqt_split_grey b) e = _
      unfold pmqt_split_grey
      rw [insert_edge_grey, r1 f (by omega), r2 f (by omega), r3 f (by omega), r4 f (by omega)]
      rfl
    · have hf1 : ∀ f, 2 * (k + 1) + 1 ≤ f → ∃ g, f = g + 1 := fun f hf => ⟨f - 1, by omega⟩
      by_cases ha : pmqt_point_in_bounds e.a b = true
      · refine ⟨.PMQT_BLACK_POINT b e.a [e], ?_,
          ⟨edge_intersect_bounds_of_point e b e.a (on_segment_a e) ha, rfl, Or.inl rfl⟩, rfl,
          fun _ h => absurd ⟨ha, h⟩ hboth⟩
        intro f hf
        obtain ⟨f, rfl⟩ := hf1 f hf
        rw [insert_edge_white, if_neg hboth, if_pos ha]
      · by_cases hb : pmqt_point_in_bounds e.b b = true
        · refine ⟨.PMQT_BLACK_POINT b e.b [e], ?_,
            ⟨edge_intersect_bounds_of_point e b e.b (on_segment_b e) hb, rfl, Or.inr rfl⟩, rfl,
            fun h _ => absurd h ha⟩
          intro f hf
          obtain ⟨f, rfl⟩ := hf1 f hf
          rw [insert_edge_white, if_neg hboth, if_neg ha, if_pos hb]
        · by_cases hI : pmqt_edge_intersect_bounds e b = true
          · refine ⟨.PMQT_BLACK_EDGE b e, ?_, ⟨hI, rfl⟩, rfl, fun h _ => absurd h ha⟩
            intro f hf
            obtain ⟨f, rfl⟩ := hf1 f hf
            rw [insert_edge_white, if_neg hboth, if_neg ha, if_neg hb, if_pos hI]
          · refine ⟨.PMQT_WHITE b, ?_, trivial, rfl, fun h _ => absurd h ha⟩
            intro f hf
            obtain ⟨f, rfl⟩ := hf1 f hf
            rw [insert_edge_white, if_neg hboth, if_neg ha, if_neg hb, if_neg hI]

/-- Bounds of any size are too small for two distinct points after enough halvings. -/
theorem exists_halvings (e : pmqt_edge) (hne : e.a ≠ e.b) (b : pmqt_bounds) :
    ∃ k : Nat, b.width < |e.b.x - e.a.x| * 2 ^ k ∨ b.height < |e.b.y - e.a.y| * 2 ^ k := by
  have key : ∀ w d : ℚ, d ≠ 0 → ∃ k : Nat, w < |d| * 2 ^ k := by
    intro w d hd
    have hpos : 0 < |d| := abs_pos.mpr hd
    obtain ⟨n, hn⟩ := exists_nat_gt (w / |d|)
    refine ⟨n, ?_⟩
    have h2 : (n : ℚ) < 2 ^ n := by exact_mod_cast Nat.lt_two_pow n
    have := (div_lt_iff₀ hpos).mp (hn.trans h2)
    linarith
  by_cases hx : e.b.x - e.a.x = 0
  · have hy : e.b.y - e.a.y ≠ 0 := by
      intro hy
      apply hne
      cases hea : e.a
      cases heb : e.b
      rw [hea, heb] at hx hy
      simp only at hx hy
      congr 1 <;> linarith
    obtain ⟨k, hk⟩ := key b.height _ hy
    exact ⟨k, Or.inr hk⟩
  · obtain ⟨k, hk⟩ := key b.width _ hx
    exact ⟨k, Or.inl hk⟩

/-- C7 (single-edge scenario, as amended).  In exact arithmetic and when no allocation
fails: on every new tree and for every edge with two distinct endpoints in the bounds
of the root, `pmqt_insert` returns `PMQT_OK` with enough fuel,
and it returns nothing else with any fuel; the root of the tree `t1` it leaves is grey;
a search of `t1` for the same edge with a callback that always returns zero returns
zero and passes to the callback the black leaves of `t1`, all of them and in their
order; and each black leaf is a black (point) leaf with an endpoint of the edge for
anchor and the edge alone in its list, or a black (edge) leaf with the edge. -/
theorem single_edge_scenario {σ : Type} (min_x min_y max_x max_y : pmqt_float_t)
    (e : pmqt_edge) (hne : e.a ≠ e.b)
    (ha : pmqt_point_in_bounds e.a (pmqt_new min_x min_y max_x max_y).root.bounds = true)
    (hb : pmqt_point_in_bounds e.b (pmqt_new min_x min_y max_x max_y).root.bounds = true)
    (f : pmqt_node → pmqt_edge → σ → Int × σ) (hf : ∀ n q s, (f n q s).1 = 0) (s : σ) :
    ∃ t1 : pmqt,
      (∃ fuel0, ∀ fuel, fuel0 ≤ fuel →
        pmqt_insert fuel (pmqt_new min_x min_y max_x max_y) e = some (.PMQT_OK, t1)) ∧
      (∀ fuel r t2, pmqt_insert fuel (pmqt_new min_x min_y max_x max_y) e = some (r, t2) →
        r = .PMQT_OK ∧ t2 = t1) ∧
      t1.root.is_grey = true ∧
      (pmqt_search t1.root e (some f) s).1 = PMQT_CONTINUE ∧
      (pmqt_search t1.root e (some (logged_search f)) (s, [])).2.2 =
        (t1.root.leaves.filter (fun L => L.is_black)).map (fun L => (L, 0)) ∧
      ∀ L ∈ t1.root.leaves, L.is_black = true →
        ∃ b, L = .PMQT_BLACK_POINT b e.a [e] ∨ L = .PMQT_BLACK_POINT b e.b [e] ∨
          L = .PMQT_BLACK_EDGE b e := by
  have hw : wf_bounds (pmqt_new min_x min_y max_x max_y).root.bounds :=
    new_with_bounds_wf _ _ _ _
  have hroot : (pmqt_new min_x min_y max_x max_y).root =
      .PMQT_WHITE (pmqt_new min_x min_y max_x max_y).root.bounds := rfl
  obtain ⟨k, hk⟩ := exists_halvings e hne (pmqt_new min_x min_y max_x max_y).root.bounds
  obtain ⟨n1, hret, hsingle, _, hgrey⟩ := insert_edge_white_returns e k _ hw hk
  have hins : ∀ fuel, 2 * k + 1 ≤ fuel →
      pmqt_insert fuel (pmqt_new min_x min_y max_x max_y) e = some (.PMQT_OK, ⟨n1⟩) := by
    intro fuel hfuel
    unfold pmqt_insert
    simp only [ha, hb, Bool.not_true, Bool.or_self, Bool.false_eq_true, if_false]
    rw [hroot, hret fuel hfuel]
  have hz := traces_zero _ _ (search_traces (fun i => i = 0) f hf e n1) (s, [])
  have he := search_logged_erase f e n1 (s, [])
  refine ⟨⟨n1⟩, ⟨2 * k + 1, hins⟩, ?_, hgrey ha hb, he.1.symm.trans hz.1, ?_,
    leaves_single e n1 hsingle⟩
  · intro fuel r t2 h
    have := insert_fuel_unique _ _ _ _ _ _ h (hins (2 * k + 1) le_rfl)
    simp only [Prod.mk.injEq] at this
    exact this
  · rw [hz.2, List.nil_append, search_visits_single e n1 hsingle]

/-- Witness of C7: the example of the specification, the edge from (10, 10) to
(90, 90) in the new tree over the square from (0, 0) to (100, 100). -/
theorem single_edge_scenario_witness :
    ∃ t1 : pmqt,
      (∃ fuel0, ∀ fuel, fuel0 ≤ fuel →
        pmqt_insert fuel (pmqt_new 0 0 100 100) example_edge = some (.PMQT_OK, t1)) ∧
      (∀ fuel r t2, pmqt_insert fuel (pmqt_new 0 0 100 100) example_edge = some (r, t2) →
        r = .PMQT_OK ∧ t2 = t1) ∧
      t1.root.is_grey = true ∧
      (pmqt_search t1.root example_edge (some idle_search) ()).1 = PMQT_CONTINUE ∧
      (pmqt_search t1.root example_edge (some (logged_search idle_search)) ((), [])).2.2 =
        (t1.root.leaves.filter (fun L => L.is_black)).map (fun L => (L, 0)) ∧
      ∀ L ∈ t1.root.leaves, L.is_black = true →
        ∃ b, L = .PMQT_BLACK_POINT b example_edge.a [example_edge] ∨
          L = .PMQT_BLACK_POINT b example_edge.b [example_edge] ∨
          L = .PMQT_BLACK_EDGE b example_edge :=
  single_edge_scenario 0 0 100 100 example_edge (by decide!) (by decide!) (by decide!)
    idle_search (fun _ _ _ => rfl) ()


/-! ## Nodes of a reachable tree -/

theorem inv_wf (n : pmqt_node) (hn : n.inv) : wf_bounds n.bounds := by
  cases n with
  | PMQT_WHITE b => exact hn
  | PMQT_GREY b _ _ _ _ => exact hn.1
  | PMQT_BLACK_POINT b p es => exact hn.1
  | PMQT_BLACK_EDGE b e => exact hn.1

/-- The structural invariant of a tree gives that of each of its nodes. -/
theorem preorder_inv (n : pmqt_node) (hn : n.inv) : ∀ m ∈ n.preorder, m.inv := by
  induction n with
  | PMQT_GREY b nw ne sw se i1 i2 i3 i4 =>
    intro m hm
    rw [pmqt_node.preorder, List.mem_cons] at hm
    rcases hm with rfl | hm
    · exact hn
    · obtain ⟨_, _, _, _, _, v1, v2, v3, v4⟩ := hn
      simp only [List.mem_append] at hm
      rcases hm with ((hm | hm) | hm) | hm
      · exact i1 v1 m hm
      · exact i2 v2 m hm
      · exact i3 v3 m hm
      · exact i4 v4 m hm
  | PMQT_WHITE b =>
    intro m hm
    rw [pmqt_node.preorder, List.mem_singleton] at hm
    rw [hm]; exact hn
  | PMQT_BLACK_POINT b p es =>
    intro m hm
    rw [pmqt_node.preorder, List.mem_singleton] at hm
    rw [hm]; exact hn
  | PMQT_BLACK_EDGE b e =>
    intro m hm
    rw [pmqt_node.preorder, List.mem_singleton] at hm
    rw [hm]; exact hn

/-- The tree of the example is reachable. -/
theorem example_tree_reachable : reachable (pmqt_new 0 0 100 100) example_tree :=
  reachable.step 3 example_edge .PMQT_OK reachable.init example_tree_eq

/-- C17 (the overlap test is conservative, as amended).  In exact arithmetic: if a
point of the closed segment from `a` to `b` lies in the closed rectangle `r`, in
particular if `a` or `b` does, then `pmqt_edge_intersect_bounds` returns true; this
holds for every rectangle, well formed or not. -/
theorem overlap_test_conservative (e : pmqt_edge) (r : pmqt_bounds) :
    (∀ p, on_segment p e → pmqt_point_in_bounds p r = true →
      pmqt_edge_intersect_bounds e r = true) ∧
    (pmqt_point_in_bounds e.a r = true → pmqt_edge_intersect_bounds e r = true) ∧
    (pmqt_point_in_bounds e.b r = true → pmqt_edge_intersect_bounds e r = true) :=
  ⟨fun p hp hin => edge_intersect_bounds_of_point e r p hp hin,
    fun h => edge_intersect_bounds_of_point e r e.a (on_segment_a e) h,
    fun h => edge_intersect_bounds_of_point e r e.b (on_segment_b e) h⟩

/-- Witness of C17 (as amended): the edge of the example meets the north-west quarter
of the square in the point (50, 50) alone. -/
theorem overlap_test_conservative_witness :
    pmqt_edge_intersect_bounds example_edge ⟨⟨0, 100⟩, ⟨50, 50⟩, 50, 50⟩ = true :=
  (overlap_test_conservative example_edge ⟨⟨0, 100⟩, ⟨50, 50⟩, 50, 50⟩).1 ⟨50, 50⟩
    ⟨1 / 2, by norm_num, by norm_num, by norm_num [example_edge], by norm_num [example_edge]⟩
    (by decide!)

/-- Well-formed bounds in exact arithmetic.  For all arguments, in any order, the
bounds of the root of a new tree have the corners (min x, max y) and (max x, min y);
and in every tree reachable from it the bounds of every node, the root and the nodes
made by `pmqt_split_node`, have ordered corners and cached sizes that are the
differences of the corners and are not negative. -/
theorem rectangle_well_formed (min_x min_y max_x max_y : pmqt_float_t) (t : pmqt)
    (hr : reachable (pmqt_new min_x min_y max_x max_y) t) :
    (pmqt_new min_x min_y max_x max_y).root.bounds.nw = ⟨min min_x max_x, max min_y max_y⟩ ∧
    (pmqt_new min_x min_y max_x max_y).root.bounds.se = ⟨max min_x max_x, min min_y max_y⟩ ∧
    ∀ n ∈ t.root.preorder,
      n.bounds.nw.x ≤ n.bounds.se.x ∧ n.bounds.se.y ≤ n.bounds.nw.y ∧
      n.bounds.width = n.bounds.se.x - n.bounds.nw.x ∧ 0 ≤ n.bounds.width ∧
      n.bounds.height = n.bounds.nw.y - n.bounds.se.y ∧ 0 ≤ n.bounds.height := by
  refine ⟨rfl, rfl, ?_⟩
  intro n hn
  obtain ⟨h1, h2, h3, h4⟩ :=
    inv_wf n (preorder_inv t.root (reachable_inv min_x min_y max_x max_y t hr).1 n hn)
  exact ⟨h1, h2, h3, by rw [h3]; linarith, h4, by rw [h4]; linarith⟩

/-- Well-formed bounds, at a tree made with the corners given in the other order and
at the north-east child of the root of the tree of the example. -/
theorem rectangle_well_formed_example :
    ((pmqt_new 100 100 0 0).root.bounds.nw = ⟨min 100 0, max 100 0⟩ ∧
      (pmqt_new 100 100 0 0).root.bounds.se = ⟨max 100 0, min 100 0⟩) ∧
    ((50 : ℚ) ≤ 100 ∧ (50 : ℚ) ≤ 100 ∧ (50 : ℚ) = 100 - 50 ∧ (0 : ℚ) ≤ 50 ∧
      (50 : ℚ) = 100 - 50 ∧ (0 : ℚ) ≤ 50) :=
  ⟨⟨(rectangle_well_formed 100 100 0 0 _ reachable.init).1,
      (rectangle_well_formed 100 100 0 0 _ reachable.init).2.1⟩,
    (rectangle_well_formed 0 0 100 100 example_tree example_tree_reachable).2.2
      (.PMQT_BLACK_POINT ⟨⟨50, 100⟩, ⟨100, 50⟩, 50, 50⟩ ⟨90, 90⟩ [example_edge])
      (by simp [example_tree, pmqt_node.preorder])⟩

/-- The return code after the loop of `pmqt_split_node`. -/
theorem split_loop_code (Q : pmqt_err → Prop)
    (ins : pmqt_node → pmqt_edge → Option (pmqt_err × pmqt_node))
    (hins : ∀ n e r n1, ins n e = some (r, n1) → Q r) :
    ∀ (es : List pmqt_edge) (ret : pmqt_err) (n : pmqt_node) (r : pmqt_err) (n1 : pmqt_node),
      Q ret → pmqt_split_loop ins ret n es = some (r, n1) → Q r := by
  intro es
  induction es with
  | nil =>
    intro ret n r n1 hQ h
    simp only [pmqt_split_loop, Option.some.injEq, Prod.mk.injEq] at h
    rw [← h.1]; exact hQ
  | cons e es ih =>
    intro ret n r n1 _ h
    rw [pmqt_split_loop] at h
    cases h0 : ins n e with
    | none => rw [h0] at h; exact absurd h (by simp)
    | some x =>
      obtain ⟨r0, n0⟩ := x
      rw [h0] at h
      simp only at h
      split_ifs at h with hr
      · simp only [Option.some.injEq, Prod.mk.injEq] at h
        rw [← h.1]; exact hins n e r0 n0 h0
      · exact ih r0 n0 r n1 (hins n e r0 n0 h0) h

/-- The return code of `pmqt_split_node` on a node that is not grey is `PMQT_OK` or
`PMQT_ERR_INTRSCT`. -/
theorem split_node_code (f : Nat) (n : pmqt_node) (r : pmqt_err) (n1 : pmqt_node)
    (hn : n.is_grey = false) (h : pmqt_split_node f n = some (r, n1)) :
    r = .PMQT_OK ∨ r = .PMQT_ERR_INTRSCT := by
  cases f with
  | zero => rw [split_node_zero] at h; exact absurd h (by simp)
  | succ f =>
    cases n with
    | PMQT_GREY b _ _ _ _ => exact absurd hn (by simp [pmqt_node.is_grey])
    | PMQT_WHITE b =>
      rw [split_node_white] at h
      simp only [Option.some.injEq, Prod.mk.injEq] at h
      exact Or.inl h.1.symm
    | PMQT_BLACK_POINT b p es =>
      rw [split_node_black_point] at h
      exact split_loop_code (fun r => r = .PMQT_OK ∨ r = .PMQT_ERR_INTRSCT) _
        (fun n e r n1 hi => insert_edge_code f n e r n1 hi) es _ _ r n1 (Or.inl rfl) h
    | PMQT_BLACK_EDGE b e0 =>
      rw [split_node_black_edge] at h
      exact insert_edge_code f _ e0 r n1 h

/-- C20 (no logic error through insert).  On every tree, reachable or not, and for
every edge, `pmqt_insert` never returns `PMQT_ERR_OTHER`, and neither does
`pmqt_insert_edge`; `pmqt_split_node` returns it on a grey node only, on which
`pmqt_insert_edge` does not call it. -/
theorem no_logic_error (fuel : Nat) (t : pmqt) (e : pmqt_edge) (r : pmqt_err) (t1 : pmqt)
    (h : pmqt_insert fuel t e = some (r, t1)) :
    r ≠ .PMQT_ERR_OTHER ∧
    (∀ f n r1 n1, pmqt_insert_edge f n e = some (r1, n1) → r1 ≠ .PMQT_ERR_OTHER) ∧
    (∀ f n r1 n1, n.is_grey = false → pmqt_split_node f n = some (r1, n1) →
      r1 ≠ .PMQT_ERR_OTHER) := by
  refine ⟨?_, ?_, ?_⟩
  · rcases insert_cases fuel t e r t1 h with ⟨_, hr, _⟩ | ⟨_, _, hi⟩
    · rw [hr]; simp
    · rcases insert_edge_code _ _ _ _ _ hi with h0 | h0 <;> rw [h0] <;> simp
  · intro f n r1 n1 hi
    rcases insert_edge_code _ _ _ _ _ hi with h0 | h0 <;> rw [h0] <;> simp
  · intro f n r1 n1 hn hs
    rcases split_node_code f n r1 n1 hn hs with h0 | h0 <;> rw [h0] <;> simp

/-- Witness of C20: the insertion of the example. -/
theorem no_logic_error_witness :
    pmqt_err.PMQT_OK ≠ .PMQT_ERR_OTHER ∧
    (∀ f n r1 n1, pmqt_insert_edge f n example_edge = some (r1, n1) →
      r1 ≠ .PMQT_ERR_OTHER) ∧
    (∀ f n r1 n1, n.is_grey = false → pmqt_split_node f n = some (r1, n1) →
      r1 ≠ .PMQT_ERR_OTHER) :=
  no_logic_error 3 (pmqt_new 0 0 100 100) example_edge .PMQT_OK example_tree example_tree_eq


/-! ## Collisions and quadrants -/

/-- After the loop of `pmqt_split_node` on a grey node the node is grey. -/
theorem split_loop_grey (M : pmqt_node → pmqt_edge → pmqt_err → pmqt_node → Prop) (f : Nat)
    (es : List pmqt_edge) (n : pmqt_node) (r : pmqt_err) (n1 : pmqt_node)
    (hl : split_loop_rel M f n es r n1) (hn : n.is_grey = true) : n1.is_grey = true :=
  (split_loop_rel_fold M (fun m => m.is_grey = true) (fun _ => True) trivial f
    (fun m e0 r0 m1 heq _ hP => ⟨(insert_edge_grey_result f m e0 r0 m1 heq).1 hP, trivial⟩)
    es n r n1 hl hn).1

/-- A call of `pmqt_insert_edge` on a black node without degenerate bounds that the
edge hits leaves a grey node. -/
theorem insert_edge_collision_grey (f : Nat) (n : pmqt_node) (e : pmqt_edge) (r : pmqt_err)
    (n1 : pmqt_node) (h : pmqt_insert_edge f n e = some (r, n1)) (hb : n.blocks e)
    (hh : edge_hits e n.bounds = true) (hd : ¬ degenerate n.bounds) : n1.is_grey = true := by
  refine insert_edge_induction (fun n e _ n1 => n.blocks e → edge_hits e n.bounds = true →
      ¬ degenerate n.bounds → n1.is_grey = true)
    ?_ ?_ ?_ ?_ ?_ ?_ ?_ ?_ ?_ ?_ ?_ ?_ ?_ ?_ f n e r n1 h hb hh hd
  · intro _ _ _ _ _ _ _ _ _ hb; exact absurd hb (by simp [pmqt_node.blocks])
  · intro _ _ _ _ hb; exact absurd hb (by simp [pmqt_node.blocks])
  · intro _ _ _ _ hb; exact absurd hb (by simp [pmqt_node.blocks])
  · intro _ _ _ _ _ hb; exact absurd hb (by simp [pmqt_node.blocks])
  · intro _ _ _ _ _ hb; exact absurd hb (by simp [pmqt_node.blocks])
  · intros; intro _ _ _; rfl
  · intros; intro _ _ _; rfl
  · intros; intro _ _ _; rfl
  · intros; intro _ _ _; rfl
  · intro b p es e hm hb
    simp only [pmqt_node.blocks] at hb
    rw [hm] at hb
    exact absurd hb (by simp)
  · intro n e _ hmiss _ hh
    rw [hmiss] at hh
    exact absurd hh (by simp)
  · intro n e _ _ hd _ _ hnd
    exact absurd hd hnd
  · intro f1 f2 b e0 e r1 n1 r n2 _ _ h1 _ h2 _ _ _ _
    exact (insert_edge_grey_result f2 n1 e r n2 h2).1
      ((insert_edge_grey_result f1 _ e0 r1 n1 h1).1 rfl)
  · intro f1 f2 b p es e r1 n1 r n2 _ _ _ hl h2 _ _ _ _
    exact (insert_edge_grey_result f2 n1 e r n2 h2).1
      (split_loop_grey _ f1 es _ r1 n1 hl rfl)

/-- C15 (collision forces subdivision).  Let the node be a black (edge) node, or a
black (point) node whose anchor is no endpoint of the edge, with bounds of positive
width and height.  If the edge hits the bounds and `pmqt_insert_edge` returns, the node
is then grey, with four children and the same bounds.  If the edge does not hit the
bounds, `pmqt_insert_edge` returns `PMQT_OK` and leaves the node as it was. -/
theorem collision_forces_subdivision (fuel : Nat) (n : pmqt_node) (e : pmqt_edge)
    (hb : n.blocks e) (hw : 0 < n.bounds.width) (hh : 0 < n.bounds.height) :
    (edge_hits e n.bounds = true → ∀ r n1, pmqt_insert_edge fuel n e = some (r, n1) →
      ∃ c1 c2 c3 c4, n1 = .PMQT_GREY n.bounds c1 c2 c3 c4) ∧
    (edge_hits e n.bounds = false → pmqt_insert_edge (fuel + 1) n e = some (.PMQT_OK, n)) := by
  have hd : ¬ degenerate n.bounds := by
    rintro (h | h)
    · rw [h] at hw; exact lt_irrefl _ hw
    · rw [h] at hh; exact lt_irrefl _ hh
  constructor
  · intro hhit r n1 h
    have hg := insert_edge_collision_grey fuel n e r n1 h hb hhit hd
    have hbd := (insert_edge_inv fuel n e r n1 h).1
    cases n1 with
    | PMQT_GREY b c1 c2 c3 c4 =>
      have hb2 : b = n.bounds := hbd
      exact ⟨c1, c2, c3, c4, by rw [hb2]⟩
    | PMQT_WHITE b => exact absurd hg (by simp [pmqt_node.is_grey])
    | PMQT_BLACK_POINT b p es => exact absurd hg (by simp [pmqt_node.is_grey])
    | PMQT_BLACK_EDGE b e0 => exact absurd hg (by simp [pmqt_node.is_grey])
  · intro hmiss
    cases n with
    | PMQT_WHITE b => exact absurd hb (by simp [pmqt_node.blocks])
    | PMQT_GREY b _ _ _ _ => exact absurd hb (by simp [pmqt_node.blocks])
    | PMQT_BLACK_POINT b p es =>
      simp only [pmqt_node.bounds] at hmiss
      rw [insert_edge_black_point, if_neg (by rw [hb]; simp), if_neg (by rw [hmiss]; simp)]
    | PMQT_BLACK_EDGE b e0 =>
      simp only [pmqt_node.bounds] at hmiss
      rw [insert_edge_black_edge, if_neg (by rw [hmiss]; simp)]

/-- Witness of C15: the north-west leaf of the tree of the example, which holds the
edge of the example; a short edge inside it makes it grey, an edge far from it leaves
it as it is. -/
theorem collision_forces_subdivision_witness :
    ((pmqt_insert_edge 5 (.PMQT_BLACK_EDGE ⟨⟨0, 100⟩, ⟨50, 50⟩, 50, 50⟩ example_edge)
        ⟨⟨10, 90⟩, ⟨20, 90⟩⟩).isSome = true ∧
      ∀ r n1, pmqt_insert_edge 5 (.PMQT_BLACK_EDGE ⟨⟨0, 100⟩, ⟨50, 50⟩, 50, 50⟩ example_edge)
        ⟨⟨10, 90⟩, ⟨20, 90⟩⟩ = some (r, n1) →
        ∃ c1 c2 c3 c4, n1 = .PMQT_GREY
          (pmqt_node.PMQT_BLACK_EDGE ⟨⟨0, 100⟩, ⟨50, 50⟩, 50, 50⟩ example_edge).bounds
          c1 c2 c3 c4) ∧
    pmqt_insert_edge (0 + 1) (.PMQT_BLACK_EDGE ⟨⟨0, 100⟩, ⟨50, 50⟩, 50, 50⟩ example_edge)
      ⟨⟨60, 10⟩, ⟨70, 10⟩⟩ =
      some (.PMQT_OK, .PMQT_BLACK_EDGE ⟨⟨0, 100⟩, ⟨50, 50⟩, 50, 50⟩ example_edge) :=
  ⟨⟨by decide!,
      (collision_forces_subdivision 5
        (.PMQT_BLACK_EDGE ⟨⟨0, 100⟩, ⟨50, 50⟩, 50, 50⟩ example_edge) ⟨⟨10, 90⟩, ⟨20, 90⟩⟩
        trivial (by norm_num [pmqt_node.bounds]) (by norm_num [pmqt_node.bounds])).1
        (by decide!)⟩,
    (collision_forces_subdivision 0
      (.PMQT_BLACK_EDGE ⟨⟨0, 100⟩, ⟨50, 50⟩, 50, 50⟩ example_edge) ⟨⟨60, 10⟩, ⟨70, 10⟩⟩
      trivial (by norm_num [pmqt_node.bounds]) (by norm_num [pmqt_node.bounds])).2
      (by decide!)⟩

/-- The bounds of the children of a grey node that satisfies the structural invariant
are the four quadrants of its bounds. -/
theorem grey_children_bounds (b : pmqt_bounds) (nw ne sw se : pmqt_node)
    (hn : (pmqt_node.PMQT_GREY b nw ne sw se).inv) :
    nw.bounds = ⟨⟨b.nw.x, b.nw.y⟩, ⟨b.nw.x + b.width / 2, b.nw.y - b.height / 2⟩,
      b.width / 2, b.height / 2⟩ ∧
    ne.bounds = ⟨⟨b.nw.x + b.width / 2, b.nw.y⟩, ⟨b.se.x, b.nw.y - b.height / 2⟩,
      b.width / 2, b.height / 2⟩ ∧
    sw.bounds = ⟨⟨b.nw.x, b.nw.y - b.height / 2⟩, ⟨b.nw.x + b.width / 2, b.se.y⟩,
      b.width / 2, b.height / 2⟩ ∧
    se.bounds = ⟨⟨b.nw.x + b.width / 2, b.nw.y - b.height / 2⟩, ⟨b.se.x, b.se.y⟩,
      b.width / 2, b.height / 2⟩ := by
  obtain ⟨hb, b1, b2, b3, b4, _⟩ := hn
  obtain ⟨c1, c2, c3, c4⟩ := split_children_bounds b hb
  rw [c1] at b1
  rw [c2] at b2
  rw [c3] at b3
  rw [c4] at b4
  obtain ⟨_, _, h3, h4⟩ := hb
  have ex : b.nw.x + b.width / 2 * 2 = b.se.x := by rw [h3]; ring
  have ey : b.nw.y - b.height / 2 * 2 = b.se.y := by rw [h4]; ring
  rw [ex] at b2 b4
  rw [ey] at b3 b4
  exact ⟨b1, b2, b3, b4⟩

/-- C11 (partition invariant, as amended).  In exact arithmetic: in every tree
reachable from a new tree by calls of `pmqt_insert`, the bounds of the four children of
every grey node are the
north-west, north-east, south-west and south-east quadrants of the bounds of the node,
each with half its width and half its height; a point lies in the bounds of the node
exactly when it lies in the bounds of a child; and a point that lies in the bounds of
two different children lies on the border that the two share: on the vertical middle
line for a western and an eastern child, on the horizontal one for a northern and a
southern child. -/
theorem partition_invariant (min_x min_y max_x max_y : pmqt_float_t) (t : pmqt)
    (hr : reachable (pmqt_new min_x min_y max_x max_y) t) (b : pmqt_bounds)
    (nw ne sw se : pmqt_node) (hG : pmqt_node.PMQT_GREY b nw ne sw se ∈ t.root.preorder) :
    (nw.bounds = ⟨⟨b.nw.x, b.nw.y⟩, ⟨b.nw.x + b.width / 2, b.nw.y - b.height / 2⟩,
        b.width / 2, b.height / 2⟩ ∧
      ne.bounds = ⟨⟨b.nw.x + b.width / 2, b.nw.y⟩, ⟨b.se.x, b.nw.y - b.height / 2⟩,
        b.width / 2, b.height / 2⟩ ∧
      sw.bounds = ⟨⟨b.nw.x, b.nw.y - b.height / 2⟩, ⟨b.nw.x + b.width / 2, b.se.y⟩,
        b.width / 2, b.height / 2⟩ ∧
      se.bounds = ⟨⟨b.nw.x + b.width / 2, b.nw.y - b.height / 2⟩, ⟨b.se.x, b.se.y⟩,
        b.width / 2, b.height / 2⟩) ∧
    (∀ p, pmqt_point_in_bounds p b = true ↔
      (pmqt_point_in_bounds p nw.bounds = true ∨ pmqt_point_in_bounds p ne.bounds = true ∨
        pmqt_point_in_bounds p sw.bounds = true ∨ pmqt_point_in_bounds p se.bounds = true)) ∧
    (∀ p,
      (pmqt_point_in_bounds p nw.bounds = true → pmqt_point_in_bounds p ne.bounds = true →
        p.x = b.nw.x + b.width / 2) ∧
      (pmqt_point_in_bounds p sw.bounds = true → pmqt_point_in_bounds p se.bounds = true →
        p.x = b.nw.x + b.width / 2) ∧
      (pmqt_point_in_bounds p nw.bounds = true → pmqt_point_in_bounds p sw.bounds = true →
        p.y = b.nw.y - b.height / 2) ∧
      (pmqt_point_in_bounds p ne.bounds = true → pmqt_point_in_bounds p se.bounds = true →
        p.y = b.nw.y - b.height / 2) ∧
      (pmqt_point_in_bounds p nw.bounds = true → pmqt_point_in_bounds p se.bounds = true →
        p.x = b.nw.x + b.width / 2 ∧ p.y = b.nw.y - b.height / 2) ∧
      (pmqt_point_in_bounds p ne.bounds = true → pmqt_point_in_bounds p sw.bounds = true →
        p.x = b.nw.x + b.width / 2 ∧ p.y = b.nw.y - b.height / 2)) := by
  have hinv := preorder_inv t.root (reachable_inv min_x min_y max_x max_y t hr).1 _ hG
  obtain ⟨q1, q2, q3, q4⟩ := grey_children_bounds b nw ne sw se hinv
  obtain ⟨w1, w2, w3, w4⟩ := hinv.1
  have hw : 0 ≤ b.width / 2 := by rw [w3]; linarith
  have hh : 0 ≤ b.height / 2 := by rw [w4]; linarith
  refine ⟨⟨q1, q2, q3, q4⟩, ?_, ?_⟩
  · intro p
    rw [q1, q2, q3, q4]
    simp only [point_in_bounds_iff]
    constructor
    · rintro ⟨p1, p2, p3, p4⟩
      rcases le_total p.x (b.nw.x + b.width / 2) with hx | hx <;>
        rcases le_total p.y (b.nw.y - b.height / 2) with hy | hy
      · exact Or.inr (Or.inr (Or.inl ⟨p1, hy, hx, p4⟩))
      · exact Or.inl ⟨p1, p2, hx, hy⟩
      · exact Or.inr (Or.inr (Or.inr ⟨hx, hy, p3, p4⟩))
      · exact Or.inr (Or.inl ⟨hx, p2, p3, hy⟩)
    · rintro (⟨p1, p2, p3, p4⟩ | ⟨p1, p2, p3, p4⟩ | ⟨p1, p2, p3, p4⟩ | ⟨p1, p2, p3, p4⟩)
      · exact ⟨p1, p2, by linarith, by linarith⟩
      · exact ⟨by linarith, p2, p3, by linarith⟩
      · exact ⟨p1, by linarith, by linarith, p4⟩
      · exact ⟨by linarith, by linarith, p3, p4⟩
  · intro p
    rw [q1, q2, q3, q4]
    simp only [point_in_bounds_iff]
    refine ⟨?_, ?_, ?_, ?_, ?_, ?_⟩
    · rintro ⟨_, _, a3, _⟩ ⟨c1, _, _, _⟩; exact le_antisymm a3 c1
    · rintro ⟨_, _, a3, _⟩ ⟨c1, _, _, _⟩; exact le_antisymm a3 c1
    · rintro ⟨_, _, _, a4⟩ ⟨_, c2, _, _⟩; exact le_antisymm c2 a4
    · rintro ⟨_, _, _, a4⟩ ⟨_, c2, _, _⟩; exact le_antisymm c2 a4
    · rintro ⟨_, _, a3, a4⟩ ⟨c1, c2, _, _⟩; exact ⟨le_antisymm a3 c1, le_antisymm c2 a4⟩
    · rintro ⟨a1, _, _, a4⟩ ⟨_, c2, c3, _⟩; exact ⟨le_antisymm c3 a1, le_antisymm c2 a4⟩

/-- Witness of C11 (as amended): the root of the tree of the example and the point
(50, 75), which lies in the north-west and in the north-east child. -/
theorem partition_invariant_witness :
    ((50 : ℚ) = 0 + 100 / 2) :=
  ((partition_invariant 0 0 100 100 example_tree example_tree_reachable
    ⟨⟨0, 100⟩, ⟨100, 0⟩, 100, 100⟩
    (.PMQT_BLACK_EDGE ⟨⟨0, 100⟩, ⟨50, 50⟩, 50, 50⟩ example_edge)
    (.PMQT_BLACK_POINT ⟨⟨50, 100⟩, ⟨100, 50⟩, 50, 50⟩ ⟨90, 90⟩ [example_edge])
    (.PMQT_BLACK_POINT ⟨⟨0, 50⟩, ⟨50, 0⟩, 50, 50⟩ ⟨10, 10⟩ [example_edge])
    (.PMQT_BLACK_EDGE ⟨⟨50, 50⟩, ⟨100, 0⟩, 50, 50⟩ example_edge)
    (by simp [example_tree, pmqt_node.preorder])).2.2 ⟨50, 75⟩).1 (by decide!) (by decide!)

/-! ## The intersection error -/

theorem split_node_white_fl (f : Nat) (b : pmqt_bounds) :
    pmqt_split_node_fl (f + 1) (.PMQT_WHITE b) = some (.PMQT_OK, pmqt_split_grey_fl b) := by
  simp [pmqt_split_node_fl, pmqt_split_grey_fl]

theorem split_node_black_edge_fl (f : Nat) (b : pmqt_bounds) (e0 : pmqt_edge) :
    pmqt_split_node_fl (f + 1) (.PMQT_BLACK_EDGE b e0) =
      pmqt_insert_edge_fl f (pmqt_split_grey_fl b) e0 := by
  simp [pmqt_split_node_fl, pmqt_split_grey_fl]

theorem split_node_black_point_fl (f : Nat) (b : pmqt_bounds) (p : pmqt_point)
    (es : List pmqt_edge) :
    pmqt_split_node_fl (f + 1) (.PMQT_BLACK_POINT b p es) =
      pmqt_split_loop (pmqt_insert_edge_fl f) .PMQT_OK (pmqt_split_grey_fl b) es := by
  simp [pmqt_split_node_fl, pmqt_split_grey_fl]

theorem split_node_zero_fl (n : pmqt_node) : pmqt_split_node_fl 0 n = none := by
  simp [pmqt_split_node_fl]

theorem insert_edge_zero_fl (n : pmqt_node) (e : pmqt_edge) : pmqt_insert_edge_fl 0 n e = none := by
  simp [pmqt_insert_edge_fl]

theorem insert_edge_white_fl (f : Nat) (b : pmqt_bounds) (e : pmqt_edge) :
    pmqt_insert_edge_fl (f + 1) (.PMQT_WHITE b) e =
      if pmqt_point_in_bounds e.a b = true ∧ pmqt_point_in_bounds e.b b = true then
        (pmqt_split_node_fl f (.PMQT_WHITE b)).bind (fun x => pmqt_insert_edge_fl f x.2 e)
      else if pmqt_point_in_bounds e.a b = true then
        some (.PMQT_OK, .PMQT_BLACK_POINT b e.a [e])
      else if pmqt_point_in_bounds e.b b = true then
        some (.PMQT_OK, .PMQT_BLACK_POINT b e.b [e])
      else if pmqt_edge_intersect_bounds_fl e b = true then
        some (.PMQT_OK, .PMQT_BLACK_EDGE b e)
      else some (.PMQT_OK, .PMQT_WHITE b) := by
  rw [pmqt_insert_edge_fl]
  simp only [Bool.and_eq_true, pmqt_node_add_edge, List.nil_append]
  split_ifs <;> first | rfl | (cases pmqt_split_node_fl f (.PMQT_WHITE b) <;> rfl)

theorem insert_edge_black_edge_fl (f : Nat) (b : pmqt_bounds) (e0 e : pmqt_edge) :
    pmqt_insert_edge_fl (f + 1) (.PMQT_BLACK_EDGE b e0) e =
      if edge_hits_fl e b = true then
        if degenerate b then some (.PMQT_ERR_INTRSCT, .PMQT_BLACK_EDGE b e0)
        else (pmqt_split_node_fl f (.PMQT_BLACK_EDGE b e0)).bind
          (fun x => pmqt_insert_edge_fl f x.2 e)
      else some (.PMQT_OK, .PMQT_BLACK_EDGE b e0) := by
  rw [pmqt_insert_edge_fl]
  simp only [edge_hits_fl, degenerate]
  split_ifs <;> first | rfl | (cases pmqt_split_node_fl f (.PMQT_BLACK_EDGE b e0) <;> rfl)

theorem insert_edge_black_point_fl (f : Nat) (b : pmqt_bounds) (p : pmqt_point)
    (es : List pmqt_edge) (e : pmqt_edge) :
    pmqt_insert_edge_fl (f + 1) (.PMQT_BLACK_POINT b p es) e =
      if (pmqt_point_equals p e.a || pmqt_point_equals p e.b) = true then
        some (.PMQT_OK, .PMQT_BLACK_POINT b p (es ++ [e]))
      else if edge_hits_fl e b = true then
        if degenerate b then some (.PMQT_ERR_INTRSCT, .PMQT_BLACK_POINT b p es)
        else (pmqt_split_node_fl f (.PMQT_BLACK_POINT b p es)).bind
          (fun x => pmqt_insert_edge_fl f x.2 e)
      else some (.PMQT_OK, .PMQT_BLACK_POINT b p es) := by
  rw [pmqt_insert_edge_fl]
  simp only [edge_hits_fl, degenerate, pmqt_node_add_edge]
  split_ifs <;> first | rfl | (cases pmqt_split_node_fl f (.PMQT_BLACK_POINT b p es) <;> rfl)

theorem insert_edge_grey_fl (f : Nat) (b : pmqt_bounds) (nw ne sw se : pmqt_node)
    (e : pmqt_edge) :
    pmqt_insert_edge_fl (f + 1) (.PMQT_GREY b nw ne sw se) e =
      (pmqt_insert_edge_fl f nw e).bind fun x1 =>
        if x1.1 ≠ .PMQT_OK then some (x1.1, .PMQT_GREY b x1.2 ne sw se) else
        (pmqt_insert_edge_fl f ne e).bind fun x2 =>
          if x2.1 ≠ .PMQT_OK then some (x2.1, .PMQT_GREY b x1.2 x2.2 sw se) else
          (pmqt_insert_edge_fl f sw e).bind fun x3 =>
            if x3.1 ≠ .PMQT_OK then some (x3.1, .PMQT_GREY b x1.2 x2.2 x3.2 se) else
            (pmqt_insert_edge_fl f se e).bind fun x4 =>
              some (x4.1, .PMQT_GREY b x1.2 x2.2 x3.2 x4.2) := by
  rw [pmqt_insert_edge_fl]
  cases h1 : pmqt_insert_edge_fl f nw e with
  | none => rfl
  | some x1 =>
    obtain ⟨r1, n1⟩ := x1
    simp only [Option.some_bind]
    split_ifs
    · rfl
    · cases h2 : pmqt_insert_edge_fl f ne e with
      | none => rfl
      | some x2 =>
        obtain ⟨r2, n2⟩ := x2
        simp only [Option.some_bind]
        split_ifs
        · rfl
        · cases h3 : pmqt_insert_edge_fl f sw e with
          | none => rfl
          | some x3 =>
            obtain ⟨r3, n3⟩ := x3
            simp only [Option.some_bind]
            split_ifs
            · rfl
            · cases h4 : pmqt_insert_edge_fl f se e with
              | none => rfl
              | some x4 =>
                obtain ⟨r4, n4⟩ := x4
                simp only [Option.some_bind]
                split_ifs with h
                · rfl
                · rw [not_not.mp h]


/-- Double precision.  The loop of `pmqt_split_node_fl` in terms of `split_loop_rel_fl`. -/
theorem split_loop_rel_of_eq_fl (M : pmqt_node → pmqt_edge → pmqt_err → pmqt_node → Prop)
    (f : Nat)
    (hM : ∀ n e r n1, pmqt_insert_edge_fl f n e = some (r, n1) → M n e r n1) :
    ∀ (es : List pmqt_edge) (n : pmqt_node) (r : pmqt_err) (n1 : pmqt_node),
      pmqt_split_loop (pmqt_insert_edge_fl f) .PMQT_OK n es = some (r, n1) →
      split_loop_rel_fl M f n es r n1 := by
  intro es
  induction es with
  | nil =>
    intro n r n1 h
    simp only [pmqt_split_loop, Option.some.injEq, Prod.mk.injEq] at h
    exact ⟨h.1.symm, h.2.symm⟩
  | cons e es ih =>
    intro n r n1 h
    rw [pmqt_split_loop] at h
    cases h0 : pmqt_insert_edge_fl f n e with
    | none => rw [h0] at h; exact absurd h (by simp)
    | some x =>
      obtain ⟨r0, n0⟩ := x
      rw [h0] at h
      simp only at h
      refine ⟨r0, n0, h0, hM n e r0 n0 h0, ?_⟩
      by_cases hr : r0 = .PMQT_OK
      · subst hr
        simp only [ne_eq, not_true_eq_false, if_false] at h
        exact Or.inr ⟨rfl, ih n0 r n1 h⟩
      · simp only [ne_eq, hr, not_false_eq_true, if_true, Option.some.injEq,
          Prod.mk.injEq] at h
        exact Or.inl ⟨hr, h.1.symm, h.2.symm⟩

/-- Double precision.  Induction over the calls of `pmqt_insert_edge_fl`: a relation `M` between the node
before the call, the edge, the return code and the node after the call holds of
every call that returns, as soon as it is closed under each path through the
function. -/
theorem insert_edge_induction_fl (M : pmqt_node → pmqt_edge → pmqt_err → pmqt_node → Prop)
    (white_both : ∀ (f : Nat) (b : pmqt_bounds) (e : pmqt_edge) (r : pmqt_err) (n1 : pmqt_node),
      pmqt_point_in_bounds e.a b = true → pmqt_point_in_bounds e.b b = true →
      pmqt_insert_edge_fl f (pmqt_split_grey_fl b) e = some (r, n1) →
      M (pmqt_split_grey_fl b) e r n1 → M (.PMQT_WHITE b) e r n1)
    (white_a : ∀ (b : pmqt_bounds) (e : pmqt_edge),
      pmqt_point_in_bounds e.a b = true → pmqt_point_in_bounds e.b b = false →
      M (.PMQT_WHITE b) e .PMQT_OK (.PMQT_BLACK_POINT b e.a [e]))
    (white_b : ∀ (b : pmqt_bounds) (e : pmqt_edge),
      pmqt_point_in_bounds e.a b = false → pmqt_point_in_bounds e.b b = true →
      M (.PMQT_WHITE b) e .PMQT_OK (.PMQT_BLACK_POINT b e.b [e]))
    (white_edge : ∀ (b : pmqt_bounds) (e : pmqt_edge),
      pmqt_point_in_bounds e.a b = false → pmqt_point_in_bounds e.b b = false →
      pmqt_edge_intersect_bounds_fl e b = true →
      M (.PMQT_WHITE b) e .PMQT_OK (.PMQT_BLACK_EDGE b e))
    (white_none : ∀ (b : pmqt_bounds) (e : pmqt_edge),
      pmqt_point_in_bounds e.a b = false → pmqt_point_in_bounds e.b b = false →
      pmqt_edge_intersect_bounds_fl e b = false →
      M (.PMQT_WHITE b) e .PMQT_OK (.PMQT_WHITE b))
    (grey_nw : ∀ (f : Nat) (b : pmqt_bounds) (nw ne sw se : pmqt_node) (e : pmqt_edge)
      (r1 : pmqt_err) (n1 : pmqt_node),
      pmqt_insert_edge_fl f nw e = some (r1, n1) → M nw e r1 n1 → r1 ≠ .PMQT_OK →
      M (.PMQT_GREY b nw ne sw se) e r1 (.PMQT_GREY b n1 ne sw se))
    (grey_ne : ∀ (f : Nat) (b : pmqt_bounds) (nw ne sw se : pmqt_node) (e : pmqt_edge)
      (n1 : pmqt_node) (r2 : pmqt_err) (n2 : pmqt_node),
      pmqt_insert_edge_fl f nw e = some (.PMQT_OK, n1) → M nw e .PMQT_OK n1 →
      pmqt_insert_edge_fl f ne e = some (r2, n2) → M ne e r2 n2 → r2 ≠ .PMQT_OK →
      M (.PMQT_GREY b nw ne sw se) e r2 (.PMQT_GREY b n1 n2 sw se))
    (grey_sw : ∀ (f : Nat) (b : pmqt_bounds) (nw ne sw se : pmqt_node) (e : pmqt_edge)
      (n1 n2 : pmqt_node) (r3 : pmqt_err) (n3 : pmqt_node),
      pmqt_insert_edge_fl f nw e = some (.PMQT_OK, n1) → M nw e .PMQT_OK n1 →
      pmqt_insert_edge_fl f ne e = some (.PMQT_OK, n2) → M ne e .PMQT_OK n2 →
      pmqt_insert_edge_fl f sw e = some (r3, n3) → M sw e r3 n3 → r3 ≠ .PMQT_OK →
      M (.PMQT_GREY b nw ne sw se) e r3 (.PMQT_GREY b n1 n2 n3 se))
    (grey_se : ∀ (f : Nat) (b : pmqt_bounds) (nw ne sw se : pmqt_node) (e : pmqt_edge)
      (n1 n2 n3 : pmqt_node) (r4 : pmqt_err) (n4 : pmqt_node),
      pmqt_insert_edge_fl f nw e = some (.PMQT_OK, n1) → M nw e .PMQT_OK n1 →
      pmqt_insert_edge_fl f ne e = some (.PMQT_OK, n2) → M ne e .PMQT_OK n2 →
      pmqt_insert_edge_fl f sw e = some (.PMQT_OK, n3) → M sw e .PMQT_OK n3 →
      pmqt_insert_edge_fl f se e = some (r4, n4) → M se e r4 n4 →
      M (.PMQT_GREY b nw ne sw se) e r4 (.PMQT_GREY b n1 n2 n3 n4))
    (point_append : ∀ (b : pmqt_bounds) (p : pmqt_point) (es : List pmqt_edge) (e : pmqt_edge),
      (pmqt_point_equals p e.a || pmqt_point_equals p e.b) = true →
      M (.PMQT_BLACK_POINT b p es) e .PMQT_OK (.PMQT_BLACK_POINT b p (es ++ [e])))
    (black_miss : ∀ (n : pmqt_node) (e : pmqt_edge),
      n.blocks e → edge_hits_fl e n.bounds = false → M n e .PMQT_OK n)
    (black_degenerate : ∀ (n : pmqt_node) (e : pmqt_edge),
      n.blocks e → edge_hits_fl e n.bounds = true → degenerate n.bounds →
      M n e .PMQT_ERR_INTRSCT n)
    (edge_split : ∀ (f1 f2 : Nat) (b : pmqt_bounds) (e0 e : pmqt_edge) (r1 : pmqt_err)
      (n1 : pmqt_node) (r : pmqt_err) (n2 : pmqt_node),
      edge_hits_fl e b = true → ¬ degenerate b →
      pmqt_insert_edge_fl f1 (pmqt_split_grey_fl b) e0 = some (r1, n1) →
      M (pmqt_split_grey_fl b) e0 r1 n1 →
      pmqt_insert_edge_fl f2 n1 e = some (r, n2) → M n1 e r n2 →
      M (.PMQT_BLACK_EDGE b e0) e r n2)
    (point_split : ∀ (f1 f2 : Nat) (b : pmqt_bounds) (p : pmqt_point) (es : List pmqt_edge)
      (e : pmqt_edge) (r1 : pmqt_err) (n1 : pmqt_node) (r : pmqt_err) (n2 : pmqt_node),
      (pmqt_point_equals p e.a || pmqt_point_equals p e.b) = false →
      edge_hits_fl e b = true → ¬ degenerate b →
      split_loop_rel_fl M f1 (pmqt_split_grey_fl b) es r1 n1 →
      pmqt_insert_edge_fl f2 n1 e = some (r, n2) → M n1 e r n2 →
      M (.PMQT_BLACK_POINT b p es) e r n2) :
    ∀ (f : Nat) (n : pmqt_node) (e : pmqt_edge) (r : pmqt_err) (n1 : pmqt_node),
      pmqt_insert_edge_fl f n e = some (r, n1) → M n e r n1 := by
  intro f
  induction f using Nat.strong_induction_on with
  | _ f ih =>
    intro n e r n1 h
    cases f with
    | zero => rw [insert_edge_zero_fl] at h; exact absurd h (by simp)
    | succ f =>
      have ihf := ih f (Nat.lt_succ_self f)
      cases n with
      | PMQT_WHITE b =>
        rw [insert_edge_white_fl] at h
        split_ifs at h with h1 h2 h3 h4
        · cases f with
          | zero => rw [split_node_zero_fl] at h; exact absurd h (by simp)
          | succ f0 =>
            rw [split_node_white_fl, Option.some_bind] at h
            exact white_both _ b e r n1 h1.1 h1.2 h (ihf _ _ _ _ h)
        · simp only [Option.some.injEq, Prod.mk.injEq] at h
          obtain ⟨rfl, rfl⟩ := h
          have hb : pmqt_point_in_bounds e.b b = false := by
            cases hb : pmqt_point_in_bounds e.b b
            · rfl
            · exact absurd ⟨h2, hb⟩ h1
          exact white_a b e h2 hb
        · simp only [Option.some.injEq, Prod.mk.injEq] at h
          obtain ⟨rfl, rfl⟩ := h
          exact white_b b e (Bool.eq_false_iff.mpr h2) h3
        · simp only [Option.some.injEq, Prod.mk.injEq] at h
          obtain ⟨rfl, rfl⟩ := h
          exact white_edge b e (Bool.eq_false_iff.mpr h2) (Bool.eq_false_iff.mpr h3) h4
        · simp only [Option.some.injEq, Prod.mk.injEq] at h
          obtain ⟨rfl, rfl⟩ := h
          exact white_none b e (Bool.eq_false_iff.mpr h2) (Bool.eq_false_iff.mpr h3)
            (Bool.eq_false_iff.mpr h4)
      | PMQT_GREY b nw ne sw se =>
        rw [insert_edge_grey_fl] at h
        cases h1 : pmqt_insert_edge_fl f nw e with
        | none => rw [h1] at h; exact absurd h (by simp)
        | some x1 =>
          obtain ⟨r1, c1⟩ := x1
          rw [h1, Option.some_bind] at h
          by_cases e1 : r1 = .PMQT_OK
          · subst e1
            simp only [ne_eq, not_true_eq_false, if_false] at h
            cases h2 : pmqt_insert_edge_fl f ne e with
            | none => rw [h2] at h; exact absurd h (by simp)
            | some x2 =>
              obtain ⟨r2, c2⟩ := x2
              rw [h2, Option.some_bind] at h
              by_cases e2 : r2 = .PMQT_OK
              · subst e2
                simp only [ne_eq, not_true_eq_false, if_false] at h
                cases h3 : pmqt_insert_edge_fl f sw e with
                | none => rw [h3] at h; exact absurd h (by simp)
                | some x3 =>
                  obtain ⟨r3, c3⟩ := x3
                  rw [h3, Option.some_bind] at h
                  by_cases e3 : r3 = .PMQT_OK
                  · subst e3
                    simp only [ne_eq, not_true_eq_false, if_false] at h
                    cases h4 : pmqt_insert_edge_fl f se e with
                    | none => rw [h4] at h; exact absurd h (by simp)
                    | some x4 =>
                      obtain ⟨r4, c4⟩ := x4
                      rw [h4, Option.some_bind] at h
                      simp only [Option.some.injEq, Prod.mk.injEq] at h
                      obtain ⟨rfl, rfl⟩ := h
                      exact grey_se f b nw ne sw se e c1 c2 c3 r4 c4 h1 (ihf _ _ _ _ h1)
                        h2 (ihf _ _ _ _ h2) h3 (ihf _ _ _ _ h3) h4 (ihf _ _ _ _ h4)
                  · simp only [ne_eq, e3, not_false_eq_true, if_true, Option.some.injEq,
                      Prod.mk.injEq] at h
                    obtain ⟨rfl, rfl⟩ := h
                    exact grey_sw f b nw ne sw se e c1 c2 r3 c3 h1 (ihf _ _ _ _ h1)
                      h2 (ihf _ _ _ _ h2) h3 (ihf _ _ _ _ h3) e3
              · simp only [ne_eq, e2, not_false_eq_true, if_true, Option.some.injEq,
                  Prod.mk.injEq] at h
                obtain ⟨rfl, rfl⟩ := h
                exact grey_ne f b nw ne sw se e c1 r2 c2 h1 (ihf _ _ _ _ h1)
                  h2 (ihf _ _ _ _ h2) e2
          · simp only [ne_eq, e1, not_false_eq_true, if_true, Option.some.injEq,
              Prod.mk.injEq] at h
            obtain ⟨rfl, rfl⟩ := h
            exact grey_nw f b nw ne sw se e r1 c1 h1 (ihf _ _ _ _ h1) e1
      | PMQT_BLACK_POINT b p es =>
        rw [insert_edge_black_point_fl] at h
        split_ifs at h with h1 h2 h3
        · simp only [Option.some.injEq, Prod.mk.injEq] at h
          obtain ⟨rfl, rfl⟩ := h
          exact point_append b p es e h1
        · simp only [Option.some.injEq, Prod.mk.injEq] at h
          obtain ⟨rfl, rfl⟩ := h
          exact black_degenerate _ e (Bool.eq_false_iff.mpr h1) h2 h3
        · cases f with
          | zero => rw [split_node_zero_fl] at h; exact absurd h (by simp)
          | succ f0 =>
            rw [split_node_black_point_fl] at h
            cases hs : pmqt_split_loop (pmqt_insert_edge_fl f0) .PMQT_OK (pmqt_split_grey_fl b) es with
            | none => rw [hs] at h; exact absurd h (by simp)
            | some x =>
              obtain ⟨r1, c1⟩ := x
              rw [hs, Option.some_bind] at h
              have hl := split_loop_rel_of_eq_fl M f0
                (ih f0 (Nat.lt_succ_of_lt (Nat.lt_succ_self f0))) es _ r1 c1 hs
              exact point_split f0 (f0 + 1) b p es e r1 c1 r n1 (Bool.eq_false_iff.mpr h1) h2 h3
                hl h (ihf _ _ _ _ h)
        · simp only [Option.some.injEq, Prod.mk.injEq] at h
          obtain ⟨rfl, rfl⟩ := h
          exact black_miss _ e (Bool.eq_false_iff.mpr h1) (Bool.eq_false_iff.mpr h2)
      | PMQT_BLACK_EDGE b e0 =>
        rw [insert_edge_black_edge_fl] at h
        split_ifs at h with h2 h3
        · simp only [Option.some.injEq, Prod.mk.injEq] at h
          obtain ⟨rfl, rfl⟩ := h
          exact black_degenerate _ e trivial h2 h3
        · cases f with
          | zero => rw [split_node_zero_fl] at h; exact absurd h (by simp)
          | succ f0 =>
            rw [split_node_black_edge_fl] at h
            cases hs : pmqt_insert_edge_fl f0 (pmqt_split_grey_fl b) e0 with
            | none => rw [hs] at h; exact absurd h (by simp)
            | some x =>
              obtain ⟨r1, c1⟩ := x
              rw [hs, Option.some_bind] at h
              exact edge_split f0 (f0 + 1) b e0 e r1 c1 r n1 h2 h3 hs
                (ih f0 (Nat.lt_succ_of_lt (Nat.lt_succ_self f0)) _ _ _ _ hs) h (ihf _ _ _ _ h)
        · simp only [Option.some.injEq, Prod.mk.injEq] at h
          obtain ⟨rfl, rfl⟩ := h
          exact black_miss _ e trivial (Bool.eq_false_iff.mpr h2)

/-- Double precision.  The return code of `pmqt_insert_edge_fl` is `PMQT_OK` or `PMQT_ERR_INTRSCT`. -/
theorem insert_edge_code_fl (f : Nat) (n : pmqt_node) (e : pmqt_edge) (r : pmqt_err)
    (n1 : pmqt_node) (h : pmqt_insert_edge_fl f n e = some (r, n1)) :
    r = .PMQT_OK ∨ r = .PMQT_ERR_INTRSCT := by
  refine insert_edge_induction_fl (fun _ _ r _ => r = .PMQT_OK ∨ r = .PMQT_ERR_INTRSCT)
    ?_ ?_ ?_ ?_ ?_ ?_ ?_ ?_ ?_ ?_ ?_ ?_ ?_ ?_ f n e r n1 h
  all_goals intros
  all_goals first | exact Or.inl rfl | exact Or.inr rfl | assumption

/-- Double precision.  One more unit of fuel does not change what `pmqt_insert_edge_fl` and
`pmqt_split_node_fl` return. -/
theorem fuel_succ_fl : ∀ f : Nat,
    (∀ n e x, pmqt_insert_edge_fl f n e = some x → pmqt_insert_edge_fl (f + 1) n e = some x) ∧
    (∀ n x, pmqt_split_node_fl f n = some x → pmqt_split_node_fl (f + 1) n = some x) := by
  intro f
  induction f with
  | zero =>
    constructor
    · intro n e x h; rw [insert_edge_zero_fl] at h; exact absurd h (by simp)
    · intro n x h; rw [split_node_zero_fl] at h; exact absurd h (by simp)
  | succ f ih =>
    obtain ⟨ihI, ihS⟩ := ih
    constructor
    · intro n e x h
      cases n with
      | PMQT_WHITE b =>
        rw [insert_edge_white_fl] at h ⊢
        split_ifs at h ⊢
        · exact bind_mono _ _ _ _ (ihS _) (fun a y => ihI _ _ y) x h
        all_goals exact h
      | PMQT_GREY b nw ne sw se =>
        rw [insert_edge_grey_fl] at h ⊢
        refine bind_mono _ _ _ _ (ihI _ _) ?_ x h
        intro x1 y h1
        split_ifs at h1 ⊢
        · exact h1
        · refine bind_mono _ _ _ _ (ihI _ _) ?_ y h1
          intro x2 y h2
          split_ifs at h2 ⊢
          · exact h2
          · refine bind_mono _ _ _ _ (ihI _ _) ?_ y h2
            intro x3 y h3
            split_ifs at h3 ⊢
            · exact h3
            · exact bind_mono _ _ _ _ (ihI _ _) (fun _ _ hy => hy) y h3
      | PMQT_BLACK_POINT b p es =>
        rw [insert_edge_black_point_fl] at h ⊢
        split_ifs at h ⊢
        · exact h
        · exact h
        · exact bind_mono _ _ _ _ (ihS _) (fun a y => ihI _ _ y) x h
        · exact h
      | PMQT_BLACK_EDGE b e0 =>
        rw [insert_edge_black_edge_fl] at h ⊢
        split_ifs at h ⊢
        · exact h
        · exact bind_mono _ _ _ _ (ihS _) (fun a y => ihI _ _ y) x h
        · exact h
    · intro n x h
      cases n with
      | PMQT_WHITE b =>
        rw [split_node_white_fl] at h ⊢
        exact h
      | PMQT_GREY b nw ne sw se =>
        simp only [pmqt_split_node_fl] at h ⊢
        exact h
      | PMQT_BLACK_POINT b p es =>
        rw [split_node_black_point_fl] at h ⊢
        exact split_loop_mono _ _ (fun n e y => ihI n e y) es _ _ x h
      | PMQT_BLACK_EDGE b e0 =>
        rw [split_node_black_edge_fl] at h ⊢
        exact ihI _ _ x h

/-- Double precision.  More fuel does not change what `pmqt_insert_edge_fl` returns. -/
theorem insert_edge_fuel_mono_fl (f g : Nat) (hfg : f ≤ g) (n : pmqt_node) (e : pmqt_edge)
    (x : pmqt_err × pmqt_node) (h : pmqt_insert_edge_fl f n e = some x) :
    pmqt_insert_edge_fl g n e = some x := by
  induction hfg with
  | refl => exact h
  | step _ ih => exact (fuel_succ_fl _).1 n e x ih

/-- Double precision.  More fuel does not change what `pmqt_insert_fl` returns. -/
theorem insert_fuel_mono_fl (f g : Nat) (hfg : f ≤ g) (t : pmqt) (e : pmqt_edge)
    (x : pmqt_err × pmqt) (h : pmqt_insert_fl f t e = some x) : pmqt_insert_fl g t e = some x := by
  unfold pmqt_insert_fl at h ⊢
  split_ifs at h ⊢
  · exact h
  · cases hi : pmqt_insert_edge_fl f t.root e with
    | none => rw [hi] at h; exact absurd h (by simp)
    | some y =>
      rw [hi] at h
      rw [insert_edge_fuel_mono_fl f g hfg _ _ y hi]
      exact h

/-- Double precision.  What `pmqt_insert_fl` returns does not depend on the fuel. -/
theorem insert_fuel_unique_fl (f g : Nat) (t : pmqt) (e : pmqt_edge) (x y : pmqt_err × pmqt)
    (hx : pmqt_insert_fl f t e = some x) (hy : pmqt_insert_fl g t e = some y) : x = y := by
  have h1 := insert_fuel_mono_fl f (max f g) (le_max_left _ _) t e x hx
  have h2 := insert_fuel_mono_fl g (max f g) (le_max_right _ _) t e y hy
  rw [h1] at h2
  exact Option.some.inj h2

theorem split_node_fuel_mono_fl (f g : Nat) (hfg : f ≤ g) (n : pmqt_node)
    (x : pmqt_err × pmqt_node) (h : pmqt_split_node_fl f n = some x) :
    pmqt_split_node_fl g n = some x := by
  induction hfg with
  | refl => exact h
  | step _ ih => exact (fuel_succ_fl _).2 n x ih


/-- C5 (shared-endpoint append, as amended).  On a black (point) node whose anchor
equals an endpoint of the edge, and when the call of `malloc` in `pmqt_node_add_edge`
succeeds, `pmqt_insert_edge` returns `PMQT_OK` and leaves a black (point) node with the
same bounds and anchor whose list is the former list followed by the edge: the node is
not split, wherever the other endpoint lies.  So it is in the embeddings without failing
allocations, in exact arithmetic and in double precision. -/
theorem shared_endpoint_append (fuel : Nat) (heap heap1 : List Bool) (bounds : pmqt_bounds)
    (point : pmqt_point) (edges : List pmqt_edge) (edge : pmqt_edge)
    (h : point = edge.a ∨ point = edge.b) (hm : pmqt_malloc heap = (true, heap1)) :
    pmqt_insert_edge_mem (fuel + 1) heap (.PMQT_BLACK_POINT bounds point edges) edge =
      some (.PMQT_OK, .PMQT_BLACK_POINT bounds point (edges ++ [edge]), heap1) ∧
    pmqt_insert_edge (fuel + 1) (.PMQT_BLACK_POINT bounds point edges) edge =
      some (.PMQT_OK, .PMQT_BLACK_POINT bounds point (edges ++ [edge])) ∧
    pmqt_insert_edge_fl (fuel + 1) (.PMQT_BLACK_POINT bounds point edges) edge =
      some (.PMQT_OK, .PMQT_BLACK_POINT bounds point (edges ++ [edge])) := by
  have heq : (pmqt_point_equals point edge.a || pmqt_point_equals point edge.b) = true := by
    rcases h with h | h <;> simp [pmqt_point_equals, h]
  refine ⟨?_, ?_, ?_⟩
  · have hu : pmqt_insert_edge_mem (fuel + 1) heap (.PMQT_BLACK_POINT bounds point edges) edge =
        if (pmqt_point_equals point edge.a || pmqt_point_equals point edge.b) = true then
          match pmqt_node_add_edge_mem heap edges edge with
          | (_, edges1, heap1) => some (.PMQT_OK, .PMQT_BLACK_POINT bounds point edges1, heap1)
        else
          if (pmqt_point_in_bounds edge.a bounds || pmqt_point_in_bounds edge.b bounds ||
              pmqt_edge_intersect_bounds edge bounds) = true then
            if bounds.width = 0 ∨ bounds.height = 0 then
              some (.PMQT_ERR_INTRSCT, .PMQT_BLACK_POINT bounds point edges, heap)
            else
              match pmqt_split_node_mem fuel heap (.PMQT_BLACK_POINT bounds point edges) with
              | none => none
              | some (_, node1, heap1) => pmqt_insert_edge_mem fuel heap1 node1 edge
          else some (.PMQT_OK, .PMQT_BLACK_POINT bounds point edges, heap) := rfl
    rw [hu, if_pos heq]
    unfold pmqt_node_add_edge_mem
    rw [hm]
    rfl
  · rw [insert_edge_black_point, if_pos heq]
  · rw [insert_edge_black_point_fl, if_pos heq]

/-- Witness of C5: a second edge from the anchor (10, 10), whose other endpoint lies
in the bounds of the node as well; the call of `malloc` succeeds. -/
theorem shared_endpoint_append_witness :
    pmqt_insert_edge_mem (0 + 1) [true, false]
      (.PMQT_BLACK_POINT ⟨⟨0, 50⟩, ⟨50, 0⟩, 50, 50⟩ ⟨10, 10⟩ [example_edge])
      ⟨⟨10, 10⟩, ⟨20, 30⟩⟩ =
      some (.PMQT_OK, .PMQT_BLACK_POINT ⟨⟨0, 50⟩, ⟨50, 0⟩, 50, 50⟩ ⟨10, 10⟩
        ([example_edge] ++ [⟨⟨10, 10⟩, ⟨20, 30⟩⟩]), [false]) ∧
    pmqt_insert_edge (0 + 1)
      (.PMQT_BLACK_POINT ⟨⟨0, 50⟩, ⟨50, 0⟩, 50, 50⟩ ⟨10, 10⟩ [example_edge])
      ⟨⟨10, 10⟩, ⟨20, 30⟩⟩ =
      some (.PMQT_OK, .PMQT_BLACK_POINT ⟨⟨0, 50⟩, ⟨50, 0⟩, 50, 50⟩ ⟨10, 10⟩
        ([example_edge] ++ [⟨⟨10, 10⟩, ⟨20, 30⟩⟩])) ∧
    pmqt_insert_edge_fl (0 + 1)
      (.PMQT_BLACK_POINT ⟨⟨0, 50⟩, ⟨50, 0⟩, 50, 50⟩ ⟨10, 10⟩ [example_edge])
      ⟨⟨10, 10⟩, ⟨20, 30⟩⟩ =
      some (.PMQT_OK, .PMQT_BLACK_POINT ⟨⟨0, 50⟩, ⟨50, 0⟩, 50, 50⟩ ⟨10, 10⟩
        ([example_edge] ++ [⟨⟨10, 10⟩, ⟨20, 30⟩⟩])) :=
  shared_endpoint_append 0 [true, false] [false] _ _ _ _ (Or.inl rfl) rfl

/-- Counterexample to C5 as stated: when the call of `malloc` in `pmqt_node_add_edge`
fails, `pmqt_insert_edge` on a black (point) node whose anchor (10, 10) is an endpoint
of the edge returns `PMQT_OK` and the list of the node is as it was: the edge is not
appended. -/
theorem shared_endpoint_nomem_counterexample :
    pmqt_insert_edge_mem 1 [false]
      (.PMQT_BLACK_POINT ⟨⟨0, 50⟩, ⟨50, 0⟩, 50, 50⟩ ⟨10, 10⟩ [example_edge])
      ⟨⟨10, 10⟩, ⟨20, 30⟩⟩ =
      some (.PMQT_OK, .PMQT_BLACK_POINT ⟨⟨0, 50⟩, ⟨50, 0⟩, 50, 50⟩ ⟨10, 10⟩ [example_edge],
        []) := by
  decide!


/-! ## Exactness of the overlap test -/

/-- A value between `u` and `v` is `u + t * (v - u)` for some `t` from 0 to 1. -/
theorem between_param (u v w : ℚ) (h1 : min u v ≤ w) (h2 : w ≤ max u v) :
    ∃ t : ℚ, 0 ≤ t ∧ t ≤ 1 ∧ w = u + t * (v - u) := by
  rcases lt_trichotomy u v with h | h | h
  · rw [min_eq_left h.le] at h1
    rw [max_eq_right h.le] at h2
    have hpos : 0 < v - u := by linarith
    refine ⟨(w - u) / (v - u), div_nonneg (by linarith) hpos.le, ?_, ?_⟩
    · rw [div_le_one hpos]; linarith
    · field_simp
  · subst h
    rw [min_self] at h1
    rw [max_self] at h2
    exact ⟨0, le_rfl, zero_le_one, by linarith⟩
  · rw [min_eq_right h.le] at h1
    rw [max_eq_left h.le] at h2
    have hpos : 0 < u - v := by linarith
    refine ⟨(u - w) / (u - v), div_nonneg (by linarith) hpos.le, ?_, ?_⟩
    · rw [div_le_one hpos]; linarith
    · field_simp
      ring

/-- Two intervals that meet have a common value. -/
theorem common_value (y1 y2 c d : ℚ) (h1 : min y1 y2 ≤ d) (h2 : c ≤ max y1 y2) (h3 : c ≤ d) :
    min y1 y2 ≤ max c (min y1 y2) ∧ max c (min y1 y2) ≤ max y1 y2 ∧
    c ≤ max c (min y1 y2) ∧ max c (min y1 y2) ≤ d :=
  ⟨le_max_right _ _, max_le h2 min_le_max, le_max_left _ _, max_le h3 h1⟩

/-- An affine function whose values at the ends of an interval reach into `[c, d]`
takes a value in `[c, d]` on the interval. -/
theorem affine_hits (s k lo hi c d : ℚ) (hx : lo ≤ hi)
    (h1 : min (s * lo + k) (s * hi + k) ≤ d) (h2 : c ≤ max (s * lo + k) (s * hi + k))
    (h3 : c ≤ d) : ∃ x, lo ≤ x ∧ x ≤ hi ∧ c ≤ s * x + k ∧ s * x + k ≤ d := by
  obtain ⟨m1, m2, m3, m4⟩ := common_value _ _ _ _ h1 h2 h3
  obtain ⟨t, t0, t1, ht⟩ := between_param _ _ _ m1 m2
  refine ⟨lo + t * (hi - lo), ?_, ?_, ?_, ?_⟩
  · nlinarith [mul_nonneg t0 (sub_nonneg.mpr hx)]
  · nlinarith [mul_nonneg (sub_nonneg.mpr t1) (sub_nonneg.mpr hx)]
  · have : s * (lo + t * (hi - lo)) + k =
        (s * lo + k) + t * ((s * hi + k) - (s * lo + k)) := by ring
    rw [this, ← ht]
    exact m3
  · have : s * (lo + t * (hi - lo)) + k =
        (s * lo + k) + t * ((s * hi + k) - (s * lo + k)) := by ring
    rw [this, ← ht]
    exact m4

/-- Outside the band of the nearly vertical segments, a segment that passes the overlap
test has a point in the rectangle. -/
theorem edge_intersect_bounds_point (e : pmqt_edge) (r : pmqt_bounds)
    (hd : |e.b.x - e.a.x| > PMQT_EPS ∨ e.b.x = e.a.x)
    (h : pmqt_edge_intersect_bounds e r = true) :
    ∃ p, on_segment p e ∧ pmqt_point_in_bounds p r = true := by
  rw [edge_intersect_bounds_iff] at h
  obtain ⟨hx, hy⟩ := h
  by_cases hband : |e.b.x - e.a.x| > PMQT_EPS
  · simp only [hband, if_true] at hy
    obtain ⟨y1, y2, y3⟩ := hy
    have hne : e.b.x - e.a.x ≠ 0 := by
      intro h0
      rw [h0, abs_zero] at hband
      exact absurd hband (by norm_num [PMQT_EPS])
    obtain ⟨x, x1, x2, x3, x4⟩ := affine_hits _ _ _ _ _ _ hx y1 y2 y3
    obtain ⟨t, t0, t1, ht⟩ := between_param e.a.x e.b.x x
      ((le_max_left _ _).trans x1) (x2.trans (min_le_left _ _))
    refine ⟨⟨e.a.x + t * (e.b.x - e.a.x), e.a.y + t * (e.b.y - e.a.y)⟩,
      ⟨t, t0, t1, rfl, rfl⟩, ?_⟩
    have hyv : e.a.y + t * (e.b.y - e.a.y) =
        (e.b.y - e.a.y) / (e.b.x - e.a.x) * x +
          (e.a.y - (e.b.y - e.a.y) / (e.b.x - e.a.x) * e.a.x) := by
      rw [ht]
      field_simp
      ring
    rw [point_in_bounds_iff]
    simp only
    rw [hyv, ← ht]
    exact ⟨(le_max_right _ _).trans x1, x4, x2.trans (min_le_right _ _), x3⟩
  · have hv : e.b.x = e.a.x := by
      rcases hd with hd | hd
      · exact absurd hd hband
      · exact hd
    simp only [hband, if_false] at hy
    obtain ⟨y1, y2, y3⟩ := hy
    obtain ⟨m1, m2, m3, m4⟩ := common_value _ _ _ _ y1 y2 y3
    obtain ⟨t, t0, t1, ht⟩ := between_param _ _ _ m1 m2
    refine ⟨⟨e.a.x + t * (e.b.x - e.a.x), e.a.y + t * (e.b.y - e.a.y)⟩,
      ⟨t, t0, t1, rfl, rfl⟩, ?_⟩
    rw [point_in_bounds_iff]
    simp only
    rw [← ht, hv, sub_self, mul_zero, add_zero]
    rw [hv, min_self, max_self] at hx
    exact ⟨(le_max_right _ _).trans (hx.trans (min_le_left _ _)), m4,
      (le_max_left _ _).trans (hx.trans (min_le_right _ _)), m3⟩

/-- C19 (the overlap test is exact outside the near-vertical band).  In exact arithmetic,
for every segment whose endpoints differ in x by more than `PMQT_EPS` or not at all, and
every rectangle, `pmqt_edge_intersect_bounds` returns true if and only if some point of
the closed segment lies in the closed rectangle; so it can only return true for a
segment that misses the rectangle when the endpoints differ in x by at most
`PMQT_EPS` and not by zero. -/
theorem overlap_test_exact (e : pmqt_edge) (r : pmqt_bounds)
    (hd : |e.b.x - e.a.x| > PMQT_EPS ∨ e.b.x = e.a.x) :
    pmqt_edge_intersect_bounds e r = true ↔
      ∃ p, on_segment p e ∧ pmqt_point_in_bounds p r = true :=
  ⟨edge_intersect_bounds_point e r hd,
    fun ⟨p, hp, hin⟩ => edge_intersect_bounds_of_point e r p hp hin⟩

/-- Witness of C19: the edge of the example and the north-west quarter of the square,
which it meets in the point (50, 50). -/
theorem overlap_test_exact_witness :
    pmqt_edge_intersect_bounds example_edge ⟨⟨0, 100⟩, ⟨50, 50⟩, 50, 50⟩ = true ↔
      ∃ p, on_segment p example_edge ∧
        pmqt_point_in_bounds p ⟨⟨0, 100⟩, ⟨50, 50⟩, 50, 50⟩ = true :=
  overlap_test_exact example_edge ⟨⟨0, 100⟩, ⟨50, 50⟩, 50, 50⟩
    (Or.inl (by norm_num [example_edge, PMQT_EPS]))


/-! ## The content of the leaves -/

theorem point_equals_iff (a b : pmqt_point) : pmqt_point_equals a b = true ↔ a = b := by
  cases a
  cases b
  simp [pmqt_point_equals]

theorem exact_leaf (n : pmqt_node) (hleaf : n.leaves = [n]) (S : List pmqt_edge) :
    n.exact S ↔ n.content = S.filter (fun e => edge_hits e n.bounds) := by
  unfold pmqt_node.exact
  rw [hleaf]
  simp only [List.mem_singleton, forall_eq]

theorem exact_grey (b : pmqt_bounds) (nw ne sw se : pmqt_node) (S : List pmqt_edge) :
    (pmqt_node.PMQT_GREY b nw ne sw se).exact S ↔
      nw.exact S ∧ ne.exact S ∧ sw.exact S ∧ se.exact S := by
  simp only [pmqt_node.exact, mem_leaves_grey]
  constructor
  · intro h
    exact ⟨fun L hL => h L (Or.inl hL), fun L hL => h L (Or.inr (Or.inl hL)),
      fun L hL => h L (Or.inr (Or.inr (Or.inl hL))), fun L hL => h L (Or.inr (Or.inr (Or.inr hL)))⟩
  · rintro ⟨h1, h2, h3, h4⟩ L (hL | hL | hL | hL)
    · exact h1 L hL
    · exact h2 L hL
    · exact h3 L hL
    · exact h4 L hL

/-- The edges of a list that hit a rectangle are found among those that hit a larger
one. -/
theorem filter_hits_inside (S : List pmqt_edge) (c b : pmqt_bounds) (hin : c.inside b) :
    S.filter (fun e => edge_hits e c) =
      (S.filter (fun e => edge_hits e b)).filter (fun e => edge_hits e c) := by
  rw [List.filter_filter]
  apply List.filter_congr
  intro e _
  cases hc : edge_hits e c
  · simp
  · simp [edge_hits_mono e c b hin hc]

/-- A tree that is exact for a list is exact for every list with the same edges
hitting the bounds of the tree. -/
theorem exact_transfer (n : pmqt_node) (hn : n.inv) (S1 S2 : List pmqt_edge)
    (h1 : n.exact S1)
    (heq : S1.filter (fun e => edge_hits e n.bounds) =
      S2.filter (fun e => edge_hits e n.bounds)) : n.exact S2 := by
  intro L hL
  have hin := leaves_inside n hn L hL
  rw [h1 L hL, filter_hits_inside S1 _ _ hin, filter_hits_inside S2 _ _ hin, heq]

theorem exact_split_grey (b : pmqt_bounds) : (pmqt_split_grey b).exact [] := by
  obtain ⟨e1, e2, e3, e4⟩ := split_children_white b
  intro L hL
  unfold pmqt_split_grey at hL
  rw [mem_leaves_grey, e1, e2, e3, e4] at hL
  simp only [pmqt_node.leaves, List.mem_singleton] at hL
  rcases hL with h | h | h | h <;> rw [h] <;> rfl

/-- What the loop of `pmqt_split_node` leaves, when every call in it maps a tree that is
exact for a list to one that is exact for the list followed by the new edge. -/
theorem split_loop_exact (f : Nat) :
    ∀ (es : List pmqt_edge) (n : pmqt_node) (S0 : List pmqt_edge) (r : pmqt_err)
      (n1 : pmqt_node),
      split_loop_rel (fun n e r n1 => ∀ S : List pmqt_edge, n.inv → n.exact S →
        r = .PMQT_OK → n1.exact (S ++ [e])) f n es r n1 →
      n.inv → n.nondegenerate → n.exact S0 →
      n1.inv ∧ n1.bounds = n.bounds ∧ n1.nondegenerate ∧ n1.exact (S0 ++ es) := by
  intro es
  induction es with
  | nil =>
    rintro n S0 r n1 ⟨_, rfl⟩ hi hn hc
    rw [List.append_nil]
    exact ⟨hi, rfl, hn, hc⟩
  | cons e es ih =>
    rintro n S0 r n1 ⟨r0, n0, heq, hM, h⟩ hi hn hc
    have hnd := insert_edge_nondegenerate f n e r0 n0 heq hn
    have hiv := insert_edge_inv f n e r0 n0 heq
    rcases h with ⟨hne, _, _⟩ | ⟨_, hl⟩
    · exact absurd hnd.1 hne
    · have := ih n0 (S0 ++ [e]) r n1 hl (hiv.2 hi) hnd.2 (hM S0 hi hc hnd.1)
      refine ⟨this.1, this.2.1.trans hiv.1, this.2.2.1, ?_⟩
      have e2 : S0 ++ e :: es = S0 ++ [e] ++ es := by simp
      rw [e2]
      exact this.2.2.2

/-- A call of `pmqt_insert_edge` that returns `PMQT_OK` on a tree that is exact for `S`
leaves a tree that is exact for `S` followed by the new edge. -/
theorem insert_edge_exact (f : Nat) (n : pmqt_node) (e : pmqt_edge) (n1 : pmqt_node)
    (h : pmqt_insert_edge f n e = some (.PMQT_OK, n1)) (S : List pmqt_edge) (hi : n.inv)
    (hc : n.exact S) : n1.exact (S ++ [e]) := by
  refine insert_edge_induction (fun n e r n1 => ∀ S : List pmqt_edge, n.inv → n.exact S →
      r = .PMQT_OK → n1.exact (S ++ [e]))
    ?_ ?_ ?_ ?_ ?_ ?_ ?_ ?_ ?_ ?_ ?_ ?_ ?_ ?_ f n e _ n1 h S hi hc rfl
  · intro _ b e r n1 _ _ _ ih S hi hc hr
    refine ih S (split_grey_inv b hi) ?_ hr
    refine exact_transfer _ (split_grey_inv b hi) [] S (exact_split_grey b) ?_
    have := (exact_leaf (.PMQT_WHITE b) rfl S).mp hc
    simp only [pmqt_node.content, pmqt_node.bounds] at this
    rw [split_grey_bounds, ← this]
    rfl
  · intro b e ha _ S _ hc _
    refine (exact_leaf (.PMQT_BLACK_POINT b e.a [e]) rfl _).mpr ?_
    have := (exact_leaf (.PMQT_WHITE b) rfl S).mp hc
    simp only [pmqt_node.content, pmqt_node.bounds] at this ⊢
    rw [List.filter_append, ← this]
    simp [edge_hits, ha]
  · intro b e _ hb S _ hc _
    refine (exact_leaf (.PMQT_BLACK_POINT b e.b [e]) rfl _).mpr ?_
    have := (exact_leaf (.PMQT_WHITE b) rfl S).mp hc
    simp only [pmqt_node.content, pmqt_node.bounds] at this ⊢
    rw [List.filter_append, ← this]
    simp [edge_hits, hb]
  · intro b e _ _ hI S _ hc _
    refine (exact_leaf (.PMQT_BLACK_EDGE b e) rfl _).mpr ?_
    have := (exact_leaf (.PMQT_WHITE b) rfl S).mp hc
    simp only [pmqt_node.content, pmqt_node.bounds] at this ⊢
    rw [List.filter_append, ← this]
    simp [edge_hits, hI]
  · intro b e ha hb hI S _ hc _
    refine (exact_leaf (.PMQT_WHITE b) rfl _).mpr ?_
    have := (exact_leaf (.PMQT_WHITE b) rfl S).mp hc
    simp only [pmqt_node.content, pmqt_node.bounds] at this ⊢
    rw [List.filter_append, ← this]
    simp [edge_hits, ha, hb, hI]
  · intro _ _ _ _ _ _ _ _ _ _ _ hne _ _ _ hr
    exact absurd hr hne
  · intro _ _ _ _ _ _ _ _ _ _ _ _ _ _ hne _ _ _ hr
    exact absurd hr hne
  · intro _ _ _ _ _ _ _ _ _ _ _ _ _ _ _ _ _ hne _ _ _ hr
    exact absurd hr hne
  · intro _ b nw ne sw se e n1 n2 n3 r4 n4 _ ih1 _ ih2 _ ih3 _ ih4 S hi hc hr
    obtain ⟨_, _, _, _, _, v1, v2, v3, v4⟩ := hi
    obtain ⟨c1, c2, c3, c4⟩ := (exact_grey _ _ _ _ _ _).mp hc
    exact (exact_grey _ _ _ _ _ _).mpr
      ⟨ih1 S v1 c1 rfl, ih2 S v2 c2 rfl, ih3 S v3 c3 rfl, ih4 S v4 c4 hr⟩
  · intro b p es e hm S hi hc _
    refine (exact_leaf (.PMQT_BLACK_POINT b p (es ++ [e])) rfl _).mpr ?_
    have := (exact_leaf (.PMQT_BLACK_POINT b p es) rfl S).mp hc
    simp only [pmqt_node.content, pmqt_node.bounds] at this ⊢
    have hhit : edge_hits e b = true := by
      simp only [Bool.or_eq_true, point_equals_iff] at hm
      simp only [edge_hits, Bool.or_eq_true]
      rcases hm with hm | hm
      · exact Or.inl (Or.inl (hm ▸ hi.2))
      · exact Or.inl (Or.inr (hm ▸ hi.2))
    rw [List.filter_append, ← this]
    simp [hhit]
  · intro n e hb hmiss S _ hc _
    refine (exact_leaf n (leaves_of_blocks n e hb) _).mpr ?_
    have := (exact_leaf n (leaves_of_blocks n e hb) S).mp hc
    rw [List.filter_append, ← this]
    simp [hmiss]
  · intro _ _ _ _ _ _ _ _ hr
    exact absurd hr (by simp)
  · intro f1 f2 b e0 e r1 n1 r n2 _ hd h1 ih1 _ ih2 S hi hc hr
    have hg := split_grey_inv b hi.1
    have hnd := insert_edge_nondegenerate f1 _ e0 r1 n1 h1 (split_grey_nondegenerate b hd)
    have hiv := insert_edge_inv f1 _ e0 r1 n1 h1
    have hc1 := ih1 [] hg (exact_split_grey b) hnd.1
    refine ih2 S (hiv.2 hg) ?_ hr
    refine exact_transfer n1 (hiv.2 hg) _ S hc1 ?_
    rw [hiv.1, split_grey_bounds]
    have := (exact_leaf (.PMQT_BLACK_EDGE b e0) rfl S).mp hc
    simp only [pmqt_node.content, pmqt_node.bounds] at this
    rw [← this]
    have hhit : edge_hits e0 b = true := by
      simp only [edge_hits, Bool.or_eq_true]
      exact Or.inr hi.2.2.2
    simp [hhit]
  · intro f1 f2 b p es e r1 n1 r n2 _ _ hd hl _ ih2 S hi hc hr
    have hg := split_grey_inv b hi.1
    obtain ⟨hi1, hb1, _, hc1⟩ := split_loop_exact f1 es (pmqt_split_grey b) [] r1 n1 hl hg
      (split_grey_nondegenerate b hd) (exact_split_grey b)
    refine ih2 S hi1 ?_ hr
    refine exact_transfer n1 hi1 _ S hc1 ?_
    rw [hb1, split_grey_bounds, List.nil_append]
    have := (exact_leaf (.PMQT_BLACK_POINT b p es) rfl S).mp hc
    simp only [pmqt_node.content, pmqt_node.bounds] at this
    rw [this, List.filter_filter]
    apply List.filter_congr
    intro x _
    simp

theorem split_grey_anchored (b : pmqt_bounds) : (pmqt_split_grey b).anchored :=
  ⟨trivial, trivial, trivial, trivial⟩

/-- Every call of `pmqt_insert_edge` keeps the lists of the black (point) nodes
non-empty and made of edges that end in the anchor. -/
theorem insert_edge_anchored (f : Nat) (n : pmqt_node) (e : pmqt_edge) (r : pmqt_err)
    (n1 : pmqt_node) (h : pmqt_insert_edge f n e = some (r, n1)) (hn : n.anchored) :
    n1.anchored := by
  refine insert_edge_induction (fun n _ _ n1 => n.anchored → n1.anchored)
    ?_ ?_ ?_ ?_ ?_ ?_ ?_ ?_ ?_ ?_ ?_ ?_ ?_ ?_ f n e r n1 h hn
  · intro _ b _ _ _ _ _ _ ih _
    exact ih (split_grey_anchored b)
  · intro b e _ _ _
    exact ⟨by simp, fun x hx => Or.inl (by rw [List.mem_singleton.mp hx])⟩
  · intro b e _ _ _
    exact ⟨by simp, fun x hx => Or.inr (by rw [List.mem_singleton.mp hx])⟩
  · intro _ _ _ _ _ _; trivial
  · intro _ _ _ _ _ _; trivial
  · intro _ b nw ne sw se e r1 n1 _ ih _ hn
    exact ⟨ih hn.1, hn.2.1, hn.2.2.1, hn.2.2.2⟩
  · intro _ b nw ne sw se e n1 r2 n2 _ ih1 _ ih2 _ hn
    exact ⟨ih1 hn.1, ih2 hn.2.1, hn.2.2.1, hn.2.2.2⟩
  · intro _ b nw ne sw se e n1 n2 r3 n3 _ ih1 _ ih2 _ ih3 _ hn
    exact ⟨ih1 hn.1, ih2 hn.2.1, ih3 hn.2.2.1, hn.2.2.2⟩
  · intro _ b nw ne sw se e n1 n2 n3 r4 n4 _ ih1 _ ih2 _ ih3 _ ih4 hn
    exact ⟨ih1 hn.1, ih2 hn.2.1, ih3 hn.2.2.1, ih4 hn.2.2.2⟩
  · intro b p es e hm hn
    refine ⟨by simp, ?_⟩
    intro x hx
    rcases List.mem_append.mp hx with hx | hx
    · exact hn.2 x hx
    · rw [List.mem_singleton.mp hx]
      simp only [Bool.or_eq_true, point_equals_iff] at hm
      exact hm
  · intro n e _ _ hn; exact hn
  · intro n e _ _ _ hn; exact hn
  · intro _ _ b e0 e r1 n1 r n2 _ _ _ ih1 _ ih2 _
    exact ih2 (ih1 (split_grey_anchored b))
  · intro f1 _ b p es e r1 n1 r n2 _ _ _ hl _ ih2 _
    exact ih2 (split_loop_rel_fold _ (fun m => m.anchored) (fun _ => True) trivial f1
      (fun m e0 r0 m1 _ hM hP => ⟨hM hP, trivial⟩) es (pmqt_split_grey b) r1 n1 hl
      (split_grey_anchored b)).1

theorem leaves_anchored (n : pmqt_node) (hn : n.anchored) : ∀ L ∈ n.leaves, L.anchored := by
  induction n with
  | PMQT_GREY b nw ne sw se i1 i2 i3 i4 =>
    intro L hL
    rcases (mem_leaves_grey b nw ne sw se L).mp hL with h | h | h | h
    · exact i1 hn.1 L h
    · exact i2 hn.2.1 L h
    · exact i3 hn.2.2.1 L h
    · exact i4 hn.2.2.2 L h
  | PMQT_WHITE b =>
    intro L hL
    rw [pmqt_node.leaves, List.mem_singleton] at hL
    rw [hL]; exact hn
  | PMQT_BLACK_POINT b p es =>
    intro L hL
    rw [pmqt_node.leaves, List.mem_singleton] at hL
    rw [hL]; exact hn
  | PMQT_BLACK_EDGE b e =>
    intro L hL
    rw [pmqt_node.leaves, List.mem_singleton] at hL
    rw [hL]; exact hn

/-- What a sequence of calls of `pmqt_insert` that all return `PMQT_OK` keeps of the
content of the leaves. -/
theorem built_ok_exact (min_x min_y max_x max_y : pmqt_float_t) (es : List pmqt_edge)
    (t : pmqt) (hb : built_ok (pmqt_new min_x min_y max_x max_y) es t) :
    t.root.inv ∧ t.root.exact es.reverse ∧ t.root.anchored := by
  induction hb with
  | init =>
    refine ⟨new_with_bounds_wf _ _ _ _, ?_, trivial⟩
    intro L hL
    have : L = (pmqt_new min_x min_y max_x max_y).root := by
      simpa [pmqt_new, new_with_bounds_eq, pmqt_node.leaves] using hL
    rw [this]
    rfl
  | step fuel e _ hins ih =>
    rcases insert_cases fuel _ e _ _ hins with ⟨_, hr, _⟩ | ⟨_, _, hi⟩
    · exact absurd hr (by simp)
    · refine ⟨(insert_edge_inv _ _ _ _ _ hi).2 ih.1, ?_, insert_edge_anchored _ _ _ _ _ hi ih.2.2⟩
      rw [List.reverse_cons]
      exact insert_edge_exact _ _ _ _ hi _ ih.1 ih.2.1

/-- C14 (leaf content invariant, as amended).  In exact arithmetic and when no
allocation fails: let a tree be built from a new tree by calls of `pmqt_insert` that
all returned `PMQT_OK`, and let an inserted edge hit a leaf
when an endpoint of the edge lies in the bounds of the leaf or the edge overlaps them.
A leaf is white exactly when no inserted edge hits it.  The edge of a black (edge) leaf
is an inserted edge that hits the leaf, and the only one.  The list of a black (point)
leaf is not empty, consists of the inserted edges that hit the leaf, in the order of
their insertion and each as often as it was inserted, so each once when no edge was
inserted twice, and every edge in it has the anchor of the leaf for an endpoint. -/
theorem leaf_content_invariant (min_x min_y max_x max_y : pmqt_float_t)
    (es : List pmqt_edge) (t : pmqt)
    (hb : built_ok (pmqt_new min_x min_y max_x max_y) es t) (L : pmqt_node)
    (hL : L ∈ t.root.leaves) :
    ((∃ b, L = .PMQT_WHITE b) ↔ ∀ e ∈ es, edge_hits e L.bounds = false) ∧
    (∀ b e0, L = .PMQT_BLACK_EDGE b e0 →
      e0 ∈ es ∧ edge_hits e0 b = true ∧ (∀ e ∈ es, edge_hits e b = true → e = e0) ∧
      es.reverse.filter (fun e => edge_hits e b) = [e0]) ∧
    (∀ b p l, L = .PMQT_BLACK_POINT b p l →
      l ≠ [] ∧ l = es.reverse.filter (fun e => edge_hits e b) ∧
      (∀ e, e ∈ l ↔ e ∈ es ∧ edge_hits e b = true) ∧
      (es.Nodup → l.Nodup) ∧ ∀ e ∈ l, p = e.a ∨ p = e.b) := by
  obtain ⟨hinv, hex, hanc⟩ := built_ok_exact min_x min_y max_x max_y es t hb
  have hc := hex L hL
  have ha := leaves_anchored t.root hanc L hL
  have hmem : ∀ e, e ∈ es.reverse.filter (fun e => edge_hits e L.bounds) ↔
      e ∈ es ∧ edge_hits e L.bounds = true := by
    intro e
    rw [List.mem_filter, List.mem_reverse]
  have hgrey : ∀ b c1 c2 c3 c4, L ≠ .PMQT_GREY b c1 c2 c3 c4 := by
    intro b c1 c2 c3 c4 h
    have hl := leaves_inside t.root hinv L hL
    clear hl
    have : ∀ n : pmqt_node, ∀ M ∈ n.leaves, M.is_grey = false := by
      intro n
      induction n with
      | PMQT_GREY b nw ne sw se i1 i2 i3 i4 =>
        intro M hM
        rcases (mem_leaves_grey b nw ne sw se M).mp hM with h | h | h | h
        · exact i1 M h
        · exact i2 M h
        · exact i3 M h
        · exact i4 M h
      | PMQT_WHITE b => intro M hM; rw [pmqt_node.leaves, List.mem_singleton] at hM; rw [hM]; rfl
      | PMQT_BLACK_POINT b p es =>
        intro M hM; rw [pmqt_node.leaves, List.mem_singleton] at hM; rw [hM]; rfl
      | PMQT_BLACK_EDGE b e =>
        intro M hM; rw [pmqt_node.leaves, List.mem_singleton] at hM; rw [hM]; rfl
    have h2 := this t.root L hL
    rw [h] at h2
    exact absurd h2 (by simp [pmqt_node.is_grey])
  refine ⟨?_, ?_, ?_⟩
  · constructor
    · rintro ⟨b, rfl⟩ e he
      cases hh : edge_hits e (pmqt_node.PMQT_WHITE b).bounds
      · rfl
      · have := (hmem e).mpr ⟨he, hh⟩
        rw [← hc] at this
        exact absurd this (by simp [pmqt_node.content])
    · intro hno
      have hempty : L.content = [] := by
        rw [hc, List.filter_eq_nil_iff]
        intro e he
        rw [hno e (List.mem_reverse.mp he)]
        simp
      cases L with
      | PMQT_WHITE b => exact ⟨b, rfl⟩
      | PMQT_GREY b c1 c2 c3 c4 => exact absurd rfl (hgrey b c1 c2 c3 c4)
      | PMQT_BLACK_POINT b p l => exact absurd hempty ha.1
      | PMQT_BLACK_EDGE b e0 => exact absurd hempty (by simp [pmqt_node.content])
  · rintro b e0 rfl
    simp only [pmqt_node.content, pmqt_node.bounds] at hc hmem
    have h0 := (hmem e0).mp (by rw [← hc]; simp)
    refine ⟨h0.1, h0.2, ?_, hc.symm⟩
    intro e he hh
    have := (hmem e).mpr ⟨he, hh⟩
    rw [← hc] at this
    exact List.mem_singleton.mp this
  · rintro b p l rfl
    simp only [pmqt_node.content, pmqt_node.bounds] at hc hmem
    refine ⟨ha.1, hc, ?_, ?_, ha.2⟩
    · intro e
      rw [hc]
      exact hmem e
    · intro hnd
      rw [hc]
      exact List.Nodup.filter _ (List.nodup_reverse.mpr hnd)

/-- The tree after two insertions of the same edge. -/
theorem twice_tree_built :
    built_ok (pmqt_new 0 0 100 100) [twice_edge, twice_edge] twice_tree :=
  built_ok.step 2 twice_edge
    (built_ok.step 3 twice_edge built_ok.init
      (by decide! : pmqt_insert 3 (pmqt_new 0 0 100 100) twice_edge =
        some (.PMQT_OK,
          { root := .PMQT_GREY ⟨⟨0, 100⟩, ⟨100, 0⟩, 100, 100⟩
              (.PMQT_BLACK_POINT ⟨⟨0, 100⟩, ⟨50, 50⟩, 50, 50⟩ ⟨40, 75⟩ [twice_edge])
              (.PMQT_BLACK_POINT ⟨⟨50, 100⟩, ⟨100, 50⟩, 50, 50⟩ ⟨60, 75⟩ [twice_edge])
              (.PMQT_WHITE ⟨⟨0, 50⟩, ⟨50, 0⟩, 50, 50⟩)
              (.PMQT_WHITE ⟨⟨50, 50⟩, ⟨100, 0⟩, 50, 50⟩) })))
    (by decide!)

/-- Witness of C14 (as amended): the north-west leaf of the tree after two insertions
of one edge; its list holds the edge twice. -/
theorem leaf_content_invariant_witness :
    [twice_edge, twice_edge] ≠ [] ∧
    [twice_edge, twice_edge] = [twice_edge, twice_edge].reverse.filter
      (fun e => edge_hits e ⟨⟨0, 100⟩, ⟨50, 50⟩, 50, 50⟩) ∧
    (∀ e, e ∈ [twice_edge, twice_edge] ↔
      e ∈ [twice_edge, twice_edge] ∧ edge_hits e ⟨⟨0, 100⟩, ⟨50, 50⟩, 50, 50⟩ = true) ∧
    ((([twice_edge, twice_edge] : List pmqt_edge)).Nodup →
      ([twice_edge, twice_edge] : List pmqt_edge).Nodup) ∧
    ∀ e ∈ [twice_edge, twice_edge], (⟨40, 75⟩ : pmqt_point) = e.a ∨ (⟨40, 75⟩ : pmqt_point) = e.b :=
  (leaf_content_invariant 0 0 100 100 [twice_edge, twice_edge] twice_tree twice_tree_built
    (.PMQT_BLACK_POINT ⟨⟨0, 100⟩, ⟨50, 50⟩, 50, 50⟩ ⟨40, 75⟩ [twice_edge, twice_edge])
    (by simp [twice_tree, pmqt_node.leaves])).2.2 _ _ _ rfl

/-! ## The pruning variant of the insertion -/

theorem pruned_split_node_white (f : Nat) (b : pmqt_bounds) :
    pmqt_split_node_pruned (f + 1) (.PMQT_WHITE b) = some (.PMQT_OK, pmqt_split_grey b) := by
  simp [pmqt_split_node_pruned, pmqt_split_grey]

theorem pruned_split_node_black_edge (f : Nat) (b : pmqt_bounds) (e0 : pmqt_edge) :
    pmqt_split_node_pruned (f + 1) (.PMQT_BLACK_EDGE b e0) =
      pmqt_insert_edge_pruned f (pmqt_split_grey b) e0 := by
  simp [pmqt_split_node_pruned, pmqt_split_grey]

theorem pruned_split_node_black_point (f : Nat) (b : pmqt_bounds) (p : pmqt_point)
    (es : List pmqt_edge) :
    pmqt_split_node_pruned (f + 1) (.PMQT_BLACK_POINT b p es) =
      pmqt_split_loop (pmqt_insert_edge_pruned f) .PMQT_OK (pmqt_split_grey b) es := by
  simp [pmqt_split_node_pruned, pmqt_split_grey]

theorem pruned_split_node_zero (n : pmqt_node) : pmqt_split_node_pruned 0 n = none := by
  simp [pmqt_split_node_pruned]

theorem pruned_insert_edge_zero (n : pmqt_node) (e : pmqt_edge) :
    pmqt_insert_edge_pruned 0 n e = none := rfl

theorem pruned_insert_edge_white (f : Nat) (b : pmqt_bounds) (e : pmqt_edge) :
    pmqt_insert_edge_pruned (f + 1) (.PMQT_WHITE b) e =
      if pmqt_point_in_bounds e.a b = true ∧ pmqt_point_in_bounds e.b b = true then
        (pmqt_split_node_pruned f (.PMQT_WHITE b)).bind
          (fun x => pmqt_insert_edge_pruned f x.2 e)
      else if pmqt_point_in_bounds e.a b = true then
        some (.PMQT_OK, .PMQT_BLACK_POINT b e.a [e])
      else if pmqt_point_in_bounds e.b b = true then
        some (.PMQT_OK, .PMQT_BLACK_POINT b e.b [e])
      else if pmqt_edge_intersect_bounds e b = true then
        some (.PMQT_OK, .PMQT_BLACK_EDGE b e)
      else some (.PMQT_OK, .PMQT_WHITE b) := by
  have h : pmqt_insert_edge_pruned (f + 1) (.PMQT_WHITE b) e =
      if (pmqt_point_in_bounds e.a b && pmqt_point_in_bounds e.b b) = true then
        match pmqt_split_node_pruned f (.PMQT_WHITE b) with
        | none => none
        | some (_, node1) => pmqt_insert_edge_pruned f node1 e
      else if pmqt_point_in_bounds e.a b = true then
        some (.PMQT_OK, .PMQT_BLACK_POINT b e.a (pmqt_node_add_edge [] e))
      else if pmqt_point_in_bounds e.b b = true then
        some (.PMQT_OK, .PMQT_BLACK_POINT b e.b (pmqt_node_add_edge [] e))
      else if pmqt_edge_intersect_bounds e b = true then
        some (.PMQT_OK, .PMQT_BLACK_EDGE b e)
      else some (.PMQT_OK, .PMQT_WHITE b) := rfl
  rw [h]
  simp only [Bool.and_eq_true, pmqt_node_add_edge, List.nil_append]
  split_ifs <;> first | rfl | (cases pmqt_split_node_pruned f (.PMQT_WHITE b) <;> rfl)

theorem pruned_insert_edge_black_edge (f : Nat) (b : pmqt_bounds) (e0 e : pmqt_edge) :
    pmqt_insert_edge_pruned (f + 1) (.PMQT_BLACK_EDGE b e0) e =
      if edge_hits e b = true then
        if degenerate b then some (.PMQT_ERR_INTRSCT, .PMQT_BLACK_EDGE b e0)
        else (pmqt_split_node_pruned f (.PMQT_BLACK_EDGE b e0)).bind
          (fun x => pmqt_insert_edge_pruned f x.2 e)
      else some (.PMQT_OK, .PMQT_BLACK_EDGE b e0) := by
  have h : pmqt_insert_edge_pruned (f + 1) (.PMQT_BLACK_EDGE b e0) e =
      if (pmqt_point_in_bounds e.a b || pmqt_point_in_bounds e.b b ||
          pmqt_edge_intersect_bounds e b) = true then
        if b.width = 0 ∨ b.height = 0 then some (.PMQT_ERR_INTRSCT, .PMQT_BLACK_EDGE b e0)
        else
          match pmqt_split_node_pruned f (.PMQT_BLACK_EDGE b e0) with
          | none => none
          | some (_, node1) => pmqt_insert_edge_pruned f node1 e
      else some (.PMQT_OK, .PMQT_BLACK_EDGE b e0) := rfl
  rw [h]
  simp only [edge_hits, degenerate]
  split_ifs <;> first | rfl | (cases pmqt_split_node_pruned f (.PMQT_BLACK_EDGE b e0) <;> rfl)

theorem pruned_insert_edge_black_point (f : Nat) (b : pmqt_bounds) (p : pmqt_point)
    (es : List pmqt_edge) (e : pmqt_edge) :
    pmqt_insert_edge_pruned (f + 1) (.PMQT_BLACK_POINT b p es) e =
      if (pmqt_point_equals p e.a || pmqt_point_equals p e.b) = true then
        some (.PMQT_OK, .PMQT_BLACK_POINT b p (es ++ [e]))
      else if edge_hits e b = true then
        if degenerate b then some (.PMQT_ERR_INTRSCT, .PMQT_BLACK_POINT b p es)
        else (pmqt_split_node_pruned f (.PMQT_BLACK_POINT b p es)).bind
          (fun x => pmqt_insert_edge_pruned f x.2 e)
      else some (.PMQT_OK, .PMQT_BLACK_POINT b p es) := by
  have h : pmqt_insert_edge_pruned (f + 1) (.PMQT_BLACK_POINT b p es) e =
      if (pmqt_point_equals p e.a || pmqt_point_equals p e.b) = true then
        some (.PMQT_OK, .PMQT_BLACK_POINT b p (pmqt_node_add_edge es e))
      else
        if (pmqt_point_in_bounds e.a b || pmqt_point_in_bounds e.b b ||
            pmqt_edge_intersect_bounds e b) = true then
          if b.width = 0 ∨ b.height = 0 then
            some (.PMQT_ERR_INTRSCT, .PMQT_BLACK_POINT b p es)
          else
            match pmqt_split_node_pruned f (.PMQT_BLACK_POINT b p es) with
            | none => none
            | some (_, node1) => pmqt_insert_edge_pruned f node1 e
        else some (.PMQT_OK, .PMQT_BLACK_POINT b p es) := rfl
  rw [h]
  simp only [edge_hits, degenerate, pmqt_node_add_edge]
  split_ifs <;> first | rfl | (cases pmqt_split_node_pruned f (.PMQT_BLACK_POINT b p es) <;> rfl)

theorem pruned_insert_edge_grey (f : Nat) (b : pmqt_bounds) (nw ne sw se : pmqt_node)
    (e : pmqt_edge) :
    pmqt_insert_edge_pruned (f + 1) (.PMQT_GREY b nw ne sw se) e =
      (pmqt_prune (pmqt_insert_edge_pruned f) nw e).bind fun x1 =>
        if x1.1 ≠ .PMQT_OK then some (x1.1, .PMQT_GREY b x1.2 ne sw se) else
        (pmqt_prune (pmqt_insert_edge_pruned f) ne e).bind fun x2 =>
          if x2.1 ≠ .PMQT_OK then some (x2.1, .PMQT_GREY b x1.2 x2.2 sw se) else
          (pmqt_prune (pmqt_insert_edge_pruned f) sw e).bind fun x3 =>
            if x3.1 ≠ .PMQT_OK then some (x3.1, .PMQT_GREY b x1.2 x2.2 x3.2 se) else
            (pmqt_prune (pmqt_insert_edge_pruned f) se e).bind fun x4 =>
              some (x4.1, .PMQT_GREY b x1.2 x2.2 x3.2 x4.2) := by
  have h : pmqt_insert_edge_pruned (f + 1) (.PMQT_GREY b nw ne sw se) e =
      match pmqt_prune (pmqt_insert_edge_pruned f) nw e with
      | none => none
      | some (r1, nw1) =>
        if r1 ≠ .PMQT_OK then some (r1, .PMQT_GREY b nw1 ne sw se) else
        match pmqt_prune (pmqt_insert_edge_pruned f) ne e with
        | none => none
        | some (r2, ne1) =>
          if r2 ≠ .PMQT_OK then some (r2, .PMQT_GREY b nw1 ne1 sw se) else
          match pmqt_prune (pmqt_insert_edge_pruned f) sw e with
          | none => none
          | some (r3, sw1) =>
            if r3 ≠ .PMQT_OK then some (r3, .PMQT_GREY b nw1 ne1 sw1 se) else
            match pmqt_prune (pmqt_insert_edge_pruned f) se e with
            | none => none
            | some (r4, se1) =>
              if r4 ≠ .PMQT_OK then some (r4, .PMQT_GREY b nw1 ne1 sw1 se1)
              else some (.PMQT_OK, .PMQT_GREY b nw1 ne1 sw1 se1) := rfl
  rw [h]
  cases h1 : pmqt_prune (pmqt_insert_edge_pruned f) nw e with
  | none => rfl
  | some x1 =>
    obtain ⟨r1, n1⟩ := x1
    simp only [Option.some_bind]
    split_ifs
    · rfl
    · cases h2 : pmqt_prune (pmqt_insert_edge_pruned f) ne e with
      | none => rfl
      | some x2 =>
        obtain ⟨r2, n2⟩ := x2
        simp only [Option.some_bind]
        split_ifs
        · rfl
        · cases h3 : pmqt_prune (pmqt_insert_edge_pruned f) sw e with
          | none => rfl
          | some x3 =>
            obtain ⟨r3, n3⟩ := x3
            simp only [Option.some_bind]
            split_ifs
            · rfl
            · cases h4 : pmqt_prune (pmqt_insert_edge_pruned f) se e with
              | none => rfl
              | some x4 =>
                obtain ⟨r4, n4⟩ := x4
                simp only [Option.some_bind]
                split_ifs with h
                · rfl
                · rw [not_not.mp h]

/-- An edge that does not overlap a rectangle has no endpoint in it. -/
theorem no_overlap_no_hit (e : pmqt_edge) (b : pmqt_bounds)
    (ho : pmqt_edge_intersect_bounds e b = false) :
    pmqt_point_in_bounds e.a b = false ∧ pmqt_point_in_bounds e.b b = false ∧
    edge_hits e b = false := by
  have ha : pmqt_point_in_bounds e.a b = false := by
    cases h : pmqt_point_in_bounds e.a b
    · rfl
    · rw [edge_intersect_bounds_of_point e b e.a (on_segment_a e) h] at ho
      exact absurd ho (by simp)
  have hb : pmqt_point_in_bounds e.b b = false := by
    cases h : pmqt_point_in_bounds e.b b
    · rfl
    · rw [edge_intersect_bounds_of_point e b e.b (on_segment_b e) h] at ho
      exact absurd ho (by simp)
  exact ⟨ha, hb, by simp [edge_hits, ha, hb, ho]⟩

/-- A call of `pmqt_insert_edge` on a subtree whose bounds the edge does not overlap
returns `PMQT_OK`, given enough fuel, and leaves the subtree as it is. -/
theorem insert_edge_outside (e : pmqt_edge) (n : pmqt_node) (hn : n.inv)
    (ho : pmqt_edge_intersect_bounds e n.bounds = false) :
    ∃ f0, ∀ f, f0 ≤ f → pmqt_insert_edge f n e = some (.PMQT_OK, n) := by
  induction n with
  | PMQT_WHITE b =>
    obtain ⟨ha, hb, _⟩ := no_overlap_no_hit e b ho
    refine ⟨1, fun f hf => ?_⟩
    obtain ⟨g, rfl⟩ : ∃ g, f = g + 1 := ⟨f - 1, by omega⟩
    have ho1 : pmqt_edge_intersect_bounds e b = false := ho
    rw [insert_edge_white, if_neg (by simp [ha]), if_neg (by simp [ha]),
      if_neg (by simp [hb]), if_neg (by simp [ho1])]
  | PMQT_BLACK_EDGE b e0 =>
    obtain ⟨_, _, hh⟩ := no_overlap_no_hit e b ho
    refine ⟨1, fun f hf => ?_⟩
    obtain ⟨g, rfl⟩ : ∃ g, f = g + 1 := ⟨f - 1, by omega⟩
    rw [insert_edge_black_edge, if_neg (by simp [hh])]
  | PMQT_BLACK_POINT b p es =>
    obtain ⟨ha, hb, hh⟩ := no_overlap_no_hit e b ho
    refine ⟨1, fun f hf => ?_⟩
    obtain ⟨g, rfl⟩ : ∃ g, f = g + 1 := ⟨f - 1, by omega⟩
    have hp : pmqt_point_in_bounds p b = true := hn.2
    have hne : ¬ (pmqt_point_equals p e.a || pmqt_point_equals p e.b) = true := by
      intro h
      simp only [Bool.or_eq_true, point_equals_iff] at h
      rcases h with h | h
      · rw [h, ha] at hp; exact absurd hp (by simp)
      · rw [h, hb] at hp; exact absurd hp (by simp)
    rw [insert_edge_black_point, if_neg hne, if_neg (by simp [hh])]
  | PMQT_GREY b nw ne sw se i1 i2 i3 i4 =>
    obtain ⟨hw, b1, b2, b3, b4, v1, v2, v3, v4⟩ := hn
    obtain ⟨s1, s2, s3, s4⟩ := split_children_inside b hw
    rw [← b1] at s1
    rw [← b2] at s2
    rw [← b3] at s3
    rw [← b4] at s4
    have ho1 : pmqt_edge_intersect_bounds e b = false := ho
    have hc : ∀ c : pmqt_node, c.bounds.inside b →
        pmqt_edge_intersect_bounds e c.bounds = false := by
      intro c hin
      cases h : pmqt_edge_intersect_bounds e c.bounds
      · rfl
      · rw [edge_intersect_bounds_mono e c.bounds b hin h] at ho1
        exact absurd ho1 (by simp)
    obtain ⟨g1, h1⟩ := i1 v1 (hc nw s1)
    obtain ⟨g2, h2⟩ := i2 v2 (hc ne s2)
    obtain ⟨g3, h3⟩ := i3 v3 (hc sw s3)
    obtain ⟨g4, h4⟩ := i4 v4 (hc se s4)
    refine ⟨g1 + g2 + g3 + g4 + 1, fun f hf => ?_⟩
    obtain ⟨g, rfl⟩ : ∃ g, f = g + 1 := ⟨f - 1, by omega⟩
    rw [insert_edge_grey, h1 g (by omega), h2 g (by omega), h3 g (by omega), h4 g (by omega)]
    simp

theorem split_node_fuel_mono (f g : Nat) (hfg : f ≤ g) (n : pmqt_node)
    (x : pmqt_err × pmqt_node) (h : pmqt_split_node f n = some x) :
    pmqt_split_node g n = some x := by
  induction hfg with
  | refl => exact h
  | step _ ih => exact (fuel_succ _).2 n x ih

/-- A call of `pmqt_split_node` keeps the structural invariant. -/
theorem split_node_inv (f : Nat) (n : pmqt_node) (r : pmqt_err) (n1 : pmqt_node)
    (h : pmqt_split_node f n = some (r, n1)) (hn : n.inv) : n1.inv := by
  cases f with
  | zero => rw [split_node_zero] at h; exact absurd h (by simp)
  | succ f =>
    cases n with
    | PMQT_WHITE b =>
      rw [split_node_white] at h
      simp only [Option.some.injEq, Prod.mk.injEq] at h
      rw [← h.2]
      exact split_grey_inv b hn
    | PMQT_GREY b nw ne sw se =>
      simp only [pmqt_split_node, Option.some.injEq, Prod.mk.injEq] at h
      rw [← h.2]
      exact hn
    | PMQT_BLACK_EDGE b e0 =>
      rw [split_node_black_edge] at h
      exact (insert_edge_inv _ _ _ _ _ h).2 (split_grey_inv b hn.1)
    | PMQT_BLACK_POINT b p es =>
      rw [split_node_black_point] at h
      have hl := split_loop_rel_of_eq (fun n _ _ n1 => n.inv → n1.inv) f
        (fun n e r n1 hh => (insert_edge_inv f n e r n1 hh).2) es _ r n1 h
      exact (split_loop_rel_fold _ (fun m => m.inv) (fun _ => True) trivial f
        (fun m e0 r0 m1 _ hM hP => ⟨hM hP, trivial⟩) es _ r n1 hl
        (split_grey_inv b hn.1)).1

theorem bind_mono_inv {α β : Type} (P : α → Prop) (o o1 : Option α) (k k1 : α → Option β)
    (ho : ∀ a, o = some a → o1 = some a ∧ P a)
    (hk : ∀ a y, P a → k a = some y → k1 a = some y)
    (y : β) (h : o.bind k = some y) : o1.bind k1 = some y := by
  cases o with
  | none => exact absurd h (by simp)
  | some a =>
    rw [(ho a rfl).1]
    exact hk a y (ho a rfl).2 h

theorem split_loop_mono_inv (ins ins1 : pmqt_node → pmqt_edge → Option (pmqt_err × pmqt_node))
    (P : pmqt_node → Prop)
    (h : ∀ n e x, P n → ins n e = some x → ins1 n e = some x ∧ P x.2) :
    ∀ (es : List pmqt_edge) (r : pmqt_err) (n : pmqt_node) (y : pmqt_err × pmqt_node),
      P n → pmqt_split_loop ins r n es = some y → pmqt_split_loop ins1 r n es = some y := by
  intro es
  induction es with
  | nil => intro r n y _ hy; exact hy
  | cons e es ih =>
    intro r n y hP hy
    rw [pmqt_split_loop] at hy ⊢
    cases h0 : ins n e with
    | none => rw [h0] at hy; exact absurd hy (by simp)
    | some x =>
      obtain ⟨r0, n0⟩ := x
      rw [h0] at hy
      rw [(h n e _ hP h0).1]
      simp only at hy ⊢
      split_ifs at hy ⊢ with hr
      · exact hy
      · exact ih _ _ _ (h n e _ hP h0).2 hy

/-- The sequence of the four calls at a grey node returns the same when each call
that is reached returns the same. -/
theorem grey_bind_mono (b : pmqt_bounds) (ne sw se : pmqt_node)
    (i1 i2 i3 i4 j1 j2 j3 j4 : Option (pmqt_err × pmqt_node))
    (h1 : ∀ y, i1 = some y → j1 = some y) (h2 : ∀ y, i2 = some y → j2 = some y)
    (h3 : ∀ y, i3 = some y → j3 = some y) (h4 : ∀ y, i4 = some y → j4 = some y)
    (x : pmqt_err × pmqt_node)
    (h : (i1.bind fun x1 =>
        if x1.1 ≠ .PMQT_OK then some (x1.1, pmqt_node.PMQT_GREY b x1.2 ne sw se) else
        i2.bind fun x2 =>
          if x2.1 ≠ .PMQT_OK then some (x2.1, pmqt_node.PMQT_GREY b x1.2 x2.2 sw se) else
          i3.bind fun x3 =>
            if x3.1 ≠ .PMQT_OK then some (x3.1, pmqt_node.PMQT_GREY b x1.2 x2.2 x3.2 se) else
            i4.bind fun x4 => some (x4.1, pmqt_node.PMQT_GREY b x1.2 x2.2 x3.2 x4.2)) = some x) :
    (j1.bind fun x1 =>
        if x1.1 ≠ .PMQT_OK then some (x1.1, pmqt_node.PMQT_GREY b x1.2 ne sw se) else
        j2.bind fun x2 =>
          if x2.1 ≠ .PMQT_OK then some (x2.1, pmqt_node.PMQT_GREY b x1.2 x2.2 sw se) else
          j3.bind fun x3 =>
            if x3.1 ≠ .PMQT_OK then some (x3.1, pmqt_node.PMQT_GREY b x1.2 x2.2 x3.2 se) else
            j4.bind fun x4 => some (x4.1, pmqt_node.PMQT_GREY b x1.2 x2.2 x3.2 x4.2)) = some x := by
  refine bind_mono _ _ _ _ h1 ?_ x h
  intro x1 y hh1
  split_ifs at hh1 ⊢
  · exact hh1
  · refine bind_mono _ _ _ _ h2 ?_ y hh1
    intro x2 y hh2
    split_ifs at hh2 ⊢
    · exact hh2
    · refine bind_mono _ _ _ _ h3 ?_ y hh2
      intro x3 y hh3
      split_ifs at hh3 ⊢
      · exact hh3
      · exact bind_mono _ _ _ _ h4 (fun _ _ hy => hy) y hh3

/-- Whatever `pmqt_insert_edge` and `pmqt_split_node` return on a tree with the
structural invariant, the pruning variant returns with the same fuel. -/
theorem pruned_of_source : ∀ f : Nat,
    (∀ n e x, n.inv → pmqt_insert_edge f n e = some x →
      pmqt_insert_edge_pruned f n e = some x) ∧
    (∀ n x, n.inv → pmqt_split_node f n = some x → pmqt_split_node_pruned f n = some x) := by
  intro f
  induction f with
  | zero =>
    constructor
    · intro n e x _ h; rw [insert_edge_zero] at h; exact absurd h (by simp)
    · intro n x _ h; rw [split_node_zero] at h; exact absurd h (by simp)
  | succ f ih =>
    obtain ⟨ihI, ihS⟩ := ih
    have hsplit : ∀ (n : pmqt_node) (e : pmqt_edge) (x : pmqt_err × pmqt_node), n.inv →
        (pmqt_split_node f n).bind (fun a => pmqt_insert_edge f a.2 e) = some x →
        (pmqt_split_node_pruned f n).bind (fun a => pmqt_insert_edge_pruned f a.2 e) =
          some x := by
      intro n e x hn h
      exact bind_mono_inv (fun a => a.2.inv) _ _ _ _
        (fun a ha => ⟨ihS _ a hn ha, split_node_inv f n a.1 a.2 ha hn⟩)
        (fun a y hP hy => ihI a.2 e y hP hy) x h
    constructor
    · intro n e x hn h
      cases n with
      | PMQT_WHITE b =>
        rw [insert_edge_white] at h
        rw [pruned_insert_edge_white]
        split_ifs at h ⊢
        · exact hsplit _ e x hn h
        all_goals exact h
      | PMQT_GREY b nw ne sw se =>
        rw [insert_edge_grey] at h
        rw [pruned_insert_edge_grey]
        obtain ⟨_, _, _, _, _, v1, v2, v3, v4⟩ := hn
        have hc : ∀ c : pmqt_node, c.inv → ∀ y, pmqt_insert_edge f c e = some y →
            pmqt_prune (pmqt_insert_edge_pruned f) c e = some y := by
          intro c hci y hy
          unfold pmqt_prune
          split_ifs with ho
          · exact ihI c e y hci hy
          · obtain ⟨g, hg⟩ := insert_edge_outside e c hci (by simpa using ho)
            have e1 := insert_edge_fuel_mono f (max f g) (le_max_left _ _) c e y hy
            have e2 := hg (max f g) (le_max_right _ _)
            rw [e1] at e2
            exact e2.symm
        exact grey_bind_mono b ne sw se _ _ _ _ _ _ _ _ (hc nw v1) (hc ne v2) (hc sw v3)
          (hc se v4) x h
      | PMQT_BLACK_POINT b p es =>
        rw [insert_edge_black_point] at h
        rw [pruned_insert_edge_black_point]
        split_ifs at h ⊢
        · exact h
        · exact h
        · exact hsplit _ e x hn h
        · exact h
      | PMQT_BLACK_EDGE b e0 =>
        rw [insert_edge_black_edge] at h
        rw [pruned_insert_edge_black_edge]
        split_ifs at h ⊢
        · exact h
        · exact hsplit _ e x hn h
        · exact h
    · intro n x hn h
      cases n with
      | PMQT_WHITE b =>
        rw [split_node_white] at h
        rw [pruned_split_node_white]
        exact h
      | PMQT_GREY b nw ne sw se =>
        simp only [pmqt_split_node] at h
        simp only [pmqt_split_node_pruned]
        exact h
      | PMQT_BLACK_POINT b p es =>
        rw [split_node_black_point] at h
        rw [pruned_split_node_black_point]
        exact split_loop_mono_inv _ _ (fun m => m.inv)
          (fun m e y hP hy => ⟨ihI m e y hP hy, (insert_edge_inv f m e y.1 y.2 hy).2 hP⟩)
          es _ _ x (split_grey_inv b hn.1) h
      | PMQT_BLACK_EDGE b e0 =>
        rw [split_node_black_edge] at h
        rw [pruned_split_node_black_edge]
        exact ihI _ _ x (split_grey_inv b hn.1) h

/-- The loop of `pmqt_split_node`: what it returns with the pruning variant, it
returns with `pmqt_insert_edge` and enough fuel. -/
theorem split_loop_source (f : Nat)
    (ihI : ∀ n e x, n.inv → pmqt_insert_edge_pruned f n e = some x →
      ∃ g, pmqt_insert_edge g n e = some x) :
    ∀ (es : List pmqt_edge) (r : pmqt_err) (n : pmqt_node) (y : pmqt_err × pmqt_node),
      n.inv → pmqt_split_loop (pmqt_insert_edge_pruned f) r n es = some y →
      ∃ g, pmqt_split_loop (pmqt_insert_edge g) r n es = some y := by
  intro es
  induction es with
  | nil => intro r n y _ h; exact ⟨0, h⟩
  | cons e es ih =>
    intro r n y hn h
    rw [pmqt_split_loop] at h
    cases h0 : pmqt_insert_edge_pruned f n e with
    | none => rw [h0] at h; exact absurd h (by simp)
    | some x0 =>
      obtain ⟨r0, n0⟩ := x0
      rw [h0] at h
      simp only at h
      obtain ⟨g1, hg1⟩ := ihI n e _ hn h0
      have hn0 := (insert_edge_inv g1 n e r0 n0 hg1).2 hn
      split_ifs at h with hr
      · refine ⟨g1, ?_⟩
        rw [pmqt_split_loop, hg1]
        simp only
        rw [if_pos hr]
        exact h
      · obtain ⟨g2, hg2⟩ := ih r0 n0 y hn0 h
        refine ⟨max g1 g2, ?_⟩
        rw [pmqt_split_loop, insert_edge_fuel_mono g1 _ (le_max_left _ _) _ _ _ hg1]
        simp only
        rw [if_neg hr]
        exact split_loop_mono _ _
          (fun m e0 z hz => insert_edge_fuel_mono g2 _ (le_max_right _ _) m e0 z hz)
          es _ _ y hg2

/-- Whatever the pruning variant returns on a tree with the structural invariant,
`pmqt_insert_edge` and `pmqt_split_node` return with enough fuel. -/
theorem source_of_pruned : ∀ f : Nat,
    (∀ n e x, n.inv → pmqt_insert_edge_pruned f n e = some x →
      ∃ g, pmqt_insert_edge g n e = some x) ∧
    (∀ n x, n.inv → pmqt_split_node_pruned f n = some x →
      ∃ g, pmqt_split_node g n = some x) := by
  intro f
  induction f with
  | zero =>
    constructor
    · intro n e x _ h; rw [pruned_insert_edge_zero] at h; exact absurd h (by simp)
    · intro n x _ h; rw [pruned_split_node_zero] at h; exact absurd h (by simp)
  | succ f ih =>
    obtain ⟨ihI, ihS⟩ := ih
    have hsplit : ∀ (n : pmqt_node) (e : pmqt_edge) (x : pmqt_err × pmqt_node), n.inv →
        (pmqt_split_node_pruned f n).bind (fun a => pmqt_insert_edge_pruned f a.2 e) =
          some x →
        ∃ g, (pmqt_split_node g n).bind (fun a => pmqt_insert_edge g a.2 e) = some x := by
      intro n e x hn h
      cases hs : pmqt_split_node_pruned f n with
      | none => rw [hs] at h; exact absurd h (by simp)
      | some a =>
        rw [hs] at h
        simp only [Option.some_bind] at h
        obtain ⟨g1, hg1⟩ := ihS n a hn hs
        have ha := split_node_inv g1 n a.1 a.2 hg1 hn
        obtain ⟨g2, hg2⟩ := ihI a.2 e x ha h
        refine ⟨max g1 g2, ?_⟩
        rw [split_node_fuel_mono g1 _ (le_max_left _ _) n a hg1]
        simp only [Option.some_bind]
        exact insert_edge_fuel_mono g2 _ (le_max_right _ _) _ _ _ hg2
    constructor
    · intro n e x hn h
      cases n with
      | PMQT_WHITE b =>
        rw [pruned_insert_edge_white] at h
        split_ifs at h with c1 c2 c3 c4
        · obtain ⟨g, hg⟩ := hsplit _ e x hn h
          exact ⟨g + 1, by rw [insert_edge_white, if_pos c1]; exact hg⟩
        · exact ⟨1, by rw [insert_edge_white, if_neg c1, if_pos c2]; exact h⟩
        · exact ⟨1, by rw [insert_edge_white, if_neg c1, if_neg c2, if_pos c3]; exact h⟩
        · exact ⟨1, by
            rw [insert_edge_white, if_neg c1, if_neg c2, if_neg c3, if_pos c4]; exact h⟩
        · exact ⟨1, by
            rw [insert_edge_white, if_neg c1, if_neg c2, if_neg c3, if_neg c4]; exact h⟩
      | PMQT_GREY b nw ne sw se =>
        rw [pruned_insert_edge_grey] at h
        obtain ⟨_, _, _, _, _, v1, v2, v3, v4⟩ := hn
        have hc : ∀ c : pmqt_node, c.inv → ∃ gc, ∀ y,
            pmqt_prune (pmqt_insert_edge_pruned f) c e = some y →
            ∀ g, gc ≤ g → pmqt_insert_edge g c e = some y := by
          intro c hci
          unfold pmqt_prune
          split_ifs with ho
          · cases hp : pmqt_insert_edge_pruned f c e with
            | none => exact ⟨0, fun y hy => absurd hy (by simp)⟩
            | some y0 =>
              obtain ⟨g0, hg0⟩ := ihI c e y0 hci hp
              refine ⟨g0, fun y hy g hg => ?_⟩
              rw [← Option.some.inj hy]
              exact insert_edge_fuel_mono g0 g hg _ _ _ hg0
          · obtain ⟨g0, hg0⟩ := insert_edge_outside e c hci (by simpa using ho)
            refine ⟨g0, fun y hy g hg => ?_⟩
            rw [← Option.some.inj hy]
            exact hg0 g hg
        obtain ⟨g1, h1⟩ := hc nw v1
        obtain ⟨g2, h2⟩ := hc ne v2
        obtain ⟨g3, h3⟩ := hc sw v3
        obtain ⟨g4, h4⟩ := hc se v4
        refine ⟨g1 + g2 + g3 + g4 + 1, ?_⟩
        rw [insert_edge_grey]
        exact grey_bind_mono b ne sw se _ _ _ _ _ _ _ _
          (fun y hy => h1 y hy _ (by omega)) (fun y hy => h2 y hy _ (by omega))
          (fun y hy => h3 y hy _ (by omega)) (fun y hy => h4 y hy _ (by omega)) x h
      | PMQT_BLACK_POINT b p es =>
        rw [pruned_insert_edge_black_point] at h
        split_ifs at h with c1 c2 c3
        · exact ⟨1, by rw [insert_edge_black_point, if_pos c1]; exact h⟩
        · exact ⟨1, by rw [insert_edge_black_point, if_neg c1, if_pos c2, if_pos c3]; exact h⟩
        · obtain ⟨g, hg⟩ := hsplit _ e x hn h
          exact ⟨g + 1, by
            rw [insert_edge_black_point, if_neg c1, if_pos c2, if_neg c3]; exact hg⟩
        · exact ⟨1, by rw [insert_edge_black_point, if_neg c1, if_neg c2]; exact h⟩
      | PMQT_BLACK_EDGE b e0 =>
        rw [pruned_insert_edge_black_edge] at h
        split_ifs at h with c2 c3
        · exact ⟨1, by rw [insert_edge_black_edge, if_pos c2, if_pos c3]; exact h⟩
        · obtain ⟨g, hg⟩ := hsplit _ e x hn h
          exact ⟨g + 1, by rw [insert_edge_black_edge, if_pos c2, if_neg c3]; exact hg⟩
        · exact ⟨1, by rw [insert_edge_black_edge, if_neg c2]; exact h⟩
    · intro n x hn h
      cases n with
      | PMQT_WHITE b =>
        rw [pruned_split_node_white] at h
        exact ⟨1, by rw [split_node_white]; exact h⟩
      | PMQT_GREY b nw ne sw se =>
        simp only [pmqt_split_node_pruned] at h
        exact ⟨1, by simp only [pmqt_split_node]; exact h⟩
      | PMQT_BLACK_POINT b p es =>
        rw [pruned_split_node_black_point] at h
        obtain ⟨g, hg⟩ := split_loop_source f ihI es _ _ x (split_grey_inv b hn.1) h
        exact ⟨g + 1, by rw [split_node_black_point]; exact hg⟩
      | PMQT_BLACK_EDGE b e0 =>
        rw [pruned_split_node_black_edge] at h
        obtain ⟨g, hg⟩ := ihI _ _ x (split_grey_inv b hn.1) h
        exact ⟨g + 1, by rw [split_node_black_edge]; exact hg⟩

/-- C16 (insertion pruning preserves the behaviour, as amended).  In exact arithmetic:
on every node of a tree that calls of `pmqt_insert` make of a new tree, and for every
edge, the variant of
`pmqt_insert_edge` that recurses at a grey node only into the children whose bounds the
edge overlaps returns a code and a tree exactly when `pmqt_insert_edge` returns them,
and with the same fuel whenever `pmqt_insert_edge` returns; and a call of
`pmqt_insert_edge` on a node whose bounds the edge does not overlap returns `PMQT_OK`,
given enough fuel, and leaves the subtree as it is. -/
theorem insertion_pruning_preserves (min_x min_y max_x max_y : pmqt_float_t) (t : pmqt)
    (hr : reachable (pmqt_new min_x min_y max_x max_y) t) (e : pmqt_edge) (n : pmqt_node)
    (hn : n ∈ t.root.preorder) :
    (∀ x, (∃ f, pmqt_insert_edge_pruned f n e = some x) ↔
      (∃ f, pmqt_insert_edge f n e = some x)) ∧
    (∀ f x, pmqt_insert_edge f n e = some x → pmqt_insert_edge_pruned f n e = some x) ∧
    (pmqt_edge_intersect_bounds e n.bounds = false →
      ∃ f0, ∀ f, f0 ≤ f → pmqt_insert_edge f n e = some (.PMQT_OK, n)) := by
  have hi : n.inv := preorder_inv t.root (reachable_inv min_x min_y max_x max_y t hr).1 n hn
  refine ⟨fun x => ⟨?_, ?_⟩, fun f x h => (pruned_of_source f).1 n e x hi h,
    fun ho => insert_edge_outside e n hi ho⟩
  · rintro ⟨f, h⟩
    exact (source_of_pruned f).1 n e x hi h
  · rintro ⟨f, h⟩
    exact ⟨f, (pruned_of_source f).1 n e x hi h⟩

/-- Witness of C16 (as amended): an edge in the south-east of the example does not
overlap the north-west child of the root; `pmqt_insert_edge` leaves that child as it is,
and both insertions return the same on the root. -/
theorem insertion_pruning_preserves_witness :
    pmqt_edge_intersect_bounds ⟨⟨60, 10⟩, ⟨70, 10⟩⟩ ⟨⟨0, 100⟩, ⟨50, 50⟩, 50, 50⟩ = false ∧
    (∃ f0, ∀ f, f0 ≤ f →
      pmqt_insert_edge f (.PMQT_BLACK_EDGE ⟨⟨0, 100⟩, ⟨50, 50⟩, 50, 50⟩ example_edge)
        ⟨⟨60, 10⟩, ⟨70, 10⟩⟩ =
        some (.PMQT_OK, .PMQT_BLACK_EDGE ⟨⟨0, 100⟩, ⟨50, 50⟩, 50, 50⟩ example_edge)) ∧
    (∀ x, (∃ f, pmqt_insert_edge_pruned f example_tree.root ⟨⟨60, 10⟩, ⟨70, 10⟩⟩ = some x) ↔
      (∃ f, pmqt_insert_edge f example_tree.root ⟨⟨60, 10⟩, ⟨70, 10⟩⟩ = some x)) ∧
    (∀ f x, pmqt_insert_edge f example_tree.root ⟨⟨60, 10⟩, ⟨70, 10⟩⟩ = some x →
      pmqt_insert_edge_pruned f example_tree.root ⟨⟨60, 10⟩, ⟨70, 10⟩⟩ = some x) :=
  ⟨by decide!,
    (insertion_pruning_preserves 0 0 100 100 example_tree example_tree_reachable
      ⟨⟨60, 10⟩, ⟨70, 10⟩⟩ (.PMQT_BLACK_EDGE ⟨⟨0, 100⟩, ⟨50, 50⟩, 50, 50⟩ example_edge)
      (by simp [example_tree, pmqt_node.preorder])).2.2 (by decide!),
    (insertion_pruning_preserves 0 0 100 100 example_tree example_tree_reachable
      ⟨⟨60, 10⟩, ⟨70, 10⟩⟩ example_tree.root
      (by simp [example_tree, pmqt_node.preorder])).1,
    (insertion_pruning_preserves 0 0 100 100 example_tree example_tree_reachable
      ⟨⟨60, 10⟩, ⟨70, 10⟩⟩ example_tree.root
      (by simp [example_tree, pmqt_node.preorder])).2.1⟩

/-! ## Crossing edges in exact arithmetic, and failing allocations -/

/-- A point in the bounds of a tree lies in the bounds of one of its leaves. -/
theorem leaf_of_point (p : pmqt_point) (n : pmqt_node) (hn : n.inv)
    (hp : pmqt_point_in_bounds p n.bounds = true) :
    ∃ L ∈ n.leaves, pmqt_point_in_bounds p L.bounds = true := by
  induction n with
  | PMQT_GREY b nw ne sw se i1 i2 i3 i4 =>
    obtain ⟨hb, b1, b2, b3, b4, v1, v2, v3, v4⟩ := hn
    simp only [pmqt_node.bounds] at hp
    rcases split_children_cover b hb p hp with h | h | h | h
    · rw [← b1] at h
      obtain ⟨L, hL, hh⟩ := i1 v1 h
      exact ⟨L, (mem_leaves_grey b nw ne sw se L).mpr (Or.inl hL), hh⟩
    · rw [← b2] at h
      obtain ⟨L, hL, hh⟩ := i2 v2 h
      exact ⟨L, (mem_leaves_grey b nw ne sw se L).mpr (Or.inr (Or.inl hL)), hh⟩
    · rw [← b3] at h
      obtain ⟨L, hL, hh⟩ := i3 v3 h
      exact ⟨L, (mem_leaves_grey b nw ne sw se L).mpr (Or.inr (Or.inr (Or.inl hL))), hh⟩
    · rw [← b4] at h
      obtain ⟨L, hL, hh⟩ := i4 v4 h
      exact ⟨L, (mem_leaves_grey b nw ne sw se L).mpr (Or.inr (Or.inr (Or.inr hL))), hh⟩
  | PMQT_WHITE b =>
    exact ⟨_, by rw [pmqt_node.leaves]; exact List.mem_singleton.mpr rfl, hp⟩
  | PMQT_BLACK_POINT b q es =>
    exact ⟨_, by rw [pmqt_node.leaves]; exact List.mem_singleton.mpr rfl, hp⟩
  | PMQT_BLACK_EDGE b e0 =>
    exact ⟨_, by rw [pmqt_node.leaves]; exact List.mem_singleton.mpr rfl, hp⟩

/-- Two different edges of a tree that was built by calls of `pmqt_insert` that all
returned `PMQT_OK` meet only in an endpoint of both. -/
theorem crossing_share_endpoint (min_x min_y max_x max_y : pmqt_float_t)
    (es : List pmqt_edge) (t : pmqt)
    (hb : built_ok (pmqt_new min_x min_y max_x max_y) es t) (e1 e2 : pmqt_edge)
    (h1 : e1 ∈ es) (h2 : e2 ∈ es) (hne : e1 ≠ e2) (p : pmqt_point)
    (hp1 : on_segment p e1) (hp2 : on_segment p e2) :
    ∃ q : pmqt_point, (q = e1.a ∨ q = e1.b) ∧ (q = e2.a ∨ q = e2.b) := by
  obtain ⟨hinv, hex, hanc⟩ := built_ok_exact min_x min_y max_x max_y es t hb
  obtain ⟨_, _, hin⟩ := built_ok_inv min_x min_y max_x max_y es t hb
  have hp : pmqt_point_in_bounds p t.root.bounds = true :=
    on_segment_in_bounds p e1 _ hp1 (hin e1 h1).1 (hin e1 h1).2
  obtain ⟨L, hL, hpL⟩ := leaf_of_point p t.root hinv hp
  have hc := hex L hL
  have ha := leaves_anchored t.root hanc L hL
  have m1 : e1 ∈ L.content := by
    rw [hc, List.mem_filter, List.mem_reverse]
    refine ⟨h1, ?_⟩
    simp only [edge_hits, Bool.or_eq_true]
    exact Or.inr (edge_intersect_bounds_of_point e1 _ p hp1 hpL)
  have m2 : e2 ∈ L.content := by
    rw [hc, List.mem_filter, List.mem_reverse]
    refine ⟨h2, ?_⟩
    simp only [edge_hits, Bool.or_eq_true]
    exact Or.inr (edge_intersect_bounds_of_point e2 _ p hp2 hpL)
  cases L with
  | PMQT_WHITE b => exact absurd m1 (by simp [pmqt_node.content])
  | PMQT_GREY b c1 c2 c3 c4 => exact absurd m1 (by simp [pmqt_node.content])
  | PMQT_BLACK_EDGE b e0 =>
    simp only [pmqt_node.content, List.mem_singleton] at m1 m2
    exact absurd (m1.trans m2.symm) hne
  | PMQT_BLACK_POINT b q l =>
    simp only [pmqt_node.content] at m1 m2
    exact ⟨q, ha.2 e1 m1, ha.2 e2 m2⟩

/-- Under a root of positive width and height no node of a tree that was built by
calls of `pmqt_insert` has degenerate bounds, in exact arithmetic. -/
theorem built_ok_nondegenerate (min_x min_y max_x max_y : pmqt_float_t)
    (hx : min_x < max_x) (hy : min_y < max_y) (es : List pmqt_edge) (t : pmqt)
    (hb : built_ok (pmqt_new min_x min_y max_x max_y) es t) : t.root.nondegenerate := by
  induction hb with
  | init =>
    have hroot : (pmqt_new min_x min_y max_x max_y).root =
        pmqt_node_new_with_bounds min_x min_y max_x max_y := rfl
    rw [hroot, new_with_bounds_eq]
    simp only [pmqt_node.nondegenerate, degenerate, min_eq_left hx.le, max_eq_right hx.le,
      min_eq_left hy.le, max_eq_right hy.le, abs_eq_zero]
    rintro (h | h) <;> linarith
  | step fuel e _ hins ih =>
    rcases insert_cases fuel _ e _ _ hins with ⟨_, hr, _⟩ | ⟨_, _, hi⟩
    · exact absurd hr (by simp)
    · exact (insert_edge_nondegenerate _ _ _ _ _ hi ih).2

/-- In exact arithmetic the insertion of an edge that crosses an edge of the tree in a
point that is not an endpoint of both never returns, whatever the fuel: the root has
positive width and height, so no rectangle under it ever has width or height zero, and
`PMQT_ERR_INTRSCT` is out of reach. -/
theorem crossing_diverges_exact (min_x min_y max_x max_y : pmqt_float_t)
    (hx : min_x < max_x) (hy : min_y < max_y) (es : List pmqt_edge) (t : pmqt)
    (hb : built_ok (pmqt_new min_x min_y max_x max_y) es t) (e1 e2 : pmqt_edge)
    (h1 : e1 ∈ es) (hne : e1 ≠ e2) (p : pmqt_point)
    (hp1 : on_segment p e1) (hp2 : on_segment p e2)
    (hq : ∀ q : pmqt_point, (q = e1.a ∨ q = e1.b) → ¬ (q = e2.a ∨ q = e2.b))
    (ha : pmqt_point_in_bounds e2.a t.root.bounds = true)
    (hb2 : pmqt_point_in_bounds e2.b t.root.bounds = true)
    (fuel : Nat) : pmqt_insert fuel t e2 = none := by
  cases h : pmqt_insert fuel t e2 with
  | none => rfl
  | some x =>
    obtain ⟨r, t1⟩ := x
    exfalso
    have hnd := built_ok_nondegenerate min_x min_y max_x max_y hx hy es t hb
    rcases insert_cases fuel _ e2 _ _ h with ⟨hout, _, _⟩ | ⟨_, _, hi⟩
    · rw [ha, hb2] at hout
      rcases hout with hout | hout <;> exact absurd hout (by simp)
    · have hr := (insert_edge_nondegenerate _ _ _ _ _ hi hnd).1
      rw [hr] at h
      obtain ⟨q, hq1, hq2⟩ := crossing_share_endpoint min_x min_y max_x max_y (e2 :: es) t1
        (built_ok.step fuel e2 hb h) e1 e2 (List.mem_cons_of_mem _ h1)
        (List.mem_cons_self _ _) hne p hp1 hp2
      exact hq q hq1 hq2

/-- In exact arithmetic the insertion of the second diagonal into the tree of the
example does not return, whatever the fuel. -/
theorem crossing_diverges_example :
    pmqt_insert 3 (pmqt_new 0 0 100 100) example_edge = some (.PMQT_OK, example_tree) ∧
    ∀ fuel : Nat, pmqt_insert fuel example_tree ⟨⟨10, 90⟩, ⟨90, 10⟩⟩ = none :=
  ⟨example_tree_eq,
    crossing_diverges_exact 0 0 100 100 (by norm_num) (by norm_num) [example_edge]
      example_tree (built_ok.step 3 example_edge built_ok.init example_tree_eq)
      example_edge ⟨⟨10, 90⟩, ⟨90, 10⟩⟩ (List.mem_singleton.mpr rfl) (by decide!) ⟨50, 50⟩
      ⟨1 / 2, by norm_num, by norm_num, by norm_num [example_edge], by norm_num [example_edge]⟩
      ⟨1 / 2, by norm_num, by norm_num, by norm_num, by norm_num⟩
      (by
        intro q h1 h2
        rcases h1 with rfl | rfl <;> rcases h2 with h2 | h2 <;>
          exact absurd h2 (by decide!))
      (by decide!) (by decide!)⟩

/-- C13 (the code at the failing inputs).  The return value of `pmqt_split_node` is
dropped.  First, the first call of `malloc` in `pmqt_split_node` fails on the white
root of a new tree: the split returns
`PMQT_ERR_NOMEM` and leaves the node as it was, and yet the insertion of an edge with
both endpoints in the root goes on, splits again and returns `PMQT_OK`.  Second, the
fifth call of `malloc` fails while the split of a black (point) leaf pushes the edge of
the leaf down: the split returns `PMQT_ERR_NOMEM`, and yet the insertion returns
`PMQT_OK`. -/
theorem split_error_dropped :
    pmqt_split_node_mem 1 [false] (pmqt_new 0 0 100 100).root =
      some (.PMQT_ERR_NOMEM, (pmqt_new 0 0 100 100).root, []) ∧
    pmqt_insert_mem 5 [false] (pmqt_new 0 0 100 100) example_edge =
      some (.PMQT_OK, example_tree, []) ∧
    Option.map Prod.fst (pmqt_split_node_mem 3 [true, true, true, true, false]
      (.PMQT_BLACK_POINT ⟨⟨0, 100⟩, ⟨50, 50⟩, 50, 50⟩ ⟨40, 75⟩ [twice_edge])) =
      some .PMQT_ERR_NOMEM ∧
    Option.map Prod.fst (pmqt_insert_mem 6 [true, true, true, true, false]
      { root := .PMQT_GREY ⟨⟨0, 100⟩, ⟨100, 0⟩, 100, 100⟩
          (.PMQT_BLACK_POINT ⟨⟨0, 100⟩, ⟨50, 50⟩, 50, 50⟩ ⟨40, 75⟩ [twice_edge])
          (.PMQT_BLACK_POINT ⟨⟨50, 100⟩, ⟨100, 50⟩, 50, 50⟩ ⟨60, 75⟩ [twice_edge])
          (.PMQT_WHITE ⟨⟨0, 50⟩, ⟨50, 0⟩, 50, 50⟩)
          (.PMQT_WHITE ⟨⟨50, 50⟩, ⟨100, 0⟩, 50, 50⟩) }
      ⟨⟨10, 60⟩, ⟨20, 60⟩⟩) = some .PMQT_OK := by
  refine ⟨?_, ?_, ?_, ?_⟩ <;> decide!

/-! ## The insertion with failing allocations, when no allocation fails -/

theorem split_loop_mem_agrees (f : Nat)
    (ih : ∀ n e, pmqt_insert_edge_mem f [] n e =
      (pmqt_insert_edge f n e).map (fun x => (x.1, x.2, []))) :
    ∀ (es : List pmqt_edge) (r : pmqt_err) (n : pmqt_node),
      pmqt_split_loop_mem (pmqt_insert_edge_mem f) r [] n es =
        (pmqt_split_loop (pmqt_insert_edge f) r n es).map (fun x => (x.1, x.2, [])) := by
  intro es
  induction es with
  | nil => intro r n; rfl
  | cons e es ihes =>
    intro r n
    rw [pmqt_split_loop_mem, pmqt_split_loop, ih]
    cases pmqt_insert_edge f n e with
    | none => rfl
    | some x =>
      obtain ⟨r0, n0⟩ := x
      simp only [Option.map_some']
      split_ifs
      · rfl
      · exact ihes r0 n0

/-- With no failing allocation the insertion with explicit allocations is
`pmqt_insert_edge`, and its subdivision is `pmqt_split_node`. -/
theorem mem_agrees : ∀ f : Nat,
    (∀ n e, pmqt_insert_edge_mem f [] n e =
      (pmqt_insert_edge f n e).map (fun x => (x.1, x.2, []))) ∧
    (∀ n, pmqt_split_node_mem f [] n =
      (pmqt_split_node f n).map (fun x => (x.1, x.2, []))) := by
  intro f
  induction f with
  | zero => exact ⟨fun n e => rfl, fun n => rfl⟩
  | succ f ih =>
    obtain ⟨ihI, ihS⟩ := ih
    constructor
    · intro n e
      cases n with
      | PMQT_WHITE b =>
        have h : pmqt_insert_edge_mem (f + 1) [] (.PMQT_WHITE b) e =
            if (pmqt_point_in_bounds e.a b && pmqt_point_in_bounds e.b b) = true then
              match pmqt_split_node_mem f [] (.PMQT_WHITE b) with
              | none => none
              | some (_, node1, heap1) => pmqt_insert_edge_mem f heap1 node1 e
            else if pmqt_point_in_bounds e.a b = true then
              some (.PMQT_OK, .PMQT_BLACK_POINT b e.a [e], [])
            else if pmqt_point_in_bounds e.b b = true then
              some (.PMQT_OK, .PMQT_BLACK_POINT b e.b [e], [])
            else if pmqt_edge_intersect_bounds e b = true then
              some (.PMQT_OK, .PMQT_BLACK_EDGE b e, [])
            else some (.PMQT_OK, .PMQT_WHITE b, []) := rfl
        rw [h, insert_edge_white, ihS]
        simp only [Bool.and_eq_true]
        split_ifs
        · cases pmqt_split_node f (.PMQT_WHITE b) with
          | none => rfl
          | some x =>
            simp only [Option.map_some', Option.some_bind]
            exact ihI _ _
        all_goals rfl
      | PMQT_GREY b nw ne sw se =>
        have h : pmqt_insert_edge_mem (f + 1) [] (.PMQT_GREY b nw ne sw se) e =
            match pmqt_insert_edge_mem f [] nw e with
            | none => none
            | some (r1, nw1, heap1) =>
              if r1 ≠ .PMQT_OK then some (r1, .PMQT_GREY b nw1 ne sw se, heap1) else
              match pmqt_insert_edge_mem f heap1 ne e with
              | none => none
              | some (r2, ne1, heap2) =>
                if r2 ≠ .PMQT_OK then some (r2, .PMQT_GREY b nw1 ne1 sw se, heap2) else
                match pmqt_insert_edge_mem f heap2 sw e with
                | none => none
                | some (r3, sw1, heap3) =>
                  if r3 ≠ .PMQT_OK then some (r3, .PMQT_GREY b nw1 ne1 sw1 se, heap3) else
                  match pmqt_insert_edge_mem f heap3 se e with
                  | none => none
                  | some (r4, se1, heap4) =>
                    if r4 ≠ .PMQT_OK then some (r4, .PMQT_GREY b nw1 ne1 sw1 se1, heap4)
                    else some (.PMQT_OK, .PMQT_GREY b nw1 ne1 sw1 se1, heap4) := rfl
        rw [h, insert_edge_grey, ihI nw e]
        cases pmqt_insert_edge f nw e with
        | none => rfl
        | some x1 =>
          obtain ⟨r1, n1⟩ := x1
          simp only [Option.map_some', Option.some_bind]
          split_ifs
          · rfl
          · rw [ihI ne e]
            cases pmqt_insert_edge f ne e with
            | none => rfl
            | some x2 =>
              obtain ⟨r2, n2⟩ := x2
              simp only [Option.map_some', Option.some_bind]
              split_ifs
              · rfl
              · rw [ihI sw e]
                cases pmqt_insert_edge f sw e with
                | none => rfl
                | some x3 =>
                  obtain ⟨r3, n3⟩ := x3
                  simp only [Option.map_some', Option.some_bind]
                  split_ifs
                  · rfl
                  · rw [ihI se e]
                    cases pmqt_insert_edge f se e with
                    | none => rfl
                    | some x4 =>
                      obtain ⟨r4, n4⟩ := x4
                      simp only [Option.map_some', Option.some_bind]
                      split_ifs with h4
                      · rfl
                      · rw [not_not.mp h4]
      | PMQT_BLACK_POINT b p es =>
        have h : pmqt_insert_edge_mem (f + 1) [] (.PMQT_BLACK_POINT b p es) e =
            if (pmqt_point_equals p e.a || pmqt_point_equals p e.b) = true then
              some (.PMQT_OK, .PMQT_BLACK_POINT b p (es ++ [e]), [])
            else if edge_hits e b = true then
              if b.width = 0 ∨ b.height = 0 then
                some (.PMQT_ERR_INTRSCT, .PMQT_BLACK_POINT b p es, [])
              else
                match pmqt_split_node_mem f [] (.PMQT_BLACK_POINT b p es) with
                | none => none
                | some (_, node1, heap1) => pmqt_insert_edge_mem f heap1 node1 e
            else some (.PMQT_OK, .PMQT_BLACK_POINT b p es, []) := rfl
        rw [h, insert_edge_black_point, ihS]
        simp only [degenerate]
        split_ifs
        · rfl
        · rfl
        · cases pmqt_split_node f (.PMQT_BLACK_POINT b p es) with
          | none => rfl
          | some x =>
            simp only [Option.map_some', Option.some_bind]
            exact ihI _ _
        · rfl
      | PMQT_BLACK_EDGE b e0 =>
        have h : pmqt_insert_edge_mem (f + 1) [] (.PMQT_BLACK_EDGE b e0) e =
            if edge_hits e b = true then
              if b.width = 0 ∨ b.height = 0 then
                some (.PMQT_ERR_INTRSCT, .PMQT_BLACK_EDGE b e0, [])
              else
                match pmqt_split_node_mem f [] (.PMQT_BLACK_EDGE b e0) with
                | none => none
                | some (_, node1, heap1) => pmqt_insert_edge_mem f heap1 node1 e
            else some (.PMQT_OK, .PMQT_BLACK_EDGE b e0, []) := rfl
        rw [h, insert_edge_black_edge, ihS]
        simp only [degenerate]
        split_ifs
        · rfl
        · cases pmqt_split_node f (.PMQT_BLACK_EDGE b e0) with
          | none => rfl
          | some x =>
            simp only [Option.map_some', Option.some_bind]
            exact ihI _ _
        · rfl
    · intro n
      cases n with
      | PMQT_WHITE b =>
        have h : pmqt_split_node_mem (f + 1) [] (.PMQT_WHITE b) =
            some (.PMQT_OK, pmqt_split_grey b, []) := rfl
        rw [h, split_node_white]
        rfl
      | PMQT_GREY b nw ne sw se =>
        have h : pmqt_split_node_mem (f + 1) [] (.PMQT_GREY b nw ne sw se) =
            some (.PMQT_ERR_OTHER, .PMQT_GREY b nw ne sw se, []) := rfl
        have h0 : pmqt_split_node (f + 1) (.PMQT_GREY b nw ne sw se) =
            some (.PMQT_ERR_OTHER, .PMQT_GREY b nw ne sw se) := rfl
        rw [h, h0]
        rfl
      | PMQT_BLACK_POINT b p es =>
        have h : pmqt_split_node_mem (f + 1) [] (.PMQT_BLACK_POINT b p es) =
            pmqt_split_loop_mem (pmqt_insert_edge_mem f) .PMQT_OK []
              (pmqt_split_grey b) es := rfl
        rw [h, split_node_black_point]
        exact split_loop_mem_agrees f ihI es _ _
      | PMQT_BLACK_EDGE b e0 =>
        have h : pmqt_split_node_mem (f + 1) [] (.PMQT_BLACK_EDGE b e0) =
            pmqt_insert_edge_mem f [] (pmqt_split_grey b) e0 := rfl
        rw [h, split_node_black_edge]
        exact ihI _ _

/-- With no failing allocation `pmqt_insert_mem` is `pmqt_insert`. -/
theorem insert_mem_agrees (f : Nat) (t : pmqt) (e : pmqt_edge) :
    pmqt_insert_mem f [] t e = (pmqt_insert f t e).map (fun x => (x.1, x.2, [])) := by
  unfold pmqt_insert_mem pmqt_insert
  rw [(mem_agrees f).1]
  split_ifs
  · rfl
  · cases pmqt_insert_edge f t.root e with
    | none => rfl
    | some x => rfl

/-! ## Runs in double precision

Runs of the functions in double precision on which they differ from exact arithmetic.
The coordinates of the runs are values of the type `double`: `fl (192 / 100)` is the
`double` that the literal `1.92` denotes. -/

/-- Counterexample to C2 as stated: in double precision a child can reach beyond the
bounds of its parent, and the search, which prunes by the bounds of the parent, passes
a leaf by that the query overlaps.  The tree over the square from (-0.09, -0.09) to
(1.92, 1.92) after the insertion of the edge from (1.5, 1.5) to (1, 1), which returns
`PMQT_OK`: its third leaf is a black (point) leaf whose bounds the query from
(1.92, 1.5) to (1.92, 1.9) overlaps, and the search from the root for that query calls
the callback on no node at all. -/
theorem search_visit_rounding_counterexample :
    (pmqt_build_fl 5 (pmqt_new_fl (fl (-9 / 100)) (fl (-9 / 100)) (fl (192 / 100)) (fl (192 / 100)))
        [⟨⟨fl (15 / 10), fl (15 / 10)⟩, ⟨1, 1⟩⟩]).map
      (fun t => (t.root.leaves.get? 2,
        (pmqt_search_fl t.root ⟨⟨fl (192 / 100), fl (15 / 10)⟩, ⟨fl (192 / 100), fl (19 / 10)⟩⟩
          (some (logged_search idle_search)) ((), [])).2.2)) =
      some (some (.PMQT_BLACK_POINT
        ⟨⟨fl (14175 / 10000), fl (192 / 100)⟩, ⟨fl (192 / 100), fl (14175 / 10000)⟩,
          fl (5025 / 10000), fl (5025 / 10000)⟩
        ⟨fl (15 / 10), fl (15 / 10)⟩ [⟨⟨fl (15 / 10), fl (15 / 10)⟩, ⟨1, 1⟩⟩]), []) ∧
    pmqt_edge_intersect_bounds_fl
      ⟨⟨fl (192 / 100), fl (15 / 10)⟩, ⟨fl (192 / 100), fl (19 / 10)⟩⟩
      ⟨⟨fl (14175 / 10000), fl (192 / 100)⟩, ⟨fl (192 / 100), fl (14175 / 10000)⟩,
        fl (5025 / 10000), fl (5025 / 10000)⟩ = true := by
  constructor <;> decide!

/-- Counterexample to C7 as stated: in double precision the insertion of the edge from
(20, 10) to (97, 50) into the new tree over the square from (0, 0) to (100, 100) returns
`PMQT_OK` and leaves three black (point) leaves, and the search for the same edge
reports only two of them: the overlap test is false for the north-east child, on
whose border the endpoint (97, 50) lies.  And when the fifth call of `malloc` fails,
the insertion of the edge of the example returns `PMQT_ERR_NOMEM`, not `PMQT_OK`. -/
theorem single_edge_rounding_counterexample :
    pmqt_insert_fl 3 (pmqt_new_fl 0 0 100 100) ⟨⟨20, 10⟩, ⟨97, 50⟩⟩ =
      some (.PMQT_OK, slope_tree) ∧
    (pmqt_search_fl slope_tree.root ⟨⟨20, 10⟩, ⟨97, 50⟩⟩
      (some (logged_search idle_search)) ((), [])).2.2 =
      [(.PMQT_BLACK_POINT ⟨⟨0, 50⟩, ⟨50, 0⟩, 50, 50⟩ ⟨20, 10⟩ [⟨⟨20, 10⟩, ⟨97, 50⟩⟩], 0),
       (.PMQT_BLACK_POINT ⟨⟨50, 50⟩, ⟨100, 0⟩, 50, 50⟩ ⟨97, 50⟩ [⟨⟨20, 10⟩, ⟨97, 50⟩⟩], 0)] ∧
    slope_tree.root.leaves.filter (fun L => L.is_black) =
      [.PMQT_BLACK_POINT ⟨⟨50, 100⟩, ⟨100, 50⟩, 50, 50⟩ ⟨97, 50⟩ [⟨⟨20, 10⟩, ⟨97, 50⟩⟩],
       .PMQT_BLACK_POINT ⟨⟨0, 50⟩, ⟨50, 0⟩, 50, 50⟩ ⟨20, 10⟩ [⟨⟨20, 10⟩, ⟨97, 50⟩⟩],
       .PMQT_BLACK_POINT ⟨⟨50, 50⟩, ⟨100, 0⟩, 50, 50⟩ ⟨97, 50⟩ [⟨⟨20, 10⟩, ⟨97, 50⟩⟩]] ∧
    Option.map Prod.fst (pmqt_insert_mem 3 [true, true, true, true, false]
      (pmqt_new 0 0 100 100) example_edge) = some .PMQT_ERR_NOMEM := by
  refine ⟨?_, ?_, ?_, ?_⟩ <;> decide!

/-- Counterexample to C11 as stated.  The bounds of the children are closed, so
neighbours share their border: in the tree of the example, which is reachable, the
point (50, 75) passes `pmqt_point_in_bounds` for the north-west child of the root and
for the north-east child.  And in double precision the children need not cover the
bounds of their parent: in the tree over the square from (-0.09, -0.09) to (1.92, 1.92)
after the insertion of the edge from (1.5, 1.5) to (1, 1) the point (1.92, 1) lies in
the bounds of the root and in the bounds of none of its four children. -/
theorem partition_counterexample :
    (reachable (pmqt_new 0 0 100 100) example_tree ∧
      example_tree.root = .PMQT_GREY ⟨⟨0, 100⟩, ⟨100, 0⟩, 100, 100⟩
        (.PMQT_BLACK_EDGE ⟨⟨0, 100⟩, ⟨50, 50⟩, 50, 50⟩ example_edge)
        (.PMQT_BLACK_POINT ⟨⟨50, 100⟩, ⟨100, 50⟩, 50, 50⟩ ⟨90, 90⟩ [example_edge])
        (.PMQT_BLACK_POINT ⟨⟨0, 50⟩, ⟨50, 0⟩, 50, 50⟩ ⟨10, 10⟩ [example_edge])
        (.PMQT_BLACK_EDGE ⟨⟨50, 50⟩, ⟨100, 0⟩, 50, 50⟩ example_edge) ∧
      pmqt_point_in_bounds ⟨50, 75⟩
        (pmqt_node.PMQT_BLACK_EDGE ⟨⟨0, 100⟩, ⟨50, 50⟩, 50, 50⟩ example_edge).bounds = true ∧
      pmqt_point_in_bounds ⟨50, 75⟩
        (pmqt_node.PMQT_BLACK_POINT ⟨⟨50, 100⟩, ⟨100, 50⟩, 50, 50⟩ ⟨90, 90⟩
          [example_edge]).bounds = true) ∧
    (pmqt_build_fl 5 (pmqt_new_fl (fl (-9 / 100)) (fl (-9 / 100)) (fl (192 / 100)) (fl (192 / 100)))
        [⟨⟨fl (15 / 10), fl (15 / 10)⟩, ⟨1, 1⟩⟩]).map
      (fun t => (t.root.is_grey, pmqt_point_in_bounds ⟨fl (192 / 100), 1⟩ t.root.bounds,
        t.root.children.map (fun c => pmqt_point_in_bounds ⟨fl (192 / 100), 1⟩ c.bounds))) =
      some (true, true, [false, false, false, false]) :=
  ⟨⟨example_tree_reachable, rfl, by decide!, by decide!⟩, by decide!⟩

/-- Counterexample to C14 as stated, in three runs in which every call of `pmqt_insert`
returns `PMQT_OK`.  After two insertions of the edge from (40, 75) to (60, 75) the list
of the north-west leaf holds the edge twice, not once.  When the call of `malloc` in
`pmqt_node_add_edge` fails, the insertion of the edge from (10, 10) to (20, 30) into the
tree of the example returns `PMQT_OK` and leaves the tree as it was: the edge hits the
south-west leaf, and the list of that leaf does not hold it.  And in double precision,
in the tree over the square from (-0.09, -0.09) to (1.92, 1.92) after the insertion of
the edges from (1.92, 1.5) to (1.92, 1.9) and from (1, 1) to (1.2, 1.3), the third leaf
is white although the endpoint (1.92, 1.5) of the first edge lies in its bounds. -/
theorem leaf_content_counterexample :
    (built_ok (pmqt_new 0 0 100 100) [twice_edge, twice_edge] twice_tree ∧
      pmqt_node.PMQT_BLACK_POINT ⟨⟨0, 100⟩, ⟨50, 50⟩, 50, 50⟩ ⟨40, 75⟩
        [twice_edge, twice_edge] ∈ twice_tree.root.leaves ∧
      List.count twice_edge [twice_edge, twice_edge] = 2) ∧
    (pmqt_insert_mem 3 [true, true, true, true, true, true, false] (pmqt_new 0 0 100 100)
        example_edge = some (.PMQT_OK, example_tree, [false]) ∧
      pmqt_insert_mem 2 [false] example_tree ⟨⟨10, 10⟩, ⟨20, 30⟩⟩ =
        some (.PMQT_OK, example_tree, []) ∧
      example_tree.root.leaves.get? 2 =
        some (.PMQT_BLACK_POINT ⟨⟨0, 50⟩, ⟨50, 0⟩, 50, 50⟩ ⟨10, 10⟩ [example_edge]) ∧
      edge_hits ⟨⟨10, 10⟩, ⟨20, 30⟩⟩ ⟨⟨0, 50⟩, ⟨50, 0⟩, 50, 50⟩ = true) ∧
    ((pmqt_build_fl 6
        (pmqt_new_fl (fl (-9 / 100)) (fl (-9 / 100)) (fl (192 / 100)) (fl (192 / 100)))
        [⟨⟨fl (192 / 100), fl (15 / 10)⟩, ⟨fl (192 / 100), fl (19 / 10)⟩⟩,
         ⟨⟨1, 1⟩, ⟨fl (12 / 10), fl (13 / 10)⟩⟩]).map
      (fun t => t.root.leaves.get? 2) =
      some (some (.PMQT_WHITE
        ⟨⟨fl (14175 / 10000), fl (192 / 100)⟩, ⟨fl (192 / 100), fl (14175 / 10000)⟩,
          fl (5025 / 10000), fl (5025 / 10000)⟩)) ∧
      pmqt_point_in_bounds ⟨fl (192 / 100), fl (15 / 10)⟩
        ⟨⟨fl (14175 / 10000), fl (192 / 100)⟩, ⟨fl (192 / 100), fl (14175 / 10000)⟩,
          fl (5025 / 10000), fl (5025 / 10000)⟩ = true) :=
  ⟨⟨twice_tree_built, by simp [twice_tree, pmqt_node.leaves], by simp⟩,
    ⟨by decide!, by decide!, by decide!, by decide!⟩, ⟨by decide!, by decide!⟩⟩

/-- Counterexample to C16 as stated: in double precision the overlap test is false for
the edge from (20, 10) to (97, 50) and the north-east quarter of the square from (0, 0)
to (100, 100), in which the endpoint (97, 50) lies.  On the white root `pmqt_insert_edge`
makes the north-east child a black (point) leaf, and the variant that recurses only into
the children that the edge overlaps leaves that child white: the two return different
trees.  And on the north-east child, whose bounds the edge does not overlap,
`pmqt_insert_edge` does not leave the node as it was. -/
theorem insertion_pruning_rounding_counterexample :
    pmqt_insert_edge_fl 3 (pmqt_new_fl 0 0 100 100).root ⟨⟨20, 10⟩, ⟨97, 50⟩⟩ =
      some (.PMQT_OK, slope_tree.root) ∧
    pmqt_insert_edge_pruned_fl 3 (pmqt_new_fl 0 0 100 100).root ⟨⟨20, 10⟩, ⟨97, 50⟩⟩ =
      some (.PMQT_OK, .PMQT_GREY ⟨⟨0, 100⟩, ⟨100, 0⟩, 100, 100⟩
        (.PMQT_WHITE ⟨⟨0, 100⟩, ⟨50, 50⟩, 50, 50⟩)
        (.PMQT_WHITE ⟨⟨50, 100⟩, ⟨100, 50⟩, 50, 50⟩)
        (.PMQT_BLACK_POINT ⟨⟨0, 50⟩, ⟨50, 0⟩, 50, 50⟩ ⟨20, 10⟩ [⟨⟨20, 10⟩, ⟨97, 50⟩⟩])
        (.PMQT_BLACK_POINT ⟨⟨50, 50⟩, ⟨100, 0⟩, 50, 50⟩ ⟨97, 50⟩ [⟨⟨20, 10⟩, ⟨97, 50⟩⟩])) ∧
    slope_tree.root.children.get? 1 =
      some (.PMQT_BLACK_POINT ⟨⟨50, 100⟩, ⟨100, 50⟩, 50, 50⟩ ⟨97, 50⟩
        [⟨⟨20, 10⟩, ⟨97, 50⟩⟩]) ∧
    pmqt_edge_intersect_bounds_fl ⟨⟨20, 10⟩, ⟨97, 50⟩⟩ ⟨⟨50, 100⟩, ⟨100, 50⟩, 50, 50⟩ = false ∧
    pmqt_insert_edge_fl 1 (.PMQT_WHITE ⟨⟨50, 100⟩, ⟨100, 50⟩, 50, 50⟩) ⟨⟨20, 10⟩, ⟨97, 50⟩⟩ =
      some (.PMQT_OK, .PMQT_BLACK_POINT ⟨⟨50, 100⟩, ⟨100, 50⟩, 50, 50⟩ ⟨97, 50⟩
        [⟨⟨20, 10⟩, ⟨97, 50⟩⟩]) := by
  refine ⟨?_, ?_, ?_, ?_, ?_⟩ <;> decide!

set_option maxRecDepth 100000 in
/-- Counterexample to C17 as stated: in double precision the overlap test is false for
the edge from (1, 3) to (99, 97) and the north-west quarter of the square from (0, 0) to
(100, 100), although the point (50, 50) of the edge is a corner of the quarter; and it
is false for the edge from (20, 10) to (97, 50) and the north-east quarter, in whose
bounds the endpoint (97, 50) lies. -/
theorem overlap_test_rounding_counterexample :
    on_segment ⟨50, 50⟩ ⟨⟨1, 3⟩, ⟨99, 97⟩⟩ ∧
    pmqt_point_in_bounds ⟨50, 50⟩ ⟨⟨0, 100⟩, ⟨50, 50⟩, 50, 50⟩ = true ∧
    pmqt_edge_intersect_bounds_fl ⟨⟨1, 3⟩, ⟨99, 97⟩⟩ ⟨⟨0, 100⟩, ⟨50, 50⟩, 50, 50⟩ = false ∧
    pmqt_point_in_bounds ⟨97, 50⟩ ⟨⟨50, 100⟩, ⟨100, 50⟩, 50, 50⟩ = true ∧
    pmqt_edge_intersect_bounds_fl ⟨⟨20, 10⟩, ⟨97, 50⟩⟩ ⟨⟨50, 100⟩, ⟨100, 50⟩, 50, 50⟩ = false := by
  refine ⟨⟨1 / 2, by norm_num, by norm_num, by norm_num, by norm_num⟩, ?_, ?_, ?_, ?_⟩ <;> decide!


/-! ## The bounds of a node over all values of the type `double` -/

/-! ## Rounding keeps the sign -/

theorem fl_pos_nonneg (n d : Nat) : 0 ≤ fl_pos n d := by
  unfold fl_pos
  simp only
  split_ifs
  · exact Nat.cast_nonneg _
  · rw [Rat.mkRat_eq_div]
    exact div_nonneg (by exact_mod_cast Nat.zero_le _) (by exact_mod_cast Nat.zero_le _)

theorem fl_zero : fl 0 = 0 := by
  unfold fl
  simp

theorem fl_nonneg (q : ℚ) (h : 0 ≤ q) : 0 ≤ fl q := by
  unfold fl
  split_ifs with h0 h1
  · exact le_rfl
  · exact fl_pos_nonneg _ _
  · exact absurd (lt_of_le_of_ne h (Ne.symm h0)) h1

theorem fl_neg (q : ℚ) : fl (-q) = - fl q := by
  unfold fl
  by_cases h0 : q = 0
  · simp [h0]
  · have h0n : ¬ -q = 0 := by simpa using h0
    rw [if_neg h0, if_neg h0n, Rat.neg_num, Rat.neg_den, Int.natAbs_neg]
    rcases lt_or_gt_of_ne h0 with h | h
    · rw [if_pos (by linarith : 0 < -q), if_neg (by linarith : ¬ 0 < q)]
      simp
    · rw [if_neg (by linarith : ¬ 0 < -q), if_pos h]

theorem dbl_round_neg (q : ℚ) : dbl_round (-q) = dbl_neg (dbl_round q) := by
  unfold dbl_round
  rw [fl_neg, abs_neg]
  split_ifs with h
  · have hq : q ≠ 0 := by
      rintro rfl
      rw [fl_zero, abs_zero] at h
      exact absurd h (by norm_num)
    rcases lt_or_gt_of_ne hq with h1 | h1
    · simp [dbl_neg, h1, not_lt.mpr h1.le]
    · simp [dbl_neg, h1, not_lt.mpr h1.le]
  · rfl

theorem dbl_round_nonneg (q : ℚ) (h : 0 ≤ q) : dbl_le (.fin 0) (dbl_round q) = true := by
  unfold dbl_round
  split_ifs
  · simp [dbl_le, not_lt.mpr h]
  · simp [dbl_le, fl_nonneg q h]

theorem dbl_fabs_round (q : ℚ) (h : q ≤ 0) : dbl_fabs (dbl_round q) = dbl_round (-q) := by
  have h1 : dbl_round q = dbl_neg (dbl_round (-q)) := by
    rw [← dbl_round_neg, neg_neg]
  rw [h1]
  have h2 := dbl_round_nonneg (-q) (by linarith)
  cases hr : dbl_round (-q) with
  | nan => rw [hr] at h2; simp [dbl_le] at h2
  | inf s =>
    rw [hr] at h2
    cases s
    · rfl
    · simp [dbl_le] at h2
  | fin v =>
    rw [hr] at h2
    simp only [dbl_le, decide_eq_true_eq] at h2
    simp [dbl_neg, dbl_fabs, abs_of_nonneg h2]

/-- One axis of `pmqt_node_new_with_bounds`: the lower corner coordinate `fmin` and the
upper one `fmax` of the two arguments, when both come out finite. -/
theorem new_bounds_axis (a b : pmqt_double) (p q : ℚ)
    (hlo : dbl_fmin a (dbl_fmin b (.inf false)) = .fin p)
    (hhi : dbl_fmax a (dbl_fmax b (.inf true)) = .fin q) : p ≤ q := by
  rcases a with _ | s | u <;> rcases b with _ | t | v
  all_goals first
    | (cases s <;> cases t <;> simp [dbl_fmin, dbl_fmax] at hlo hhi)
    | (cases s <;> simp [dbl_fmin, dbl_fmax] at hlo hhi)
    | (cases t <;> simp [dbl_fmin, dbl_fmax] at hlo hhi)
    | (simp [dbl_fmin, dbl_fmax] at hlo hhi)
  all_goals rw [← hlo, ← hhi]
  all_goals first
    | exact le_rfl
    | exact min_le_max

theorem dbl_sub_fin (p q : ℚ) : dbl_sub (.fin p) (.fin q) = dbl_round (p - q) := by
  simp only [dbl_sub, dbl_neg, dbl_add, sub_eq_add_neg]

theorem dbl_fabs_round_nonneg (q : ℚ) (h : 0 ≤ q) : dbl_fabs (dbl_round q) = dbl_round q := by
  have h2 := dbl_fabs_round (-q) (by linarith)
  rw [neg_neg] at h2
  rw [← h2, dbl_round_neg]
  have h3 := dbl_round_nonneg q h
  cases hr : dbl_round q with
  | nan => rw [hr] at h3; simp [dbl_le] at h3
  | inf s =>
    rw [hr] at h3
    cases s
    · rfl
    · simp [dbl_le] at h3
  | fin v =>
    rw [hr] at h3
    simp only [dbl_le, decide_eq_true_eq] at h3
    simp [dbl_neg, dbl_fabs, abs_of_nonneg h3]

/-- Bounds that `pmqt_node_new_with_bounds` computes are well formed as soon as their
corners are finite, whatever the arguments. -/
theorem new_with_bounds_d_wf (min_x min_y max_x max_y : pmqt_double)
    (hf : (pmqt_node_new_with_bounds_d min_x min_y max_x max_y).finite) :
    (pmqt_node_new_with_bounds_d min_x min_y max_x max_y).well_formed := by
  obtain ⟨p1, q1, p2, q2, hnw, hse⟩ := hf
  have e1 : dbl_fmin min_x (dbl_fmin max_x (.inf false)) = .fin p1 :=
    congrArg pmqt_point_d.x hnw
  have e2 : dbl_fmax min_y (dbl_fmax max_y (.inf true)) = .fin q1 :=
    congrArg pmqt_point_d.y hnw
  have e3 : dbl_fmax min_x (dbl_fmax max_x (.inf true)) = .fin p2 :=
    congrArg pmqt_point_d.x hse
  have e4 : dbl_fmin min_y (dbl_fmin max_y (.inf false)) = .fin q2 :=
    congrArg pmqt_point_d.y hse
  have hx : p1 ≤ p2 := new_bounds_axis min_x max_x p1 p2 e1 e3
  have hy : q2 ≤ q1 := new_bounds_axis min_y max_y q2 q1 e4 e2
  have hw : (pmqt_node_new_with_bounds_d min_x min_y max_x max_y).width =
      dbl_round (p2 - p1) := by
    show dbl_fabs (dbl_sub (dbl_fmin min_x (dbl_fmin max_x (.inf false)))
      (dbl_fmax min_x (dbl_fmax max_x (.inf true)))) = _
    rw [e1, e3, dbl_sub_fin, dbl_fabs_round _ (by linarith), neg_sub]
  have hh : (pmqt_node_new_with_bounds_d min_x min_y max_x max_y).height =
      dbl_round (q1 - q2) := by
    show dbl_fabs (dbl_sub (dbl_fmax min_y (dbl_fmax max_y (.inf true)))
      (dbl_fmin min_y (dbl_fmin max_y (.inf false)))) = _
    rw [e2, e4, dbl_sub_fin, dbl_fabs_round_nonneg _ (by linarith)]
  unfold pmqt_bounds_d.well_formed
  rw [hw, hh, hnw, hse]
  refine ⟨by simpa [dbl_le] using hx, by simpa [dbl_le] using hy, (dbl_sub_fin _ _).symm,
    (dbl_sub_fin _ _).symm, dbl_round_nonneg _ (by linarith), dbl_round_nonneg _ (by linarith)⟩

/-- C18 (rectangle well-formedness, as amended).  Over the values of the type
`double`: for all finite arguments, in any order, the bounds of the root of a new tree
have the corners (min x, max y) and (max x, min y); and all bounds that `pmqt_new` or
`pmqt_split_node` compute, whatever the arguments, are well formed as soon as their
four corner coordinates are finite: the corners are ordered, and the cached width and
height are the `double` differences of the corners and are not negative. -/
theorem rectangle_well_formed_double :
    (∀ min_x min_y max_x max_y : ℚ,
      (pmqt_node_new_with_bounds_d (.fin min_x) (.fin min_y) (.fin max_x) (.fin max_y)).nw =
        ⟨.fin (min min_x max_x), .fin (max min_y max_y)⟩ ∧
      (pmqt_node_new_with_bounds_d (.fin min_x) (.fin min_y) (.fin max_x) (.fin max_y)).se =
        ⟨.fin (max min_x max_x), .fin (min min_y max_y)⟩ ∧
      (pmqt_node_new_with_bounds_d (.fin min_x) (.fin min_y) (.fin max_x)
        (.fin max_y)).well_formed) ∧
    (∀ min_x min_y max_x max_y : pmqt_double,
      (pmqt_node_new_with_bounds_d min_x min_y max_x max_y).finite →
      (pmqt_node_new_with_bounds_d min_x min_y max_x max_y).well_formed) ∧
    (∀ b : pmqt_bounds_d, ∀ c ∈ pmqt_split_children_d b, c.finite → c.well_formed) := by
  refine ⟨?_, new_with_bounds_d_wf, ?_⟩
  · intro min_x min_y max_x max_y
    have hnw : (pmqt_node_new_with_bounds_d (.fin min_x) (.fin min_y) (.fin max_x)
        (.fin max_y)).nw = ⟨.fin (min min_x max_x), .fin (max min_y max_y)⟩ := rfl
    have hse : (pmqt_node_new_with_bounds_d (.fin min_x) (.fin min_y) (.fin max_x)
        (.fin max_y)).se = ⟨.fin (max min_x max_x), .fin (min min_y max_y)⟩ := rfl
    exact ⟨hnw, hse, new_with_bounds_d_wf _ _ _ _ ⟨_, _, _, _, hnw, hse⟩⟩
  · intro b c hc hf
    simp only [pmqt_split_children_d, List.mem_cons, List.mem_singleton, List.not_mem_nil,
      or_false] at hc
    rcases hc with rfl | rfl | rfl | rfl <;> exact new_with_bounds_d_wf _ _ _ _ hf

/-- Witness of C18 (as amended): the bounds of a tree made with the corners given in the
other order, and the bounds of the north-east child of the square from (0, 0) to
(100, 100), whose corners are finite. -/
theorem rectangle_well_formed_double_witness :
    ((pmqt_node_new_with_bounds_d (.fin 100) (.fin 100) (.fin 0) (.fin 0)).nw =
        ⟨.fin (min 100 0), .fin (max 100 0)⟩ ∧
      (pmqt_node_new_with_bounds_d (.fin 100) (.fin 100) (.fin 0) (.fin 0)).se =
        ⟨.fin (max 100 0), .fin (min 100 0)⟩ ∧
      (pmqt_node_new_with_bounds_d (.fin 100) (.fin 100) (.fin 0) (.fin 0)).well_formed) ∧
    (⟨⟨.fin 50, .fin 100⟩, ⟨.fin 100, .fin 50⟩, .fin 50, .fin 50⟩ ∈
        pmqt_split_children_d ⟨⟨.fin 0, .fin 100⟩, ⟨.fin 100, .fin 0⟩, .fin 100, .fin 100⟩ ∧
      pmqt_bounds_d.finite ⟨⟨.fin 50, .fin 100⟩, ⟨.fin 100, .fin 50⟩, .fin 50, .fin 50⟩ ∧
      pmqt_bounds_d.well_formed ⟨⟨.fin 50, .fin 100⟩, ⟨.fin 100, .fin 50⟩, .fin 50, .fin 50⟩) :=
  ⟨rectangle_well_formed_double.1 100 100 0 0,
    by decide!, ⟨50, 100, 100, 50, rfl, rfl⟩,
    rectangle_well_formed_double.2.2
      ⟨⟨.fin 0, .fin 100⟩, ⟨.fin 100, .fin 0⟩, .fin 100, .fin 100⟩
      ⟨⟨.fin 50, .fin 100⟩, ⟨.fin 100, .fin 50⟩, .fin 50, .fin 50⟩
      (by decide!) ⟨50, 100, 100, 50, rfl, rfl⟩⟩

/-- Counterexample to C18 as stated.  With NaN for both x arguments `pmqt_new` leaves
the corners of the root at their initial values: the west side is at plus infinity and
the east side at minus infinity, so `nw.x <= se.x` is false.  And with the finite
arguments -1e308 and 1e308 for x the width of the root overflows to infinity, and the
north-east and south-east children that `pmqt_split_node` makes have a width that is
NaN. -/
theorem rectangle_nan_counterexample :
    pmqt_node_new_with_bounds_d .nan (.fin 0) .nan (.fin 1) =
      ⟨⟨.inf false, .fin 1⟩, ⟨.inf true, .fin 0⟩, .inf false, .fin 1⟩ ∧
    dbl_le (pmqt_node_new_with_bounds_d .nan (.fin 0) .nan (.fin 1)).nw.x
      (pmqt_node_new_with_bounds_d .nan (.fin 0) .nan (.fin 1)).se.x = false ∧
    (pmqt_split_children_d (pmqt_node_new_with_bounds_d (dbl_round (-(10 ^ 308))) (.fin 0)
      (dbl_round (10 ^ 308)) (.fin 1))).map pmqt_bounds_d.width =
      [.inf false, .nan, .inf false, .nan] := by
  refine ⟨?_, ?_, ?_⟩ <;> decide!

/-! ## Crossing edges in double precision -/

theorem returns_ok_fl_spec (F : Nat) (n : pmqt_node) (e : pmqt_edge)
    (h : returns_ok_fl F n e = true) :
    ∃ n1, pmqt_insert_edge_fl F n e = some (.PMQT_OK, n1) := by
  unfold returns_ok_fl at h
  cases hi : pmqt_insert_edge_fl F n e with
  | none => rw [hi] at h; exact absurd h (by simp)
  | some x =>
    obtain ⟨r, n1⟩ := x
    rw [hi] at h
    simp only [decide_eq_true_eq] at h
    exact ⟨n1, by rw [h]⟩

/-- What `pmqt_insert_edge` returns in double precision with one fuel it returns with
every fuel with which it returns. -/
theorem insert_edge_fl_or_none (F f : Nat) (n : pmqt_node) (e : pmqt_edge)
    (x : pmqt_err × pmqt_node) (h : pmqt_insert_edge_fl F n e = some x) :
    pmqt_insert_edge_fl f n e = none ∨ pmqt_insert_edge_fl f n e = some x := by
  cases hf : pmqt_insert_edge_fl f n e with
  | none => exact Or.inl rfl
  | some y =>
    right
    have h1 := insert_edge_fuel_mono_fl F (max F f) (le_max_left _ _) n e x h
    have h2 := insert_edge_fuel_mono_fl f (max F f) (le_max_right _ _) n e y hf
    rw [h1] at h2
    exact h2.symm

theorem split_node_fl_or_none (F f : Nat) (n : pmqt_node)
    (x : pmqt_err × pmqt_node) (h : pmqt_split_node_fl F n = some x) :
    pmqt_split_node_fl f n = none ∨ pmqt_split_node_fl f n = some x := by
  cases hf : pmqt_split_node_fl f n with
  | none => exact Or.inl rfl
  | some y =>
    right
    have h1 := split_node_fuel_mono_fl F (max F f) (le_max_left _ _) n x h
    have h2 := split_node_fuel_mono_fl f (max F f) (le_max_right _ _) n y hf
    rw [h1] at h2
    exact h2.symm

/-- A call on a grey node whose child returns `PMQT_OK` goes on with the next child,
unless the fuel runs out. -/
theorem bind_returns_ok (F f : Nat) (c : pmqt_node) (e : pmqt_edge)
    (h : returns_ok_fl F c e = true) (g k : pmqt_err × pmqt_node → Option (pmqt_err × pmqt_node))
    (hk : ∀ c1, k (.PMQT_OK, c1) = none) :
    (pmqt_insert_edge_fl f c e).bind
      (fun x => if x.1 ≠ .PMQT_OK then g x else k x) = none := by
  obtain ⟨c1, hc1⟩ := returns_ok_fl_spec F c e h
  rcases insert_edge_fl_or_none F f c e _ hc1 with h0 | h0
  · rw [h0]; rfl
  · rw [h0, Option.some_bind]
    simp only [ne_eq, not_true_eq_false, if_false]
    exact hk c1

/-- The split of a node on the path, followed by the insertion into the node that
the split leaves. -/
theorem bind_split_diverges (F f : Nat) (e : pmqt_edge) (n : pmqt_node) (P : pmqt_node → Bool)
    (hs : (match pmqt_split_node_fl F n with
      | some (_, g) => P g
      | none => false) = true)
    (hP : ∀ g, P g = true → pmqt_insert_edge_fl f g e = none) :
    (pmqt_split_node_fl f n).bind (fun x => pmqt_insert_edge_fl f x.2 e) = none := by
  cases hsF : pmqt_split_node_fl F n with
  | none => rw [hsF] at hs; exact absurd hs (by simp)
  | some x =>
    obtain ⟨r, g⟩ := x
    rw [hsF] at hs
    rcases split_node_fl_or_none F f n _ hsF with h0 | h0
    · rw [h0]; rfl
    · rw [h0, Option.some_bind]
      exact hP g hs

/-- A path along which the insertion goes to `target` is a path of calls none of which
returns before the call on `target` does: if that call returns with no fuel up to `f`
less the length of the path, the call on the first node does not return with the fuel `f`. -/
theorem diverges_along_sound (F : Nat) (e : pmqt_edge) (target : pmqt_node) :
    ∀ (path : List Nat) (n : pmqt_node) (f : Nat),
      diverges_along F e target path n = true →
      (∀ f1, f1 + path.length ≤ f → pmqt_insert_edge_fl f1 target e = none) →
      pmqt_insert_edge_fl f n e = none := by
  intro path
  induction path with
  | nil =>
    intro n f h H
    rw [diverges_along, decide_eq_true_eq] at h
    rw [h]
    exact H f (by simp)
  | cons i path ih =>
    intro n f h H
    cases f with
    | zero => exact insert_edge_zero_fl n e
    | succ f1 =>
      have H1 : ∀ f2, f2 + path.length ≤ f1 → pmqt_insert_edge_fl f2 target e = none :=
        fun f2 h2 => H f2 (by rw [List.length_cons]; omega)
      cases n with
      | PMQT_GREY b nw ne sw se =>
        rw [insert_edge_grey_fl]
        match i, h with
        | 0, h =>
          rw [diverges_along] at h
          rw [ih nw f1 h H1]
          rfl
        | 1, h =>
          rw [diverges_along, Bool.and_eq_true] at h
          refine bind_returns_ok F f1 nw e h.1 _ _ (fun c1 => ?_)
          rw [ih ne f1 h.2 H1]
          rfl
        | 2, h =>
          rw [diverges_along] at h
          simp only [Bool.and_eq_true] at h
          refine bind_returns_ok F f1 nw e h.1.1 _ _ (fun c1 => ?_)
          refine bind_returns_ok F f1 ne e h.1.2 _ _ (fun c2 => ?_)
          rw [ih sw f1 h.2 H1]
          rfl
        | k + 3, h =>
          rw [diverges_along] at h
          any_goals omega
          simp only [Bool.and_eq_true] at h
          refine bind_returns_ok F f1 nw e h.1.1.1 _ _ (fun c1 => ?_)
          refine bind_returns_ok F f1 ne e h.1.1.2 _ _ (fun c2 => ?_)
          refine bind_returns_ok F f1 sw e h.1.2 _ _ (fun c3 => ?_)
          rw [ih se f1 h.2 H1]
          rfl
      | PMQT_WHITE b =>
        rw [diverges_along] at h
        simp only [Bool.and_eq_true] at h
        rw [insert_edge_white_fl, if_pos h.1]
        exact bind_split_diverges F f1 e _ _ h.2 (fun g hg => ih g f1 hg H1)
      | PMQT_BLACK_POINT b p es =>
        rw [diverges_along] at h
        simp only [Bool.and_eq_true, Bool.not_eq_true', decide_eq_false_iff_not] at h
        rw [insert_edge_black_point_fl, if_neg (by rw [h.1.1.1]; simp), if_pos h.1.1.2,
          if_neg h.1.2]
        exact bind_split_diverges F f1 e _ _ h.2 (fun g hg => ih g f1 hg H1)
      | PMQT_BLACK_EDGE b e0 =>
        rw [diverges_along] at h
        simp only [Bool.and_eq_true, Bool.not_eq_true', decide_eq_false_iff_not] at h
        rw [insert_edge_black_edge_fl, if_pos h.1.1, if_neg h.1.2]
        exact bind_split_diverges F f1 e _ _ h.2 (fun g hg => ih g f1 hg H1)

/-- A path that leads from a node back to the node itself: the call on the node does
not return, whatever the fuel. -/
theorem diverges_cycle (F : Nat) (e : pmqt_edge) (target : pmqt_node) (path : List Nat)
    (hp : path ≠ []) (h : diverges_along F e target path target = true) :
    ∀ f, pmqt_insert_edge_fl f target e = none := by
  intro f
  induction f using Nat.strong_induction_on with
  | _ f ih =>
    refine diverges_along_sound F e target path target f h (fun f1 h1 => ih f1 ?_)
    have : 0 < path.length := List.length_pos.mpr hp
    omega

set_option maxRecDepth 1000000 in
theorem crossing_path_diverges :
    diverges_along 4 crossing_edge crossing_fixpoint crossing_path example_tree.root = true := by
  decide!

set_option maxRecDepth 1000000 in
theorem crossing_fixpoint_cycle :
    diverges_along 4 crossing_edge crossing_fixpoint [0, 0] crossing_fixpoint = true := by
  decide!

/-- In double precision the insertion of the second diagonal into the tree of the
example does not return, whatever the fuel. -/
theorem crossing_diverges_fl :
    pmqt_insert_fl 3 (pmqt_new_fl 0 0 100 100) example_edge = some (.PMQT_OK, example_tree) ∧
    ∀ fuel : Nat, pmqt_insert_fl fuel example_tree crossing_edge = none := by
  refine ⟨by decide!, fun fuel => ?_⟩
  have h := diverges_along_sound 4 crossing_edge crossing_fixpoint crossing_path
    example_tree.root fuel crossing_path_diverges
    (fun f1 _ => diverges_cycle 4 crossing_edge crossing_fixpoint [0, 0] (by simp)
      crossing_fixpoint_cycle f1)
  unfold pmqt_insert_fl
  rw [h]
  have ha : pmqt_point_in_bounds crossing_edge.a example_tree.root.bounds = true := by decide!
  have hb : pmqt_point_in_bounds crossing_edge.b example_tree.root.bounds = true := by decide!
  simp [ha, hb]

/-- C12 (the code at the failing input).  The two diagonals of the square from (0, 0)
to (100, 100), cut to the edges from (10, 10) to (90, 90) and from (10, 90) to (90, 10),
cross in the point (50, 50), which is interior to both.  After the insertion of the
first, which returns `PMQT_OK` and leaves the tree of the example, the insertion of the
second returns nothing, whatever the fuel: the call does not end, and does not return
`PMQT_ERR_INTRSCT`.  So it is in exact arithmetic, where no bounds ever become
degenerate, and so it is in double precision, where the insertion arrives at a black
(edge) node whose north-west child has the bounds of the node itself. -/
theorem crossing_example_diverges :
    (pmqt_insert 3 (pmqt_new 0 0 100 100) example_edge = some (.PMQT_OK, example_tree) ∧
      ∀ fuel : Nat, pmqt_insert fuel example_tree ⟨⟨10, 90⟩, ⟨90, 10⟩⟩ = none) ∧
    (pmqt_insert_fl 3 (pmqt_new_fl 0 0 100 100) example_edge =
        some (.PMQT_OK, example_tree) ∧
      ∀ fuel : Nat, pmqt_insert_fl fuel example_tree ⟨⟨10, 90⟩, ⟨90, 10⟩⟩ = none) :=
  ⟨crossing_diverges_example, crossing_diverges_fl⟩

end Pmqt
